import Mathlib

/-!
# Percolation clustering engines (`Code/clusters_modified.h`, `Code/clusters.h`, `Code/matrix.h`)

A shallow embedding of the disjoint-set operations, the Xorshift64* Bernoulli
draw and `iterate` of `clusters_modified.h`, of `init_cluster`, of the seed and
draw functions of `prng.h`, of the generation and the deferred diagonal pass of
`iterate` in `clusters.h` (names starting with `clusters_h.`), and of
`cell_common`, `matrix_init` and `matrix_generate` of `matrix.h` with its
disjoint-set operations on packed cells (names starting with `matrix_h.`).

Conventions of the embedding.

* C arrays are total functions `Nat → Nat`; a store is `Function.update`.
* `uint32_t` label and index arithmetic is reduced modulo `2^32`, `uint64_t`
  generator and counter arithmetic modulo `2^64`.
* Every `while` / `do … while` loop of the source takes a `fuel` argument that
  bounds the number of times its condition (or body) is evaluated; running
  out of fuel is `none`.  `for` loops with a fixed trip count are folds over
  `List.range`.
* The model covers a cluster whose six buffers are allocated, which is how
  `init_cluster` leaves it when it returns 0.
-/

namespace Percolation

/-! ## Definitions -/

def CLUSTER_WHITE : Nat := 0
def CLUSTER_BLACK : Nat := 1
def CLUSTER_NONE : Nat := 255

/-- Reduction of a value to `uint32_t`. -/
def u32 (x : Nat) : Nat := x % 2 ^ 32

/-- Reduction of a value to `uint64_t`. -/
def u64 (x : Nat) : Nat := x % 2 ^ 64

/-- The `uint32_t` difference `a - b`. -/
def sub32 (a b : Nat) : Nat := (a + (2 ^ 32 - b % 2 ^ 32)) % 2 ^ 32

/-- The `cluster` structure: generator state, sizes, counters, limits and the six buffers. -/
structure cluster where
  rng : Nat
  rows : Nat
  cols : Nat
  iterations : Nat
  white_spans : Nat
  black_spans : Nat
  p_black : Nat
  d_black : Nat
  d_white : Nat
  map : Nat → Nat
  djs : Nat → Nat
  white_roots : Nat → Nat
  black_roots : Nat → Nat
  white_histogram : Nat → Nat
  black_histogram : Nat → Nat

/-- The three shift-and-xor steps of one Xorshift64* round on a 64-bit state. -/
def xorshift_round (state : Nat) : Nat :=
  let s1 := state ^^^ (state >>> 12)
  let s2 := s1 ^^^ u64 (s1 <<< 25)
  s2 ^^^ (s2 >>> 27)

/-- The draw `probability(rng, limit)`: the result is the new generator state and
the colour returned.  `fuel` bounds the executions of the `do … while (!value)` body. -/
def probability : Nat → Nat → Nat → Option (Nat × Nat)
  | 0, _, _ => none
  | fuel + 1, state, limit =>
    let state1 := xorshift_round state
    let value := u64 (state1 * 2685821657736338717)
    if value = 0 then probability fuel state1 limit
    else some (state1, if value ≤ limit then CLUSTER_BLACK else CLUSTER_WHITE)

/-- Disjoint set: find root.  `fuel` bounds the evaluations of the loop condition. -/
def djs_root : Nat → (Nat → Nat) → Nat → Option Nat
  | 0, _, _ => none
  | fuel + 1, djs, from0 =>
    if from0 ≠ djs from0 then djs_root fuel djs (djs from0) else some from0

/-- Disjoint set: path compression. -/
def djs_path : Nat → (Nat → Nat) → Nat → Nat → Option (Nat → Nat)
  | 0, _, _, _ => none
  | fuel + 1, djs, from0, root =>
    if from0 ≠ root then
      let temp := djs from0
      djs_path fuel (Function.update djs from0 root) temp root
    else some djs

/-- Disjoint set: flatten.  Returns the root and the array with the path to it flattened. -/
def djs_flatten (fuel : Nat) (djs : Nat → Nat) (from0 : Nat) : Option (Nat × (Nat → Nat)) := do
  let root ← djs_root fuel djs from0
  let djs1 ← djs_path fuel djs from0 root
  pure (root, djs1)

/-- Disjoint set: join two subsets.  The comparison assigns to `temp`, as in the
source (`if (root > temp) temp = root;`), so `root` stays the root of `from1`. -/
def djs_join2 (fuel : Nat) (djs : Nat → Nat) (from1 from2 : Nat) : Option (Nat → Nat) := do
  let root ← djs_root fuel djs from1
  let temp ← djs_root fuel djs from2
  let rt : Nat × Nat := if root > temp then (root, root) else (root, temp)
  let djs1 ← djs_path fuel djs from1 rt.1
  djs_path fuel djs1 from2 rt.1

/-- Disjoint set: join three subsets. -/
def djs_join3 (fuel : Nat) (djs : Nat → Nat) (from1 from2 from3 : Nat) : Option (Nat → Nat) := do
  let root ← djs_root fuel djs from1
  let temp ← djs_root fuel djs from2
  let root := if root > temp then temp else root
  let temp ← djs_root fuel djs from3
  let root := if root > temp then temp else root
  let djs1 ← djs_path fuel djs from1 root
  let djs2 ← djs_path fuel djs1 from2 root
  djs_path fuel djs2 from3 root

/-- Disjoint set: join four subsets. -/
def djs_join4 (fuel : Nat) (djs : Nat → Nat) (from1 from2 from3 from4 : Nat) :
    Option (Nat → Nat) := do
  let root ← djs_root fuel djs from1
  let temp ← djs_root fuel djs from2
  let root := if root > temp then temp else root
  let temp ← djs_root fuel djs from3
  let root := if root > temp then temp else root
  let temp ← djs_root fuel djs from4
  let root := if root > temp then temp else root
  let djs1 ← djs_path fuel djs from1 root
  let djs2 ← djs_path fuel djs1 from2 root
  let djs3 ← djs_path fuel djs2 from3 root
  djs_path fuel djs3 from4 root

/-- Disjoint set: join five subsets. -/
def djs_join5 (fuel : Nat) (djs : Nat → Nat) (from1 from2 from3 from4 from5 : Nat) :
    Option (Nat → Nat) := do
  let root ← djs_root fuel djs from1
  let temp ← djs_root fuel djs from2
  let root := if root > temp then temp else root
  let temp ← djs_root fuel djs from3
  let root := if root > temp then temp else root
  let temp ← djs_root fuel djs from4
  let root := if root > temp then temp else root
  let temp ← djs_root fuel djs from5
  let root := if root > temp then temp else root
  let djs1 ← djs_path fuel djs from1 root
  let djs2 ← djs_path fuel djs1 from2 root
  let djs3 ← djs_path fuel djs2 from3 root
  let djs4 ← djs_path fuel djs3 from4 root
  djs_path fuel djs4 from5 root

/-- Offset of `map = cl->map + cl->cols + 2` inside the padded colour map. -/
def map_base (cols : Nat) : Nat := cols + 2

/-- Offset of `curr_row = map + r * map_stride` inside the padded colour map. -/
def curr_row_of (cols r : Nat) : Nat := map_base cols + u32 (r * u32 (cols + 1))

/-- A diagonal test `prev_row[..] == color && probability(rng, diag)`, short-circuited:
the generator is advanced only when the colours are equal.  The result is the
new generator state and the truth value of the conjunction. -/
def diag_test (fuel state diag : Nat) (same : Bool) : Option (Nat × Bool) :=
  if same then (probability fuel state diag).map (fun p => (p.1, p.2 != 0))
  else some (state, false)

/-- The `switch (joins)` of `iterate`. -/
def join_switch (fuel : Nat) (djs : Nat → Nat) (cols label joins : Nat) : Option (Nat → Nat) :=
  let left := sub32 label 1
  let up := sub32 label cols
  let upleft := sub32 (sub32 label cols) 1
  let upright := u32 (sub32 label cols + 1)
  match joins with
  | 1 => djs_join2 fuel djs label left
  | 2 => djs_join2 fuel djs label up
  | 3 => djs_join3 fuel djs label left up
  | 4 => djs_join2 fuel djs label upleft
  | 5 => djs_join3 fuel djs label left upleft
  | 6 => djs_join3 fuel djs label up upleft
  | 7 => djs_join4 fuel djs label left up upleft
  | 8 => djs_join2 fuel djs label upright
  | 9 => djs_join3 fuel djs label left upright
  | 10 => djs_join3 fuel djs label up upright
  | 11 => djs_join4 fuel djs label left up upright
  | 12 => djs_join3 fuel djs label upleft upright
  | 13 => djs_join4 fuel djs label left upleft upright
  | 14 => djs_join4 fuel djs label up upleft upright
  | 15 => djs_join5 fuel djs label left up upleft upright
  | _ => some djs

/-- Value of a C truth value shifted into a bit of `joins`. -/
def bit_of (b : Bool) (k : Nat) : Nat := (if b then 1 else 0) <<< k

/-- The body of the inner generation loop of `iterate` for the cell in row `r`, column `c`. -/
def iterate_cell (fuel r c : Nat) (cl : cluster) : Option cluster := do
  let cols := cl.cols
  let curr_i := u32 (r * cols)
  let curr_row := curr_row_of cols r
  let prev_row := curr_row - u32 (cols + 1)
  let (s1, color) ← probability fuel cl.rng cl.p_black
  let label := u32 (curr_i + c)
  let diag := if color = CLUSTER_BLACK then cl.d_black else cl.d_white
  let djs := Function.update cl.djs label label
  let map := Function.update cl.map (curr_row + c) color
  let j0 := bit_of (map (curr_row + c - 1) == color) 0
  let j1 := bit_of (map (prev_row + c) == color) 1
  let (s2, b2) ← diag_test fuel s1 diag (map (prev_row + c - 1) == color)
  let (s3, b3) ← diag_test fuel s2 diag (map (prev_row + c + 1) == color)
  let joins := j0 ||| j1 ||| bit_of b2 2 ||| bit_of b3 3
  let djs1 ← join_switch fuel djs cols label joins
  pure { cl with rng := s3, map := map, djs := djs1 }

/-- The generation loop nest of `iterate`: rows outermost, columns innermost. -/
def iterate_generate (fuel : Nat) (cl : cluster) : Option cluster :=
  (List.range cl.rows).foldlM
    (fun cl1 r => (List.range cl.cols).foldlM (fun cl2 c => iterate_cell fuel r c cl2) cl1) cl

/-- The assignment `memset(roots, 0, labels * sizeof (cluster_label))`. -/
def memset_zero (labels : Nat) (a : Nat → Nat) : Nat → Nat :=
  fun i => if i < labels then 0 else a i

/-- The body of the counting loop, `roots[curr_row[c]][djs_flatten(djs, curr_i + c)]++`.
A colour other than white or black would index outside the two-element array
`roots`; the model has no result there. -/
def count_cell (fuel r c : Nat) (cl : cluster) : Option cluster := do
  let cols := cl.cols
  let curr_row := curr_row_of cols r
  let curr_i := u32 (r * cols)
  let color := cl.map (curr_row + c)
  let (root, djs1) ← djs_flatten fuel cl.djs (u32 (curr_i + c))
  if color = CLUSTER_WHITE then
    pure { cl with djs := djs1,
                   white_roots := Function.update cl.white_roots root (u32 (cl.white_roots root + 1)) }
  else if color = CLUSTER_BLACK then
    pure { cl with djs := djs1,
                   black_roots := Function.update cl.black_roots root (u32 (cl.black_roots root + 1)) }
  else none

/-- Count the occurrences of each disjoint-set root label (both `roots` arrays allocated). -/
def iterate_count (fuel : Nat) (cl : cluster) : Option cluster :=
  let labels := u32 (u32 (cl.rows * cl.cols) + 2)
  let cl0 := { cl with white_roots := memset_zero labels cl.white_roots,
                       black_roots := memset_zero labels cl.black_roots }
  (List.range cl.rows).foldlM
    (fun cl1 r => (List.range cl.cols).foldlM (fun cl2 c => count_cell fuel r c cl2) cl1) cl0

/-- The loop `i = n; while (i-->0) histogram[root_count[i]]++;`. -/
def histogram_collect (n : Nat) (root_count histogram : Nat → Nat) : Nat → Nat :=
  (List.range n).reverse.foldl
    (fun h i => Function.update h (root_count i) (u64 (h (root_count i) + 1))) histogram

/-- Collect the statistics, then zero bins `0` and `rows*cols+1` of both histograms. -/
def iterate_histogram (cl : cluster) : cluster :=
  let i := u32 (u32 (cl.rows * cl.cols) + 1)
  let wh := histogram_collect i cl.white_roots cl.white_histogram
  let bh := histogram_collect i cl.black_roots cl.black_histogram
  let n := u32 (u32 (cl.rows * cl.cols) + 1)
  { cl with white_histogram := Function.update (Function.update wh 0 0) n 0,
            black_histogram := Function.update (Function.update bh 0 0) n 0 }

/-- The comparison function handed to `qsort`. -/
def compare_cluster_label (val1 val2 : Nat) : Int :=
  if val1 < val2 then -1 else if val1 > val2 then 1 else 0

/-- The C library call `qsort(set, n, sizeof set[0], compare_cluster_label)` on the
contents of a range: the rearrangement that is ascending for the comparison. -/
def qsort (set : List Nat) : List Nat :=
  set.insertionSort (fun a b => decide (compare_cluster_label a b ≤ 0))

/-- The merge scan of `have_same_labels` over the two sorted ranges.  `fuel` bounds
the evaluations of the outer loop condition; the inner loops advance one range
past every element below the head of the other. -/
def same_labels_scan : Nat → List Nat → List Nat → Option Bool
  | 0, _, _ => none
  | fuel + 1, a :: as, b :: bs =>
    if a < b then same_labels_scan fuel ((a :: as).dropWhile (fun x => decide (x < b))) (b :: bs)
    else if b < a then
      same_labels_scan fuel (a :: as) ((b :: bs).dropWhile (fun x => decide (x < a)))
    else some true
  | _ + 1, _, _ => some false

/-- Return nonzero if the two ranges contain any same elements.  The ranges are
given by their contents; the result also carries the contents the ranges have
afterwards (`qsort` works in place). -/
def have_same_labels (fuel : Nat) (set1 set2 : List Nat) : Option (Bool × List Nat × List Nat) :=
  if set1.length = 0 ∨ set2.length = 0 then some (false, set1, set2)
  else
    let s1 := if 1 < set1.length then qsort set1 else set1
    let s2 := if 1 < set2.length then qsort set2 else set2
    (same_labels_scan fuel s1 s2).map (fun b => (b, s1, s2))

/-- Contents of a buffer after the range starting at its first element was filled with `l`. -/
def write_range (a : Nat → Nat) (l : List Nat) : Nat → Nat :=
  fun i => (l.get? i).getD (a i)

/-- The boundary lists of the first loop of a spanning check: roots of the cells of
colour `color` in the first column (`set1`) and in the last column (`set2`). -/
def span_lists_rows (cl : cluster) (color : Nat) : List Nat × List Nat :=
  (List.range cl.rows).foldl
    (fun (acc : List Nat × List Nat) r =>
      let m := map_base cl.cols
      let e1 := if cl.map (m + u32 (r * u32 (cl.cols + 1))) = color
        then acc.1 ++ [cl.djs (u32 (r * cl.cols))] else acc.1
      let e2 := if cl.map (m + sub32 (u32 (u32 (r * u32 (cl.cols + 1)) + cl.cols)) 1) = color
        then acc.2 ++ [cl.djs (sub32 (u32 (u32 (r * cl.cols) + cl.cols)) 1)] else acc.2
      (e1, e2)) ([], [])

/-- The boundary lists of the second loop of a spanning check: roots of the cells of
colour `color` in the first row (`set1`) and in the last row (`set2`). -/
def span_lists_cols (cl : cluster) (color : Nat) : List Nat × List Nat :=
  (List.range cl.cols).foldl
    (fun (acc : List Nat × List Nat) c =>
      let m := map_base cl.cols
      let map_lastrow := m + u32 (sub32 cl.rows 1 * u32 (cl.cols + 1))
      let djs_lastrow := u32 (sub32 cl.rows 1 * cl.cols)
      let e1 := if cl.map (m + c) = color then acc.1 ++ [cl.djs c] else acc.1
      let e2 := if cl.map (map_lastrow + c) = color
        then acc.2 ++ [cl.djs (djs_lastrow + c)] else acc.2
      (e1, e2)) ([], [])

/-- One spanning check of `iterate` for the colour `color`.  The two `roots` arrays
serve as the scratch ranges `set1` and `set2`.  The result is whether the
colour's counter is incremented, and the two scratch arrays afterwards. -/
def span_check (fuel : Nat) (cl : cluster) (color : Nat) :
    Option (Bool × (Nat → Nat) × (Nat → Nat)) := do
  let rows_lists := span_lists_rows cl color
  let (found, s1, s2) ← have_same_labels fuel rows_lists.1 rows_lists.2
  let set1 := write_range (write_range cl.white_roots rows_lists.1) s1
  let set2 := write_range (write_range cl.black_roots rows_lists.2) s2
  if found then pure (true, set1, set2)
  else
    let cols_lists := span_lists_cols cl color
    let (found2, t1, t2) ← have_same_labels fuel cols_lists.1 cols_lists.2
    pure (found2, write_range (write_range set1 cols_lists.1) t1,
      write_range (write_range set2 cols_lists.2) t2)

/-- Check if a white cluster, then if a black cluster, spans the matrix. -/
def iterate_spans (fuel : Nat) (cl : cluster) : Option cluster := do
  let (w, wr1, br1) ← span_check fuel cl CLUSTER_WHITE
  let cl1 := { cl with white_roots := wr1, black_roots := br1,
                       white_spans := if w then u64 (cl.white_spans + 1) else cl.white_spans }
  let (b, wr2, br2) ← span_check fuel cl1 CLUSTER_BLACK
  pure { cl1 with white_roots := wr2, black_roots := br2,
                  black_spans := if b then u64 (cl1.black_spans + 1) else cl1.black_spans }

/-- The function `iterate` of `clusters_modified.h`: generate one matrix, flatten and
count the roots, collect the histograms, run the spanning checks, and count
the iteration. -/
def iterate (fuel : Nat) (cl : cluster) : Option cluster := do
  let cl1 ← iterate_generate fuel cl
  let cl2 ← iterate_count fuel cl1
  let cl3 := iterate_histogram cl2
  let cl4 ← iterate_spans fuel cl3
  pure { cl4 with iterations := u64 (cl4.iterations + 1) }

/-! ### The draw of `prng.h`, probability limits and `init_cluster`

`init_cluster` is modelled with the six buffers as pointers, so that the states it
leaves on its error returns can be told apart; `int` arguments are integers, and
the success of each `calloc` call is an input. -/

/-- The draw `prng_probability(rng, limit)` of `prng.h`: the same loop as `probability`,
returning the truth value of `value <= limit`. -/
def prng_probability : Nat → Nat → Nat → Option (Nat × Nat)
  | 0, _, _ => none
  | fuel + 1, state, limit =>
    let state1 := xorshift_round state
    let value := u64 (state1 * 2685821657736338717)
    if value = 0 then prng_probability fuel state1 limit
    else some (state1, if value ≤ limit then 1 else 0)

/-- The limit `probability_limit(p)` for a finite `double` `p`, given as the rational it
denotes.  The literal `18446744073709551615.0` is the `double` `2^64`, so the
product with it is exact, as is `1.0 - p` for `p` between one half and one; the
conversion to `uint64_t` truncates. -/
def probability_limit (p : ℚ) : Nat :=
  if p ≤ 0 then 0
  else if p ≤ 1 / 2 then (Rat.floor (p * 2 ^ 64)).toNat
  else if p ≥ 1 then 18446744073709551615
  else 18446744073709551615 - (Rat.floor ((1 - p) * 2 ^ 64)).toNat

def ERR_INVALID : Int := -1
def ERR_TOOLARGE : Int := -2
def ERR_NOMEM : Int := -3

/-- A buffer pointer of the `cluster` structure: `NULL`, an allocated buffer with its
contents, or a pointer to a buffer that was passed to `free`. -/
inductive pointer where
  | null : pointer
  | live : (Nat → Nat) → pointer
  | freed : pointer

/-- The `cluster` structure as `init_cluster` sees it, with the six buffers as pointers. -/
structure cluster_obj where
  rng : Nat
  rows : Nat
  cols : Nat
  iterations : Nat
  white_spans : Nat
  black_spans : Nat
  p_black : Nat
  d_black : Nat
  d_white : Nat
  map : pointer
  djs : pointer
  white_roots : pointer
  black_roots : pointer
  white_histogram : pointer
  black_histogram : pointer

/-- The initializer `CLUSTER_INITIALIZER`: every field zero, every pointer `NULL`. -/
def CLUSTER_INITIALIZER : cluster_obj :=
  { rng := 0, rows := 0, cols := 0, iterations := 0, white_spans := 0, black_spans := 0,
    p_black := 0, d_black := 0, d_white := 0, map := pointer.null, djs := pointer.null,
    white_roots := pointer.null, black_roots := pointer.null,
    white_histogram := pointer.null, black_histogram := pointer.null }

/-- Conversion of an `int` to `cluster_label` or `unsigned int` (both 32 bits wide). -/
def to_label (x : Int) : Nat := (x % 2 ^ 32).toNat

/-- The local `color_cells` of `init_cluster`: the padded cell count in `cluster_label`
arithmetic.  The sums `rows + 2` and `cols + 1` are taken modulo `2^32`. -/
def color_cells_of (rows cols : Int) : Nat := u32 (to_label (rows + 2) * to_label (cols + 1))

/-- The local `label_cells` of `init_cluster`. -/
def label_cells_of (rows cols : Int) : Nat := u32 (to_label rows * to_label cols)

/-- The local `labels` of `init_cluster`, `label_cells + 2`. -/
def labels_of (rows cols : Int) : Nat := u32 (label_cells_of rows cols + 2)

/-- The size test of `init_cluster` that leads to `ERR_TOOLARGE`. -/
def size_too_large (rows cols : Int) : Bool :=
  let label_cols := to_label cols
  let label_rows := to_label rows
  let color_rows := to_label (rows + 2)
  let color_cols := to_label (cols + 1)
  let color_cells := color_cells_of rows cols
  let label_cells := label_cells_of rows cols
  decide (color_rows ≤ to_label rows) || decide (color_cols ≤ to_label cols) ||
    u32 (color_cells / color_rows) != color_cols ||
    u32 (color_cells / color_cols) != color_rows ||
    u32 (label_cells / label_rows) != label_cols ||
    u32 (label_cells / label_cols) != label_rows

/-- The pointer `calloc` returns: a zero-filled buffer, or `NULL` when it fails. -/
def calloc_result (ok : Bool) : pointer :=
  if ok then pointer.live (fun _ => 0) else pointer.null

/-- Whether a pointer is `NULL`. -/
def pointer.is_null : pointer → Bool
  | pointer.null => true
  | _ => false

/-- The pointer after `free(ptr)`: `free(NULL)` does nothing, any other pointer dangles. -/
def pointer.free : pointer → pointer
  | pointer.null => pointer.null
  | _ => pointer.freed

/-- The loop of `init_cluster` that sets the first `n` entries of the colour map to
`CLUSTER_NONE`. -/
def pointer.fill_none (n : Nat) : pointer → pointer
  | pointer.live a => pointer.live (fun i => if i < n then CLUSTER_NONE else a i)
  | p => p

/-- The function `init_cluster`.  `calloc k` tells whether the `k`-th of the six calls of
`calloc` succeeds; the argument `c` is `none` for a `NULL` cluster pointer.  The
result is the return value and the cluster structure afterwards. -/
def init_cluster (calloc : Nat → Bool) (c : Option cluster_obj) (rows cols : Int)
    (p_black d_white d_black : ℚ) : Int × Option cluster_obj :=
  match c with
  | none => (ERR_INVALID, none)
  | some _ =>
    let c0 := CLUSTER_INITIALIZER
    if rows < 1 ∨ cols < 1 then (ERR_INVALID, some c0)
    else if size_too_large rows cols then (ERR_TOOLARGE, some c0)
    else
      let c1 := { c0 with black_histogram := calloc_result (calloc 0),
                          white_histogram := calloc_result (calloc 1),
                          black_roots := calloc_result (calloc 2),
                          white_roots := calloc_result (calloc 3),
                          djs := calloc_result (calloc 4),
                          map := calloc_result (calloc 5) }
      if c1.map.is_null || c1.djs.is_null || c1.white_roots.is_null || c1.black_roots.is_null ||
          c1.white_histogram.is_null || c1.black_histogram.is_null then
        (ERR_NOMEM, some { c1 with map := c1.map.free, djs := c1.djs.free,
                                   white_roots := c1.white_roots.free,
                                   black_roots := c1.black_roots.free,
                                   white_histogram := c1.white_histogram.free,
                                   black_histogram := c1.black_histogram.free })
      else
        (0, some { c1 with rows := to_label rows, cols := to_label cols,
                           p_black := probability_limit p_black,
                           d_white := probability_limit d_white,
                           d_black := probability_limit d_black,
                           map := c1.map.fill_none (color_cells_of rows cols) })

/-- Contents of an allocated buffer. -/
def pointer.data : pointer → Option (Nat → Nat)
  | pointer.live a => some a
  | _ => none

/-- The cluster with allocated buffers that `iterate` works on, with the generator
state set to `seed`; `none` if a buffer is not allocated. -/
def cluster_obj.seeded (o : cluster_obj) (seed : Nat) : Option cluster := do
  let map ← o.map.data
  let djs ← o.djs.data
  let white_roots ← o.white_roots.data
  let black_roots ← o.black_roots.data
  let white_histogram ← o.white_histogram.data
  let black_histogram ← o.black_histogram.data
  pure { rng := seed, rows := o.rows, cols := o.cols, iterations := o.iterations,
         white_spans := o.white_spans, black_spans := o.black_spans, p_black := o.p_black,
         d_black := o.d_black, d_white := o.d_white, map := map, djs := djs,
         white_roots := white_roots, black_roots := black_roots,
         white_histogram := white_histogram, black_histogram := black_histogram }

/-! ### Bounds-checked execution

The functions below repeat `iterate` and the functions it calls with every array
access guarded: an access to element `i` of a buffer of `size` elements has no
result unless `i < size`, and a pointer or index difference has no result when
it would be negative.  The sizes are those `init_cluster` allocates:
`(rows + 2) * (cols + 1)` colours, `rows * cols` parent entries and
`rows * cols + 2` entries in each of the `roots` and histogram arrays. -/

/-- An access to element `i` of a buffer of `size` elements. -/
def in_bounds (size i : Nat) : Option Unit := if i < size then some () else none

/-- The index `a - b`, which must not be negative. -/
def index_sub (a b : Nat) : Option Nat := if b ≤ a then some (a - b) else none

/-- Number of elements of the colour map. -/
def map_size (cl : cluster) : Nat := (cl.rows + 2) * (cl.cols + 1)

/-- Number of elements of the parent array `djs`. -/
def djs_size (cl : cluster) : Nat := cl.rows * cl.cols

/-- Number of elements of each `roots` array and of each histogram. -/
def labels_size (cl : cluster) : Nat := cl.rows * cl.cols + 2

/-- Bounds-checked `djs_root` on a parent array of `n` elements. -/
def djs_root_chk (n : Nat) : Nat → (Nat → Nat) → Nat → Option Nat
  | 0, _, _ => none
  | fuel + 1, djs, from0 =>
    (in_bounds n from0).bind (fun _ =>
      if from0 ≠ djs from0 then djs_root_chk n fuel djs (djs from0) else some from0)

/-- Bounds-checked `djs_path` on a parent array of `n` elements. -/
def djs_path_chk (n : Nat) : Nat → (Nat → Nat) → Nat → Nat → Option (Nat → Nat)
  | 0, _, _, _ => none
  | fuel + 1, djs, from0, root =>
    if from0 ≠ root then
      (in_bounds n from0).bind (fun _ =>
        let temp := djs from0
        djs_path_chk n fuel (Function.update djs from0 root) temp root)
    else some djs

/-- Bounds-checked `djs_flatten`. -/
def djs_flatten_chk (n fuel : Nat) (djs : Nat → Nat) (from0 : Nat) :
    Option (Nat × (Nat → Nat)) := do
  let root ← djs_root_chk n fuel djs from0
  let djs1 ← djs_path_chk n fuel djs from0 root
  pure (root, djs1)

/-- Bounds-checked `djs_join2`. -/
def djs_join2_chk (n fuel : Nat) (djs : Nat → Nat) (from1 from2 : Nat) : Option (Nat → Nat) := do
  let root ← djs_root_chk n fuel djs from1
  let temp ← djs_root_chk n fuel djs from2
  let rt : Nat × Nat := if root > temp then (root, root) else (root, temp)
  let djs1 ← djs_path_chk n fuel djs from1 rt.1
  djs_path_chk n fuel djs1 from2 rt.1

/-- Bounds-checked `djs_join3`. -/
def djs_join3_chk (n fuel : Nat) (djs : Nat → Nat) (from1 from2 from3 : Nat) :
    Option (Nat → Nat) := do
  let root ← djs_root_chk n fuel djs from1
  let temp ← djs_root_chk n fuel djs from2
  let root := if root > temp then temp else root
  let temp ← djs_root_chk n fuel djs from3
  let root := if root > temp then temp else root
  let djs1 ← djs_path_chk n fuel djs from1 root
  let djs2 ← djs_path_chk n fuel djs1 from2 root
  djs_path_chk n fuel djs2 from3 root

/-- Bounds-checked `djs_join4`. -/
def djs_join4_chk (n fuel : Nat) (djs : Nat → Nat) (from1 from2 from3 from4 : Nat) :
    Option (Nat → Nat) := do
  let root ← djs_root_chk n fuel djs from1
  let temp ← djs_root_chk n fuel djs from2
  let root := if root > temp then temp else root
  let temp ← djs_root_chk n fuel djs from3
  let root := if root > temp then temp else root
  let temp ← djs_root_chk n fuel djs from4
  let root := if root > temp then temp else root
  let djs1 ← djs_path_chk n fuel djs from1 root
  let djs2 ← djs_path_chk n fuel djs1 from2 root
  let djs3 ← djs_path_chk n fuel djs2 from3 root
  djs_path_chk n fuel djs3 from4 root

/-- Bounds-checked `djs_join5`. -/
def djs_join5_chk (n fuel : Nat) (djs : Nat → Nat) (from1 from2 from3 from4 from5 : Nat) :
    Option (Nat → Nat) := do
  let root ← djs_root_chk n fuel djs from1
  let temp ← djs_root_chk n fuel djs from2
  let root := if root > temp then temp else root
  let temp ← djs_root_chk n fuel djs from3
  let root := if root > temp then temp else root
  let temp ← djs_root_chk n fuel djs from4
  let root := if root > temp then temp else root
  let temp ← djs_root_chk n fuel djs from5
  let root := if root > temp then temp else root
  let djs1 ← djs_path_chk n fuel djs from1 root
  let djs2 ← djs_path_chk n fuel djs1 from2 root
  let djs3 ← djs_path_chk n fuel djs2 from3 root
  let djs4 ← djs_path_chk n fuel djs3 from4 root
  djs_path_chk n fuel djs4 from5 root

/-- Every label of the list is smaller than `label`. -/
def earlier (label : Nat) (neighbours : List Nat) : Option Unit :=
  if neighbours.all (fun l => decide (l < label)) then some () else none

/-- The `switch (joins)` of `iterate`, bounds-checked, and with the additional check
that every neighbour label handed to a join is smaller than the current label. -/
def join_switch_chk (n fuel : Nat) (djs : Nat → Nat) (cols label joins : Nat) :
    Option (Nat → Nat) :=
  let left := sub32 label 1
  let up := sub32 label cols
  let upleft := sub32 (sub32 label cols) 1
  let upright := u32 (sub32 label cols + 1)
  match joins with
  | 1 => (earlier label [left]).bind (fun _ => djs_join2_chk n fuel djs label left)
  | 2 => (earlier label [up]).bind (fun _ => djs_join2_chk n fuel djs label up)
  | 3 => (earlier label [left, up]).bind (fun _ => djs_join3_chk n fuel djs label left up)
  | 4 => (earlier label [upleft]).bind (fun _ => djs_join2_chk n fuel djs label upleft)
  | 5 => (earlier label [left, upleft]).bind (fun _ =>
      djs_join3_chk n fuel djs label left upleft)
  | 6 => (earlier label [up, upleft]).bind (fun _ => djs_join3_chk n fuel djs label up upleft)
  | 7 => (earlier label [left, up, upleft]).bind (fun _ =>
      djs_join4_chk n fuel djs label left up upleft)
  | 8 => (earlier label [upright]).bind (fun _ => djs_join2_chk n fuel djs label upright)
  | 9 => (earlier label [left, upright]).bind (fun _ =>
      djs_join3_chk n fuel djs label left upright)
  | 10 => (earlier label [up, upright]).bind (fun _ =>
      djs_join3_chk n fuel djs label up upright)
  | 11 => (earlier label [left, up, upright]).bind (fun _ =>
      djs_join4_chk n fuel djs label left up upright)
  | 12 => (earlier label [upleft, upright]).bind (fun _ =>
      djs_join3_chk n fuel djs label upleft upright)
  | 13 => (earlier label [left, upleft, upright]).bind (fun _ =>
      djs_join4_chk n fuel djs label left upleft upright)
  | 14 => (earlier label [up, upleft, upright]).bind (fun _ =>
      djs_join4_chk n fuel djs label up upleft upright)
  | 15 => (earlier label [left, up, upleft, upright]).bind (fun _ =>
      djs_join5_chk n fuel djs label left up upleft upright)
  | _ => some djs

/-- The body of the inner generation loop of `iterate`, bounds-checked. -/
def iterate_cell_chk (fuel r c : Nat) (cl : cluster) : Option cluster := do
  let cols := cl.cols
  let curr_i := u32 (r * cols)
  let curr_row := curr_row_of cols r
  let prev_row ← index_sub curr_row (u32 (cols + 1))
  let (s1, color) ← probability fuel cl.rng cl.p_black
  let label := u32 (curr_i + c)
  let diag := if color = CLUSTER_BLACK then cl.d_black else cl.d_white
  in_bounds (djs_size cl) label
  let djs := Function.update cl.djs label label
  in_bounds (map_size cl) (curr_row + c)
  let map := Function.update cl.map (curr_row + c) color
  let left ← index_sub (curr_row + c) 1
  in_bounds (map_size cl) left
  let j0 := bit_of (map left == color) 0
  in_bounds (map_size cl) (prev_row + c)
  let j1 := bit_of (map (prev_row + c) == color) 1
  let upleft ← index_sub (prev_row + c) 1
  in_bounds (map_size cl) upleft
  let (s2, b2) ← diag_test fuel s1 diag (map upleft == color)
  in_bounds (map_size cl) (prev_row + c + 1)
  let (s3, b3) ← diag_test fuel s2 diag (map (prev_row + c + 1) == color)
  let joins := j0 ||| j1 ||| bit_of b2 2 ||| bit_of b3 3
  let djs1 ← join_switch_chk (djs_size cl) fuel djs cols label joins
  pure { cl with rng := s3, map := map, djs := djs1 }

/-- The generation loop nest of `iterate`, bounds-checked. -/
def iterate_generate_chk (fuel : Nat) (cl : cluster) : Option cluster :=
  (List.range cl.rows).foldlM
    (fun cl1 r => (List.range cl.cols).foldlM (fun cl2 c => iterate_cell_chk fuel r c cl2) cl1) cl

/-- The body of the counting loop, bounds-checked. -/
def count_cell_chk (fuel r c : Nat) (cl : cluster) : Option cluster := do
  let cols := cl.cols
  let curr_row := curr_row_of cols r
  let curr_i := u32 (r * cols)
  in_bounds (map_size cl) (curr_row + c)
  let color := cl.map (curr_row + c)
  let (root, djs1) ← djs_flatten_chk (djs_size cl) fuel cl.djs (u32 (curr_i + c))
  in_bounds (labels_size cl) root
  if color = CLUSTER_WHITE then
    pure { cl with djs := djs1,
                   white_roots := Function.update cl.white_roots root (u32 (cl.white_roots root + 1)) }
  else if color = CLUSTER_BLACK then
    pure { cl with djs := djs1,
                   black_roots := Function.update cl.black_roots root (u32 (cl.black_roots root + 1)) }
  else none

/-- The counting stage of `iterate`, bounds-checked: the two `memset` calls must stay
inside the `roots` arrays. -/
def iterate_count_chk (fuel : Nat) (cl : cluster) : Option cluster := do
  let labels := u32 (u32 (cl.rows * cl.cols) + 2)
  in_bounds (labels_size cl + 1) labels
  let cl0 := { cl with white_roots := memset_zero labels cl.white_roots,
                       black_roots := memset_zero labels cl.black_roots }
  (List.range cl.rows).foldlM
    (fun cl1 r => (List.range cl.cols).foldlM (fun cl2 c => count_cell_chk fuel r c cl2) cl1) cl0

/-- The loop `i = n; while (i-->0) histogram[root_count[i]]++;`, bounds-checked on two
arrays of `size` elements. -/
def histogram_collect_chk (size n : Nat) (root_count histogram : Nat → Nat) :
    Option (Nat → Nat) :=
  (List.range n).reverse.foldlM
    (fun h i => (in_bounds size i).bind (fun _ => (in_bounds size (root_count i)).bind (fun _ =>
      some (Function.update h (root_count i) (u64 (h (root_count i) + 1)))))) histogram

/-- The histogram stage of `iterate`, bounds-checked. -/
def iterate_histogram_chk (cl : cluster) : Option cluster := do
  let i := u32 (u32 (cl.rows * cl.cols) + 1)
  let wh ← histogram_collect_chk (labels_size cl) i cl.white_roots cl.white_histogram
  let bh ← histogram_collect_chk (labels_size cl) i cl.black_roots cl.black_histogram
  let n := u32 (u32 (cl.rows * cl.cols) + 1)
  in_bounds (labels_size cl) 0
  in_bounds (labels_size cl) n
  pure { cl with white_histogram := Function.update (Function.update wh 0 0) n 0,
                 black_histogram := Function.update (Function.update bh 0 0) n 0 }

/-- The first loop of a spanning check, bounds-checked: the colour-map and `djs` reads
and the writes `*(end1++)`, `*(end2++)` into the two `roots` arrays. -/
def span_lists_rows_chk (cl : cluster) (color : Nat) : Option (List Nat × List Nat) :=
  (List.range cl.rows).foldlM
    (fun (acc : List Nat × List Nat) r => do
      let m := map_base cl.cols
      let i1 := m + u32 (r * u32 (cl.cols + 1))
      in_bounds (map_size cl) i1
      let e1 ← if cl.map i1 = color then do
          in_bounds (djs_size cl) (u32 (r * cl.cols))
          in_bounds (labels_size cl) acc.1.length
          pure (acc.1 ++ [cl.djs (u32 (r * cl.cols))])
        else pure acc.1
      let i2 := m + sub32 (u32 (u32 (r * u32 (cl.cols + 1)) + cl.cols)) 1
      in_bounds (map_size cl) i2
      let e2 ← if cl.map i2 = color then do
          in_bounds (djs_size cl) (sub32 (u32 (u32 (r * cl.cols) + cl.cols)) 1)
          in_bounds (labels_size cl) acc.2.length
          pure (acc.2 ++ [cl.djs (sub32 (u32 (u32 (r * cl.cols) + cl.cols)) 1)])
        else pure acc.2
      pure (e1, e2)) ([], [])

/-- The second loop of a spanning check, bounds-checked. -/
def span_lists_cols_chk (cl : cluster) (color : Nat) : Option (List Nat × List Nat) :=
  (List.range cl.cols).foldlM
    (fun (acc : List Nat × List Nat) c => do
      let m := map_base cl.cols
      let map_lastrow := m + u32 (sub32 cl.rows 1 * u32 (cl.cols + 1))
      let djs_lastrow := u32 (sub32 cl.rows 1 * cl.cols)
      in_bounds (map_size cl) (m + c)
      let e1 ← if cl.map (m + c) = color then do
          in_bounds (djs_size cl) c
          in_bounds (labels_size cl) acc.1.length
          pure (acc.1 ++ [cl.djs c])
        else pure acc.1
      in_bounds (map_size cl) (map_lastrow + c)
      let e2 ← if cl.map (map_lastrow + c) = color then do
          in_bounds (djs_size cl) (djs_lastrow + c)
          in_bounds (labels_size cl) acc.2.length
          pure (acc.2 ++ [cl.djs (djs_lastrow + c)])
        else pure acc.2
      pure (e1, e2)) ([], [])

/-- One spanning check of `iterate`, bounds-checked.  `have_same_labels` works on the
two ranges just written and dereferences a pointer only after comparing it with
the end of its range. -/
def span_check_chk (fuel : Nat) (cl : cluster) (color : Nat) :
    Option (Bool × (Nat → Nat) × (Nat → Nat)) := do
  let rows_lists ← span_lists_rows_chk cl color
  let (found, s1, s2) ← have_same_labels fuel rows_lists.1 rows_lists.2
  let set1 := write_range (write_range cl.white_roots rows_lists.1) s1
  let set2 := write_range (write_range cl.black_roots rows_lists.2) s2
  if found then pure (true, set1, set2)
  else
    let cols_lists ← span_lists_cols_chk cl color
    let (found2, t1, t2) ← have_same_labels fuel cols_lists.1 cols_lists.2
    pure (found2, write_range (write_range set1 cols_lists.1) t1,
      write_range (write_range set2 cols_lists.2) t2)

/-- The two spanning checks of `iterate`, bounds-checked. -/
def iterate_spans_chk (fuel : Nat) (cl : cluster) : Option cluster := do
  let (w, wr1, br1) ← span_check_chk fuel cl CLUSTER_WHITE
  let cl1 := { cl with white_roots := wr1, black_roots := br1,
                       white_spans := if w then u64 (cl.white_spans + 1) else cl.white_spans }
  let (b, wr2, br2) ← span_check_chk fuel cl1 CLUSTER_BLACK
  pure { cl1 with white_roots := wr2, black_roots := br2,
                  black_spans := if b then u64 (cl1.black_spans + 1) else cl1.black_spans }

/-- The function `iterate` with every array access bounds-checked. -/
def iterate_chk (fuel : Nat) (cl : cluster) : Option cluster := do
  let cl1 ← iterate_generate_chk fuel cl
  let cl2 ← iterate_count_chk fuel cl1
  let cl3 ← iterate_histogram_chk cl2
  let cl4 ← iterate_spans_chk fuel cl3
  pure { cl4 with iterations := u64 (cl4.iterations + 1) }

/-! ### Seed parsing and the unit draw of `prng.h`, the report loop of `distribution.c`

A C string is given by the characters before its terminating NUL, as character
codes; reading at the end of the list reads the terminator.  A `const char *` is
`none` for `NULL` and otherwise the list of characters from the pointer on. -/

/-- The test `*from == '\t' || *from == '\n' || *from == '\v' || *from == '\f' ||
*from == '\r' || *from == ' '` of `prng_set_seed`. -/
def is_space (ch : Nat) : Bool :=
  ch == 9 || ch == 10 || ch == 11 || ch == 12 || ch == 13 || ch == 32

/-- The test `*from >= '0' && *from <= '9'` of `prng_set_seed`. -/
def is_digit (ch : Nat) : Bool := decide (48 ≤ ch) && decide (ch ≤ 57)

/-- The loop of `prng_set_seed` that skips leading whitespace. -/
def skip_space : List Nat → List Nat
  | [] => []
  | ch :: rest => if is_space ch then skip_space rest else ch :: rest

/-- The loop of `prng_set_seed` that parses the digits after the first one: `state` is
the `uint64_t` value so far.  The result is `none` when the overflow test fires,
and otherwise the final value with the pointer to the first unparsed character. -/
def parse_digits : Nat → List Nat → Option (Nat × List Nat)
  | state, [] => some (state, [])
  | state, ch :: rest =>
    if is_digit ch then
      let oldstate := state
      let state1 := u64 (state * 10 + (ch - 48))
      if u64 (state1 / 10) ≠ oldstate then none else parse_digits state1 rest
    else some (state, ch :: rest)

/-- The function `prng_set_seed(rng, from)`: the result is the pointer returned (`none`
for `NULL`) and the generator state afterwards; `rng` is the state before. -/
def prng_set_seed (rng : Nat) (from0 : Option (List Nat)) : Option (List Nat) × Nat :=
  match from0 with
  | none => (none, rng)
  | some s =>
    if s.headD 0 = 0 then (none, rng)
    else
      match skip_space s with
      | [] => (none, rng)
      | ch :: rest =>
        if ¬ (is_digit ch = true) then (none, rng)
        else
          match parse_digits (ch - 48) rest with
          | none => (none, rng)
          | some (state, rest1) => if state = 0 then (none, rng) else (some rest1, state)

/-- The loop of `prng_unit`: rounds are repeated while the value is zero or above
`9223372036854775809`.  The result is the new state and the value accepted. -/
def prng_unit_value : Nat → Nat → Option (Nat × Nat)
  | 0, _ => none
  | fuel + 1, state =>
    let state1 := xorshift_round state
    let value := u64 (state1 * 2685821657736338717)
    if value = 0 ∨ value > 9223372036854775809 then prng_unit_value fuel state1
    else some (state1, value)

/-- The number of low bits a value below `2^(53 + fuel)` loses when it is held in the
53-bit significand of a `double`: zero below `2^53`, and one more for every further
bit of length. -/
def excess_bits : Nat → Nat → Nat
  | 0, _ => 0
  | fuel + 1, x => if x < 2 ^ 53 then 0 else excess_bits fuel (x / 2) + 1

/-- The conversion `(double)x` of a `uint64_t`, as the integer the double holds: `x`
rounded to 53 significant bits, to the nearest value and to the even significand on a
tie (the IEEE 754 rounding in force by default).  A carry out of the significand gives
the next power of two. -/
def double_of_u64 (x : Nat) : Nat :=
  let e := excess_bits 11 x
  let q := x / 2 ^ e
  let r := x % 2 ^ e
  if 2 ^ e < 2 * r ∨ (2 * r = 2 ^ e ∧ q % 2 = 1) then (q + 1) * 2 ^ e else q * 2 ^ e

/-- The quotient `(double)(value - 1) / 9223372036854775808.0` that `prng_unit` returns,
as the rational the double holds: the subtraction is the `uint64_t` one, the
conversion rounds to 53 bits, and the division by `2^63` of a double that is zero or
at least one is exact. -/
def unit_quotient (value : Nat) : ℚ :=
  ((double_of_u64 (u64 (value + (2 ^ 64 - 1))) : Nat) : ℚ) / 9223372036854775808

/-- Worded from the specification: the quotient `(v - 1) / 2^63` taken as an exact
rational, without the rounding of the conversion to `double`. -/
def exact_quotient (v : Nat) : ℚ :=
  ((v : ℚ) - 1) / 2 ^ 63

/-- The function `prng_unit`: the new state and the quotient returned. -/
def prng_unit (fuel state : Nat) : Option (Nat × ℚ) :=
  (prng_unit_value fuel state).map (fun p => (p.1, unit_quotient p.2))

/-- One pass of the report loop of `distribution.c` for the size `i`, with every bin
read checked against the number `size` of allocated bins: the line printed, if any.
All six bins of the condition are checked, also those that short-circuit
evaluation would skip. -/
def report_line_chk (size : Nat) (wh bh : Nat → Nat) (i : Nat) :
    Option (Option (Nat × Nat × Nat × Nat)) := do
  let im ← index_sub i 1
  in_bounds size im
  in_bounds size i
  in_bounds size (i + 1)
  if wh im ≠ 0 ∨ wh i ≠ 0 ∨ wh (i + 1) ≠ 0 ∨ bh im ≠ 0 ∨ bh i ≠ 0 ∨ bh (i + 1) ≠ 0 then
    pure (some (i, wh i, bh i, u64 (wh i + bh i)))
  else pure none

/-- The report loop `for (i = 1; i <= n; i++)` of `distribution.c` over histograms of
`size` bins: the lines printed, or `none` when a read falls outside the bins. -/
def report_chk (size n : Nat) (wh bh : Nat → Nat) : Option (List (Nat × Nat × Nat × Nat)) :=
  (List.range n).foldlM
    (fun lines j => (report_line_chk size wh bh (j + 1)).map
      (fun line => match line with
        | some l => lines ++ [l]
        | none => lines)) []

/-! ### Generation with an observer

The generation loops of `iterate` with a record appended for every cell: what was
assigned, every call of `probability` with its limit and result, and the value of
`joins` handed to the switch. -/

/-- What is recorded for one cell: the label and colour assigned, the index of the
colour-map entry written (relative to `cl->map`), the generator state before
and after the cell, the calls of `probability` in order (limit passed and colour
returned) and the value of `joins`. -/
structure cell_event where
  label : Nat
  color : Nat
  map_write : Nat
  rng_before : Nat
  trials : List (Nat × Nat)
  joins : Nat
  rng_after : Nat

/-- A diagonal test as in `diag_test`, together with the call of `probability` it made, if any. -/
def diag_test_log (fuel state diag : Nat) (same : Bool) : Option (Nat × Bool × List (Nat × Nat)) :=
  if same then (probability fuel state diag).map (fun p => (p.1, p.2 != 0, [(diag, p.2)]))
  else some (state, false, [])

/-- The body of the inner generation loop as in `iterate_cell`, with the record of the cell
appended to `log`. -/
def iterate_cell_log (fuel r c : Nat) (st : cluster × List cell_event) :
    Option (cluster × List cell_event) := do
  let cl := st.1
  let cols := cl.cols
  let curr_i := u32 (r * cols)
  let curr_row := curr_row_of cols r
  let prev_row := curr_row - u32 (cols + 1)
  let (s1, color) ← probability fuel cl.rng cl.p_black
  let label := u32 (curr_i + c)
  let diag := if color = CLUSTER_BLACK then cl.d_black else cl.d_white
  let djs := Function.update cl.djs label label
  let map := Function.update cl.map (curr_row + c) color
  let j0 := bit_of (map (curr_row + c - 1) == color) 0
  let j1 := bit_of (map (prev_row + c) == color) 1
  let (s2, b2, t2) ← diag_test_log fuel s1 diag (map (prev_row + c - 1) == color)
  let (s3, b3, t3) ← diag_test_log fuel s2 diag (map (prev_row + c + 1) == color)
  let joins := j0 ||| j1 ||| bit_of b2 2 ||| bit_of b3 3
  let djs1 ← join_switch fuel djs cols label joins
  pure ({ cl with rng := s3, map := map, djs := djs1 },
    st.2 ++ [{ label := label, color := color, map_write := curr_row + c, rng_before := cl.rng,
               trials := (cl.p_black, color) :: (t2 ++ t3), joins := joins, rng_after := s3 }])

/-- The generation loop nest as in `iterate_generate`, returning the records of all cells
in the order they were generated. -/
def iterate_generate_log (fuel : Nat) (cl : cluster) : Option (cluster × List cell_event) :=
  (List.range cl.rows).foldlM
    (fun st1 r => (List.range cl.cols).foldlM (fun st2 c => iterate_cell_log fuel r c st2) st1)
    (cl, [])

/-! ### Time-derived seeding and the seed string of `prng.h`

The values returned by `time(NULL)` and `clock()` are parameters; both are
converted to `uint64_t` before use. -/

/-- The initial state `UINT64_C(3069887672279) * (uint64_t)time(NULL) ^
UINT64_C(60498839) * (uint64_t)clock()` of `randomize` and `prng_init`. -/
def time_mix (time clock : Nat) : Nat :=
  u64 (3069887672279 * u64 time) ^^^ u64 (60498839 * u64 clock)

/-- The loop `while (rounds-->0) { state ^= state >> 12; state ^= state << 25;
state ^= state >> 27; }`: `rounds` passes of the three shift-and-xor steps. -/
def churn : Nat → Nat → Nat
  | 0, state => state
  | rounds + 1, state => churn rounds (xorshift_round state)

/-- The function `randomize` of `clusters.h` and of `clusters_modified.h` (the same text in
both): the state it returns, which it also stores in the generator when given one. -/
def randomize (time clock : Nat) : Nat :=
  let rounds := 127
  let state := time_mix time clock
  let state := if state = 0 then 1 else state
  churn rounds state

/-- The function `prng_init` of `prng.h`: the state it stores in the generator. -/
def prng_init (time clock : Nat) : Nat :=
  let churn_rounds := 128
  let state := time_mix time clock
  let state := if state = 0 then 1 else state
  churn churn_rounds state

/-- The loop of `prng_get_seed`, `do { *(--s) = '0' + (state % 10u); state /= 10u; }
while (state);`: `written` holds the characters stored so far, first character first. -/
def prng_get_seed_loop : Nat → Nat → List Nat → Option (List Nat)
  | 0, _, _ => none
  | fuel + 1, state, written =>
    let written1 := (48 + state % 10) :: written
    let state1 := state / 10
    if state1 ≠ 0 then prng_get_seed_loop fuel state1 written1 else some written1

/-- The function `prng_get_seed(rng, to)`: the string it returns, given by its characters
before the terminating NUL, and the number of bytes of the 24-byte
`prng_seed_string` it has written (the characters and the terminator), counted
back from the end of the buffer. -/
def prng_get_seed (fuel rng : Nat) : Option (List Nat × Nat) :=
  (prng_get_seed_loop fuel rng []).map (fun s => (s, s.length + 1))

/-- The limit `prng_set_probability(p)` of `prng.h` for a finite `double` `p`, given as the
rational it denotes; the literal `18446744073709551615.0` is the `double` `2^64`. -/
def prng_set_probability (p : ℚ) : Nat :=
  if p ≤ 0 then 0
  else if p ≤ 1 / 2 then u64 (1 + (Rat.floor (p * 2 ^ 64)).toNat)
  else if p < 1 then 18446744073709551615 - (Rat.floor ((1 - p) * 2 ^ 64)).toNat
  else 18446744073709551615

/-! ### Packed cells, `cell_common` and `matrix_init` of `matrix.h`

A `cell` is a `uint16_t` that packs a cell index and a colour; `size_t` is 64 bits
wide.  A buffer pointer of the `matrix` structure is `none` for `NULL`. -/

/-- Reduction of a value to `uint16_t`, the type `cell`. -/
def u16 (x : Nat) : Nat := x % 2 ^ 16

/-- The macro `CELL_INDEX(v)`, `((cell)(v) >> 1)`. -/
def CELL_INDEX (v : Nat) : Nat := u16 v >>> 1

/-- The macro `CELL_COLOR(v)`, `((cell)(v) & 1)`. -/
def CELL_COLOR (v : Nat) : Nat := u16 v &&& 1

/-- The macro `CELL_VALUE(i, c)`, `(((cell)(i) << 1) | ((cell)(c) & 1))`; the shift is done
in `int`, so the value has up to 17 bits until it is stored in a `cell`. -/
def CELL_VALUE (i c : Nat) : Nat := (u16 i <<< 1) ||| (u16 c &&& 1)

/-- The macro `SAME_COLOR(v1, v2)`, `(!(((cell)(v1) ^ (cell)(v2)) & 1))`. -/
def SAME_COLOR (v1 v2 : Nat) : Bool := ((u16 v1 ^^^ u16 v2) &&& 1) == 0

/-- The comparison function `cell_cmp` handed to `qsort`. -/
def cell_cmp (val1 val2 : Nat) : Int :=
  if val1 < val2 then -1 else if val1 > val2 then 1 else 0

/-- The C library call `qsort(array, count, sizeof (cell), cell_cmp)` on the contents of
an array: the rearrangement that is ascending for the comparison. -/
def cell_qsort (array : List Nat) : List Nat :=
  array.insertionSort (fun a b => decide (cell_cmp a b ≤ 0))

/-- The innermost `while` loop of `cell_common`: while both ranges are non-empty and start
with the same value, that value is appended to `dest` and both ranges are moved
past it.  The ranges are given by the elements from `src1` and `src2` to the ends. -/
def cell_common_run : Nat → List Nat → List Nat → List Nat →
    Option (List Nat × List Nat × List Nat)
  | 0, _, _, _ => none
  | fuel + 1, a :: l1, b :: l2, dest =>
    if a = b then
      cell_common_run fuel (l1.dropWhile (fun x => x == a)) (l2.dropWhile (fun x => x == a))
        (dest ++ [a])
    else some (a :: l1, b :: l2, dest)
  | _ + 1, l1, l2, dest => some (l1, l2, dest)

/-- The outer loop of `cell_common` over the two sorted ranges.  The second inner loop,
`while (src2 < end2 && *src2 < *src1)`, reads `*src1` without testing `src1 < end1`:
when the first inner loop has moved `src1` to `end1` the element read is
`array1[count]`, and `after1` says what that read yields (`none` if the element may
not be read, `some v` if the memory there holds `v`). -/
def cell_common_scan (after1 : Option Nat) : Nat → List Nat → List Nat → List Nat →
    Option (List Nat)
  | 0, _, _, _ => none
  | fuel + 1, a :: l1, b :: l2, dest =>
    let s1 := (a :: l1).dropWhile (fun x => decide (x < b))
    match (match s1 with
      | v :: _ => some v
      | [] => after1) with
    | none => none
    | some v1 =>
      let s2 := (b :: l2).dropWhile (fun x => decide (x < v1))
      (cell_common_run fuel s1 s2 dest).bind
        (fun r => cell_common_scan after1 fuel r.1 r.2.1 r.2.2)
  | _ + 1, _, _, dest => some dest

/-- The function `cell_common(dest, array1, array2, count)`: the value returned, the
contents of `dest[0 .. result)` and the two arrays after sorting. -/
def cell_common (fuel : Nat) (after1 : Option Nat) (array1 array2 : List Nat) :
    Option (Nat × List Nat × List Nat × List Nat) :=
  let sorted1 := cell_qsort array1
  let sorted2 := cell_qsort array2
  (cell_common_scan after1 fuel sorted1 sorted2 []).map
    (fun dest => (dest.length, dest, sorted1, sorted2))

/-- The `matrix` structure. -/
structure matrix where
  rng : Nat
  size : Nat
  map : Option (Nat → Nat)
  nonzero : ℚ
  diagonal : ℚ
  diagonal_nonzero : ℚ
  unique : Nat → Nat
  fill : Nat → Nat
  spans : Nat → Nat
  span : Option (Nat → Nat)
  counts : Option (Nat → Nat)
  djoins : Nat → Nat

/-- The function `matrix_free` on a non-null matrix. -/
def matrix_free (m : matrix) : matrix :=
  { m with size := 0, map := none, span := none, counts := none }

def STATS_SPANNING : Nat := 1
def STATS_CLUSTERS : Nat := 2

/-- The function `matrix_init(m, size, statistics)`: the value returned and the matrix
afterwards.  `m` is `none` for a null pointer, `calloc k` tells whether the `k`-th call
of `calloc` succeeds, and `time`, `clock` are the values `prng_init` obtains. -/
def matrix_init (calloc : Nat → Bool) (time clock : Nat) (m : Option matrix)
    (size statistics : Nat) : Nat × Option matrix :=
  let test := u16 (CELL_VALUE (u64 (size * size)) 0)
  let cells := CELL_INDEX test
  let twice := u64 (u64 (size * size) * 2)
  match m with
  | none => (1, none)
  | some m0 =>
    let m1 := { m0 with size := 0, map := none, span := none, counts := none }
    if size < 2 then (2, some m1)
    else if cells / size ≠ size ∨ twice / size / 2 ≠ size then (3, some m1)
    else if calloc 0 = false then (4, some m1)
    else
      let m2 := { m1 with map := some (fun _ => 0), rng := prng_init time clock,
                          spans := fun _ => 0, size := size, nonzero := 1 / 2,
                          diagonal := 0, diagonal_nonzero := 0 }
      if statistics &&& STATS_SPANNING ≠ 0 ∧ calloc 1 = false then (4, some (matrix_free m2))
      else
        let m3 := if statistics &&& STATS_SPANNING ≠ 0 then { m2 with span := some (fun _ => 0) }
          else m2
        if statistics &&& STATS_CLUSTERS ≠ 0 ∧ calloc 2 = false then
          (4, some (matrix_free m3))
        else
          (0, some (if statistics &&& STATS_CLUSTERS ≠ 0
            then { m3 with counts := some (fun _ => 0) } else m3))

/-! ### The generation and the deferred diagonal pass of `iterate` in `clusters.h`

The functions `probability`, `djs_root`, `djs_path`, `djs_flatten`, `djs_join2`, `djs_join3`
and `djs_join4` of `clusters.h` have the same text as in `clusters_modified.h`, so the
definitions above serve for both headers.  The part of `iterate` modelled here is the one
up to and including the deferred diagonal pass; the counting and the histograms that
follow do not change the labels joined. -/

/-- The `cluster` structure of `clusters.h`. -/
structure clusters_h.cluster where
  rng : Nat
  rows : Nat
  cols : Nat
  iterations : Nat
  p_black : Nat
  p_diag : Nat
  p_diag_black : Nat
  map : Nat → Nat
  djs : Nat → Nat
  white_roots : Nat → Nat
  black_roots : Nat → Nat
  white_histogram : Nat → Nat
  black_histogram : Nat → Nat

/-- The `switch (joins)` of `iterate` in `clusters.h`; case 4 (only the upper left
neighbour has the colour of the cell) does nothing, the join is left to the later pass. -/
def clusters_h.join_switch (fuel : Nat) (djs : Nat → Nat) (cols label joins : Nat) :
    Option (Nat → Nat) :=
  let left := sub32 label 1
  let up := sub32 label cols
  let upleft := sub32 (sub32 label cols) 1
  match joins with
  | 1 => djs_join2 fuel djs label left
  | 2 => djs_join2 fuel djs label up
  | 3 => djs_join3 fuel djs label left up
  | 4 => some djs
  | 5 => djs_join3 fuel djs label left upleft
  | 6 => djs_join3 fuel djs label up upleft
  | 7 => djs_join4 fuel djs label left up upleft
  | _ => some djs

/-- The body of the inner generation loop of `iterate` in `clusters.h` for the cell in
row `r`, column `c`: the bit for the upper left neighbour is set without a draw. -/
def clusters_h.iterate_cell (fuel r c : Nat) (cl : clusters_h.cluster) :
    Option clusters_h.cluster := do
  let cols := cl.cols
  let curr_i := u32 (r * cols)
  let curr_row := curr_row_of cols r
  let prev_row := curr_row - u32 (cols + 1)
  let (s1, color) ← probability fuel cl.rng cl.p_black
  let label := u32 (curr_i + c)
  let djs := Function.update cl.djs label label
  let map := Function.update cl.map (curr_row + c) color
  let j0 := bit_of (map (curr_row + c - 1) == color) 0
  let j1 := bit_of (map (prev_row + c) == color) 1
  let j2 := bit_of (map (prev_row + c - 1) == color) 2
  let joins := j0 ||| j1 ||| j2
  let djs1 ← clusters_h.join_switch fuel djs cols label joins
  pure { cl with rng := s1, map := map, djs := djs1 }

/-- The generation loop nest of `iterate` in `clusters.h`. -/
def clusters_h.iterate_generate (fuel : Nat) (cl : clusters_h.cluster) :
    Option clusters_h.cluster :=
  (List.range cl.rows).foldlM
    (fun cl1 r => (List.range cl.cols).foldlM
      (fun cl2 c => clusters_h.iterate_cell fuel r c cl2) cl1) cl

/-- The loop `i = rows * cols; while (i-->0) djs_flatten(djs, i);`. -/
def clusters_h.flatten_all (fuel : Nat) (cl : clusters_h.cluster) : Option clusters_h.cluster :=
  ((List.range (u32 (cl.rows * cl.cols))).reverse.foldlM
    (fun djs i => (djs_flatten fuel djs (u32 i)).map (fun p => p.2)) cl.djs).map
    (fun djs => { cl with djs := djs })

/-- What is recorded for one 2x2 block visited by the deferred pass; the block is named by
its lower right cell `A` in row `r`, column `c`, with `B` to its left, `C` above it and
`D` above `B`.  Recorded are the four colours, the four parent entries as they are
when the block is visited, the calls of `probability` (limit passed and colour
returned) and the calls of `djs_join2` (the two labels passed). -/
structure clusters_h.block_event where
  r : Nat
  c : Nat
  color_a : Nat
  color_b : Nat
  color_c : Nat
  color_d : Nat
  djs_a : Nat
  djs_b : Nat
  djs_c : Nat
  djs_d : Nat
  trials : List (Nat × Nat)
  joins : List (Nat × Nat)

/-- The body of the inner loop of the deferred pass for the block with lower right cell
in row `r`, column `c`, with the record of the block appended to the log. -/
def clusters_h.diag_block (fuel r c : Nat) (st : clusters_h.cluster × List clusters_h.block_event) :
    Option (clusters_h.cluster × List clusters_h.block_event) :=
  let cl := st.1
  let cols := cl.cols
  let prev_color := curr_row_of cols (r - 1)
  let curr_color := curr_row_of cols r
  let prev_label := u32 ((r - 1) * cols)
  let curr_label := u32 (r * cols)
  let a := u32 (curr_label + c)
  let b := sub32 (u32 (curr_label + c)) 1
  let c1 := u32 (prev_label + c)
  let d := sub32 (u32 (prev_label + c)) 1
  let ev : clusters_h.block_event :=
    { r := r, c := c, color_a := cl.map (curr_color + c), color_b := cl.map (curr_color + c - 1),
      color_c := cl.map (prev_color + c), color_d := cl.map (prev_color + c - 1),
      djs_a := cl.djs a, djs_b := cl.djs b, djs_c := cl.djs c1, djs_d := cl.djs d,
      trials := [], joins := [] }
  if cl.map (curr_color + c) = cl.map (prev_color + c - 1) ∧
      cl.map (curr_color + c) ≠ cl.map (prev_color + c) ∧
      cl.map (curr_color + c - 1) = cl.map (prev_color + c) then
    if cl.djs a ≠ cl.djs d ∧ cl.djs b ≠ cl.djs c1 then
      (probability fuel cl.rng cl.p_diag_black).bind (fun p =>
        if cl.map (curr_color + c) &&& 1 = p.2 then
          (djs_join2 fuel cl.djs a d).map (fun djs1 =>
            ({ cl with rng := p.1, djs := djs1 },
              st.2 ++ [{ ev with trials := [(cl.p_diag_black, p.2)], joins := [(a, d)] }]))
        else
          (djs_join2 fuel cl.djs b c1).map (fun djs1 =>
            ({ cl with rng := p.1, djs := djs1 },
              st.2 ++ [{ ev with trials := [(cl.p_diag_black, p.2)], joins := [(b, c1)] }])))
    else if cl.djs a ≠ cl.djs d then
      (probability fuel cl.rng cl.p_diag_black).bind (fun p =>
        if cl.map (curr_color + c) &&& 1 = p.2 then
          (djs_join2 fuel cl.djs a d).map (fun djs1 =>
            ({ cl with rng := p.1, djs := djs1 },
              st.2 ++ [{ ev with trials := [(cl.p_diag_black, p.2)], joins := [(a, d)] }]))
        else
          some ({ cl with rng := p.1 },
            st.2 ++ [{ ev with trials := [(cl.p_diag_black, p.2)] }]))
    else if cl.djs b ≠ cl.djs c1 then
      (probability fuel cl.rng cl.p_diag_black).bind (fun p =>
        if cl.map (curr_color + c - 1) &&& 1 = p.2 then
          (djs_join2 fuel cl.djs b c1).map (fun djs1 =>
            ({ cl with rng := p.1, djs := djs1 },
              st.2 ++ [{ ev with trials := [(cl.p_diag_black, p.2)], joins := [(b, c1)] }]))
        else
          some ({ cl with rng := p.1 },
            st.2 ++ [{ ev with trials := [(cl.p_diag_black, p.2)] }]))
    else some (cl, st.2 ++ [ev])
  else some (cl, st.2 ++ [ev])

/-- The deferred pass of `iterate` in `clusters.h` (`if (p_diag > 0) { … }`): all labels are
flattened, then every 2x2 block is visited, rows outermost, both loops starting at 1. -/
def clusters_h.iterate_diagonals (fuel : Nat) (cl : clusters_h.cluster) :
    Option (clusters_h.cluster × List clusters_h.block_event) :=
  if cl.p_diag > 0 then
    (clusters_h.flatten_all fuel cl).bind (fun cl1 =>
      (List.range (cl1.rows - 1)).foldlM
        (fun st1 r => (List.range (cl1.cols - 1)).foldlM
          (fun st2 c => clusters_h.diag_block fuel (r + 1) (c + 1) st2) st1)
        (cl1, []))
  else some (cl, [])

/-- The function `iterate` of `clusters.h` up to the end of the deferred diagonal pass. -/
def clusters_h.iterate_joins (fuel : Nat) (cl : clusters_h.cluster) :
    Option (clusters_h.cluster × List clusters_h.block_event) :=
  (clusters_h.iterate_generate fuel cl).bind (fun cl1 => clusters_h.iterate_diagonals fuel cl1)

/-- The body of the inner loop of the deferred pass as `iterate` has it, without the
record: the state alone. -/
def clusters_h.iterate_block (fuel r c : Nat) (cl : clusters_h.cluster) :
    Option clusters_h.cluster :=
  let cols := cl.cols
  let prev_color := curr_row_of cols (r - 1)
  let curr_color := curr_row_of cols r
  let prev_label := u32 ((r - 1) * cols)
  let curr_label := u32 (r * cols)
  let a := u32 (curr_label + c)
  let b := sub32 (u32 (curr_label + c)) 1
  let c1 := u32 (prev_label + c)
  let d := sub32 (u32 (prev_label + c)) 1
  if cl.map (curr_color + c) = cl.map (prev_color + c - 1) ∧
      cl.map (curr_color + c) ≠ cl.map (prev_color + c) ∧
      cl.map (curr_color + c - 1) = cl.map (prev_color + c) then
    if cl.djs a ≠ cl.djs d ∧ cl.djs b ≠ cl.djs c1 then
      (probability fuel cl.rng cl.p_diag_black).bind (fun p =>
        if cl.map (curr_color + c) &&& 1 = p.2 then
          (djs_join2 fuel cl.djs a d).map (fun djs1 => { cl with rng := p.1, djs := djs1 })
        else
          (djs_join2 fuel cl.djs b c1).map (fun djs1 => { cl with rng := p.1, djs := djs1 }))
    else if cl.djs a ≠ cl.djs d then
      (probability fuel cl.rng cl.p_diag_black).bind (fun p =>
        if cl.map (curr_color + c) &&& 1 = p.2 then
          (djs_join2 fuel cl.djs a d).map (fun djs1 => { cl with rng := p.1, djs := djs1 })
        else some { cl with rng := p.1 })
    else if cl.djs b ≠ cl.djs c1 then
      (probability fuel cl.rng cl.p_diag_black).bind (fun p =>
        if cl.map (curr_color + c - 1) &&& 1 = p.2 then
          (djs_join2 fuel cl.djs b c1).map (fun djs1 => { cl with rng := p.1, djs := djs1 })
        else some { cl with rng := p.1 })
    else some cl
  else some cl

/-- The deferred pass of `iterate` in `clusters.h`, without the record. -/
def clusters_h.iterate_deferred (fuel : Nat) (cl : clusters_h.cluster) :
    Option clusters_h.cluster :=
  if cl.p_diag > 0 then
    (clusters_h.flatten_all fuel cl).bind (fun cl1 =>
      (List.range (cl1.rows - 1)).foldlM
        (fun s1 r => (List.range (cl1.cols - 1)).foldlM
          (fun s2 c => clusters_h.iterate_block fuel (r + 1) (c + 1) s2) s1)
        cl1)
  else some cl

/-- The function `iterate` of `clusters.h` up to the end of the deferred diagonal pass,
without the record: the cluster it leaves. -/
def clusters_h.iterate_labels (fuel : Nat) (cl : clusters_h.cluster) :
    Option clusters_h.cluster :=
  (clusters_h.iterate_generate fuel cl).bind (fun cl1 => clusters_h.iterate_deferred fuel cl1)

/-! ### The disjoint-set operations on packed cells and `matrix_generate` of `matrix.h`

A map entry is a `cell` that packs the index of the parent cell with the colour.  The
index arithmetic of `matrix_generate` is done in `size_t`; it is written without the
64-bit reduction, which is the identity for the sizes `matrix_init` accepts. -/

/-- The `do … while (prev != curr)` loop of `djs_root` in `matrix.h`, entered with `curr`. -/
def matrix_h.djs_root_loop : Nat → (Nat → Nat) → Nat → Option Nat
  | 0, _, _ => none
  | fuel + 1, djs, curr =>
    let index := CELL_INDEX curr
    let prev := curr
    let curr1 := djs index
    if prev ≠ curr1 then matrix_h.djs_root_loop fuel djs curr1 else some curr1

/-- The function `djs_root` of `matrix.h`: the value stored at the root of `index`. -/
def matrix_h.djs_root (fuel : Nat) (djs : Nat → Nat) (index : Nat) : Option Nat :=
  matrix_h.djs_root_loop fuel djs (djs index)

/-- The `while (curr != root)` loop of `djs_path` in `matrix.h`. -/
def matrix_h.djs_path_loop : Nat → (Nat → Nat) → Nat → Nat → Nat → Option (Nat → Nat)
  | 0, _, _, _, _ => none
  | fuel + 1, djs, index, curr, root =>
    if curr ≠ root then
      let djs1 := Function.update djs index root
      let index1 := CELL_INDEX curr
      matrix_h.djs_path_loop fuel djs1 index1 (djs1 index1) root
    else some djs

/-- The function `djs_path` of `matrix.h`. -/
def matrix_h.djs_path (fuel : Nat) (djs : Nat → Nat) (index root : Nat) : Option (Nat → Nat) :=
  matrix_h.djs_path_loop fuel djs index (djs index) root

/-- The function `djs_flatten` of `matrix.h`: the root value returned and the array. -/
def matrix_h.djs_flatten (fuel : Nat) (djs : Nat → Nat) (index : Nat) :
    Option (Nat × (Nat → Nat)) := do
  let root ← matrix_h.djs_root fuel djs index
  let djs1 ← matrix_h.djs_path fuel djs index root
  pure (root, djs1)

/-- The function `djs_join2` of `matrix.h` (`if (root > temp) root = temp;`): the root value
returned and the array. -/
def matrix_h.djs_join2 (fuel : Nat) (djs : Nat → Nat) (index1 index2 : Nat) :
    Option (Nat × (Nat → Nat)) := do
  let root ← matrix_h.djs_root fuel djs index1
  let temp ← matrix_h.djs_root fuel djs index2
  let root := if root > temp then temp else root
  let djs1 ← matrix_h.djs_path fuel djs index1 root
  let djs2 ← matrix_h.djs_path fuel djs1 index2 root
  pure (root, djs2)

/-- One pass of the loop over the first row of `matrix_generate`, for column `c`: the state
is the generator, the map and the locals `currcolor` and `currvalue`. -/
def matrix_h.first_row_cell (fuel p_1 c : Nat) (st : Nat × (Nat → Nat) × Nat × Nat) :
    Option (Nat × (Nat → Nat) × Nat × Nat) :=
  let prevcolor := st.2.2.1
  let prevvalue := st.2.2.2
  (prng_probability fuel st.1 p_1).map (fun p =>
    let currcolor := p.2
    let currvalue := if prevcolor = currcolor then prevvalue else u16 (CELL_VALUE c currcolor)
    (p.1, Function.update st.2.1 c currvalue, currcolor, currvalue))

/-- The first row of `matrix_generate`: the generator and the map afterwards. -/
def matrix_h.first_row (fuel size p_1 rng : Nat) (map : Nat → Nat) :
    Option (Nat × (Nat → Nat)) :=
  (prng_probability fuel rng p_1).bind (fun p =>
    let currcolor := p.2
    let currvalue := u16 (CELL_VALUE 0 currcolor)
    ((List.range (size - 1)).foldlM
      (fun st c => matrix_h.first_row_cell fuel p_1 (c + 1) st)
      (p.1, Function.update map 0 currvalue, currcolor, currvalue)).map
      (fun st => (st.1, st.2.1)))

/-- The body of the inner loop over the other rows of `matrix_generate`, for the cell `index`. -/
def matrix_h.other_cell (fuel size p_1 index : Nat) (st : Nat × (Nat → Nat)) :
    Option (Nat × (Nat → Nat)) :=
  (prng_probability fuel st.1 p_1).bind (fun p =>
    let color := p.2
    let map := st.2
    match (if CELL_COLOR (map (index - 1)) = color then 1 else 0) +
        (if CELL_COLOR (map (index - size)) = color then 2 else 0) with
    | 0 => some (p.1, Function.update map index (u16 (CELL_VALUE index color)))
    | 1 => (matrix_h.djs_flatten fuel map (index - 1)).map
        (fun q => (p.1, Function.update q.2 index q.1))
    | 2 => (matrix_h.djs_flatten fuel map (index - size)).map
        (fun q => (p.1, Function.update q.2 index q.1))
    | 3 => (matrix_h.djs_join2 fuel map (index - 1) (index - size)).map
        (fun q => (p.1, Function.update q.2 index q.1))
    | _ => some (p.1, map))

/-- The loop over the other rows of `matrix_generate`: the first cell of a row always gets
its own value, the others are compared with the cell to the left and the cell above. -/
def matrix_h.other_rows (fuel size p_1 : Nat) (st : Nat × (Nat → Nat)) :
    Option (Nat × (Nat → Nat)) :=
  (List.range (size - 1)).foldlM
    (fun st1 r =>
      (prng_probability fuel st1.1 p_1).bind (fun p =>
        (List.range (size - 1)).foldlM
          (fun st2 k => matrix_h.other_cell fuel size p_1 ((r + 1) * size + 1 + k) st2)
          (p.1, Function.update st1.2 ((r + 1) * size)
            (u16 (CELL_VALUE ((r + 1) * size) p.2)))))
    st

/-- What is recorded for one 2x2 block of the diagonal pass of `matrix_generate`, named by
the index of its upper left cell: the four flattened values, the calls of
`prng_probability` (limit passed and result), the indices passed to `djs_join2`, if it
was called, and the entry of `joins` that was incremented, if any. -/
structure matrix_h.diag_event where
  index : Nat
  target : Nat
  right : Nat
  down : Nat
  downright : Nat
  trials : List (Nat × Nat)
  join : Option (Nat × Nat)
  counter : Option Nat

/-- The body of the inner loop of the diagonal pass for the block at `index`; the state is
the generator, the map and the local array `joins`, with the records so far. -/
def matrix_h.diag_block (fuel size p_d p_d_1 index : Nat)
    (st : (Nat × (Nat → Nat) × (Nat → Nat)) × List matrix_h.diag_event) :
    Option ((Nat × (Nat → Nat) × (Nat → Nat)) × List matrix_h.diag_event) :=
  let rng := st.1.1
  let joins := st.1.2.2
  (matrix_h.djs_flatten fuel st.1.2.1 index).bind (fun q1 =>
  (matrix_h.djs_flatten fuel q1.2 (index + 1)).bind (fun q2 =>
  (matrix_h.djs_flatten fuel q2.2 (index + size)).bind (fun q3 =>
  (matrix_h.djs_flatten fuel q3.2 (index + size + 1)).bind (fun q4 =>
    let target := q1.1
    let right := q2.1
    let down := q3.1
    let downright := q4.1
    let map := q4.2
    let ev : matrix_h.diag_event :=
      { index := index, target := target, right := right, down := down,
        downright := downright, trials := [], join := none, counter := none }
    if target ≠ downright ∧ right ≠ down ∧ SAME_COLOR target downright = true ∧
        SAME_COLOR right down = true ∧ ¬ (SAME_COLOR target right = true) then
      (prng_probability fuel rng p_d).bind (fun t1 =>
        if t1.2 ≠ 0 then
          (prng_probability fuel t1.1 p_d_1).bind (fun t2 =>
            let pair := if t2.2 = CELL_COLOR target then (index, index + size + 1)
              else (index + 1, index + size)
            (matrix_h.djs_join2 fuel map pair.1 pair.2).map (fun q5 =>
              let value := q5.1
              ((t2.1, q5.2, Function.update joins (CELL_COLOR value)
                  (u64 (joins (CELL_COLOR value) + 1))),
                st.2 ++ [{ ev with trials := [(p_d, t1.2), (p_d_1, t2.2)], join := some pair,
                                   counter := some (CELL_COLOR value) }])))
        else
          some ((t1.1, map, Function.update joins 2 (u64 (joins 2 + 1))),
            st.2 ++ [{ ev with trials := [(p_d, t1.2)], counter := some 2 }]))
    else some ((rng, map, joins), st.2 ++ [ev])))))

/-- The loops of the diagonal pass of `matrix_generate`, with `joins` starting at zero. -/
def matrix_h.diag_pass (fuel size p_d p_d_1 rng : Nat) (map : Nat → Nat) :
    Option ((Nat × (Nat → Nat) × (Nat → Nat)) × List matrix_h.diag_event) :=
  let last := size - 1
  (List.range last).foldlM
    (fun st1 r => (List.range last).foldlM
      (fun st2 k => matrix_h.diag_block fuel size p_d p_d_1 (r * size + k) st2) st1)
    ((rng, map, fun _ => 0), [])

/-- The body of the flattening loop of `matrix_generate` when `counts` is allocated; the
state is the map, `counts` and the locals `unique` and `fill`. -/
def matrix_h.count_cell (fuel index : Nat)
    (st : (Nat → Nat) × (Nat → Nat) × (Nat → Nat) × (Nat → Nat)) :
    Option ((Nat → Nat) × (Nat → Nat) × (Nat → Nat) × (Nat → Nat)) :=
  (matrix_h.djs_flatten fuel st.1 index).map (fun q =>
    let c := q.1
    let counts := st.2.1
    let unique := st.2.2.1
    let fill := st.2.2.2
    let old := counts c
    (q.2, Function.update counts c (u16 (old + 1)),
      Function.update unique (CELL_COLOR c)
        (u64 (unique (CELL_COLOR c) + (if old = 0 then 1 else 0))),
      Function.update fill (CELL_COLOR c) (u64 (fill (CELL_COLOR c) + 1))))

/-- The flattening pass of `matrix_generate` when `counts` is allocated: `counts` is
cleared, then the cells are flattened and counted from the last index down. -/
def matrix_h.count_pass (fuel size : Nat) (map counts : Nat → Nat) :
    Option ((Nat → Nat) × (Nat → Nat) × (Nat → Nat) × (Nat → Nat)) :=
  let total := 2 * size * size
  (List.range (size * size)).reverse.foldlM (fun st index => matrix_h.count_cell fuel index st)
    (map, (fun i => if i < total then 0 else counts i), (fun _ => 0), (fun _ => 0))

/-- The body of the flattening loop of `matrix_generate` when `counts` is not allocated. -/
def matrix_h.fill_cell (fuel index : Nat) (st : (Nat → Nat) × (Nat → Nat)) :
    Option ((Nat → Nat) × (Nat → Nat)) :=
  (matrix_h.djs_flatten fuel st.1 index).map (fun q =>
    (q.2, Function.update st.2 (CELL_COLOR q.1) (u64 (st.2 (CELL_COLOR q.1) + 1))))

/-- The flattening pass of `matrix_generate` when `counts` is not allocated. -/
def matrix_h.fill_pass (fuel size : Nat) (map : Nat → Nat) :
    Option ((Nat → Nat) × (Nat → Nat)) :=
  (List.range (size * size)).reverse.foldlM (fun st index => matrix_h.fill_cell fuel index st)
    (map, (fun _ => 0))

/-- Contents of a buffer after the elements of `l` were stored from offset `off` on. -/
def write_list (a : Nat → Nat) (off : Nat) (l : List Nat) : Nat → Nat :=
  fun i => if off ≤ i ∧ i < off + l.length then l.getD (i - off) 0 else a i

/-- The spanning test of `matrix_generate`: the buffer `span` and the two counters
afterwards.  The first and the last row are copied to `span + size` and `span + 2*size`
and handed to `cell_common`, so the element after the first array is the first
element of the second one. -/
def matrix_h.span_pass (fuel size : Nat) (map span : Nat → Nat) :
    Option ((Nat → Nat) × (Nat → Nat)) :=
  let array1 := (List.range size).map (fun i => map i)
  let array2 := (List.range size).map (fun i => map ((size - 1) * size + i))
  (cell_common fuel (cell_qsort array2).head? array1 array2).map (fun res =>
    let n := res.1
    let dest := res.2.1
    let span1 := write_list (write_list (write_list span size res.2.2.1) (2 * size) res.2.2.2)
      0 dest
    let span2 := Function.update span1 n 65535
    let spans := (List.range n).reverse.foldl
      (fun (s : Nat → Nat) k =>
        Function.update s (CELL_COLOR (span2 k)) (u64 (s (CELL_COLOR (span2 k)) + 1)))
      (fun _ => 0)
    (span2, spans))

/-- The diagonal pass of `matrix_generate` with the saving of the counters
(`if (m->diagonal > 0.0) … else …`): the generator, the map, `m->djoins` and the records. -/
def matrix_h.generate_diagonals (fuel : Nat) (m : matrix) (rng : Nat) (map : Nat → Nat) :
    Option (Nat × (Nat → Nat) × (Nat → Nat) × List matrix_h.diag_event) :=
  if m.diagonal > 0 then
    (matrix_h.diag_pass fuel m.size (prng_set_probability m.diagonal)
      (prng_set_probability m.diagonal_nonzero) rng map).map
      (fun d => (d.1.1, d.1.2.1, (fun k => if k < 3 then u16 (d.1.2.2 k) else m.djoins k), d.2))
  else some (rng, map, (fun k => if k < 3 then 0 else m.djoins k), [])

/-- The flattening of `matrix_generate` (`if (m->counts) … else …`): the map, `m->counts`,
`m->unique` and `m->fill` afterwards. -/
def matrix_h.generate_counts (fuel : Nat) (m : matrix) (map : Nat → Nat) :
    Option ((Nat → Nat) × Option (Nat → Nat) × (Nat → Nat) × (Nat → Nat)) :=
  match m.counts with
  | some counts =>
    (matrix_h.count_pass fuel m.size map counts).map (fun r =>
      (r.1, some r.2.1, (fun k => if k < 2 then u16 (r.2.2.1 k) else m.unique k),
        (fun k => if k < 2 then u16 (r.2.2.2 k) else m.fill k)))
  | none =>
    (matrix_h.fill_pass fuel m.size map).map (fun r =>
      (r.1, none, (fun k => if k < 2 then 0 else m.unique k),
        (fun k => if k < 2 then u16 (r.2 k) else m.fill k)))

/-- The spanning test of `matrix_generate` (`if (m->span) … else …`): `m->span` and
`m->spans` afterwards. -/
def matrix_h.generate_spans (fuel : Nat) (m : matrix) (map : Nat → Nat) :
    Option (Option (Nat → Nat) × (Nat → Nat)) :=
  match m.span with
  | some span =>
    (matrix_h.span_pass fuel m.size map span).map (fun r =>
      (some r.1, (fun k => if k < 2 then u16 (r.2 k) else m.spans k)))
  | none => some (none, (fun k => if k < 2 then 0 else m.spans k))

/-- The function `matrix_generate(m)` for a non-null `m`: the matrix afterwards and the
records of the diagonal pass.  There is no result when `m->map` is null. -/
def matrix_generate (fuel : Nat) (m : matrix) : Option (matrix × List matrix_h.diag_event) :=
  match m.map with
  | none => none
  | some map0 =>
    let p_1 := prng_set_probability m.nonzero
    (matrix_h.first_row fuel m.size p_1 m.rng map0).bind (fun s1 =>
    (matrix_h.other_rows fuel m.size p_1 s1).bind (fun s2 =>
    (matrix_h.generate_diagonals fuel m s2.1 s2.2).bind (fun s3 =>
    (matrix_h.generate_counts fuel m s3.2.1).bind (fun s4 =>
    (matrix_h.generate_spans fuel m s4.1).map (fun s5 =>
      ({ m with rng := s3.1, map := some s4.1, djoins := s3.2.2.1, counts := s4.2.1,
                unique := s4.2.2.1, fill := s4.2.2.2, span := s5.1, spans := s5.2 },
        s3.2.2.2))))))

/-! ## Specification vocabulary -/

/-- The relation `IsRootOfN djs i r k`: following parent entries from `i` reaches the
self-parented label `r` after exactly `k` hops, none of them from a self-parented label. -/
def IsRootOfN (djs : Nat → Nat) (i r : Nat) : Nat → Prop
  | 0 => i = r ∧ djs r = r
  | k + 1 => djs i ≠ i ∧ IsRootOfN djs (djs i) r k

/-- Reaching a root in a given number of hops is decidable. -/
def IsRootOfN.dec (djs : Nat → Nat) (r : Nat) : ∀ (k i : Nat), Decidable (IsRootOfN djs i r k)
  | 0, i => inferInstanceAs (Decidable (i = r ∧ djs r = r))
  | k + 1, i => @instDecidableAnd _ _ _ (IsRootOfN.dec djs r k (djs i))

instance (djs : Nat → Nat) (i r k : Nat) : Decidable (IsRootOfN djs i r k) :=
  IsRootOfN.dec djs r k i

/-- The parent array `djs` is a forest on the labels below `n` whose root function is `rt`. -/
def Forest (n : Nat) (djs rt : Nat → Nat) : Prop :=
  ∀ i, i < n → djs i < n ∧ rt i < n ∧ ∃ k, IsRootOfN djs i (rt i) k

/-- What `djs_path` leaves behind, relative to the array `djs` it started from:
`r0` is the root of the label `from0` the compression started at and `k` the
number of hops from `from0` to `r0`. -/
def PathPost (djs djs' : Nat → Nat) (from0 r0 root k : Nat) : Prop :=
  (∀ y ry j, IsRootOfN djs y ry j → ∃ j', IsRootOfN djs' y (if ry = r0 then root else ry) j') ∧
  (∀ x, djs' x = djs x ∨ (djs' x = root ∧ ∃ i, i ≤ k ∧ djs^[i] from0 = x)) ∧
  (∀ i, i ≤ k → djs' (djs^[i] from0) = root)

/-- State reached inside a join after the labels whose roots are listed in `S`
were compressed towards `root`, relative to the forest `djs`, `rt` the join started from. -/
def JoinMid (n : Nat) (djs rt djs1 : Nat → Nat) (S : List Nat) (root : Nat) : Prop :=
  Forest n djs1 (fun y => if rt y ∈ S then root else rt y) ∧
  (∀ x, djs1 x = djs x ∨ djs1 x = root) ∧ djs1 root = root

/-- Postcondition of a join of the labels `L` with surviving root `root`. -/
def JoinSpec (n : Nat) (djs rt djs' : Nat → Nat) (L : List Nat) (root : Nat) : Prop :=
  Forest n djs' (fun y => if rt y ∈ L.map rt then root else rt y) ∧
  (∀ l, l ∈ L → djs' l = root) ∧ (∀ x, djs' x = djs x ∨ djs' x = root) ∧ root ∈ L.map rt

/-- The neighbour labels selected by the four bits of `joins`, in the order
left, up, up-left, up-right. -/
def join_labels (cols label : Nat) (b0 b1 b2 b3 : Bool) : List Nat :=
  (if b0 then [sub32 label 1] else []) ++ (if b1 then [sub32 label cols] else []) ++
  (if b2 then [sub32 (sub32 label cols) 1] else []) ++
  (if b3 then [u32 (sub32 label cols + 1)] else [])

/-- Label of the cell in row `r`, column `c`. -/
def label_of (cols r c : Nat) : Nat := r * cols + c

/-- Index of the cell in row `r`, column `c` inside the padded colour map. -/
def map_index (cols r c : Nat) : Nat := (r + 1) * (cols + 1) + (c + 1)

/-- Colour of the cell in row `r`, column `c`. -/
def color_at (cl : cluster) (r c : Nat) : Nat := cl.map (map_index cl.cols r c)

/-- The diagonal limit `d_color[color]`. -/
def diag_limit (cl : cluster) (color : Nat) : Nat :=
  if color = CLUSTER_BLACK then cl.d_black else cl.d_white

/-- Side-by-side cells: same row and neighbouring columns, or same column and neighbouring rows. -/
def OrthAdj (p q : Nat × Nat) : Prop :=
  (p.1 = q.1 ∧ (p.2 + 1 = q.2 ∨ q.2 + 1 = p.2)) ∨ (p.2 = q.2 ∧ (p.1 + 1 = q.1 ∨ q.1 + 1 = p.1))

/-- Diagonal neighbours: neighbouring rows and neighbouring columns. -/
def DiagAdj (p q : Nat × Nat) : Prop :=
  (p.1 + 1 = q.1 ∨ q.1 + 1 = p.1) ∧ (p.2 + 1 = q.2 ∨ q.2 + 1 = p.2)

/-- The cell `p` is one of the first `m` cells in raster order of a grid with `cols` columns. -/
def Done (cols m : Nat) (p : Nat × Nat) : Prop := p.2 < cols ∧ label_of cols p.1 p.2 < m

/-- A bond the engine may close between two generated cells: same colour, and either
side by side, or diagonal with a nonzero diagonal limit for that colour. -/
def MayJoin (cl : cluster) (m : Nat) (p q : Nat × Nat) : Prop :=
  Done cl.cols m p ∧ Done cl.cols m q ∧ color_at cl p.1 p.2 = color_at cl q.1 q.2 ∧
  (OrthAdj p q ∨ (DiagAdj p q ∧ diag_limit cl (color_at cl p.1 p.2) ≠ 0))

/-- A bond the engine closes on every run: same colour, and either side by side, or
diagonal with the diagonal limit of that colour at its maximum. -/
def MustJoin (cl : cluster) (m : Nat) (p q : Nat × Nat) : Prop :=
  Done cl.cols m p ∧ Done cl.cols m q ∧ color_at cl p.1 p.2 = color_at cl q.1 q.2 ∧
  (OrthAdj p q ∨ (DiagAdj p q ∧ 2 ^ 64 - 1 ≤ diag_limit cl (color_at cl p.1 p.2)))

/-- Invariant of the generation loops of `iterate` once the first `m` cells (in raster
order) are generated: `cl0` is the cluster at entry, `cl` the current one and
`rt` the root function of the partition built so far. -/
structure GenInv (cl0 : cluster) (m : Nat) (cl : cluster) (rt : Nat → Nat) : Prop where
  rows_eq : cl.rows = cl0.rows
  cols_eq : cl.cols = cl0.cols
  p_eq : cl.p_black = cl0.p_black
  dw_eq : cl.d_white = cl0.d_white
  db_eq : cl.d_black = cl0.d_black
  iter_eq : cl.iterations = cl0.iterations
  ws_eq : cl.white_spans = cl0.white_spans
  bs_eq : cl.black_spans = cl0.black_spans
  wr_eq : cl.white_roots = cl0.white_roots
  br_eq : cl.black_roots = cl0.black_roots
  wh_eq : cl.white_histogram = cl0.white_histogram
  bh_eq : cl.black_histogram = cl0.black_histogram
  rng_ne : cl.rng ≠ 0
  rng_lt : cl.rng < 2 ^ 64
  border_row : ∀ i, i ≤ cl.cols → cl.map i = CLUSTER_NONE
  border_col : ∀ k, k ≤ cl.rows + 1 → cl.map (k * (cl.cols + 1)) = CLUSTER_NONE
  color_ok : ∀ p : Nat × Nat, Done cl.cols m p →
    color_at cl p.1 p.2 = CLUSTER_WHITE ∨ color_at cl p.1 p.2 = CLUSTER_BLACK
  forest : Forest m cl.djs rt
  sound : ∀ p q : Nat × Nat, Done cl.cols m p → Done cl.cols m q →
    rt (label_of cl.cols p.1 p.2) = rt (label_of cl.cols q.1 q.2) →
    Relation.ReflTransGen (MayJoin cl m) p q
  complete : ∀ p q : Nat × Nat, MustJoin cl m p q →
    rt (label_of cl.cols p.1 p.2) = rt (label_of cl.cols q.1 q.2)

/-- A cluster on which `iterate` may be called: sizes as accepted by `init_cluster`,
a valid (nonzero, 64-bit) generator state and the border of the colour map
still holding `CLUSTER_NONE`. -/
structure Ready (cl : cluster) : Prop where
  rows_pos : 1 ≤ cl.rows
  cols_pos : 1 ≤ cl.cols
  size_ok : (cl.rows + 2) * (cl.cols + 1) < 2 ^ 32
  rng_ne : cl.rng ≠ 0
  rng_lt : cl.rng < 2 ^ 64
  border_row : ∀ i, i ≤ cl.cols → cl.map i = CLUSTER_NONE
  border_col : ∀ k, k ≤ cl.rows + 1 → cl.map (k * (cl.cols + 1)) = CLUSTER_NONE

/-- Colour of the cell with label `i`. -/
def label_color (cl : cluster) (i : Nat) : Nat := color_at cl (i / cl.cols) (i % cl.cols)

/-- Number of labels below `n` that have colour `color` and root `x` under `rt`. -/
def root_count (cl : cluster) (rt : Nat → Nat) (color n x : Nat) : Nat :=
  (List.range n).countP (fun i => label_color cl i == color && rt i == x)

/-- Invariant of the counting loops of `iterate` once the first `n` labels are
flattened and counted; `cl1` is the cluster the generation loops left. -/
structure CountInv (cl1 : cluster) (rt : Nat → Nat) (n : Nat) (cl : cluster) : Prop where
  rng_eq : cl.rng = cl1.rng
  rows_eq : cl.rows = cl1.rows
  cols_eq : cl.cols = cl1.cols
  p_eq : cl.p_black = cl1.p_black
  dw_eq : cl.d_white = cl1.d_white
  db_eq : cl.d_black = cl1.d_black
  iter_eq : cl.iterations = cl1.iterations
  ws_eq : cl.white_spans = cl1.white_spans
  bs_eq : cl.black_spans = cl1.black_spans
  wh_eq : cl.white_histogram = cl1.white_histogram
  bh_eq : cl.black_histogram = cl1.black_histogram
  map_eq : cl.map = cl1.map
  forest : Forest (cl1.rows * cl1.cols) cl.djs rt
  flat : ∀ j, j < n → cl.djs j = rt j
  white : ∀ x, x < cl1.rows * cl1.cols + 2 →
    cl.white_roots x = root_count cl1 rt CLUSTER_WHITE n x
  black : ∀ x, x < cl1.rows * cl1.cols + 2 →
    cl.black_roots x = root_count cl1 rt CLUSTER_BLACK n x

/-- Number of cells whose parent entry is `x`; after `iterate`, the size of the cluster with root `x`. -/
def cluster_size (cl : cluster) (x : Nat) : Nat :=
  (List.range (cl.rows * cl.cols)).countP (fun i => cl.djs i == x)

/-- Number of clusters of colour `color` that have exactly `k` cells: the self-parented
labels of that colour whose set has `k` members. -/
def cluster_count (cl : cluster) (color k : Nat) : Nat :=
  (List.range (cl.rows * cl.cols)).countP
    (fun x => cl.djs x == x && label_color cl x == color && cluster_size cl x == k)

/-- Number of cells of colour `color`. -/
def fill_count (cl : cluster) (color : Nat) : Nat :=
  (List.range (cl.rows * cl.cols)).countP (fun i => label_color cl i == color)

/-- A flattened partition of the labels below `n` with per-label colours: every
parent entry is a self-parented label below `n` of the same colour. -/
structure FlatPart (n : Nat) (djs col : Nat → Nat) : Prop where
  lt : ∀ i, i < n → djs i < n
  idem : ∀ i, i < n → djs (djs i) = djs i
  colr : ∀ i, i < n → col (djs i) = col i

/-- Some cluster has a cell of colour `color` in the first column and one in the last column. -/
def SpansRows (cl : cluster) (color : Nat) : Prop :=
  ∃ r1 r2, r1 < cl.rows ∧ r2 < cl.rows ∧ color_at cl r1 0 = color ∧
    color_at cl r2 (cl.cols - 1) = color ∧
    cl.djs (label_of cl.cols r1 0) = cl.djs (label_of cl.cols r2 (cl.cols - 1))

/-- Some cluster has a cell of colour `color` in the first row and one in the last row. -/
def SpansCols (cl : cluster) (color : Nat) : Prop :=
  ∃ c1 c2, c1 < cl.cols ∧ c2 < cl.cols ∧ color_at cl 0 c1 = color ∧
    color_at cl (cl.rows - 1) c2 = color ∧
    cl.djs (label_of cl.cols 0 c1) = cl.djs (label_of cl.cols (cl.rows - 1) c2)

/-- What one call of `iterate` guarantees: `cl` is the cluster at entry, `cl'` at exit. -/
structure IterPost (cl cl' : cluster) : Prop where
  rows_eq : cl'.rows = cl.rows
  cols_eq : cl'.cols = cl.cols
  p_eq : cl'.p_black = cl.p_black
  dw_eq : cl'.d_white = cl.d_white
  db_eq : cl'.d_black = cl.d_black
  ready : Ready cl'
  color_ok : ∀ r c, r < cl.rows → c < cl.cols →
    color_at cl' r c = CLUSTER_WHITE ∨ color_at cl' r c = CLUSTER_BLACK
  flat : FlatPart (cl.rows * cl.cols) cl'.djs (label_color cl')
  sound : ∀ p q : Nat × Nat, Done cl.cols (cl.rows * cl.cols) p →
    Done cl.cols (cl.rows * cl.cols) q →
    cl'.djs (label_of cl.cols p.1 p.2) = cl'.djs (label_of cl.cols q.1 q.2) →
    Relation.ReflTransGen (MayJoin cl' (cl.rows * cl.cols)) p q
  complete : ∀ p q : Nat × Nat, MustJoin cl' (cl.rows * cl.cols) p q →
    cl'.djs (label_of cl.cols p.1 p.2) = cl'.djs (label_of cl.cols q.1 q.2)
  white_hist : ∀ k, 1 ≤ k → k ≤ cl.rows * cl.cols →
    cl.white_histogram k + cluster_count cl' CLUSTER_WHITE k < 2 ^ 64 →
    cl'.white_histogram k = cl.white_histogram k + cluster_count cl' CLUSTER_WHITE k
  black_hist : ∀ k, 1 ≤ k → k ≤ cl.rows * cl.cols →
    cl.black_histogram k + cluster_count cl' CLUSTER_BLACK k < 2 ^ 64 →
    cl'.black_histogram k = cl.black_histogram k + cluster_count cl' CLUSTER_BLACK k
  white_zero : cl'.white_histogram 0 = 0 ∧ cl'.white_histogram (cl.rows * cl.cols + 1) = 0
  black_zero : cl'.black_histogram 0 = 0 ∧ cl'.black_histogram (cl.rows * cl.cols + 1) = 0
  white_span : (SpansRows cl' CLUSTER_WHITE ∨ SpansCols cl' CLUSTER_WHITE →
      cl'.white_spans = u64 (cl.white_spans + 1)) ∧
    (¬ (SpansRows cl' CLUSTER_WHITE ∨ SpansCols cl' CLUSTER_WHITE) →
      cl'.white_spans = cl.white_spans)
  black_span : (SpansRows cl' CLUSTER_BLACK ∨ SpansCols cl' CLUSTER_BLACK →
      cl'.black_spans = u64 (cl.black_spans + 1)) ∧
    (¬ (SpansRows cl' CLUSTER_BLACK ∨ SpansCols cl' CLUSTER_BLACK) →
      cl'.black_spans = cl.black_spans)
  iterations : cl'.iterations = u64 (cl.iterations + 1)

/-- The cluster as `init_cluster` leaves it when it returns 0 (all counters and
histograms zero, the colour map filled with `CLUSTER_NONE`, the limits already
converted to 64-bit thresholds), with the generator state set to `seed`. -/
def seeded_cluster (rows cols p_black d_white d_black seed : Nat) : cluster :=
  { rng := seed, rows := rows, cols := cols, iterations := 0, white_spans := 0, black_spans := 0,
    p_black := p_black, d_black := d_black, d_white := d_white,
    map := fun _ => CLUSTER_NONE, djs := fun _ => 0,
    white_roots := fun _ => 0, black_roots := fun _ => 0,
    white_histogram := fun _ => 0, black_histogram := fun _ => 0 }

/-- Two cells of the grid that are side by side and have the same colour. -/
def OrthLink (cl : cluster) (p q : Nat × Nat) : Prop :=
  p.1 < cl.rows ∧ p.2 < cl.cols ∧ q.1 < cl.rows ∧ q.2 < cl.cols ∧ OrthAdj p q ∧
    color_at cl p.1 p.2 = color_at cl q.1 q.2

/-- The caller's loop: `n` successive calls of `iterate`. -/
def iterate_n (fuel : Nat) : Nat → cluster → Option cluster
  | 0, cl => some cl
  | n + 1, cl => (iterate_n fuel n cl).bind (iterate fuel)

/-- Number of clusters of colour `color` and size `k` summed over the grids generated
by the first `n` calls of `iterate`. -/
def hist_total (fuel : Nat) (cl : cluster) (color k : Nat) : Nat → Nat
  | 0 => 0
  | n + 1 => hist_total fuel cl color k n +
      (match iterate_n fuel (n + 1) cl with
        | some c => cluster_count c color k
        | none => 0)

/-- Two labels have the same root: `djs_root` returns the same label for both. -/
def same_root (fuel : Nat) (cl : cluster) (i j : Nat) : Prop :=
  ∃ r, djs_root fuel cl.djs i = some r ∧ djs_root fuel cl.djs j = some r

/-- A forest on five labels with the two trees `0 ← 1 ← 2` and `3 ← 4`. -/
def sample_djs (i : Nat) : Nat := [0, 0, 1, 3, 3].getD i i

/-- The root function of `sample_djs`. -/
def sample_rt (i : Nat) : Nat := [0, 0, 0, 3, 3].getD i i

/-- A 2 x 2 cluster with `p_black` at one half, both diagonal limits at their maximum and seed 8. -/
def sample_cluster : cluster :=
  seeded_cluster 2 2 (2 ^ 63) (2 ^ 64 - 1) (2 ^ 64 - 1) 8

/-- A 3 x 4 cluster with `p_black` and both diagonal limits at one half and seed 12345. -/
def sample_cluster_mixed : cluster :=
  seeded_cluster 3 4 (2 ^ 63) (2 ^ 63) (2 ^ 63) 12345

/-- A 3 x 4 cluster with `p_black` at one half, both diagonal limits 0 and seed 12345. -/
def sample_cluster_orth : cluster :=
  seeded_cluster 3 4 (2 ^ 63) 0 0 12345

/-- Following parent entries from every label below `n` stays below `n` and reaches a
self-parented label. -/
def Reaches (n : Nat) (djs : Nat → Nat) : Prop :=
  ∀ i, i < n → djs i < n ∧ ∃ r k, IsRootOfN djs i r k

/-- Successive draws `probability(rng, limit)` on one generator, one for each limit of the
list; the result is the last state and the colours returned. -/
def draws (fuel : Nat) : List Nat → Nat → Option (Nat × List Nat)
  | [], state => some (state, [])
  | limit :: limits, state =>
    (probability fuel state limit).bind (fun p =>
      (draws fuel limits p.1).map (fun q => (q.1, p.2 :: q.2)))

/-- Two arrays hold the same values at all indices below `n`. -/
def Agree (n : Nat) (d1 d2 : Nat → Nat) : Prop := ∀ x, x < n → d1 x = d2 x

/-- Every entry of the array below `n` is itself below `n`. -/
def Closed (n : Nat) (d : Nat → Nat) : Prop := ∀ x, x < n → d x < n

/-- Two results of a disjoint-set operation agree: both are missing, or both are
present, agree below `n` and are closed below `n`. -/
def OAgree (n : Nat) : Option (Nat → Nat) → Option (Nat → Nat) → Prop
  | some e1, some e2 => Agree n e1 e2 ∧ Closed n e1
  | none, none => True
  | _, _ => False

/-- The colour `probability` returns on a nonzero state `s` for the limit `limit`. -/
def drawn_color (s limit : Nat) : Nat :=
  if u64 (xorshift_round s * 2685821657736338717) ≤ limit then CLUSTER_BLACK else CLUSTER_WHITE

/-- One diagonal test on a nonzero state `s`: the state afterwards and the truth value.
The generator advances only when the neighbour has the cell's colour. -/
def diag_step (s diag : Nat) (same : Bool) : Nat × Bool :=
  if same then
    (xorshift_round s, decide (u64 (xorshift_round s * 2685821657736338717) ≤ diag))
  else (s, false)

/-- What the generation step of one cell decides before the join: the colour, the four
bits of `joins` and the generator state afterwards. -/
structure cell_draw where
  color : Nat
  b0 : Bool
  b1 : Bool
  b2 : Bool
  b3 : Bool
  rng : Nat

/-- The decisions of the generation step for the cell in row `r`, column `c`, on a
cluster with a nonzero generator state. -/
def cell_draw_of (cl : cluster) (r c : Nat) : cell_draw :=
  let color := drawn_color cl.rng cl.p_black
  let mi := map_index cl.cols r c
  let map := Function.update cl.map mi color
  let t2 := diag_step (xorshift_round cl.rng) (diag_limit cl color)
    (map (mi - (cl.cols + 1) - 1) == color)
  let t3 := diag_step t2.1 (diag_limit cl color) (map (mi - (cl.cols + 1) + 1) == color)
  { color := color, b0 := map (mi - 1) == color, b1 := map (mi - (cl.cols + 1)) == color,
    b2 := t2.2, b3 := t3.2, rng := t3.1 }

/-- Two clusters in the generation loops agree on everything the rest of the run can
depend on once the first `m` cells are generated: generator state, sizes, limits,
the colours of the generated cells and the parent entries of their labels. -/
structure GenSim (m : Nat) (a b : cluster) : Prop where
  rng_eq : a.rng = b.rng
  rows_eq : a.rows = b.rows
  cols_eq : a.cols = b.cols
  p_eq : a.p_black = b.p_black
  dw_eq : a.d_white = b.d_white
  db_eq : a.d_black = b.d_black
  map_eq : ∀ p : Nat × Nat, Done a.cols m p → color_at a p.1 p.2 = color_at b p.1 p.2
  djs_eq : Agree m a.djs b.djs

/-- Two runs of the generation loops in lockstep: each satisfies the loop invariant
and the two clusters agree. -/
def GenPair (a0 b0 : cluster) (m : Nat) (a b : cluster) : Prop :=
  (∃ rt, GenInv a0 m a rt) ∧ (∃ rt, GenInv b0 m b rt) ∧ GenSim m a b

/-- Two clusters with the same generator state, sizes and limits. -/
structure SameConfig (a b : cluster) : Prop where
  rng_eq : a.rng = b.rng
  rows_eq : a.rows = b.rows
  cols_eq : a.cols = b.cols
  p_eq : a.p_black = b.p_black
  dw_eq : a.d_white = b.d_white
  db_eq : a.d_black = b.d_black

/-- The 3 x 4 sample cluster with other contents in every buffer: the interior of the
colour map, the parent array, the two `roots` arrays and the histograms hold
left-over values; only the border of the colour map is as `init_cluster` left it. -/
def sample_cluster_stale : cluster :=
  { sample_cluster_mixed with
    map := fun i => if i ≤ 4 ∨ i % 5 = 0 then CLUSTER_NONE else CLUSTER_BLACK,
    djs := fun _ => 7, white_roots := fun _ => 3, black_roots := fun i => i,
    white_histogram := fun _ => 2, black_histogram := fun _ => 1,
    white_spans := 5, black_spans := 6 }

/-- A cluster whose colour map holds a colour where the sentinel border should be: the
1 x 1 grid with every map entry black and `p_black` at its maximum. -/
def sample_cluster_no_border : cluster :=
  { seeded_cluster 1 1 (2 ^ 64 - 1) 0 0 1 with map := fun _ => CLUSTER_BLACK }

/-- The call of a fixed-arity union on a list of labels: `djs_join2` to `djs_join5` for
two to five labels, in the order of the list, and no call otherwise. -/
def join_by_arity (fuel : Nat) (djs : Nat → Nat) : List Nat → Option (Nat → Nat)
  | [a, b] => djs_join2 fuel djs a b
  | [a, b, c] => djs_join3 fuel djs a b c
  | [a, b, c, d] => djs_join4 fuel djs a b c d
  | [a, b, c, d, e] => djs_join5 fuel djs a b c d e
  | _ => some djs

/-- Number of set bits among the four low bits of `joins`. -/
def popcount4 (joins : Nat) : Nat :=
  joins % 2 + joins / 2 % 2 + joins / 4 % 2 + joins / 8 % 2

/-- The maximal run of decimal digits that follows the leading whitespace of a string. -/
def seed_digits (s : List Nat) : List Nat := (s.dropWhile is_space).takeWhile is_digit

/-- The number a list of decimal digit characters denotes. -/
def digits_value (ds : List Nat) : Nat := ds.foldl (fun v ch => 10 * v + (ch - 48)) 0

/-- The part of a string after its leading whitespace and the digits that follow it. -/
def seed_rest (s : List Nat) : List Nat := (s.dropWhile is_space).dropWhile is_digit

/-- The record of the cell in row `r`, column `c`, computed from the cluster the cell's
step starts from (with a nonzero generator state). -/
def event_of (cl : cluster) (r c : Nat) : cell_event :=
  let d := cell_draw_of cl r c
  let mi := map_index cl.cols r c
  let map := Function.update cl.map mi d.color
  { label := label_of cl.cols r c, color := d.color, map_write := mi, rng_before := cl.rng,
    trials := (cl.p_black, d.color) ::
      ((if map (mi - (cl.cols + 1) - 1) == d.color then
          [(diag_limit cl d.color, if d.b2 then CLUSTER_BLACK else CLUSTER_WHITE)] else []) ++
        (if map (mi - (cl.cols + 1) + 1) == d.color then
          [(diag_limit cl d.color, if d.b3 then CLUSTER_BLACK else CLUSTER_WHITE)] else [])),
    joins := bit_of d.b0 0 ||| bit_of d.b1 1 ||| bit_of d.b2 2 ||| bit_of d.b3 3,
    rng_after := d.rng }

/-- The record of the cell in row `r`, column `c`, read off the colours of the grid: `s` is
the generator state the cell's step started from.  The left and up bits are set
for an existing neighbour of the cell's colour; an up-left or up-right neighbour
that exists and has the cell's colour gets one trial with the diagonal limit of
that colour, and its bit is set when the trial succeeds. -/
def cell_event_spec (cl : cluster) (r c s : Nat) : cell_event :=
  let color := color_at cl r c
  let left := decide (1 ≤ c ∧ color_at cl r (c - 1) = color)
  let up := decide (1 ≤ r ∧ color_at cl (r - 1) c = color)
  let ul := decide (1 ≤ r ∧ 1 ≤ c ∧ color_at cl (r - 1) (c - 1) = color)
  let ur := decide (1 ≤ r ∧ c + 1 < cl.cols ∧ color_at cl (r - 1) (c + 1) = color)
  let t2 := diag_step (xorshift_round s) (diag_limit cl color) ul
  let t3 := diag_step t2.1 (diag_limit cl color) ur
  { label := label_of cl.cols r c, color := color, map_write := map_index cl.cols r c,
    rng_before := s,
    trials := (cl.p_black, color) ::
      ((if ul then [(diag_limit cl color, if t2.2 then CLUSTER_BLACK else CLUSTER_WHITE)]
        else []) ++
        (if ur then [(diag_limit cl color, if t3.2 then CLUSTER_BLACK else CLUSTER_WHITE)]
        else [])),
    joins := bit_of left 0 ||| bit_of up 1 ||| bit_of t2.2 2 ||| bit_of t3.2 3,
    rng_after := t3.1 }

/-- Number of calls of `probability` in a list of records. -/
def draw_count (log : List cell_event) : Nat := (log.map (fun e => e.trials.length)).sum

/-- Invariant of the observed generation loops once the first `m` cells are generated:
`cl0` is the cluster at entry, `cl` the current one and `log` the records so far. -/
structure LogInv (cl0 : cluster) (m : Nat) (cl : cluster) (log : List cell_event) : Prop where
  len : log.length = m
  rng_total : cl.rng = xorshift_round^[draw_count log] cl0.rng
  frame : ∀ i, (∀ r c, c < cl0.cols → label_of cl0.cols r c < m → i ≠ map_index cl0.cols r c) →
    cl.map i = cl0.map i
  events : ∀ r c, c < cl0.cols → label_of cl0.cols r c < m →
    ∃ s, s ≠ 0 ∧ s < 2 ^ 64 ∧
      s = xorshift_round^[draw_count (log.take (label_of cl0.cols r c))] cl0.rng ∧
      color_at cl r c = drawn_color s cl0.p_black ∧
      log[label_of cl0.cols r c]? = some (cell_event_spec cl r c s)

/-- The two invariants of the observed generation loops, on the pair of cluster and records. -/
def LogPair (cl0 : cluster) (m : Nat) (st : cluster × List cell_event) : Prop :=
  (∃ rt, GenInv cl0 m st.1 rt) ∧ LogInv cl0 m st.1 st.2

/-- The state of the merge in `cell_common`: both ranges ascending, the values stored
strictly ascending and below everything still in the ranges. -/
structure MergeInv (l1 l2 dest : List Nat) : Prop where
  s1 : l1.Sorted (· ≤ ·)
  s2 : l2.Sorted (· ≤ ·)
  sd : dest.Sorted (· < ·)
  below : ∀ d ∈ dest, ∀ x, x ∈ l1 ∨ x ∈ l2 → d < x

/-- Colour of the cell in row `r`, column `c` of a `clusters.h` cluster. -/
def clusters_h.color_at (cl : clusters_h.cluster) (r c : Nat) : Nat :=
  cl.map (map_index cl.cols r c)

/-- A `clusters.h` cluster on which `iterate` may be called: sizes as accepted by
`init_cluster`, a valid generator state and the border of the colour map still
holding `CLUSTER_NONE`. -/
structure clusters_h.Ready (cl : clusters_h.cluster) : Prop where
  rows_pos : 1 ≤ cl.rows
  cols_pos : 1 ≤ cl.cols
  size_ok : (cl.rows + 2) * (cl.cols + 1) < 2 ^ 32
  rng_ne : cl.rng ≠ 0
  rng_lt : cl.rng < 2 ^ 64
  border_row : ∀ i, i ≤ cl.cols → cl.map i = CLUSTER_NONE
  border_col : ∀ k, k ≤ cl.rows + 1 → cl.map (k * (cl.cols + 1)) = CLUSTER_NONE

/-- Invariant of the generation loops of `iterate` in `clusters.h` once the first `m` cells
are generated: `cl0` is the cluster at entry and `cl` the current one. -/
structure clusters_h.PassInv (cl0 : clusters_h.cluster) (m : Nat) (cl : clusters_h.cluster) :
    Prop where
  rows_eq : cl.rows = cl0.rows
  cols_eq : cl.cols = cl0.cols
  pd_eq : cl.p_diag = cl0.p_diag
  pdb_eq : cl.p_diag_black = cl0.p_diag_black
  rng_ne : cl.rng ≠ 0
  rng_lt : cl.rng < 2 ^ 64
  rng_eq : cl.rng = xorshift_round^[m] cl0.rng
  border_row : ∀ i, i ≤ cl.cols → cl.map i = CLUSTER_NONE
  border_col : ∀ k, k ≤ cl.rows + 1 → cl.map (k * (cl.cols + 1)) = CLUSTER_NONE
  color_ok : ∀ r c, c < cl.cols → label_of cl.cols r c < m →
    clusters_h.color_at cl r c = CLUSTER_WHITE ∨ clusters_h.color_at cl r c = CLUSTER_BLACK
  forest : ∃ rt, Forest m cl.djs rt

/-- The block is crossed: the two diagonals are each of one colour, and of different colours. -/
def clusters_h.block_crossed (e : clusters_h.block_event) : Prop :=
  e.color_a = e.color_d ∧ e.color_a ≠ e.color_c ∧ e.color_b = e.color_c

/-- What holds of the record of every block the deferred pass visits, in a grid with `cols`
columns, colour map `map` and diagonal colour limit `pdb`. -/
structure clusters_h.BlockOk (cols pdb : Nat) (map : Nat → Nat) (e : clusters_h.block_event) :
    Prop where
  col_a : e.color_a = map (map_index cols e.r e.c)
  col_b : e.color_b = map (map_index cols e.r (e.c - 1))
  col_c : e.color_c = map (map_index cols (e.r - 1) e.c)
  col_d : e.color_d = map (map_index cols (e.r - 1) (e.c - 1))
  one_join : e.joins.length ≤ 1
  one_trial : e.trials.length ≤ 1
  limit : ∀ t, t ∈ e.trials → t.1 = pdb ∧ (t.2 = CLUSTER_WHITE ∨ t.2 = CLUSTER_BLACK)
  plain : ¬ clusters_h.block_crossed e → e.joins = [] ∧ e.trials = []
  both : clusters_h.block_crossed e → e.djs_a ≠ e.djs_d → e.djs_b ≠ e.djs_c →
    ∃ t, e.trials = [(pdb, t)] ∧
      e.joins = [if e.color_a = t
        then (label_of cols e.r e.c, label_of cols (e.r - 1) (e.c - 1))
        else (label_of cols e.r (e.c - 1), label_of cols (e.r - 1) e.c)] ∧
      (if e.color_a = t then e.color_d = t else e.color_b = t ∧ e.color_c = t)
  joined : ∀ j, j ∈ e.joins → clusters_h.block_crossed e ∧ ∃ t, e.trials = [(pdb, t)] ∧
    ((j = (label_of cols e.r e.c, label_of cols (e.r - 1) (e.c - 1)) ∧ e.djs_a ≠ e.djs_d ∧
        e.color_a = t ∧ e.color_d = t) ∨
      (j = (label_of cols e.r (e.c - 1), label_of cols (e.r - 1) e.c) ∧ e.djs_b ≠ e.djs_c ∧
        e.color_b = t ∧ e.color_c = t))

/-- Invariant of the loops of the deferred pass: `cl1` is the cluster the generation
loops left, the state is the current cluster with the records so far. -/
structure clusters_h.DiagInv (cl1 : clusters_h.cluster)
    (st : clusters_h.cluster × List clusters_h.block_event) : Prop where
  rows_eq : st.1.rows = cl1.rows
  cols_eq : st.1.cols = cl1.cols
  pdb_eq : st.1.p_diag_black = cl1.p_diag_black
  map_eq : st.1.map = cl1.map
  rng_ne : st.1.rng ≠ 0
  rng_lt : st.1.rng < 2 ^ 64
  forest : ∃ rt, Forest (cl1.rows * cl1.cols) st.1.djs rt
  events : ∀ e, e ∈ st.2 → clusters_h.BlockOk cl1.cols cl1.p_diag_black cl1.map e

/-- The blocks the deferred pass visits, in the order it visits them, each named by the
row and column of its lower right cell. -/
def clusters_h.block_order (rows cols : Nat) : List (Nat × Nat) :=
  (List.range (rows - 1)).flatMap (fun r => (List.range (cols - 1)).map (fun c => (r + 1, c + 1)))

/-- A 2x2 cluster as `init_cluster` leaves it, seeded with 1, with black limit and diagonal
colour limit one half and the diagonal limit `p_diag`; the four colours drawn from this
seed are black, white, white, black. -/
def clusters_h.crossed_sample (p_diag : Nat) : clusters_h.cluster :=
  { rng := 1, rows := 2, cols := 2, iterations := 0, p_black := 9223372036854775808,
    p_diag := p_diag, p_diag_black := 9223372036854775808, map := fun _ => CLUSTER_NONE,
    djs := fun _ => 0, white_roots := fun _ => 0, black_roots := fun _ => 0,
    white_histogram := fun _ => 0, black_histogram := fun _ => 0 }

/-- The number of calls of `probability` in the records of the deferred pass. -/
def clusters_h.trial_count (log : List clusters_h.block_event) : Nat :=
  (log.map (fun e => e.trials.length)).sum

/-- The recorded calls of `djs_join2` made again, in the order of the records, on the
array `djs`. -/
def clusters_h.replay_joins (fuel : Nat) (log : List clusters_h.block_event) (djs : Nat → Nat) :
    Option (Nat → Nat) :=
  log.foldlM (fun d e => e.joins.foldlM (fun d1 j => djs_join2 fuel d1 j.1 j.2) d) djs

/-- The record `e` of a block is the one the pass makes in the state reached after the
records `pre`, from the cluster `cl2` the pass starts with: the parent entries are
those of the array after the recorded joins of `pre`, and every trial is the draw of
`probability` from the generator state after the trials of `pre`. -/
def clusters_h.BlockAt (fuel : Nat) (cl2 : clusters_h.cluster)
    (pre : List clusters_h.block_event) (e : clusters_h.block_event) : Prop :=
  ∃ d, clusters_h.replay_joins fuel pre cl2.djs = some d ∧
    e.djs_a = d (label_of cl2.cols e.r e.c) ∧
    e.djs_b = d (label_of cl2.cols e.r (e.c - 1)) ∧
    e.djs_c = d (label_of cl2.cols (e.r - 1) e.c) ∧
    e.djs_d = d (label_of cl2.cols (e.r - 1) (e.c - 1)) ∧
    ∀ t, t ∈ e.trials →
      probability fuel (xorshift_round^[clusters_h.trial_count pre] cl2.rng) cl2.p_diag_black =
        some (xorshift_round^[clusters_h.trial_count pre + 1] cl2.rng, t.2)

/-- Invariant of the loops of the deferred pass that ties the records to the state: `cl2` is
the cluster the pass starts with, after the flattening. -/
structure clusters_h.TraceInv (fuel : Nat) (cl2 : clusters_h.cluster)
    (st : clusters_h.cluster × List clusters_h.block_event) : Prop where
  rng_eq : st.1.rng = xorshift_round^[clusters_h.trial_count st.2] cl2.rng
  djs_eq : clusters_h.replay_joins fuel st.2 cl2.djs = some st.1.djs
  hist : ∀ pre e post, st.2 = pre ++ e :: post → clusters_h.BlockAt fuel cl2 pre e
  same : ∃ rt, Forest (cl2.rows * cl2.cols) st.1.djs rt ∧
    ∀ e, e ∈ st.2 → ∀ j, j ∈ e.joins →
      j.1 < cl2.rows * cl2.cols ∧ j.2 < cl2.rows * cl2.cols ∧ rt j.1 = rt j.2

/-- The records of the deferred pass, each reduced by `f`. -/
def clusters_h.log_of {α : Type} (f : clusters_h.block_event → α)
    (res : Option (clusters_h.cluster × List clusters_h.block_event)) : Option (List α) :=
  res.map (fun p => p.2.map f)

/-- The parent index packed in each map entry. -/
def matrix_h.parent (map : Nat → Nat) : Nat → Nat := fun i => CELL_INDEX (map i)

/-- The packed map is a forest on the cells below `n` with root function `rt`: the entries
are cells, a cell and its parent have the same colour bit, and the parent
indices form a forest. -/
structure matrix_h.Packed (n : Nat) (map rt : Nat → Nat) : Prop where
  bound : n ≤ 2 ^ 15
  val_lt : ∀ i, i < n → map i < 2 ^ 16
  color : ∀ i, i < n → CELL_COLOR (map (matrix_h.parent map i)) = CELL_COLOR (map i)
  forest : Forest n (matrix_h.parent map) rt

/-- State of the generation of `matrix_generate` once the cells below `m` are generated:
a valid generator state and a packed forest on these cells. -/
structure matrix_h.GenOk (m : Nat) (st : Nat × (Nat → Nat)) : Prop where
  rng_ne : st.1 ≠ 0
  rng_lt : st.1 < 2 ^ 64
  packed : ∃ rt, matrix_h.Packed m st.2 rt

/-- State of the loop over the first row once the cells below `c` are generated: the local
`currvalue` is the root value of the last cell and `currcolor` its colour bit. -/
structure matrix_h.FirstOk (c : Nat) (st : Nat × (Nat → Nat) × Nat × Nat) : Prop where
  rng_ne : st.1 ≠ 0
  rng_lt : st.1 < 2 ^ 64
  pos : 1 ≤ c
  packed : ∃ rt, matrix_h.Packed c st.2.1 rt ∧ st.2.2.2 = st.2.1 (rt (c - 1))
  color : st.2.2.1 = CELL_COLOR st.2.2.2

/-- The condition under which the diagonal pass considers a block: the diagonal endpoints
have different flattened values, each diagonal is of one colour, and the two diagonals
are of different colours. -/
def matrix_h.qualifies (e : matrix_h.diag_event) : Prop :=
  e.target ≠ e.downright ∧ e.right ≠ e.down ∧ SAME_COLOR e.target e.downright = true ∧
    SAME_COLOR e.right e.down = true ∧ ¬ (SAME_COLOR e.target e.right = true)

instance (e : matrix_h.diag_event) : Decidable (matrix_h.qualifies e) := by
  unfold matrix_h.qualifies; infer_instance

/-- What holds of the record of every block of the diagonal pass, for a matrix of side `size`
with diagonal limit `p_d` and diagonal colour limit `p_d_1`; `mapc` is any map with
the colours of the cells. -/
structure matrix_h.DiagOk (size p_d p_d_1 : Nat) (mapc : Nat → Nat) (e : matrix_h.diag_event) :
    Prop where
  col_target : CELL_COLOR e.target = CELL_COLOR (mapc e.index)
  col_right : CELL_COLOR e.right = CELL_COLOR (mapc (e.index + 1))
  col_down : CELL_COLOR e.down = CELL_COLOR (mapc (e.index + size))
  col_downright : CELL_COLOR e.downright = CELL_COLOR (mapc (e.index + size + 1))
  plain : ¬ matrix_h.qualifies e → e.trials = [] ∧ e.join = none ∧ e.counter = none
  taken : matrix_h.qualifies e →
    (e.trials = [(p_d, 0)] ∧ e.join = none ∧ e.counter = some 2) ∨
    (∃ t2, (t2 = 0 ∨ t2 = 1) ∧ e.trials = [(p_d, 1), (p_d_1, t2)] ∧ e.counter = some t2 ∧
      ((CELL_COLOR e.target = t2 ∧ e.join = some (e.index, e.index + size + 1)) ∨
        (CELL_COLOR e.target ≠ t2 ∧ CELL_COLOR e.right = t2 ∧
          e.join = some (e.index + 1, e.index + size))))

/-- Invariant of the loops of the diagonal pass; `map0` is the map the pass started from. -/
structure matrix_h.DiagInv (n size p_d p_d_1 : Nat) (map0 : Nat → Nat)
    (st : (Nat × (Nat → Nat) × (Nat → Nat)) × List matrix_h.diag_event) : Prop where
  rng_ne : st.1.1 ≠ 0
  rng_lt : st.1.1 < 2 ^ 64
  packed : ∃ rt, matrix_h.Packed n st.1.2.1 rt ∧
    ∀ e, e ∈ st.2 → ∀ a b, e.join = some (a, b) → rt a = rt b
  colors : ∀ j, j < n → CELL_COLOR (st.1.2.1 j) = CELL_COLOR (map0 j)
  counted : ∀ k, st.1.2.2 k = st.2.countP (fun e => e.counter == some k)
  events : ∀ e, e ∈ st.2 → matrix_h.DiagOk size p_d p_d_1 map0 e

/-- The blocks the diagonal pass of `matrix_generate` visits, in the order it visits them,
each named by the index of its upper left cell. -/
def matrix_h.block_order (size : Nat) : List Nat :=
  (List.range (size - 1)).flatMap (fun r => (List.range (size - 1)).map (fun k => r * size + k))

/-- Invariant of the flattening loop of `matrix_generate` with `counts` allocated, once the
cells in `S` are flattened and counted: `rt` is the root function, `rv` gives the root
value of every cell and `counts0` is the array `counts` at entry. -/
structure matrix_h.CountInv (n : Nat) (rt rv counts0 : Nat → Nat) (S : Finset Nat)
    (st : (Nat → Nat) × (Nat → Nat) × (Nat → Nat) × (Nat → Nat)) : Prop where
  packed : matrix_h.Packed n st.1 rt
  roots : ∀ j, j < n → st.1 (rt j) = rv j
  flat : ∀ j, j ∈ S → st.1 j = rv j
  counts : ∀ v, st.2.1 v = if v < 2 * n then (S.filter (fun j => rv j = v)).card else counts0 v
  unique : ∀ k, st.2.2.1 k = ((S.image rv).filter (fun v => CELL_COLOR v = k)).card
  fill : ∀ k, st.2.2.2 k = (S.filter (fun j => CELL_COLOR (rv j) = k)).card

/-- A matrix of side 2 as `matrix_init` leaves it with all statistics, seeded with 1, with
`nonzero` and `diagonal_nonzero` one half and the given `diagonal`. -/
def matrix_h.sample (diagonal : ℚ) : matrix :=
  { rng := 1, size := 2, map := some (fun _ => 0), nonzero := 1 / 2, diagonal := diagonal,
    diagonal_nonzero := 1 / 2, unique := fun _ => 0, fill := fun _ => 0, spans := fun _ => 0,
    span := some (fun _ => 0), counts := some (fun _ => 0), djoins := fun _ => 0 }

/-! ## Theorems -/

theorem IsRootOfN.root_fixed {djs : Nat → Nat} {i r : Nat} :
    ∀ {k : Nat}, IsRootOfN djs i r k → djs r = r := by
  intro k
  induction k generalizing i with
  | zero => intro h; exact h.2
  | succ k ih => intro h; exact ih h.2

theorem IsRootOfN.det {djs : Nat → Nat} {r r' : Nat} :
    ∀ {k k' i : Nat}, IsRootOfN djs i r k → IsRootOfN djs i r' k' → r = r' ∧ k = k' := by
  intro k
  induction k with
  | zero =>
    intro k' i h h'
    cases k' with
    | zero => exact ⟨h.1.symm.trans h'.1, rfl⟩
    | succ k' =>
      obtain ⟨rfl, hr⟩ := h
      exact absurd hr h'.1
  | succ k ih =>
    intro k' i h h'
    cases k' with
    | zero =>
      obtain ⟨rfl, hr⟩ := h'
      exact absurd hr h.1
    | succ k' =>
      obtain ⟨e1, e2⟩ := ih h.2 h'.2
      exact ⟨e1, by rw [e2]⟩

theorem IsRootOfN.hops {djs : Nat → Nat} {r : Nat} :
    ∀ {k i : Nat}, IsRootOfN djs i r k → ∀ j, j ≤ k → IsRootOfN djs (djs^[j] i) r (k - j) := by
  intro k
  induction k with
  | zero =>
    intro i h j hj
    obtain rfl : j = 0 := by omega
    simpa using h
  | succ k ih =>
    intro i h j hj
    cases j with
    | zero => simpa using h
    | succ j =>
      have := ih h.2 j (by omega)
      simpa [Function.iterate_succ_apply, Nat.succ_sub_succ] using this

theorem djs_root_of_isRootOfN {djs : Nat → Nat} {r : Nat} :
    ∀ {k i : Nat}, IsRootOfN djs i r k → ∀ fuel, k < fuel → djs_root fuel djs i = some r := by
  intro k
  induction k with
  | zero =>
    intro i h fuel hf
    obtain ⟨rfl, hr⟩ := h
    cases fuel with
    | zero => omega
    | succ fuel => simp [djs_root, hr]
  | succ k ih =>
    intro i h fuel hf
    cases fuel with
    | zero => omega
    | succ fuel =>
      have hne : i ≠ djs i := fun e => h.1 e.symm
      simp only [djs_root, hne, ne_eq, not_false_eq_true, if_true]
      exact ih h.2 fuel (by omega)

/-- A chain of parent entries inside the labels below `n` has fewer than `n` hops. -/
theorem IsRootOfN.lt_of_closed {djs : Nat → Nat} {n i r k : Nat}
    (hcl : ∀ x, x < n → djs x < n) (hi : i < n) (h : IsRootOfN djs i r k) : k < n := by
  by_contra hk
  have hmem : ∀ j, djs^[j] i < n := by
    intro j
    induction j with
    | zero => simpa using hi
    | succ j ih => rw [Function.iterate_succ_apply']; exact hcl _ ih
  have hinj : Set.InjOn (fun j => djs^[j] i) (Finset.range (k + 1) : Set Nat) := by
    intro a ha b hb hab
    simp only [Finset.coe_range, Set.mem_Iio] at ha hb
    have h1 := h.hops a (by omega)
    have h2 := h.hops b (by omega)
    simp only at hab
    rw [hab] at h1
    have := (h1.det h2).2
    omega
  have hc := Finset.card_le_card_of_injOn (s := Finset.range (k + 1)) (t := Finset.range n)
    (fun j => djs^[j] i) (fun j _ => by simpa using hmem j) hinj
  simp at hc
  omega

theorem Forest.root_is_root {n : Nat} {djs rt : Nat → Nat} (h : Forest n djs rt) {i : Nat}
    (hi : i < n) : djs (rt i) = rt i := by
  obtain ⟨_, _, k, hk⟩ := h i hi
  exact hk.root_fixed

theorem Forest.root_eq {n : Nat} {djs rt : Nat → Nat} (h : Forest n djs rt) {i fuel : Nat}
    (hi : i < n) (hf : n ≤ fuel) : djs_root fuel djs i = some (rt i) := by
  obtain ⟨_, _, k, hk⟩ := h i hi
  have := hk.lt_of_closed (fun x hx => (h x hx).1) hi
  exact djs_root_of_isRootOfN hk fuel (by omega)

theorem Forest.rt_idem {n : Nat} {djs rt : Nat → Nat} (h : Forest n djs rt) {i : Nat}
    (hi : i < n) : rt (rt i) = rt i := by
  obtain ⟨_, hlt, k, hk⟩ := h i hi
  obtain ⟨_, _, k', hk'⟩ := h (rt i) hlt
  have h0 : IsRootOfN djs (rt i) (rt i) 0 := ⟨rfl, hk.root_fixed⟩
  exact ((h0.det hk').1).symm

/-- Redirecting a self-parented label `r0` to another self-parented label `root`. -/
theorem IsRootOfN.relink_root {djs : Nat → Nat} {r0 root : Nat} (hr0 : djs r0 = r0)
    (hroot : djs root = root) (hne : r0 ≠ root) {ry : Nat} :
    ∀ {j y : Nat}, IsRootOfN djs y ry j →
      ∃ j', IsRootOfN (Function.update djs r0 root) y (if ry = r0 then root else ry) j' := by
  intro j
  induction j with
  | zero =>
    intro y h
    obtain ⟨rfl, hy⟩ := h
    by_cases e : y = r0
    · subst e
      refine ⟨1, ?_⟩
      rw [if_pos rfl]
      refine ⟨?_, ?_, ?_⟩
      · rw [Function.update_same]; exact fun e => hne e.symm
      · rw [Function.update_same]
      · rw [Function.update_noteq (fun e => hne e.symm)]; exact hroot
    · refine ⟨0, ?_⟩
      rw [if_neg e]
      exact ⟨rfl, by rw [Function.update_noteq e]; exact hy⟩
  | succ j ih =>
    intro y h
    have hy : y ≠ r0 := fun e => h.1 (e ▸ hr0)
    obtain ⟨j', hj'⟩ := ih h.2
    refine ⟨j' + 1, ?_⟩
    simp only [IsRootOfN, Function.update_noteq hy]
    exact ⟨h.1, hj'⟩

/-- Redirecting a label `x` that is not self-parented to a self-parented label `root`. -/
theorem IsRootOfN.relink_inner {djs : Nat → Nat} {x r0 root kx : Nat}
    (hx : IsRootOfN djs x r0 (kx + 1)) (hroot : djs root = root) {ry : Nat} :
    ∀ {j y : Nat}, IsRootOfN djs y ry j →
      (∃ j', IsRootOfN (Function.update djs x root) y ry j') ∨
      (ry = r0 ∧ ∃ j', IsRootOfN (Function.update djs x root) y root j') := by
  have hxr : x ≠ root := fun e => hx.1 (e ▸ hroot)
  intro j
  induction j with
  | zero =>
    intro y h
    obtain ⟨rfl, hy⟩ := h
    have hyx : y ≠ x := fun e => hx.1 (e ▸ hy)
    exact Or.inl ⟨0, rfl, by rw [Function.update_noteq hyx]; exact hy⟩
  | succ j ih =>
    intro y h
    by_cases e : y = x
    · subst e
      refine Or.inr ⟨(h.det hx).1, 1, ?_⟩
      simp only [IsRootOfN, Function.update_same]
      refine ⟨fun e => hxr e.symm, trivial, ?_⟩
      rw [Function.update_noteq (fun e => hxr e.symm)]; exact hroot
    · rcases ih h.2 with ⟨j', hj'⟩ | ⟨e1, j', hj'⟩
      · refine Or.inl ⟨j' + 1, ?_⟩
        simp only [IsRootOfN, Function.update_noteq e]
        exact ⟨h.1, hj'⟩
      · refine Or.inr ⟨e1, j' + 1, ?_⟩
        simp only [IsRootOfN, Function.update_noteq e]
        exact ⟨h.1, hj'⟩

/-- A chain is not affected by a store to a label that is not on it. -/
theorem IsRootOfN.update_off {djs : Nat → Nat} {x v ry : Nat} :
    ∀ {j y : Nat}, IsRootOfN djs y ry j → (∀ i, i ≤ j → djs^[i] y ≠ x) →
      IsRootOfN (Function.update djs x v) y ry j := by
  intro j
  induction j with
  | zero =>
    intro y h hoff
    obtain ⟨rfl, hy⟩ := h
    have : y ≠ x := by simpa using hoff 0 (le_refl 0)
    exact ⟨rfl, by rw [Function.update_noteq this]; exact hy⟩
  | succ j ih =>
    intro y h hoff
    have hyx : y ≠ x := by simpa using hoff 0 (Nat.zero_le _)
    simp only [IsRootOfN, Function.update_noteq hyx]
    refine ⟨h.1, ih h.2 ?_⟩
    intro i hi
    have := hoff (i + 1) (by omega)
    simpa [Function.iterate_succ_apply] using this

theorem iterate_update_off {djs : Nat → Nat} {x v : Nat} :
    ∀ {j y : Nat}, (∀ i, i ≤ j → djs^[i] y ≠ x) →
      ∀ i, i ≤ j + 1 → (Function.update djs x v)^[i] y = djs^[i] y := by
  intro j y hoff i
  induction i with
  | zero => intro _; rfl
  | succ i ih =>
    intro hi
    rw [Function.iterate_succ_apply', Function.iterate_succ_apply', ih (by omega)]
    exact Function.update_noteq (hoff i (by omega)) _ _

theorem djs_path_spec {root : Nat} :
    ∀ (k : Nat) (djs : Nat → Nat) (from0 r0 : Nat), djs root = root →
      IsRootOfN djs from0 r0 k → ∀ fuel, k + 3 ≤ fuel →
      ∃ djs', djs_path fuel djs from0 root = some djs' ∧ PathPost djs djs' from0 r0 root k := by
  intro k
  induction k with
  | zero =>
    intro djs from0 r0 hroot h fuel hf
    obtain ⟨rfl, hr0⟩ := h
    obtain ⟨f, rfl⟩ : ∃ f, fuel = f + 3 := ⟨fuel - 3, by omega⟩
    by_cases e : from0 = root
    · subst e
      refine ⟨djs, by simp [djs_path], ?_, fun x => Or.inl rfl, ?_⟩
      · intro y ry j hy
        exact ⟨j, by split <;> simp_all⟩
      · intro i hi
        obtain rfl : i = 0 := by omega
        exact hroot
    · refine ⟨Function.update djs from0 root, ?_, ?_, ?_, ?_⟩
      · have e1 : Function.update djs from0 root from0 = root := Function.update_same _ _ _
        have e2 : Function.update (Function.update djs from0 root) from0 root =
            Function.update djs from0 root := by simp
        rw [djs_path, if_pos e]
        simp only [hr0]
        rw [djs_path, if_pos e]
        simp only [e1, e2]
        rw [djs_path, if_neg (by simp)]
      · intro y ry j hy
        exact hy.relink_root hr0 hroot e
      · intro x
        by_cases ex : x = from0
        · subst ex; right; exact ⟨by simp, 0, le_refl 0, rfl⟩
        · left; simp [Function.update_noteq ex]
      · intro i hi
        obtain rfl : i = 0 := by omega
        simp
  | succ k ih =>
    intro djs from0 r0 hroot h fuel hf
    obtain ⟨f, rfl⟩ : ∃ f, fuel = f + 1 := ⟨fuel - 1, by omega⟩
    have hfr : from0 ≠ root := fun e => h.1 (e ▸ hroot)
    have hroot1 : Function.update djs from0 root root = root := by
      rw [Function.update_noteq (fun e => hfr e.symm)]; exact hroot
    have hoff : ∀ i, i ≤ k → djs^[i] (djs from0) ≠ from0 := by
      intro i hi e
      have h1 := h.2.hops i hi
      rw [e] at h1
      have := (h1.det h).2
      omega
    have hch := h.2.update_off (v := root) hoff
    have hit := iterate_update_off (v := root) hoff
    obtain ⟨djs', hrun, hpost, hkeep, hset⟩ :=
      ih (Function.update djs from0 root) (djs from0) r0 hroot1 hch f (by omega)
    refine ⟨djs', ?_, ?_, ?_, ?_⟩
    · simp only [djs_path, hfr, ne_eq, not_false_eq_true, if_true]
      exact hrun
    · intro y ry j hy
      rcases IsRootOfN.relink_inner h hroot hy with ⟨j', hj'⟩ | ⟨e1, j', hj'⟩
      · exact hpost y ry j' hj'
      · obtain ⟨j'', hj''⟩ := hpost y root j' hj'
        refine ⟨j'', ?_⟩
        rw [if_pos e1]
        split at hj'' <;> exact hj''
    · intro x
      rcases hkeep x with e | ⟨e, i, hi, hx⟩
      · by_cases ex : x = from0
        · subst ex; right; rw [e]; exact ⟨by simp, 0, Nat.zero_le _, rfl⟩
        · left; rw [e, Function.update_noteq ex]
      · right
        refine ⟨e, i + 1, by omega, ?_⟩
        rw [Function.iterate_succ_apply, ← hit i (by omega)]
        exact hx
    · intro i hi
      cases i with
      | zero =>
        simp only [Function.iterate_zero, id_eq]
        rcases hkeep from0 with e | e
        · rw [e]; simp
        · exact e.1
      | succ i =>
        rw [Function.iterate_succ_apply, ← hit i (by omega)]
        exact hset i (by omega)

/-- The effect of `djs_path` on a forest: the set of `from0` is attached to `root`. -/
theorem Forest.path_attach {n : Nat} {djs rt : Nat → Nat} (h : Forest n djs rt) {from0 root fuel : Nat}
    (hfrom : from0 < n) (hroot : root < n) (hself : djs root = root) (hf : n + 2 ≤ fuel) :
    ∃ djs', djs_path fuel djs from0 root = some djs' ∧
      Forest n djs' (fun y => if rt y = rt from0 then root else rt y) ∧
      (∀ x, djs' x = djs x ∨ djs' x = root) ∧ djs' from0 = root ∧
      (∀ x, x < n → djs' x = djs x ∨ (djs' x = root ∧ rt x = rt from0)) := by
  obtain ⟨_, _, k, hk⟩ := h from0 hfrom
  have hkn := hk.lt_of_closed (fun x hx => (h x hx).1) hfrom
  obtain ⟨djs', hrun, hpost, hkeep, hset⟩ :=
    djs_path_spec k djs from0 (rt from0) hself hk fuel (by omega)
  have hweak : ∀ x, djs' x = djs x ∨ djs' x = root := by
    intro x
    rcases hkeep x with e | e
    · exact Or.inl e
    · exact Or.inr e.1
  refine ⟨djs', hrun, ?_, hweak, by simpa using hset 0 (Nat.zero_le _), ?_⟩
  · intro i hi
    obtain ⟨h1, h2, j, hj⟩ := h i hi
    refine ⟨?_, ?_, hpost i (rt i) j hj⟩
    · rcases hweak i with e | e <;> rw [e] <;> assumption
    · simp only; split <;> assumption
  · intro x hx
    rcases hkeep x with e | ⟨e, i, hi, hxi⟩
    · exact Or.inl e
    · right
      refine ⟨e, ?_⟩
      obtain ⟨_, _, j, hj⟩ := h x hx
      have := hk.hops i hi
      rw [hxi] at this
      exact (hj.det this).1

theorem JoinMid.start {n : Nat} {djs rt : Nat → Nat} (h : Forest n djs rt) {root : Nat}
    (hself : djs root = root) : JoinMid n djs rt djs [] root := by
  refine ⟨?_, fun x => Or.inl rfl, hself⟩
  simpa using h

theorem JoinMid.advance {n : Nat} {djs rt djs1 : Nat → Nat} {S : List Nat} {root b fuel : Nat}
    (h : JoinMid n djs rt djs1 S root) (hb : b < n) (hroot : root < n) (hf : n + 2 ≤ fuel) :
    ∃ djs2, djs_path fuel djs1 b root = some djs2 ∧ JoinMid n djs rt djs2 (rt b :: S) root ∧
      djs2 b = root ∧ (∀ x, djs1 x = root → djs2 x = root) := by
  obtain ⟨hF, hkeep, hself⟩ := h
  obtain ⟨djs2, hrun, hF2, hkeep2, hb2, _⟩ := hF.path_attach hb hroot hself hf
  refine ⟨djs2, hrun, ⟨?_, ?_, ?_⟩, hb2, ?_⟩
  · have : (fun y => if (if rt y ∈ S then root else rt y) = (if rt b ∈ S then root else rt b)
        then root else (if rt y ∈ S then root else rt y)) =
        (fun y => if rt y ∈ rt b :: S then root else rt y) := by
      funext y
      by_cases h1 : rt y ∈ S <;> by_cases h2 : rt b ∈ S <;> by_cases h3 : rt y = rt b <;>
        by_cases h4 : rt y = root <;> simp_all
    rw [← this]; exact hF2
  · intro x
    rcases hkeep2 x with e | e
    · rcases hkeep x with e' | e'
      · exact Or.inl (e.trans e')
      · exact Or.inr (e.trans e')
    · exact Or.inr e
  · rcases hkeep2 root with e | e
    · exact e.trans hself
    · exact e
  · intro x hx
    rcases hkeep2 x with e | e
    · exact e.trans hx
    · exact e

theorem JoinMid.toSpec {n : Nat} {djs rt djs' : Nat → Nat} {S L : List Nat} {root : Nat}
    (h : JoinMid n djs rt djs' S root) (hS : ∀ v, v ∈ S ↔ v ∈ L.map rt)
    (hL : ∀ l, l ∈ L → djs' l = root) (hroot : root ∈ L.map rt) :
    JoinSpec n djs rt djs' L root := by
  refine ⟨?_, hL, h.2.1, hroot⟩
  have : (fun y => if rt y ∈ S then root else rt y) =
      (fun y => if rt y ∈ L.map rt then root else rt y) := by
    funext y
    simp only [hS]
  rw [← this]; exact h.1

theorem djs_join2_spec {n : Nat} {djs rt : Nat → Nat} (h : Forest n djs rt) {a b fuel : Nat}
    (ha : a < n) (hb : b < n) (hf : n + 2 ≤ fuel) :
    ∃ djs', djs_join2 fuel djs a b = some djs' ∧ JoinSpec n djs rt djs' [a, b] (rt a) := by
  have hra := h.root_eq ha (show n ≤ fuel by omega)
  have hrb := h.root_eq hb (show n ≤ fuel by omega)
  have hlt := (h a ha).2.1
  obtain ⟨d1, e1, m1, k1, _⟩ := (JoinMid.start h (h.root_is_root ha)).advance ha hlt hf
  obtain ⟨d2, e2, m2, k2, p2⟩ := m1.advance hb hlt hf
  refine ⟨d2, ?_, m2.toSpec (by intro v; simp; tauto) ?_ (by simp)⟩
  · simp only [djs_join2, hra, hrb, Option.bind_eq_bind, Option.some_bind]
    have : (if rt a > rt b then (rt a, rt a) else (rt a, rt b)).1 = rt a := by split <;> rfl
    rw [this, e1]
    exact e2
  · intro l hl
    simp only [List.mem_cons, List.mem_singleton, List.not_mem_nil, or_false] at hl
    rcases hl with rfl | rfl
    · exact p2 _ k1
    · exact k2

/-- The comparison-and-keep step `if (root > temp) root = temp;` computes a minimum. -/
theorem keep_min (root temp : Nat) : (if root > temp then temp else root) = min root temp := by
  split <;> omega

theorem djs_join3_spec {n : Nat} {djs rt : Nat → Nat} (h : Forest n djs rt) {a b c fuel : Nat}
    (ha : a < n) (hb : b < n) (hc : c < n) (hf : n + 2 ≤ fuel) :
    ∃ djs', djs_join3 fuel djs a b c = some djs' ∧
      JoinSpec n djs rt djs' [a, b, c] (min (min (rt a) (rt b)) (rt c)) := by
  have hra := h.root_eq ha (show n ≤ fuel by omega)
  have hrb := h.root_eq hb (show n ≤ fuel by omega)
  have hrc := h.root_eq hc (show n ≤ fuel by omega)
  have hmem : min (min (rt a) (rt b)) (rt c) ∈ [a, b, c].map rt := by
    simp only [List.map, List.mem_cons, List.mem_singleton, List.not_mem_nil, or_false]
    omega
  have hself : djs (min (min (rt a) (rt b)) (rt c)) = min (min (rt a) (rt b)) (rt c) := by
    simp only [List.map, List.mem_cons, List.mem_singleton, List.not_mem_nil, or_false] at hmem
    rcases hmem with e | e | e <;> rw [e]
    exacts [h.root_is_root ha, h.root_is_root hb, h.root_is_root hc]
  have hlt : min (min (rt a) (rt b)) (rt c) < n := by
    have := (h a ha).2.1
    omega
  obtain ⟨d1, e1, m1, k1, _⟩ := (JoinMid.start h hself).advance ha hlt hf
  obtain ⟨d2, e2, m2, k2, p2⟩ := m1.advance hb hlt hf
  obtain ⟨d3, e3, m3, k3, p3⟩ := m2.advance hc hlt hf
  refine ⟨d3, ?_, m3.toSpec (by intro v; simp; tauto) ?_ hmem⟩
  · simp only [djs_join3, hra, hrb, hrc, Option.bind_eq_bind, Option.some_bind, keep_min]
    rw [e1]; simp only [Option.some_bind]
    rw [e2]; simp only [Option.some_bind]
    exact e3
  · intro l hl
    simp only [List.mem_cons, List.mem_singleton, List.not_mem_nil, or_false] at hl
    rcases hl with rfl | rfl | rfl
    · exact p3 _ (p2 _ k1)
    · exact p3 _ k2
    · exact k3

theorem djs_join4_spec {n : Nat} {djs rt : Nat → Nat} (h : Forest n djs rt) {a b c d fuel : Nat}
    (ha : a < n) (hb : b < n) (hc : c < n) (hd : d < n) (hf : n + 2 ≤ fuel) :
    ∃ djs', djs_join4 fuel djs a b c d = some djs' ∧
      JoinSpec n djs rt djs' [a, b, c, d] (min (min (min (rt a) (rt b)) (rt c)) (rt d)) := by
  have hra := h.root_eq ha (show n ≤ fuel by omega)
  have hrb := h.root_eq hb (show n ≤ fuel by omega)
  have hrc := h.root_eq hc (show n ≤ fuel by omega)
  have hrd := h.root_eq hd (show n ≤ fuel by omega)
  have hmem : min (min (min (rt a) (rt b)) (rt c)) (rt d) ∈ [a, b, c, d].map rt := by
    simp only [List.map, List.mem_cons, List.mem_singleton, List.not_mem_nil, or_false]
    omega
  have hself : djs (min (min (min (rt a) (rt b)) (rt c)) (rt d)) =
      min (min (min (rt a) (rt b)) (rt c)) (rt d) := by
    simp only [List.map, List.mem_cons, List.mem_singleton, List.not_mem_nil, or_false] at hmem
    rcases hmem with e | e | e | e <;> rw [e]
    exacts [h.root_is_root ha, h.root_is_root hb, h.root_is_root hc, h.root_is_root hd]
  have hlt : min (min (min (rt a) (rt b)) (rt c)) (rt d) < n := by
    have := (h a ha).2.1
    omega
  obtain ⟨d1, e1, m1, k1, _⟩ := (JoinMid.start h hself).advance ha hlt hf
  obtain ⟨d2, e2, m2, k2, p2⟩ := m1.advance hb hlt hf
  obtain ⟨d3, e3, m3, k3, p3⟩ := m2.advance hc hlt hf
  obtain ⟨d4, e4, m4, k4, p4⟩ := m3.advance hd hlt hf
  refine ⟨d4, ?_, m4.toSpec (by intro v; simp; tauto) ?_ hmem⟩
  · simp only [djs_join4, hra, hrb, hrc, hrd, Option.bind_eq_bind, Option.some_bind, keep_min]
    rw [e1]; simp only [Option.some_bind]
    rw [e2]; simp only [Option.some_bind]
    rw [e3]; simp only [Option.some_bind]
    exact e4
  · intro l hl
    simp only [List.mem_cons, List.mem_singleton, List.not_mem_nil, or_false] at hl
    rcases hl with rfl | rfl | rfl | rfl
    · exact p4 _ (p3 _ (p2 _ k1))
    · exact p4 _ (p3 _ k2)
    · exact p4 _ k3
    · exact k4

theorem djs_join5_spec {n : Nat} {djs rt : Nat → Nat} (h : Forest n djs rt) {a b c d e fuel : Nat}
    (ha : a < n) (hb : b < n) (hc : c < n) (hd : d < n) (he : e < n) (hf : n + 2 ≤ fuel) :
    ∃ djs', djs_join5 fuel djs a b c d e = some djs' ∧
      JoinSpec n djs rt djs' [a, b, c, d, e]
        (min (min (min (min (rt a) (rt b)) (rt c)) (rt d)) (rt e)) := by
  have hra := h.root_eq ha (show n ≤ fuel by omega)
  have hrb := h.root_eq hb (show n ≤ fuel by omega)
  have hrc := h.root_eq hc (show n ≤ fuel by omega)
  have hrd := h.root_eq hd (show n ≤ fuel by omega)
  have hre := h.root_eq he (show n ≤ fuel by omega)
  have hmem : min (min (min (min (rt a) (rt b)) (rt c)) (rt d)) (rt e) ∈ [a, b, c, d, e].map rt := by
    simp only [List.map, List.mem_cons, List.mem_singleton, List.not_mem_nil, or_false]
    omega
  have hself : djs (min (min (min (min (rt a) (rt b)) (rt c)) (rt d)) (rt e)) =
      min (min (min (min (rt a) (rt b)) (rt c)) (rt d)) (rt e) := by
    simp only [List.map, List.mem_cons, List.mem_singleton, List.not_mem_nil, or_false] at hmem
    rcases hmem with e | e | e | e | e <;> rw [e]
    exacts [h.root_is_root ha, h.root_is_root hb, h.root_is_root hc, h.root_is_root hd, h.root_is_root he]
  have hlt : min (min (min (min (rt a) (rt b)) (rt c)) (rt d)) (rt e) < n := by
    have := (h a ha).2.1
    omega
  obtain ⟨d1, e1, m1, k1, _⟩ := (JoinMid.start h hself).advance ha hlt hf
  obtain ⟨d2, e2, m2, k2, p2⟩ := m1.advance hb hlt hf
  obtain ⟨d3, e3, m3, k3, p3⟩ := m2.advance hc hlt hf
  obtain ⟨d4, e4, m4, k4, p4⟩ := m3.advance hd hlt hf
  obtain ⟨d5, e5, m5, k5, p5⟩ := m4.advance he hlt hf
  refine ⟨d5, ?_, m5.toSpec (by intro v; simp; tauto) ?_ hmem⟩
  · simp only [djs_join5, hra, hrb, hrc, hrd, hre, Option.bind_eq_bind, Option.some_bind,
      keep_min]
    rw [e1]; simp only [Option.some_bind]
    rw [e2]; simp only [Option.some_bind]
    rw [e3]; simp only [Option.some_bind]
    rw [e4]; simp only [Option.some_bind]
    exact e5
  · intro l hl
    simp only [List.mem_cons, List.mem_singleton, List.not_mem_nil, or_false] at hl
    rcases hl with rfl | rfl | rfl | rfl | rfl
    · exact p5 _ (p4 _ (p3 _ (p2 _ k1)))
    · exact p5 _ (p4 _ (p3 _ k2))
    · exact p5 _ (p4 _ k3)
    · exact p5 _ k4
    · exact k5

theorem u32_of_lt {x : Nat} (h : x < 2 ^ 32) : u32 x = x := Nat.mod_eq_of_lt h

theorem u64_of_lt {x : Nat} (h : x < 2 ^ 64) : u64 x = x := Nat.mod_eq_of_lt h

theorem sub32_of_le {a b : Nat} (hb : b ≤ a) (ha : a < 2 ^ 32) : sub32 a b = a - b := by
  unfold sub32
  have hb' : b % 2 ^ 32 = b := Nat.mod_eq_of_lt (by omega)
  rw [hb']
  have : a + (2 ^ 32 - b) = (a - b) + 2 ^ 32 := by omega
  rw [this, Nat.add_mod_right]
  exact Nat.mod_eq_of_lt (by omega)

theorem xor_shiftRight_ne_zero {s k : Nat} (hs : s ≠ 0) (hk : 0 < k) : s ^^^ (s >>> k) ≠ 0 := by
  intro h
  have e : s = s >>> k := Nat.xor_eq_zero.mp h
  rw [Nat.shiftRight_eq_div_pow] at e
  have h2 : 2 ≤ 2 ^ k := by
    calc 2 = 2 ^ 1 := by norm_num
      _ ≤ 2 ^ k := Nat.pow_le_pow_right (by norm_num) hk
  have : s / 2 ^ k < s := Nat.div_lt_self (Nat.pos_of_ne_zero hs) h2
  omega

theorem xor_shiftRight_lt {s k : Nat} (hs : s < 2 ^ 64) : s ^^^ (s >>> k) < 2 ^ 64 := by
  apply Nat.xor_lt_two_pow hs
  rw [Nat.shiftRight_eq_div_pow]
  exact lt_of_le_of_lt (Nat.div_le_self _ _) hs

theorem xor_shiftLeft_ne_zero {s : Nat} (hs : s ≠ 0) (hlt : s < 2 ^ 64) :
    s ^^^ u64 (s <<< 25) ≠ 0 := by
  intro h
  have e : s = u64 (s <<< 25) := Nat.xor_eq_zero.mp h
  rw [Nat.shiftLeft_eq, u64] at e
  have hmod : s * 2 ^ 25 % 2 ^ 64 = s % 2 ^ 64 := by
    rw [← e]; exact (Nat.mod_eq_of_lt hlt).symm
  have hdvd : 2 ^ 64 ∣ s * 2 ^ 25 - s := (Nat.modEq_iff_dvd' (by nlinarith)).mp hmod.symm
  have e2 : s * 2 ^ 25 - s = s * (2 ^ 25 - 1) := by
    rw [Nat.mul_sub, Nat.mul_one]
  rw [e2] at hdvd
  have hcop : Nat.Coprime (2 ^ 64) (2 ^ 25 - 1) := by
    apply Nat.Coprime.pow_left
    norm_num
  have := hcop.dvd_of_dvd_mul_right hdvd
  exact hs (Nat.eq_zero_of_dvd_of_lt this hlt)

theorem xorshift_round_ne_zero {s : Nat} (hs : s ≠ 0) (hlt : s < 2 ^ 64) :
    xorshift_round s ≠ 0 ∧ xorshift_round s < 2 ^ 64 := by
  unfold xorshift_round
  have h1 := xor_shiftRight_ne_zero hs (show 0 < 12 by norm_num)
  have l1 := xor_shiftRight_lt (k := 12) hlt
  have h2 := xor_shiftLeft_ne_zero h1 l1
  have l2 : (s ^^^ s >>> 12) ^^^ u64 ((s ^^^ s >>> 12) <<< 25) < 2 ^ 64 :=
    Nat.xor_lt_two_pow l1 (Nat.mod_lt _ (by norm_num))
  exact ⟨xor_shiftRight_ne_zero h2 (by norm_num), xor_shiftRight_lt l2⟩

theorem mul_const_ne_zero {s : Nat} (hs : s ≠ 0) (hlt : s < 2 ^ 64) :
    u64 (s * 2685821657736338717) ≠ 0 := by
  intro h
  have hdvd : 2 ^ 64 ∣ s * 2685821657736338717 := Nat.dvd_of_mod_eq_zero h
  have hcop : Nat.Coprime (2 ^ 64) 2685821657736338717 := by
    apply Nat.Coprime.pow_left
    norm_num
  have := hcop.dvd_of_dvd_mul_right hdvd
  exact hs (Nat.eq_zero_of_dvd_of_lt this hlt)

/-- On a nonzero 64-bit state one round suffices: the draw returns after one pass. -/
theorem probability_of_ne_zero {s : Nat} (hs : s ≠ 0) (hlt : s < 2 ^ 64) (fuel limit : Nat)
    (hf : 1 ≤ fuel) :
    probability fuel s limit = some (xorshift_round s,
      if u64 (xorshift_round s * 2685821657736338717) ≤ limit then CLUSTER_BLACK
      else CLUSTER_WHITE) := by
  obtain ⟨f, rfl⟩ : ∃ f, fuel = f + 1 := ⟨fuel - 1, by omega⟩
  have h := xorshift_round_ne_zero hs hlt
  simp only [probability, mul_const_ne_zero h.1 h.2, if_false]

theorem Forest.congr {n : Nat} {djs rt rt' : Nat → Nat} (h : Forest n djs rt)
    (e : ∀ y, y < n → rt' y = rt y) : Forest n djs rt' := by
  intro i hi
  rw [e i hi]
  exact h i hi

theorem Forest.rt_eq_self {n : Nat} {djs rt : Nat → Nat} (h : Forest n djs rt) {i : Nat}
    (hi : i < n) (hs : djs i = i) : rt i = i := by
  obtain ⟨_, _, k, hk⟩ := h i hi
  have h0 : IsRootOfN djs i i 0 := ⟨rfl, hs⟩
  exact ((h0.det hk).1).symm

theorem JoinSpec.single {n : Nat} {djs rt : Nat → Nat} (h : Forest n djs rt) {label : Nat}
    (hl : label < n) (hs : djs label = label) : JoinSpec n djs rt djs [label] label := by
  have e := h.rt_eq_self hl hs
  refine ⟨?_, ?_, fun x => Or.inl rfl, by simp [e]⟩
  · apply h.congr
    intro y _
    simp only [List.map, List.mem_singleton, e]
    split <;> simp_all
  · intro l hl'
    simp only [List.mem_singleton] at hl'
    rw [hl', hs]

theorem join_switch_spec {n : Nat} {djs rt : Nat → Nat} (h : Forest n djs rt)
    {cols label fuel : Nat} (b0 b1 b2 b3 : Bool) (hl : label < n) (hs : djs label = label)
    (h0 : b0 = true → sub32 label 1 < n) (h1 : b1 = true → sub32 label cols < n)
    (h2 : b2 = true → sub32 (sub32 label cols) 1 < n)
    (h3 : b3 = true → u32 (sub32 label cols + 1) < n) (hf : n + 2 ≤ fuel) :
    ∃ djs' root, join_switch fuel djs cols label
        (bit_of b0 0 ||| bit_of b1 1 ||| bit_of b2 2 ||| bit_of b3 3) = some djs' ∧
      JoinSpec n djs rt djs' (label :: join_labels cols label b0 b1 b2 b3) root := by
  cases b0 <;> cases b1 <;> cases b2 <;> cases b3 <;>
    simp only [bit_of, join_labels, if_true, if_false, List.nil_append, List.append_nil,
      List.cons_append, List.singleton_append, Bool.false_eq_true] <;>
    norm_num [join_switch]
  · exact ⟨_, JoinSpec.single h hl hs⟩
  · obtain ⟨d, e, s⟩ := djs_join2_spec h hl (h3 rfl) hf; exact ⟨d, e, _, s⟩
  · obtain ⟨d, e, s⟩ := djs_join2_spec h hl (h2 rfl) hf; exact ⟨d, e, _, s⟩
  · obtain ⟨d, e, s⟩ := djs_join3_spec h hl (h2 rfl) (h3 rfl) hf; exact ⟨d, e, _, s⟩
  · obtain ⟨d, e, s⟩ := djs_join2_spec h hl (h1 rfl) hf; exact ⟨d, e, _, s⟩
  · obtain ⟨d, e, s⟩ := djs_join3_spec h hl (h1 rfl) (h3 rfl) hf; exact ⟨d, e, _, s⟩
  · obtain ⟨d, e, s⟩ := djs_join3_spec h hl (h1 rfl) (h2 rfl) hf; exact ⟨d, e, _, s⟩
  · obtain ⟨d, e, s⟩ := djs_join4_spec h hl (h1 rfl) (h2 rfl) (h3 rfl) hf; exact ⟨d, e, _, s⟩
  · obtain ⟨d, e, s⟩ := djs_join2_spec h hl (h0 rfl) hf; exact ⟨d, e, _, s⟩
  · obtain ⟨d, e, s⟩ := djs_join3_spec h hl (h0 rfl) (h3 rfl) hf; exact ⟨d, e, _, s⟩
  · obtain ⟨d, e, s⟩ := djs_join3_spec h hl (h0 rfl) (h2 rfl) hf; exact ⟨d, e, _, s⟩
  · obtain ⟨d, e, s⟩ := djs_join4_spec h hl (h0 rfl) (h2 rfl) (h3 rfl) hf; exact ⟨d, e, _, s⟩
  · obtain ⟨d, e, s⟩ := djs_join3_spec h hl (h0 rfl) (h1 rfl) hf; exact ⟨d, e, _, s⟩
  · obtain ⟨d, e, s⟩ := djs_join4_spec h hl (h0 rfl) (h1 rfl) (h3 rfl) hf; exact ⟨d, e, _, s⟩
  · obtain ⟨d, e, s⟩ := djs_join4_spec h hl (h0 rfl) (h1 rfl) (h2 rfl) hf; exact ⟨d, e, _, s⟩
  · obtain ⟨d, e, s⟩ := djs_join5_spec h hl (h0 rfl) (h1 rfl) (h2 rfl) (h3 rfl) hf
    exact ⟨d, e, _, s⟩

theorem diag_test_spec {s : Nat} (hs : s ≠ 0) (hlt : s < 2 ^ 64) (fuel diag : Nat) (same : Bool)
    (hf : 1 ≤ fuel) :
    ∃ s' b, diag_test fuel s diag same = some (s', b) ∧ s' ≠ 0 ∧ s' < 2 ^ 64 ∧
      (b = true → same = true ∧ diag ≠ 0) ∧ (same = true → 2 ^ 64 - 1 ≤ diag → b = true) := by
  cases same with
  | false => exact ⟨s, false, by simp [diag_test], hs, hlt, by simp, by simp⟩
  | true =>
    have hx := xorshift_round_ne_zero hs hlt
    have hv := mul_const_ne_zero hx.1 hx.2
    have hvlt : u64 (xorshift_round s * 2685821657736338717) < 2 ^ 64 := Nat.mod_lt _ (by norm_num)
    refine ⟨xorshift_round s, (if u64 (xorshift_round s * 2685821657736338717) ≤ diag
      then CLUSTER_BLACK else CLUSTER_WHITE) != 0, ?_, hx.1, hx.2, ?_, ?_⟩
    · simp only [diag_test, if_true, probability_of_ne_zero hs hlt fuel diag hf, Option.map_some']
    · intro hb
      refine ⟨rfl, ?_⟩
      intro hd
      rw [hd] at hb
      have : ¬ u64 (xorshift_round s * 2685821657736338717) ≤ 0 := by omega
      simp [this, CLUSTER_WHITE] at hb
    · intro _ hd
      have : u64 (xorshift_round s * 2685821657736338717) ≤ diag := by omega
      simp [this, CLUSTER_BLACK]

/-- Size facts used to remove the 32-bit reductions of the index arithmetic. -/
theorem grid_facts {rows cols r c : Nat} (hsz : (rows + 2) * (cols + 1) < 2 ^ 32)
    (hr : r < rows) (hc : c < cols) :
    r * cols + cols ≤ rows * cols ∧ rows * cols + rows + 2 * cols + 2 < 2 ^ 32 ∧ r * cols + c < rows * cols := by
  have h1 : (r + 1) * cols ≤ rows * cols := Nat.mul_le_mul_right _ hr
  have h2 : (rows + 2) * (cols + 1) = rows * cols + rows + 2 * cols + 2 := by ring
  have h3 : (r + 1) * cols = r * cols + cols := by ring
  omega

theorem curr_row_of_eq {rows cols r : Nat} (hsz : (rows + 2) * (cols + 1) < 2 ^ 32)
    (hr : r < rows) (hc : 0 < cols) : curr_row_of cols r = map_index cols r 0 := by
  obtain ⟨h1, h2, _⟩ := grid_facts hsz hr hc
  have e1 : u32 (cols + 1) = cols + 1 := u32_of_lt (by omega)
  have e3 : r * (cols + 1) = r * cols + r := by ring
  have e2 : u32 (r * (cols + 1)) = r * (cols + 1) := u32_of_lt (by omega)
  unfold curr_row_of map_base map_index
  rw [e1, e2]
  ring

theorem label_eq {rows cols r c : Nat} (hsz : (rows + 2) * (cols + 1) < 2 ^ 32)
    (hr : r < rows) (hc : c < cols) : u32 (u32 (r * cols) + c) = label_of cols r c := by
  obtain ⟨h1, h2, _⟩ := grid_facts hsz hr hc
  have e2 : u32 (r * cols) = r * cols := u32_of_lt (by omega)
  rw [e2]
  exact u32_of_lt (by omega)

/-- Shape of one generation step: the colour drawn, the four join bits and the call of the switch. -/
theorem iterate_cell_shape (cl : cluster) {r c fuel : Nat}
    (hsz : (cl.rows + 2) * (cl.cols + 1) < 2 ^ 32) (hr : r < cl.rows) (hc : c < cl.cols)
    (hs : cl.rng ≠ 0) (hlt : cl.rng < 2 ^ 64) (hf : 1 ≤ fuel) :
    ∃ color s3 b2 b3,
      (color = CLUSTER_WHITE ∨ color = CLUSTER_BLACK) ∧ s3 ≠ 0 ∧ s3 < 2 ^ 64 ∧
      (b2 = true → Function.update cl.map (map_index cl.cols r c) color
          (map_index cl.cols r c - (cl.cols + 1) - 1) = color ∧ diag_limit cl color ≠ 0) ∧
      (Function.update cl.map (map_index cl.cols r c) color
          (map_index cl.cols r c - (cl.cols + 1) - 1) = color →
        2 ^ 64 - 1 ≤ diag_limit cl color → b2 = true) ∧
      (b3 = true → Function.update cl.map (map_index cl.cols r c) color
          (map_index cl.cols r c - (cl.cols + 1) + 1) = color ∧ diag_limit cl color ≠ 0) ∧
      (Function.update cl.map (map_index cl.cols r c) color
          (map_index cl.cols r c - (cl.cols + 1) + 1) = color →
        2 ^ 64 - 1 ≤ diag_limit cl color → b3 = true) ∧
      iterate_cell fuel r c cl =
        (join_switch fuel (Function.update cl.djs (label_of cl.cols r c) (label_of cl.cols r c))
          cl.cols (label_of cl.cols r c)
          (bit_of (Function.update cl.map (map_index cl.cols r c) color
              (map_index cl.cols r c - 1) == color) 0 |||
            bit_of (Function.update cl.map (map_index cl.cols r c) color
              (map_index cl.cols r c - (cl.cols + 1)) == color) 1 |||
            bit_of b2 2 ||| bit_of b3 3)).map
          (fun djs1 => { cl with rng := s3,
                                 map := Function.update cl.map (map_index cl.cols r c) color,
                                 djs := djs1 }) := by
  have hc0 : 0 < cl.cols := by omega
  have hcur := curr_row_of_eq hsz hr hc0
  have hlab := label_eq hsz hr hc
  obtain ⟨g1, g2, _⟩ := grid_facts hsz hr hc
  have hst : u32 (cl.cols + 1) = cl.cols + 1 := u32_of_lt (by omega)
  have hidx : map_index cl.cols r 0 + c = map_index cl.cols r c := by
    unfold map_index; ring
  have hidx1 : map_index cl.cols r 0 - (cl.cols + 1) + c = map_index cl.cols r c - (cl.cols + 1) := by
    unfold map_index
    have : (r + 1) * (cl.cols + 1) = r * (cl.cols + 1) + (cl.cols + 1) := by ring
    omega
  have hx := xorshift_round_ne_zero hs hlt
  have hp := probability_of_ne_zero hs hlt fuel cl.p_black hf
  generalize hcol : (if u64 (xorshift_round cl.rng * 2685821657736338717) ≤ cl.p_black
    then CLUSTER_BLACK else CLUSTER_WHITE) = color at hp
  have hcolor : color = CLUSTER_WHITE ∨ color = CLUSTER_BLACK := by
    rw [← hcol]; split <;> simp
  obtain ⟨s2, b2, e2, hs2, hlt2, p2, q2⟩ := diag_test_spec hx.1 hx.2 fuel (diag_limit cl color)
    (Function.update cl.map (map_index cl.cols r c) color
      (map_index cl.cols r c - (cl.cols + 1) - 1) == color) hf
  obtain ⟨s3, b3, e3, hs3, hlt3, p3, q3⟩ := diag_test_spec hs2 hlt2 fuel (diag_limit cl color)
    (Function.update cl.map (map_index cl.cols r c) color
      (map_index cl.cols r c - (cl.cols + 1) + 1) == color) hf
  refine ⟨color, s3, b2, b3, hcolor, hs3, hlt3, ?_, ?_, ?_, ?_, ?_⟩
  · intro h; have := p2 h; simpa using this
  · intro h1 h2; exact q2 (by simpa using h1) h2
  · intro h; have := p3 h; simpa using this
  · intro h1 h2; exact q3 (by simpa using h1) h2
  · unfold diag_limit at e2 e3
    simp only [iterate_cell]
    rw [hcur, hlab, hst, hp, hidx, hidx1]
    simp only [Option.bind_eq_bind, Option.some_bind, e2, e3, Option.pure_def, Option.map_eq_map]
    cases join_switch fuel _ cl.cols (label_of cl.cols r c) _ <;> rfl

theorem label_of_lt_iff {cols r1 c1 r2 c2 : Nat} (h1 : c1 < cols) (h2 : c2 < cols) :
    label_of cols r1 c1 < label_of cols r2 c2 ↔ r1 < r2 ∨ (r1 = r2 ∧ c1 < c2) := by
  unfold label_of
  rcases Nat.lt_trichotomy r1 r2 with h | h | h
  · have : (r1 + 1) * cols ≤ r2 * cols := Nat.mul_le_mul_right _ h
    have e : (r1 + 1) * cols = r1 * cols + cols := by ring
    omega
  · subst h; omega
  · have : (r2 + 1) * cols ≤ r1 * cols := Nat.mul_le_mul_right _ h
    have e : (r2 + 1) * cols = r2 * cols + cols := by ring
    omega

theorem label_of_inj {cols r1 c1 r2 c2 : Nat} (h1 : c1 < cols) (h2 : c2 < cols)
    (e : label_of cols r1 c1 = label_of cols r2 c2) : r1 = r2 ∧ c1 = c2 := by
  have a := @label_of_lt_iff cols r1 c1 r2 c2 h1 h2
  have b := @label_of_lt_iff cols r2 c2 r1 c1 h2 h1
  omega

theorem map_index_eq_label (cols r c : Nat) :
    map_index cols r c = label_of (cols + 1) (r + 1) (c + 1) := rfl

theorem map_index_inj {cols r1 c1 r2 c2 : Nat} (h1 : c1 < cols) (h2 : c2 < cols)
    (e : map_index cols r1 c1 = map_index cols r2 c2) : r1 = r2 ∧ c1 = c2 := by
  rw [map_index_eq_label, map_index_eq_label] at e
  have := label_of_inj (by omega) (by omega) e
  omega

theorem done_succ_iff {cols r c : Nat} (hc : c < cols) (p : Nat × Nat) :
    Done cols (label_of cols r c + 1) p ↔ Done cols (label_of cols r c) p ∨ p = (r, c) := by
  unfold Done
  constructor
  · rintro ⟨h1, h2⟩
    by_cases e : label_of cols p.1 p.2 = label_of cols r c
    · right
      have := label_of_inj h1 hc e
      exact Prod.ext this.1 this.2
    · left; exact ⟨h1, by omega⟩
  · rintro (⟨h1, h2⟩ | rfl)
    · exact ⟨h1, by omega⟩
    · exact ⟨hc, by simp⟩

/-- What the four neighbour reads of a generation step see, given an intact border. -/
theorem read_neighbours {map : Nat → Nat} {rows cols r c color : Nat}
    (hrow : ∀ i, i ≤ cols → map i = CLUSTER_NONE)
    (hcol : ∀ k, k ≤ rows + 1 → map (k * (cols + 1)) = CLUSTER_NONE)
    (hr : r < rows) (hc : c < cols) (hcolor : color = CLUSTER_WHITE ∨ color = CLUSTER_BLACK) :
    (Function.update map (map_index cols r c) color (map_index cols r c - 1) = color ↔
      1 ≤ c ∧ map (map_index cols r (c - 1)) = color) ∧
    (Function.update map (map_index cols r c) color (map_index cols r c - (cols + 1)) = color ↔
      1 ≤ r ∧ map (map_index cols (r - 1) c) = color) ∧
    (Function.update map (map_index cols r c) color (map_index cols r c - (cols + 1) - 1) = color ↔
      1 ≤ r ∧ 1 ≤ c ∧ map (map_index cols (r - 1) (c - 1)) = color) ∧
    (Function.update map (map_index cols r c) color (map_index cols r c - (cols + 1) + 1) = color ↔
      1 ≤ r ∧ c + 1 < cols ∧ map (map_index cols (r - 1) (c + 1)) = color) := by
  have hne : color ≠ CLUSTER_NONE := by
    rcases hcolor with e | e <;> rw [e] <;> decide
  have e1 : (r + 1) * (cols + 1) = r * (cols + 1) + (cols + 1) := by ring
  have hidx : map_index cols r c = r * (cols + 1) + (cols + 1) + (c + 1) := by
    unfold map_index; rw [e1]
  refine ⟨?_, ?_, ?_, ?_⟩
  · rw [Function.update_noteq (by omega)]
    rcases Nat.eq_zero_or_pos c with h0 | h0
    · subst h0
      have : map_index cols r 0 - 1 = (r + 1) * (cols + 1) := by unfold map_index; omega
      rw [this, hcol (r + 1) (by omega)]
      constructor
      · intro h; exact absurd h.symm hne
      · intro h; omega
    · have : map_index cols r c - 1 = map_index cols r (c - 1) := by unfold map_index; omega
      rw [this]
      constructor
      · intro h; exact ⟨h0, h⟩
      · intro h; exact h.2
  · rw [Function.update_noteq (by omega)]
    rcases Nat.eq_zero_or_pos r with h0 | h0
    · subst h0
      have : map_index cols 0 c - (cols + 1) = c + 1 := by unfold map_index; omega
      rw [this, hrow (c + 1) (by omega)]
      constructor
      · intro h; exact absurd h.symm hne
      · intro h; omega
    · obtain ⟨r', rfl⟩ : ∃ r', r = r' + 1 := ⟨r - 1, by omega⟩
      have : map_index cols (r' + 1) c - (cols + 1) = map_index cols (r' + 1 - 1) c := by
        simp only [Nat.add_sub_cancel]
        rw [hidx]; unfold map_index; omega
      rw [this]
      constructor
      · intro h; exact ⟨h0, h⟩
      · intro h; exact h.2
  · rw [Function.update_noteq (by omega)]
    rcases Nat.eq_zero_or_pos r with h0 | h0
    · subst h0
      have : map_index cols 0 c - (cols + 1) - 1 = c := by unfold map_index; omega
      rw [this, hrow c (by omega)]
      constructor
      · intro h; exact absurd h.symm hne
      · intro h; omega
    · obtain ⟨r', rfl⟩ : ∃ r', r = r' + 1 := ⟨r - 1, by omega⟩
      rcases Nat.eq_zero_or_pos c with hc0 | hc0
      · subst hc0
        have : map_index cols (r' + 1) 0 - (cols + 1) - 1 = (r' + 1) * (cols + 1) := by
          rw [hidx]; omega
        rw [this, hcol (r' + 1) (by omega)]
        constructor
        · intro h; exact absurd h.symm hne
        · intro h; omega
      · have : map_index cols (r' + 1) c - (cols + 1) - 1 = map_index cols (r' + 1 - 1) (c - 1) := by
          simp only [Nat.add_sub_cancel]
          rw [hidx]; unfold map_index; omega
        rw [this]
        constructor
        · intro h; exact ⟨h0, hc0, h⟩
        · intro h; exact h.2.2
  · rw [Function.update_noteq (by omega)]
    by_cases hlast : c + 1 = cols
    · have : map_index cols r c - (cols + 1) + 1 = (r + 1) * (cols + 1) := by
        rw [hidx]; omega
      rw [this, hcol (r + 1) (by omega)]
      constructor
      · intro h; exact absurd h.symm hne
      · intro h; omega
    · rcases Nat.eq_zero_or_pos r with h0 | h0
      · subst h0
        have : map_index cols 0 c - (cols + 1) + 1 = c + 2 := by unfold map_index; omega
        rw [this, hrow (c + 2) (by omega)]
        constructor
        · intro h; exact absurd h.symm hne
        · intro h; omega
      · obtain ⟨r', rfl⟩ : ∃ r', r = r' + 1 := ⟨r - 1, by omega⟩
        have : map_index cols (r' + 1) c - (cols + 1) + 1 = map_index cols (r' + 1 - 1) (c + 1) := by
          simp only [Nat.add_sub_cancel]
          rw [hidx]; unfold map_index; omega
        rw [this]
        constructor
        · intro h; exact ⟨h0, by omega, h⟩
        · intro h; exact h.2.2

theorem orthAdj_iff {a b c d : Nat} : OrthAdj (a, b) (c, d) ↔
    (a = c ∧ (b + 1 = d ∨ d + 1 = b)) ∨ (b = d ∧ (a + 1 = c ∨ c + 1 = a)) := Iff.rfl

theorem diagAdj_iff {a b c d : Nat} : DiagAdj (a, b) (c, d) ↔
    (a + 1 = c ∨ c + 1 = a) ∧ (b + 1 = d ∨ d + 1 = b) := Iff.rfl

theorem OrthAdj.flip {p q : Nat × Nat} (h : OrthAdj p q) : OrthAdj q p := by
  unfold OrthAdj at *; omega

theorem DiagAdj.turn {p q : Nat × Nat} (h : DiagAdj p q) : DiagAdj q p := by
  unfold DiagAdj at *; omega

theorem MayJoin.reverse {cl : cluster} {m : Nat} {p q : Nat × Nat} (h : MayJoin cl m p q) :
    MayJoin cl m q p := by
  obtain ⟨h1, h2, h3, h4⟩ := h
  refine ⟨h2, h1, h3.symm, ?_⟩
  rcases h4 with h4 | ⟨h4, h5⟩
  · exact Or.inl h4.flip
  · exact Or.inr ⟨h4.turn, by rw [← h3]; exact h5⟩

theorem neighbour_labels {rows cols r c : Nat} (hsz : (rows + 2) * (cols + 1) < 2 ^ 32)
    (hr : r < rows) (hc : c < cols) :
    (1 ≤ c → sub32 (label_of cols r c) 1 = label_of cols r (c - 1)) ∧
    (1 ≤ r → sub32 (label_of cols r c) cols = label_of cols (r - 1) c) ∧
    (1 ≤ r → 1 ≤ c → sub32 (sub32 (label_of cols r c) cols) 1 = label_of cols (r - 1) (c - 1)) ∧
    (1 ≤ r → u32 (sub32 (label_of cols r c) cols + 1) = label_of cols (r - 1) (c + 1)) := by
  obtain ⟨g1, g2, g3⟩ := grid_facts hsz hr hc
  unfold label_of
  refine ⟨?_, ?_, ?_, ?_⟩
  · intro h
    rw [sub32_of_le (by omega) (by omega)]
    omega
  · intro h
    obtain ⟨r', rfl⟩ : ∃ r', r = r' + 1 := ⟨r - 1, by omega⟩
    have e : (r' + 1) * cols = r' * cols + cols := by ring
    rw [sub32_of_le (by omega) (by omega)]
    simp only [Nat.add_sub_cancel]
    omega
  · intro h h'
    obtain ⟨r', rfl⟩ : ∃ r', r = r' + 1 := ⟨r - 1, by omega⟩
    have e : (r' + 1) * cols = r' * cols + cols := by ring
    have e2 : sub32 ((r' + 1) * cols + c) cols = r' * cols + c := by
      rw [sub32_of_le (by omega) (by omega)]; omega
    rw [e2, sub32_of_le (by omega) (by omega)]
    simp only [Nat.add_sub_cancel]
    omega
  · intro h
    obtain ⟨r', rfl⟩ : ∃ r', r = r' + 1 := ⟨r - 1, by omega⟩
    have e : (r' + 1) * cols = r' * cols + cols := by ring
    have e2 : sub32 ((r' + 1) * cols + c) cols = r' * cols + c := by
      rw [sub32_of_le (by omega) (by omega)]; omega
    rw [e2, u32_of_lt (by omega)]
    simp only [Nat.add_sub_cancel]
    omega

/-- Every label handed to the join of a generation step is the label of an earlier
neighbour of the same colour whose bond may be closed. -/
theorem join_labels_sound {cl : cluster} {r c color : Nat} {b0 b1 b2 b3 : Bool}
    (hsz : (cl.rows + 2) * (cl.cols + 1) < 2 ^ 32) (hr : r < cl.rows) (hc : c < cl.cols)
    (hb0 : b0 = true → 1 ≤ c ∧ color_at cl r (c - 1) = color)
    (hb1 : b1 = true → 1 ≤ r ∧ color_at cl (r - 1) c = color)
    (hb2 : b2 = true → (1 ≤ r ∧ 1 ≤ c ∧ color_at cl (r - 1) (c - 1) = color) ∧
      diag_limit cl color ≠ 0)
    (hb3 : b3 = true → (1 ≤ r ∧ c + 1 < cl.cols ∧ color_at cl (r - 1) (c + 1) = color) ∧
      diag_limit cl color ≠ 0) :
    ∀ l, l ∈ join_labels cl.cols (label_of cl.cols r c) b0 b1 b2 b3 →
      ∃ q : Nat × Nat, Done cl.cols (label_of cl.cols r c) q ∧ l = label_of cl.cols q.1 q.2 ∧
        color_at cl q.1 q.2 = color ∧
        (OrthAdj (r, c) q ∨ (DiagAdj (r, c) q ∧ diag_limit cl color ≠ 0)) := by
  obtain ⟨n0, n1, n2, n3⟩ := neighbour_labels hsz hr hc
  intro l hl
  simp only [join_labels, List.mem_append] at hl
  rcases hl with ((hl | hl) | hl) | hl
  · cases b0 with
    | false => simp at hl
    | true =>
      obtain ⟨h1, h2⟩ := hb0 rfl
      simp only [if_true, List.mem_singleton] at hl
      refine ⟨(r, c - 1), ⟨show c - 1 < cl.cols by omega, ?_⟩, by rw [hl, n0 h1], h2, Or.inl ?_⟩
      · exact (label_of_lt_iff (show c - 1 < cl.cols by omega) hc).2 (Or.inr ⟨rfl, by omega⟩)
      · rw [orthAdj_iff]; omega
  · cases b1 with
    | false => simp at hl
    | true =>
      obtain ⟨h1, h2⟩ := hb1 rfl
      simp only [if_true, List.mem_singleton] at hl
      refine ⟨(r - 1, c), ⟨hc, ?_⟩, by rw [hl, n1 h1], h2, Or.inl ?_⟩
      · exact (label_of_lt_iff hc hc).2 (Or.inl (show r - 1 < r by omega))
      · rw [orthAdj_iff]; omega
  · cases b2 with
    | false => simp at hl
    | true =>
      obtain ⟨⟨h1, h1', h2⟩, h3⟩ := hb2 rfl
      simp only [if_true, List.mem_singleton] at hl
      refine ⟨(r - 1, c - 1), ⟨show c - 1 < cl.cols by omega, ?_⟩, by rw [hl, n2 h1 h1'], h2,
        Or.inr ⟨?_, h3⟩⟩
      · exact (label_of_lt_iff (show c - 1 < cl.cols by omega) hc).2 (Or.inl (show r - 1 < r by omega))
      · rw [diagAdj_iff]; omega
  · cases b3 with
    | false => simp at hl
    | true =>
      obtain ⟨⟨h1, h1', h2⟩, h3⟩ := hb3 rfl
      simp only [if_true, List.mem_singleton] at hl
      refine ⟨(r - 1, c + 1), ⟨h1', ?_⟩, by rw [hl, n3 h1], h2, Or.inr ⟨?_, h3⟩⟩
      · exact (label_of_lt_iff h1' hc).2 (Or.inl (show r - 1 < r by omega))
      · rw [diagAdj_iff]; omega

/-- Every earlier neighbour of the same colour whose bond must be closed is handed to the join. -/
theorem join_labels_complete {cl : cluster} {r c color : Nat} {b0 b1 b2 b3 : Bool}
    (hsz : (cl.rows + 2) * (cl.cols + 1) < 2 ^ 32) (hr : r < cl.rows) (hc : c < cl.cols)
    (hb0 : 1 ≤ c ∧ color_at cl r (c - 1) = color → b0 = true)
    (hb1 : 1 ≤ r ∧ color_at cl (r - 1) c = color → b1 = true)
    (hb2 : (1 ≤ r ∧ 1 ≤ c ∧ color_at cl (r - 1) (c - 1) = color) →
      2 ^ 64 - 1 ≤ diag_limit cl color → b2 = true)
    (hb3 : (1 ≤ r ∧ c + 1 < cl.cols ∧ color_at cl (r - 1) (c + 1) = color) →
      2 ^ 64 - 1 ≤ diag_limit cl color → b3 = true) :
    ∀ q : Nat × Nat, Done cl.cols (label_of cl.cols r c) q → color_at cl q.1 q.2 = color →
      (OrthAdj (r, c) q ∨ (DiagAdj (r, c) q ∧ 2 ^ 64 - 1 ≤ diag_limit cl color)) →
      label_of cl.cols q.1 q.2 ∈ join_labels cl.cols (label_of cl.cols r c) b0 b1 b2 b3 := by
  obtain ⟨n0, n1, n2, n3⟩ := neighbour_labels hsz hr hc
  rintro ⟨qr, qc⟩ ⟨hq1, hq2⟩ hcol hadj
  simp only at hq1 hq2 hcol
  have hlt := (label_of_lt_iff hq1 hc).1 hq2
  simp only [join_labels, List.mem_append]
  rcases hadj with hadj | ⟨hadj, hd⟩
  · rw [orthAdj_iff] at hadj
    by_cases e : r = qr
    · subst e
      have hc1 : qc + 1 = c := by omega
      have hqc : qc = c - 1 := by omega
      subst hqc
      rw [hb0 ⟨by omega, hcol⟩, n0 (by omega)]
      simp
    · have hr1 : qr + 1 = r ∧ c = qc := by omega
      have hqr : qr = r - 1 := by omega
      obtain ⟨_, rfl⟩ := hr1
      subst hqr
      rw [hb1 ⟨by omega, hcol⟩, n1 (by omega)]
      simp
  · rw [diagAdj_iff] at hadj
    have hqr : qr = r - 1 := by omega
    subst hqr
    by_cases e : c + 1 = qc
    · subst e
      rw [hb3 ⟨by omega, hq1, hcol⟩ hd, n3 (by omega)]
      simp
    · have hqc : qc = c - 1 := by omega
      subst hqc
      rw [hb2 ⟨by omega, by omega, hcol⟩ hd, n2 (by omega) (by omega)]
      simp

theorem Forest.push {n : Nat} {djs rt : Nat → Nat} (h : Forest n djs rt) :
    Forest (n + 1) (Function.update djs n n) (Function.update rt n n) := by
  have hcl : ∀ {k i r : Nat}, i < n → r < n → IsRootOfN djs i r k →
      IsRootOfN (Function.update djs n n) i r k := by
    intro k
    induction k with
    | zero =>
      intro i r hi hr hk
      obtain ⟨rfl, e⟩ := hk
      exact ⟨rfl, by rw [Function.update_noteq (by omega)]; exact e⟩
    | succ k ih =>
      intro i r hi hr hk
      have hi' : i ≠ n := by omega
      simp only [IsRootOfN, Function.update_noteq hi']
      exact ⟨hk.1, ih (h i hi).1 hr hk.2⟩
  intro i hi
  by_cases e : i = n
  · subst e
    simp only [Function.update_same]
    exact ⟨by omega, by omega, 0, rfl, by simp⟩
  · have hi' : i < n := by omega
    obtain ⟨h1, h2, k, hk⟩ := h i hi'
    simp only [Function.update_noteq e]
    exact ⟨by omega, by omega, k, hcl hi' h2 hk⟩

theorem mayJoin_symmetric (cl : cluster) (m : Nat) : Symmetric (MayJoin cl m) :=
  fun _ _ h => h.reverse

theorem GenInv.cell_step {cl0 cl : cluster} {rt : Nat → Nat} {r c fuel : Nat}
    (h : GenInv cl0 (label_of cl.cols r c) cl rt)
    (hsz : (cl.rows + 2) * (cl.cols + 1) < 2 ^ 32) (hr : r < cl.rows) (hc : c < cl.cols)
    (hf : cl.rows * cl.cols + 2 ≤ fuel) :
    ∃ cl' rt', iterate_cell fuel r c cl = some cl' ∧
      GenInv cl0 (label_of cl.cols r c + 1) cl' rt' := by
  obtain ⟨g1, g2, g3⟩ := grid_facts hsz hr hc
  have g3' : label_of cl.cols r c < cl.rows * cl.cols := g3
  obtain ⟨color, s3, b2, b3, hcolor, hs3, hlt3, p2, q2, p3, q3, heq⟩ :=
    iterate_cell_shape cl hsz hr hc h.rng_ne h.rng_lt (show 1 ≤ fuel by omega)
  obtain ⟨rd0, rd1, rd2, rd3⟩ := read_neighbours h.border_row h.border_col hr hc hcolor
  -- the four join bits in terms of the colours of the earlier neighbours
  generalize hb0 : (Function.update cl.map (map_index cl.cols r c) color
    (map_index cl.cols r c - 1) == color) = b0 at heq
  generalize hb1 : (Function.update cl.map (map_index cl.cols r c) color
    (map_index cl.cols r c - (cl.cols + 1)) == color) = b1 at heq
  have hb0' : b0 = true ↔ 1 ≤ c ∧ color_at cl r (c - 1) = color := by
    rw [← hb0, beq_iff_eq]; exact rd0
  have hb1' : b1 = true ↔ 1 ≤ r ∧ color_at cl (r - 1) c = color := by
    rw [← hb1, beq_iff_eq]; exact rd1
  have hb2 : b2 = true → (1 ≤ r ∧ 1 ≤ c ∧ color_at cl (r - 1) (c - 1) = color) ∧
      diag_limit cl color ≠ 0 := fun e => ⟨rd2.1 (p2 e).1, (p2 e).2⟩
  have hb3 : b3 = true → (1 ≤ r ∧ c + 1 < cl.cols ∧ color_at cl (r - 1) (c + 1) = color) ∧
      diag_limit cl color ≠ 0 := fun e => ⟨rd3.1 (p3 e).1, (p3 e).2⟩
  have hN1 := join_labels_sound hsz hr hc hb0'.1 hb1'.1 hb2 hb3
  have hN2 := join_labels_complete hsz hr hc hb0'.2 hb1'.2
    (fun e d => q2 (rd2.2 e) d) (fun e d => q3 (rd3.2 e) d)
  -- the join
  have hF1 := h.forest.push
  have hlab : ∀ l, l ∈ join_labels cl.cols (label_of cl.cols r c) b0 b1 b2 b3 →
      l < label_of cl.cols r c := by
    intro l hl
    obtain ⟨q, hq, e, _⟩ := hN1 l hl
    rw [e]; exact hq.2
  obtain ⟨djs', root, hrun, hspec⟩ := @join_switch_spec _ _ _ hF1 cl.cols
    (label_of cl.cols r c) fuel b0 b1 b2 b3 (by omega) (by simp)
    (fun e => by
      have := hlab (sub32 (label_of cl.cols r c) 1) (by simp [join_labels, e]); omega)
    (fun e => by
      have := hlab (sub32 (label_of cl.cols r c) cl.cols) (by simp [join_labels, e]); omega)
    (fun e => by
      have := hlab (sub32 (sub32 (label_of cl.cols r c) cl.cols) 1) (by simp [join_labels, e])
      omega)
    (fun e => by
      have := hlab (u32 (sub32 (label_of cl.cols r c) cl.cols + 1)) (by simp [join_labels, e])
      omega)
    (by omega)
  rw [hrun, Option.map_some'] at heq
  obtain ⟨hF', hL, _, hroot⟩ := hspec
  refine ⟨_, fun y => if Function.update rt (label_of cl.cols r c) (label_of cl.cols r c) y ∈
      (label_of cl.cols r c :: join_labels cl.cols (label_of cl.cols r c) b0 b1 b2 b3).map
        (Function.update rt (label_of cl.cols r c) (label_of cl.cols r c))
    then root else Function.update rt (label_of cl.cols r c) (label_of cl.cols r c) y, heq, ?_⟩
  -- abbreviations
  set m := label_of cl.cols r c with hm
  set rt1 := Function.update rt m m with hrt1
  set L := m :: join_labels cl.cols m b0 b1 b2 b3 with hLdef
  set cl' : cluster := { cl with rng := s3,
                                 map := Function.update cl.map (map_index cl.cols r c) color,
                                 djs := djs' } with hcl'
  have hrt1_new : rt1 m = m := by simp [hrt1]
  have hrt1_old : ∀ y, y < m → rt1 y = rt y ∧ rt y < m := by
    intro y hy
    refine ⟨?_, (h.forest y hy).2.1⟩
    simp only [hrt1]; rw [Function.update_noteq (by omega)]
  have hcol_new : color_at cl' r c = color := by
    simp [color_at, hcl']
  have hcol_old : ∀ p : Nat × Nat, Done cl.cols m p →
      color_at cl' p.1 p.2 = color_at cl p.1 p.2 := by
    intro p hp
    simp only [color_at, hcl']
    rw [Function.update_noteq]
    intro e
    have := map_index_inj hp.1 hc e
    have e2 : label_of cl.cols p.1 p.2 = m := by rw [this.1, this.2]
    have := hp.2
    omega
  have hdl : ∀ x, diag_limit cl' x = diag_limit cl x := fun x => rfl
  have hdone : ∀ p : Nat × Nat, Done cl'.cols (m + 1) p ↔ Done cl.cols m p ∨ p = (r, c) :=
    fun p => done_succ_iff hc p
  have hmono : ∀ p q, MayJoin cl m p q → MayJoin cl' (m + 1) p q := by
    rintro p q ⟨h1, h2, h3, h4⟩
    refine ⟨(hdone p).2 (Or.inl h1), (hdone q).2 (Or.inl h2), ?_, ?_⟩
    · rw [hcol_old p h1, hcol_old q h2]; exact h3
    · rw [hcol_old p h1, hdl]; exact h4
  have hmonoT : ∀ p q, Relation.ReflTransGen (MayJoin cl m) p q →
      Relation.ReflTransGen (MayJoin cl' (m + 1)) p q :=
    fun p q hpq => Relation.ReflTransGen.mono hmono hpq
  have hsymm := Relation.ReflTransGen.symmetric (mayJoin_symmetric cl' (m + 1))
  -- membership of a root among the roots of the joined labels
  have hmemS : ∀ y, rt1 y ∈ L.map rt1 ↔
      rt1 y = m ∨ ∃ l, l ∈ join_labels cl.cols m b0 b1 b2 b3 ∧ rt1 y = rt l := by
    intro y
    simp only [hLdef, List.map_cons, List.mem_cons, List.mem_map, hrt1_new]
    constructor
    · rintro (e | ⟨l, hl, e⟩)
      · exact Or.inl e
      · exact Or.inr ⟨l, hl, by rw [← e, (hrt1_old l (hlab l hl)).1]⟩
    · rintro (e | ⟨l, hl, e⟩)
      · exact Or.inl e
      · exact Or.inr ⟨l, hl, by rw [e, (hrt1_old l (hlab l hl)).1]⟩
  -- a cell whose root is among the joined roots is linked to the new cell
  have toNew : ∀ p : Nat × Nat, Done cl.cols m p ∨ p = (r, c) →
      rt1 (label_of cl.cols p.1 p.2) ∈ L.map rt1 →
      Relation.ReflTransGen (MayJoin cl' (m + 1)) p (r, c) := by
    intro p hp hin
    rcases hp with hp | rfl
    · obtain ⟨e1, e2⟩ := hrt1_old _ hp.2
      rcases (hmemS _).1 hin with e | ⟨l, hl, e⟩
      · omega
      · obtain ⟨q, hq, el, hqc, hadj⟩ := hN1 l hl
        rw [e1, el] at e
        have hpq := hmonoT p q (h.sound p q hp hq e)
        refine hpq.tail ⟨(hdone q).2 (Or.inl hq), (hdone _).2 (Or.inr rfl), ?_, ?_⟩
        · rw [hcol_old q hq, hqc]; exact hcol_new.symm
        · rw [hcol_old q hq, hqc, hdl]
          rcases hadj with a | ⟨a, d⟩
          · exact Or.inl a.flip
          · exact Or.inr ⟨a.turn, d⟩
    · exact Relation.ReflTransGen.refl
  have hrt'_eq : ∀ y z, (if rt1 y ∈ L.map rt1 then root else rt1 y) =
      (if rt1 z ∈ L.map rt1 then root else rt1 z) →
      rt1 y = rt1 z ∨ (rt1 y ∈ L.map rt1 ∧ rt1 z ∈ L.map rt1) := by
    intro y z e
    by_cases hy : rt1 y ∈ L.map rt1 <;> by_cases hz : rt1 z ∈ L.map rt1
    · exact Or.inr ⟨hy, hz⟩
    · rw [if_pos hy, if_neg hz] at e
      exact absurd (e ▸ hroot) hz
    · rw [if_neg hy, if_pos hz] at e
      exact absurd (e.symm ▸ hroot) hy
    · rw [if_neg hy, if_neg hz] at e
      exact Or.inl e
  exact
    { rows_eq := h.rows_eq
      cols_eq := h.cols_eq
      p_eq := h.p_eq
      dw_eq := h.dw_eq
      db_eq := h.db_eq
      iter_eq := h.iter_eq
      ws_eq := h.ws_eq
      bs_eq := h.bs_eq
      wr_eq := h.wr_eq
      br_eq := h.br_eq
      wh_eq := h.wh_eq
      bh_eq := h.bh_eq
      rng_ne := hs3
      rng_lt := hlt3
      border_row := by
        intro i hi
        have e1 : (r + 1) * (cl.cols + 1) = r * (cl.cols + 1) + (cl.cols + 1) := by ring
        show Function.update cl.map (map_index cl.cols r c) color i = CLUSTER_NONE
        rw [Function.update_noteq (by unfold map_index; change i ≤ cl.cols at hi; omega)]
        exact h.border_row i hi
      border_col := by
        intro k hk
        show Function.update cl.map (map_index cl.cols r c) color (k * (cl.cols + 1)) =
          CLUSTER_NONE
        rw [Function.update_noteq]
        · exact h.border_col k hk
        · intro e
          have e' : label_of (cl.cols + 1) k 0 = label_of (cl.cols + 1) (r + 1) (c + 1) := by
            rw [← map_index_eq_label, ← e]; simp [label_of]
          have := label_of_inj (by omega) (by omega) e'
          omega
      color_ok := by
        intro p hp
        rcases (hdone p).1 hp with hp | rfl
        · rw [hcol_old p hp]; exact h.color_ok p hp
        · rw [hcol_new]; exact hcolor
      forest := hF'
      sound := by
        intro p q hp hq e
        have hp' := (hdone p).1 hp
        have hq' := (hdone q).1 hq
        rcases hrt'_eq _ _ e with e1 | ⟨e1, e2⟩
        · rcases hp' with hp' | rfl <;> rcases hq' with hq' | rfl
          · rw [(hrt1_old _ hp'.2).1, (hrt1_old _ hq'.2).1] at e1
            exact hmonoT p q (h.sound p q hp' hq' e1)
          · have := hrt1_old _ hp'.2
            have e3 : rt1 (label_of cl.cols r c) = m := hrt1_new
            simp only at e1
            omega
          · have := hrt1_old _ hq'.2
            have e3 : rt1 (label_of cl.cols r c) = m := hrt1_new
            simp only at e1
            omega
          · exact Relation.ReflTransGen.refl
        · exact (toNew p hp' e1).trans (hsymm (toNew q hq' e2))
      complete := by
        rintro p q ⟨hp, hq, hc1, hadj⟩
        have hp' := (hdone p).1 hp
        have hq' := (hdone q).1 hq
        show (if rt1 (label_of cl.cols p.1 p.2) ∈ L.map rt1 then root else _) =
          (if rt1 (label_of cl.cols q.1 q.2) ∈ L.map rt1 then root else _)
        have hin : ∀ l, l ∈ L → rt1 l ∈ L.map rt1 := fun l hl => List.mem_map_of_mem rt1 hl
        rcases hp' with hp' | rfl <;> rcases hq' with hq' | rfl
        · have : MustJoin cl m p q := by
            refine ⟨hp', hq', ?_, ?_⟩
            · rw [← hcol_old p hp', ← hcol_old q hq']; exact hc1
            · rw [← hcol_old p hp', ← hdl]; exact hadj
          have e := h.complete p q this
          rw [(hrt1_old _ hp'.2).1, (hrt1_old _ hq'.2).1, e]
        · have hpc : color_at cl p.1 p.2 = color := by
            rw [← hcol_old p hp', hc1]; exact hcol_new
          have hpin := hN2 p hp' hpc (by
            rw [hcol_old p hp', hpc, hdl] at hadj
            rcases hadj with a | ⟨a, d⟩
            · exact Or.inl a.flip
            · exact Or.inr ⟨a.turn, d⟩)
          rw [if_pos (hin _ (List.mem_cons_of_mem _ hpin)),
            if_pos (hin _ (List.mem_cons_self _ _))]
        · have hqc : color_at cl q.1 q.2 = color := by
            rw [← hcol_old q hq', ← hc1]; exact hcol_new
          have hqin := hN2 q hq' hqc (by
            rw [hcol_new, hdl] at hadj
            exact hadj)
          rw [if_pos (hin _ (List.mem_cons_of_mem _ hqin)),
            if_pos (hin _ (List.mem_cons_self _ _))]
        · rfl }

theorem GenInv.at_entry {cl : cluster} (h : Ready cl) : GenInv cl 0 cl (fun i => i) where
  rows_eq := rfl
  cols_eq := rfl
  p_eq := rfl
  dw_eq := rfl
  db_eq := rfl
  iter_eq := rfl
  ws_eq := rfl
  bs_eq := rfl
  wr_eq := rfl
  br_eq := rfl
  wh_eq := rfl
  bh_eq := rfl
  rng_ne := h.rng_ne
  rng_lt := h.rng_lt
  border_row := h.border_row
  border_col := h.border_col
  color_ok := fun _ hp => absurd hp.2 (Nat.not_lt_zero _)
  forest := fun _ hi => absurd hi (Nat.not_lt_zero _)
  sound := fun _ _ hp => absurd hp.2 (Nat.not_lt_zero _)
  complete := fun _ _ hp => absurd hp.1.2 (Nat.not_lt_zero _)

theorem GenInv.row_loop {cl0 : cluster} {fuel r : Nat} (hsz : (cl0.rows + 2) * (cl0.cols + 1) < 2 ^ 32)
    (hr : r < cl0.rows) (hf : cl0.rows * cl0.cols + 2 ≤ fuel) :
    ∀ n, n ≤ cl0.cols → ∀ cl rt, GenInv cl0 (label_of cl0.cols r 0) cl rt →
      ∃ cl' rt', (List.range n).foldlM (fun cl2 c => iterate_cell fuel r c cl2) cl = some cl' ∧
        GenInv cl0 (label_of cl0.cols r n) cl' rt' := by
  intro n
  induction n with
  | zero =>
    intro _ cl rt h
    exact ⟨cl, rt, by simp, h⟩
  | succ n ih =>
    intro hn cl rt h
    obtain ⟨cl1, rt1, e1, h1⟩ := ih (by omega) cl rt h
    have hc1 := h1.cols_eq
    have hr1 := h1.rows_eq
    rw [← hc1] at h1
    obtain ⟨cl2, rt2, e2, h2⟩ := @GenInv.cell_step cl0 cl1 rt1 r n fuel h1
      (by rw [hc1, hr1]; exact hsz) (by rw [hr1]; exact hr) (by rw [hc1]; omega)
      (by rw [hc1, hr1]; exact hf)
    refine ⟨cl2, rt2, ?_, ?_⟩
    · rw [List.range_succ, List.foldlM_append, e1]
      simp only [Option.bind_eq_bind, Option.some_bind, List.foldlM_cons, List.foldlM_nil]
      rw [e2]; rfl
    · rw [hc1] at h2; exact h2

theorem GenInv.grid_loop {cl0 : cluster} {fuel : Nat} (hsz : (cl0.rows + 2) * (cl0.cols + 1) < 2 ^ 32)
    (hf : cl0.rows * cl0.cols + 2 ≤ fuel) :
    ∀ n, n ≤ cl0.rows → ∀ cl rt, GenInv cl0 0 cl rt →
      ∃ cl' rt', (List.range n).foldlM
          (fun cl1 r => (List.range cl0.cols).foldlM (fun cl2 c => iterate_cell fuel r c cl2) cl1)
          cl = some cl' ∧
        GenInv cl0 (label_of cl0.cols n 0) cl' rt' := by
  intro n
  induction n with
  | zero =>
    intro _ cl rt h
    exact ⟨cl, rt, by simp, by simpa [label_of] using h⟩
  | succ n ih =>
    intro hn cl rt h
    obtain ⟨cl1, rt1, e1, h1⟩ := ih (by omega) cl rt h
    obtain ⟨cl2, rt2, e2, h2⟩ := GenInv.row_loop hsz (r := n) (by omega) hf cl0.cols (le_refl _) cl1 rt1 h1
    refine ⟨cl2, rt2, ?_, ?_⟩
    · rw [List.range_succ, List.foldlM_append, e1]
      simp only [Option.bind_eq_bind, Option.some_bind, List.foldlM_cons, List.foldlM_nil]
      rw [e2]; rfl
    · have : label_of cl0.cols (n + 1) 0 = label_of cl0.cols n cl0.cols := by
        unfold label_of; ring
      rw [this]; exact h2

/-- The generation loops of `iterate` return, and establish the invariant for the whole grid. -/
theorem iterate_generate_spec {cl : cluster} (h : Ready cl) {fuel : Nat}
    (hf : cl.rows * cl.cols + 2 ≤ fuel) :
    ∃ cl1 rt, iterate_generate fuel cl = some cl1 ∧ GenInv cl (cl.rows * cl.cols) cl1 rt := by
  obtain ⟨cl1, rt, e, h1⟩ := GenInv.grid_loop h.size_ok hf cl.rows (le_refl _) cl _ (GenInv.at_entry h)
  refine ⟨cl1, rt, e, ?_⟩
  simpa [label_of] using h1

theorem label_color_label_of {cl : cluster} {r c : Nat} (hc : c < cl.cols) :
    label_color cl (label_of cl.cols r c) = color_at cl r c := by
  unfold label_color label_of
  have h1 : (r * cl.cols + c) / cl.cols = r := by
    rw [Nat.add_comm, Nat.add_mul_div_right _ _ (by omega), Nat.div_eq_of_lt hc, Nat.zero_add]
  have h2 : (r * cl.cols + c) % cl.cols = c := by
    rw [Nat.add_comm, Nat.add_mul_mod_self_right, Nat.mod_eq_of_lt hc]
  rw [h1, h2]

theorem root_count_succ (cl : cluster) (rt : Nat → Nat) (color n x : Nat) :
    root_count cl rt color (n + 1) x =
      root_count cl rt color n x + (if label_color cl n = color ∧ rt n = x then 1 else 0) := by
  unfold root_count
  rw [List.range_succ, List.countP_append, List.countP_singleton]
  congr 1
  by_cases h1 : label_color cl n = color <;> by_cases h2 : rt n = x <;> simp [h1, h2]

theorem root_count_le (cl : cluster) (rt : Nat → Nat) (color n x : Nat) :
    root_count cl rt color n x ≤ n := by
  unfold root_count
  exact (List.countP_le_length _).trans (by simp)

theorem Forest.flatten_keeps {n : Nat} {djs rt : Nat → Nat} (h : Forest n djs rt) {i fuel : Nat}
    (hi : i < n) (hf : n + 2 ≤ fuel) :
    ∃ djs', djs_flatten fuel djs i = some (rt i, djs') ∧ Forest n djs' rt ∧ djs' i = rt i ∧
      (∀ x, x < n → djs x = rt x → djs' x = rt x) ∧ (∀ x, djs' x = djs x ∨ djs' x = rt i) := by
  have hr := h.root_eq hi (show n ≤ fuel by omega)
  obtain ⟨djs', e, hF, hweak, hset, hstrong⟩ :=
    h.path_attach hi (h i hi).2.1 (h.root_is_root hi) hf
  refine ⟨djs', ?_, ?_, hset, ?_, hweak⟩
  · simp [Percolation.djs_flatten, hr, e]
  · apply hF.congr
    intro y _
    show rt y = if rt y = rt i then rt i else rt y
    by_cases e : rt y = rt i
    · rw [if_pos e, e]
    · rw [if_neg e]
  · intro x hx hxe
    rcases hstrong x hx with e1 | ⟨e1, e2⟩
    · rw [e1, hxe]
    · rw [e1, e2]

theorem CountInv.count_step {cl1 cl : cluster} {rt : Nat → Nat} {r c fuel : Nat}
    (h : CountInv cl1 rt (label_of cl1.cols r c) cl)
    (hsz : (cl1.rows + 2) * (cl1.cols + 1) < 2 ^ 32) (hr : r < cl1.rows) (hc : c < cl1.cols)
    (hcol : color_at cl1 r c = CLUSTER_WHITE ∨ color_at cl1 r c = CLUSTER_BLACK)
    (hf : cl1.rows * cl1.cols + 2 ≤ fuel) :
    ∃ cl', count_cell fuel r c cl = some cl' ∧ CountInv cl1 rt (label_of cl1.cols r c + 1) cl' := by
  obtain ⟨g1, g2, g3⟩ := grid_facts hsz hr hc
  have g3' : label_of cl1.cols r c < cl1.rows * cl1.cols := g3
  have hcur := curr_row_of_eq hsz hr (show 0 < cl1.cols by omega)
  have hlab := label_eq hsz hr hc
  have hidx : map_index cl1.cols r 0 + c = map_index cl1.cols r c := by
    unfold map_index; ring
  obtain ⟨djs', e, hF, hset, hkeep, _⟩ := h.forest.flatten_keeps g3' (show _ ≤ fuel by omega)
  have hrt := (h.forest _ g3').2.1
  have hlc := @label_color_label_of cl1 r c hc
  have hflat : ∀ j, j < label_of cl1.cols r c + 1 → djs' j = rt j := by
    intro j hj
    by_cases e : j = label_of cl1.cols r c
    · rw [e]; exact hset
    · exact hkeep j (by omega) (h.flat j (by omega))
  have hu : ∀ color x, u32 (root_count cl1 rt color (label_of cl1.cols r c) x + 1) =
      root_count cl1 rt color (label_of cl1.cols r c) x + 1 := by
    intro color x
    have := root_count_le cl1 rt color (label_of cl1.cols r c) x
    exact u32_of_lt (by omega)
  have hshape : count_cell fuel r c cl =
      (if color_at cl1 r c = CLUSTER_WHITE then
        some { cl with djs := djs',
                       white_roots := Function.update cl.white_roots (rt (label_of cl1.cols r c))
                         (u32 (cl.white_roots (rt (label_of cl1.cols r c)) + 1)) }
      else if color_at cl1 r c = CLUSTER_BLACK then
        some { cl with djs := djs',
                       black_roots := Function.update cl.black_roots (rt (label_of cl1.cols r c))
                         (u32 (cl.black_roots (rt (label_of cl1.cols r c)) + 1)) }
      else none) := by
    simp only [count_cell, h.cols_eq]
    rw [hcur, hlab, hidx, e]
    simp only [Option.bind_eq_bind, Option.some_bind, Option.pure_def, h.map_eq, color_at]
  rcases hcol with hw | hb
  · rw [if_pos hw] at hshape
    refine ⟨_, hshape, ?_⟩
    exact
      { rng_eq := h.rng_eq, rows_eq := h.rows_eq, cols_eq := h.cols_eq, p_eq := h.p_eq
        dw_eq := h.dw_eq, db_eq := h.db_eq, iter_eq := h.iter_eq, ws_eq := h.ws_eq
        bs_eq := h.bs_eq, wh_eq := h.wh_eq, bh_eq := h.bh_eq, map_eq := h.map_eq
        forest := hF
        flat := hflat
        white := by
          intro x hx
          show Function.update cl.white_roots _ _ x = _
          rw [root_count_succ, hlc, hw]
          by_cases ex : x = rt (label_of cl1.cols r c)
          · subst ex
            rw [Function.update_same, h.white _ (by omega), hu]
            simp
          · rw [Function.update_noteq ex, h.white x hx]
            have : ¬ (CLUSTER_WHITE = CLUSTER_WHITE ∧ rt (label_of cl1.cols r c) = x) :=
              fun hh => ex hh.2.symm
            rw [if_neg this]
            rfl
        black := by
          intro x hx
          show cl.black_roots x = _
          rw [root_count_succ, hlc, hw, h.black x hx]
          have : ¬ (CLUSTER_WHITE = CLUSTER_BLACK ∧ rt (label_of cl1.cols r c) = x) :=
            fun hh => absurd hh.1 (by decide)
          rw [if_neg this]
          rfl }
  · have hnw : ¬ color_at cl1 r c = CLUSTER_WHITE := by rw [hb]; decide
    rw [if_neg hnw, if_pos hb] at hshape
    refine ⟨_, hshape, ?_⟩
    exact
      { rng_eq := h.rng_eq, rows_eq := h.rows_eq, cols_eq := h.cols_eq, p_eq := h.p_eq
        dw_eq := h.dw_eq, db_eq := h.db_eq, iter_eq := h.iter_eq, ws_eq := h.ws_eq
        bs_eq := h.bs_eq, wh_eq := h.wh_eq, bh_eq := h.bh_eq, map_eq := h.map_eq
        forest := hF
        flat := hflat
        black := by
          intro x hx
          show Function.update cl.black_roots _ _ x = _
          rw [root_count_succ, hlc, hb]
          by_cases ex : x = rt (label_of cl1.cols r c)
          · subst ex
            rw [Function.update_same, h.black _ (by omega), hu]
            simp
          · rw [Function.update_noteq ex, h.black x hx]
            have : ¬ (CLUSTER_BLACK = CLUSTER_BLACK ∧ rt (label_of cl1.cols r c) = x) :=
              fun hh => ex hh.2.symm
            rw [if_neg this]
            rfl
        white := by
          intro x hx
          show cl.white_roots x = _
          rw [root_count_succ, hlc, hb, h.white x hx]
          have : ¬ (CLUSTER_BLACK = CLUSTER_WHITE ∧ rt (label_of cl1.cols r c) = x) :=
            fun hh => absurd hh.1 (by decide)
          rw [if_neg this]
          rfl }

theorem CountInv.count_row {cl1 : cluster} {rt : Nat → Nat} {fuel r : Nat}
    (hsz : (cl1.rows + 2) * (cl1.cols + 1) < 2 ^ 32) (hr : r < cl1.rows)
    (hcol : ∀ c, c < cl1.cols →
      color_at cl1 r c = CLUSTER_WHITE ∨ color_at cl1 r c = CLUSTER_BLACK)
    (hf : cl1.rows * cl1.cols + 2 ≤ fuel) :
    ∀ n, n ≤ cl1.cols → ∀ cl, CountInv cl1 rt (label_of cl1.cols r 0) cl →
      ∃ cl', (List.range n).foldlM (fun cl2 c => count_cell fuel r c cl2) cl = some cl' ∧
        CountInv cl1 rt (label_of cl1.cols r n) cl' := by
  intro n
  induction n with
  | zero =>
    intro _ cl h
    exact ⟨cl, by simp, h⟩
  | succ n ih =>
    intro hn cl h
    obtain ⟨cl2, e1, h1⟩ := ih (by omega) cl h
    obtain ⟨cl3, e2, h2⟩ := @CountInv.count_step cl1 cl2 rt r n fuel h1 hsz hr (show n < cl1.cols by omega)
      (hcol n (by omega)) hf
    refine ⟨cl3, ?_, h2⟩
    rw [List.range_succ, List.foldlM_append, e1]
    simp only [Option.bind_eq_bind, Option.some_bind, List.foldlM_cons, List.foldlM_nil]
    rw [e2]; rfl

theorem CountInv.count_grid {cl1 : cluster} {rt : Nat → Nat} {fuel : Nat}
    (hsz : (cl1.rows + 2) * (cl1.cols + 1) < 2 ^ 32)
    (hcol : ∀ r c, r < cl1.rows → c < cl1.cols →
      color_at cl1 r c = CLUSTER_WHITE ∨ color_at cl1 r c = CLUSTER_BLACK)
    (hf : cl1.rows * cl1.cols + 2 ≤ fuel) :
    ∀ n, n ≤ cl1.rows → ∀ cl, CountInv cl1 rt 0 cl →
      ∃ cl', (List.range n).foldlM
          (fun cl2 r => (List.range cl1.cols).foldlM (fun cl3 c => count_cell fuel r c cl3) cl2)
          cl = some cl' ∧
        CountInv cl1 rt (label_of cl1.cols n 0) cl' := by
  intro n
  induction n with
  | zero =>
    intro _ cl h
    exact ⟨cl, by simp, by simpa [label_of] using h⟩
  | succ n ih =>
    intro hn cl h
    obtain ⟨cl2, e1, h1⟩ := ih (by omega) cl h
    obtain ⟨cl3, e2, h2⟩ := @CountInv.count_row cl1 rt fuel n hsz (by omega)
      (fun c hc => hcol n c (by omega) hc) hf cl1.cols (le_refl _) cl2 h1
    refine ⟨cl3, ?_, ?_⟩
    · rw [List.range_succ, List.foldlM_append, e1]
      simp only [Option.bind_eq_bind, Option.some_bind, List.foldlM_cons, List.foldlM_nil]
      rw [e2]; rfl
    · have : label_of cl1.cols (n + 1) 0 = label_of cl1.cols n cl1.cols := by
        unfold label_of; ring
      rw [this]; exact h2

theorem done_all_iff {rows cols : Nat} (p : Nat × Nat) :
    Done cols (rows * cols) p ↔ p.1 < rows ∧ p.2 < cols := by
  unfold Done label_of
  constructor
  · rintro ⟨h1, h2⟩
    refine ⟨?_, h1⟩
    by_contra hge
    have : rows * cols ≤ p.1 * cols := Nat.mul_le_mul_right _ (by omega)
    omega
  · rintro ⟨h1, h2⟩
    refine ⟨h2, ?_⟩
    have : (p.1 + 1) * cols ≤ rows * cols := Nat.mul_le_mul_right _ h1
    have e : (p.1 + 1) * cols = p.1 * cols + cols := by ring
    omega

/-- The counting loops of `iterate` return; afterwards every label is flattened and
the two `roots` arrays hold the per-colour occurrence counts of the roots. -/
theorem iterate_count_spec {cl1 : cluster} {rt : Nat → Nat}
    (hsz : (cl1.rows + 2) * (cl1.cols + 1) < 2 ^ 32)
    (hF : Forest (cl1.rows * cl1.cols) cl1.djs rt)
    (hcol : ∀ r c, r < cl1.rows → c < cl1.cols →
      color_at cl1 r c = CLUSTER_WHITE ∨ color_at cl1 r c = CLUSTER_BLACK)
    {fuel : Nat} (hf : cl1.rows * cl1.cols + 2 ≤ fuel) :
    ∃ cl2, iterate_count fuel cl1 = some cl2 ∧ CountInv cl1 rt (cl1.rows * cl1.cols) cl2 := by
  have hN : (cl1.rows + 2) * (cl1.cols + 1) = cl1.rows * cl1.cols + cl1.rows + 2 * cl1.cols + 2 := by
    ring
  have hlabels : u32 (u32 (cl1.rows * cl1.cols) + 2) = cl1.rows * cl1.cols + 2 := by
    rw [u32_of_lt (show cl1.rows * cl1.cols < 2 ^ 32 by omega), u32_of_lt (by omega)]
  have hinit : CountInv cl1 rt 0
      { cl1 with white_roots := memset_zero (u32 (u32 (cl1.rows * cl1.cols) + 2)) cl1.white_roots,
                 black_roots := memset_zero (u32 (u32 (cl1.rows * cl1.cols) + 2)) cl1.black_roots } :=
    { rng_eq := rfl, rows_eq := rfl, cols_eq := rfl, p_eq := rfl, dw_eq := rfl, db_eq := rfl
      iter_eq := rfl, ws_eq := rfl, bs_eq := rfl, wh_eq := rfl, bh_eq := rfl, map_eq := rfl
      forest := hF
      flat := fun j hj => absurd hj (Nat.not_lt_zero _)
      white := by
        intro x hx
        show memset_zero _ _ x = _
        rw [hlabels]
        simp [memset_zero, hx, root_count]
      black := by
        intro x hx
        show memset_zero _ _ x = _
        rw [hlabels]
        simp [memset_zero, hx, root_count] }
  obtain ⟨cl2, e, h2⟩ := CountInv.count_grid hsz hcol hf cl1.rows (le_refl _) _ hinit
  refine ⟨cl2, e, ?_⟩
  simpa [label_of] using h2

theorem histogram_fold (root_count : Nat → Nat) (k : Nat) :
    ∀ (l : List Nat) (h : Nat → Nat),
      h k + l.countP (fun i => root_count i == k) < 2 ^ 64 →
      l.foldl (fun h i => Function.update h (root_count i) (u64 (h (root_count i) + 1))) h k =
        h k + l.countP (fun i => root_count i == k) := by
  intro l
  induction l with
  | nil => intro h _; simp
  | cons i l ih =>
    intro h hlt
    rw [List.foldl_cons]
    by_cases e : root_count i = k
    · have e' : (i :: l).countP (fun i => root_count i == k) =
          l.countP (fun i => root_count i == k) + 1 := by
        simp [List.countP_cons, e]
      rw [e'] at hlt ⊢
      have hk : Function.update h (root_count i) (u64 (h (root_count i) + 1)) k = h k + 1 := by
        rw [e, Function.update_same]
        exact u64_of_lt (by omega)
      rw [ih _ (by rw [hk]; omega), hk]
      omega
    · have e' : (i :: l).countP (fun i => root_count i == k) =
          l.countP (fun i => root_count i == k) := by
        simp [List.countP_cons, e]
      rw [e'] at hlt ⊢
      have hk : Function.update h (root_count i) (u64 (h (root_count i) + 1)) k = h k := by
        rw [Function.update_noteq (fun hh => e hh.symm)]
      rw [ih _ (by rw [hk]; exact hlt), hk]

theorem histogram_collect_spec (n : Nat) (root_count h : Nat → Nat) (k : Nat)
    (hlt : h k + (List.range n).countP (fun i => root_count i == k) < 2 ^ 64) :
    histogram_collect n root_count h k =
      h k + (List.range n).countP (fun i => root_count i == k) := by
  unfold histogram_collect
  have hp : (List.range n).reverse.countP (fun i => root_count i == k) =
      (List.range n).countP (fun i => root_count i == k) :=
    (List.reverse_perm _).countP_eq _
  rw [histogram_fold root_count k _ h (by rw [hp]; exact hlt), hp]

theorem cell_of_label {rows cols i : Nat} (hi : i < rows * cols) :
    i / cols < rows ∧ i % cols < cols ∧ label_of cols (i / cols) (i % cols) = i := by
  have hc : 0 < cols := by
    rcases Nat.eq_zero_or_pos cols with h | h
    · subst h; simp at hi
    · exact h
  refine ⟨?_, Nat.mod_lt _ hc, ?_⟩
  · exact Nat.div_lt_of_lt_mul (by rw [Nat.mul_comm]; exact hi)
  · unfold label_of
    rw [Nat.mul_comm]; exact Nat.div_add_mod i cols

theorem mayJoin_path_color {cl : cluster} {m : Nat} {p q : Nat × Nat}
    (hpath : Relation.ReflTransGen (MayJoin cl m) p q) :
    color_at cl p.1 p.2 = color_at cl q.1 q.2 := by
  induction hpath with
  | refl => rfl
  | tail _ hstep ih => exact ih.trans hstep.2.2.1

/-- Colour consistency of the partition built by the generation loops. -/
theorem GenInv.color_eq {cl0 cl1 : cluster} {rt : Nat → Nat}
    (h : GenInv cl0 (cl1.rows * cl1.cols) cl1 rt) {i j : Nat}
    (hi : i < cl1.rows * cl1.cols) (hj : j < cl1.rows * cl1.cols) (e : rt i = rt j) :
    label_color cl1 i = label_color cl1 j := by
  obtain ⟨a1, a2, a3⟩ := cell_of_label hi
  obtain ⟨b1, b2, b3⟩ := cell_of_label hj
  have hp : Done cl1.cols (cl1.rows * cl1.cols) (i / cl1.cols, i % cl1.cols) :=
    (done_all_iff _).2 ⟨a1, a2⟩
  have hq : Done cl1.cols (cl1.rows * cl1.cols) (j / cl1.cols, j % cl1.cols) :=
    (done_all_iff _).2 ⟨b1, b2⟩
  have hpath := h.sound _ _ hp hq (by simp only [a3, b3]; exact e)
  exact mayJoin_path_color hpath

theorem countP_range_eq_card (n : Nat) (p : Nat → Bool) :
    (List.range n).countP p = ((Finset.range n).filter (fun i => p i = true)).card := by
  induction n with
  | zero => simp
  | succ n ih =>
    rw [List.range_succ, List.countP_append, ih, Finset.range_succ, Finset.filter_insert]
    by_cases h : p n = true
    · rw [if_pos h, Finset.card_insert_of_not_mem (by simp)]
      simp [h]
    · rw [if_neg h]
      simp [h]

theorem FlatPart.count_iff {n : Nat} {djs col : Nat → Nat} (h : FlatPart n djs col)
    (color : Nat) {k : Nat} (hk : 1 ≤ k) {j : Nat} :
    (List.range n).countP (fun i => col i == color && djs i == j) = k ↔
      j < n ∧ djs j = j ∧ col j = color ∧ (List.range n).countP (fun i => djs i == j) = k := by
  have hcongr : djs j = j → col j = color → j < n →
      (List.range n).countP (fun i => col i == color && djs i == j) =
        (List.range n).countP (fun i => djs i == j) := by
    intro h1 h2 h3
    apply List.countP_congr
    intro i hi
    have hi' : i < n := List.mem_range.1 hi
    simp only [Bool.and_eq_true, beq_iff_eq]
    constructor
    · intro hh; exact hh.2
    · intro hh
      refine ⟨?_, hh⟩
      rw [← h.colr i hi', hh, h2]
  constructor
  · intro e
    have hpos : 0 < (List.range n).countP (fun i => col i == color && djs i == j) := by omega
    obtain ⟨i, hi, hp⟩ := List.countP_pos_iff.1 hpos
    have hi' : i < n := List.mem_range.1 hi
    simp only [Bool.and_eq_true, beq_iff_eq] at hp
    have hj : j < n := by rw [← hp.2]; exact h.lt i hi'
    have h1 : djs j = j := by rw [← hp.2]; exact h.idem i hi'
    have h2 : col j = color := by rw [← hp.2, h.colr i hi']; exact hp.1
    exact ⟨hj, h1, h2, by rw [← hcongr h1 h2 hj]; exact e⟩
  · rintro ⟨h1, h2, h3, h4⟩
    rw [hcongr h2 h3 h1]; exact h4

/-- The number of labels whose per-colour occurrence count is `k` is the number of
clusters of that colour with `k` cells. -/
theorem FlatPart.count_roots {n : Nat} {djs col : Nat → Nat} (h : FlatPart n djs col)
    (color : Nat) {k : Nat} (hk : 1 ≤ k) :
    (List.range (n + 1)).countP
        (fun j => (List.range n).countP (fun i => col i == color && djs i == j) == k) =
      (List.range n).countP
        (fun x => djs x == x && col x == color &&
          (List.range n).countP (fun i => djs i == x) == k) := by
  rw [List.range_succ, List.countP_append]
  have hlast : ¬ (List.range n).countP (fun i => col i == color && djs i == n) = k := by
    intro e
    have := ((h.count_iff color hk).1 e).1
    omega
  have : List.countP (fun j => (List.range n).countP (fun i => col i == color && djs i == j) == k)
      [n] = 0 := by
    simp [List.countP_cons, hlast]
  rw [this, Nat.add_zero]
  apply List.countP_congr
  intro j hj
  have hj' : j < n := List.mem_range.1 hj
  simp only [Bool.and_eq_true, beq_iff_eq]
  rw [h.count_iff color hk]
  constructor
  · rintro ⟨_, a, b, c⟩; exact ⟨⟨a, b⟩, c⟩
  · rintro ⟨⟨a, b⟩, c⟩; exact ⟨hj', a, b, c⟩

/-- Mass conservation for a flattened partition: sizes times numbers of clusters of a
colour add up to the number of labels of that colour. -/
theorem FlatPart.mass {n : Nat} {djs col : Nat → Nat} (h : FlatPart n djs col) (color : Nat) :
    ∑ k in Finset.Icc 1 n, k * (List.range n).countP
        (fun x => djs x == x && col x == color &&
          (List.range n).countP (fun i => djs i == x) == k) =
      (List.range n).countP (fun i => col i == color) := by
  classical
  set S := Finset.range n with hS
  set T := S.filter (fun x => djs x = x ∧ col x = color) with hT
  set size : Nat → Nat := fun x => (S.filter (fun i => djs i = x)).card with hsize
  have hsz : ∀ x, (List.range n).countP (fun i => djs i == x) = size x := by
    intro x
    rw [countP_range_eq_card]
    simp only [beq_iff_eq, hsize, hS]
  have hcc : ∀ k, (List.range n).countP
      (fun x => djs x == x && col x == color &&
        (List.range n).countP (fun i => djs i == x) == k) = (T.filter (fun x => size x = k)).card := by
    intro k
    rw [countP_range_eq_card]
    congr 1
    ext x
    simp only [Bool.and_eq_true, beq_iff_eq, Finset.mem_filter, hT, hsz, hS]
    tauto
  have hfill : (List.range n).countP (fun i => col i == color) =
      (S.filter (fun i => col i = color)).card := by
    rw [countP_range_eq_card]
    simp only [beq_iff_eq, hS]
  simp only [hcc, hfill]
  have hmaps : ∀ x ∈ T, size x ∈ Finset.Icc 1 n := by
    intro x hx
    simp only [hT, Finset.mem_filter, hS, Finset.mem_range] at hx
    simp only [Finset.mem_Icc, hsize]
    constructor
    · apply Finset.card_pos.2
      exact ⟨x, by simp [hS, hx.1, hx.2.1]⟩
    · calc (S.filter (fun i => djs i = x)).card ≤ S.card := Finset.card_filter_le _ _
        _ = n := by simp [hS]
  have step1 : ∀ k ∈ Finset.Icc 1 n, k * (T.filter (fun x => size x = k)).card =
      ∑ x in T.filter (fun x => size x = k), size x := by
    intro k _
    rw [Finset.sum_const_nat (m := k) (by intro x hx; exact (Finset.mem_filter.1 hx).2)]
    exact Nat.mul_comm _ _
  rw [Finset.sum_congr rfl step1, Finset.sum_fiberwise_of_maps_to hmaps]
  have hfib : ∀ b ∈ T, ((S.filter (fun i => djs i ∈ T)).filter (fun i => djs i = b)).card =
      size b := by
    intro b hb
    simp only [hsize]
    congr 1
    ext i
    simp only [Finset.mem_filter]
    constructor
    · rintro ⟨⟨a, _⟩, c⟩; exact ⟨a, c⟩
    · rintro ⟨a, c⟩; exact ⟨⟨a, by rw [c]; exact hb⟩, c⟩
  have hcard := Finset.card_eq_sum_card_fiberwise (s := S.filter (fun i => djs i ∈ T)) (t := T)
    (f := djs) (by intro x hx; exact (Finset.mem_filter.1 hx).2)
  rw [Finset.sum_congr rfl hfib] at hcard
  rw [← hcard]
  congr 1
  ext i
  simp only [Finset.mem_filter, hT, hS, Finset.mem_range]
  constructor
  · rintro ⟨a, _, _, d⟩
    exact ⟨a, by rw [← h.colr i a]; exact d⟩
  · rintro ⟨a, d⟩
    exact ⟨a, h.lt i a, h.idem i a, by rw [h.colr i a]; exact d⟩

theorem compare_le_iff (a b : Nat) : decide (compare_cluster_label a b ≤ 0) = true ↔ a ≤ b := by
  unfold compare_cluster_label
  rw [decide_eq_true_iff]
  by_cases h1 : a < b
  · simp [h1]; omega
  · by_cases h2 : a > b
    · simp [h1, h2]
    · simp [h1, h2]; omega

theorem qsort_sorted (l : List Nat) : (qsort l).Sorted (· ≤ ·) := by
  have ht : IsTotal Nat (fun a b => decide (compare_cluster_label a b ≤ 0) = true) :=
    ⟨fun a b => by simp only [compare_le_iff]; exact Nat.le_total a b⟩
  have htr : IsTrans Nat (fun a b => decide (compare_cluster_label a b ≤ 0) = true) :=
    ⟨fun a b c => by simp only [compare_le_iff]; exact Nat.le_trans⟩
  have := List.sorted_insertionSort (fun a b => decide (compare_cluster_label a b ≤ 0) = true) l
  exact List.Pairwise.imp (fun h => (compare_le_iff _ _).1 h) this

theorem qsort_perm (l : List Nat) : (qsort l).Perm l :=
  List.perm_insertionSort _ l

theorem mem_dropWhile_of_not {p : Nat → Bool} {x : Nat} :
    ∀ {l : List Nat}, x ∈ l → p x = false → x ∈ l.dropWhile p := by
  intro l
  induction l with
  | nil => intro h; simp at h
  | cons a l ih =>
    intro h hp
    rw [List.dropWhile_cons]
    by_cases ha : p a = true
    · rw [if_pos ha]
      rcases List.mem_cons.1 h with e | e
      · rw [e, ha] at hp; exact absurd hp (by simp)
      · exact ih e hp
    · rw [if_neg ha]; exact h

theorem scan_drop {a b : Nat} {as bs : List Nat}
    (h2 : (b :: bs).Sorted (· ≤ ·)) :
    (∃ x, x ∈ (a :: as).dropWhile (fun x => decide (x < b)) ∧ x ∈ b :: bs) ↔
      (∃ x, x ∈ a :: as ∧ x ∈ b :: bs) := by
  constructor
  · rintro ⟨x, h, h'⟩
    exact ⟨x, (List.dropWhile_sublist _).subset h, h'⟩
  · rintro ⟨x, h, h'⟩
    refine ⟨x, mem_dropWhile_of_not h ?_, h'⟩
    have hbx : b ≤ x := by
      rcases List.mem_cons.1 h' with e | e
      · omega
      · exact List.rel_of_sorted_cons h2 x e
    simp only [decide_eq_false_iff_not]
    omega

theorem same_labels_scan_spec :
    ∀ (fuel : Nat) (l1 l2 : List Nat), l1.Sorted (· ≤ ·) → l2.Sorted (· ≤ ·) →
      l1.length + l2.length + 1 ≤ fuel →
      same_labels_scan fuel l1 l2 = some (decide (∃ x, x ∈ l1 ∧ x ∈ l2)) := by
  intro fuel
  induction fuel with
  | zero => intro l1 l2 _ _ h; omega
  | succ fuel ih =>
    intro l1 l2 h1 h2 hf
    cases l1 with
    | nil => simp [same_labels_scan]
    | cons a as =>
      cases l2 with
      | nil => simp [same_labels_scan]
      | cons b bs =>
        rw [same_labels_scan]
        by_cases hab : a < b
        · rw [if_pos hab]
          have hlen : ((a :: as).dropWhile (fun x => decide (x < b))).length ≤ as.length := by
            rw [List.dropWhile_cons, if_pos (by simpa using hab)]
            exact (List.dropWhile_sublist _).length_le
          rw [ih _ _ (h1.sublist (List.dropWhile_sublist _)) h2
            (by simp only [List.length_cons] at hf ⊢; omega)]
          congr 1
          exact decide_eq_decide.2 (scan_drop h2)
        · rw [if_neg hab]
          by_cases hba : b < a
          · rw [if_pos hba]
            have hlen : ((b :: bs).dropWhile (fun x => decide (x < a))).length ≤ bs.length := by
              rw [List.dropWhile_cons, if_pos (by simpa using hba)]
              exact (List.dropWhile_sublist _).length_le
            rw [ih _ _ h1 (h2.sublist (List.dropWhile_sublist _))
              (by simp only [List.length_cons] at hf ⊢; omega)]
            congr 1
            apply decide_eq_decide.2
            have := @scan_drop b a bs as h1
            constructor
            · rintro ⟨x, p, q⟩
              obtain ⟨y, p', q'⟩ := this.1 ⟨x, q, p⟩
              exact ⟨y, q', p'⟩
            · rintro ⟨x, p, q⟩
              obtain ⟨y, p', q'⟩ := this.2 ⟨x, q, p⟩
              exact ⟨y, q', p'⟩
          · rw [if_neg hba]
            have e : a = b := by omega
            subst e
            congr 1
            symm
            rw [decide_eq_true_iff]
            exact ⟨a, by simp, by simp⟩

/-- The function `have_same_labels` returns, and decides whether the two ranges share a value. -/
theorem have_same_labels_spec (fuel : Nat) (l1 l2 : List Nat)
    (hf : l1.length + l2.length + 1 ≤ fuel) :
    ∃ s1 s2, have_same_labels fuel l1 l2 = some (decide (∃ x, x ∈ l1 ∧ x ∈ l2), s1, s2) ∧
      s1.Perm l1 ∧ s2.Perm l2 := by
  unfold have_same_labels
  by_cases h0 : l1.length = 0 ∨ l2.length = 0
  · rw [if_pos h0]
    refine ⟨l1, l2, ?_, List.Perm.refl _, List.Perm.refl _⟩
    have : ¬ ∃ x, x ∈ l1 ∧ x ∈ l2 := by
      rintro ⟨x, p, q⟩
      rcases h0 with e | e
      · rw [List.length_eq_zero] at e; rw [e] at p; simp at p
      · rw [List.length_eq_zero] at e; rw [e] at q; simp at q
    simp [this]
  · rw [if_neg h0]
    have hs : ∀ l : List Nat, (if 1 < l.length then qsort l else l).Sorted (· ≤ ·) ∧
        (if 1 < l.length then qsort l else l).Perm l := by
      intro l
      by_cases h : 1 < l.length
      · rw [if_pos h]; exact ⟨qsort_sorted l, qsort_perm l⟩
      · rw [if_neg h]
        refine ⟨?_, List.Perm.refl _⟩
        match l, h with
        | [], _ => exact List.sorted_nil
        | [a], _ => exact List.sorted_singleton a
        | _ :: _ :: _, h => simp at h
    obtain ⟨a1, p1⟩ := hs l1
    obtain ⟨a2, p2⟩ := hs l2
    refine ⟨_, _, ?_, p1, p2⟩
    show Option.map _ (same_labels_scan fuel (if 1 < l1.length then qsort l1 else l1)
      (if 1 < l2.length then qsort l2 else l2)) = _
    rw [same_labels_scan_spec fuel _ _ a1 a2 (by rw [p1.length_eq, p2.length_eq]; exact hf)]
    simp only [Option.map_some']
    congr 2
    apply decide_eq_decide.2
    constructor
    · rintro ⟨x, p, q⟩; exact ⟨x, p1.subset p, p2.subset q⟩
    · rintro ⟨x, p, q⟩; exact ⟨x, p1.symm.subset p, p2.symm.subset q⟩

theorem foldl_pair (P Q : Nat → Prop) [DecidablePred P] [DecidablePred Q] (f g : Nat → Nat) :
    ∀ (l : List Nat) (a : List Nat × List Nat),
      l.foldl (fun acc r => (if P r then acc.1 ++ [f r] else acc.1,
        if Q r then acc.2 ++ [g r] else acc.2)) a =
      (a.1 ++ (l.filter (fun r => decide (P r))).map f,
        a.2 ++ (l.filter (fun r => decide (Q r))).map g) := by
  intro l
  induction l with
  | nil => intro a; simp
  | cons r l ih =>
    intro a
    rw [List.foldl_cons, ih]
    by_cases hp : P r <;> by_cases hq : Q r <;> simp [hp, hq, List.filter_cons]

theorem span_lists_rows_eq {cl : cluster} (hsz : (cl.rows + 2) * (cl.cols + 1) < 2 ^ 32)
    (hc : 1 ≤ cl.cols) (color : Nat) :
    span_lists_rows cl color =
      (((List.range cl.rows).filter (fun r => decide (color_at cl r 0 = color))).map
          (fun r => cl.djs (label_of cl.cols r 0)),
        ((List.range cl.rows).filter (fun r => decide (color_at cl r (cl.cols - 1) = color))).map
          (fun r => cl.djs (label_of cl.cols r (cl.cols - 1)))) := by
  unfold span_lists_rows
  rw [List.foldl_ext _ (fun acc r =>
    (if color_at cl r 0 = color then acc.1 ++ [cl.djs (label_of cl.cols r 0)] else acc.1,
      if color_at cl r (cl.cols - 1) = color then
        acc.2 ++ [cl.djs (label_of cl.cols r (cl.cols - 1))] else acc.2))]
  · rw [foldl_pair]; simp
  · intro acc r hr
    have hr' : r < cl.rows := List.mem_range.1 hr
    obtain ⟨g1, g2, g3⟩ := grid_facts hsz hr' (show 0 < cl.cols by omega)
    have e0 : r * (cl.cols + 1) = r * cl.cols + r := by ring
    have e1 : (r + 1) * (cl.cols + 1) = r * cl.cols + r + cl.cols + 1 := by ring
    have hst : u32 (cl.cols + 1) = cl.cols + 1 := u32_of_lt (by omega)
    have hrs : u32 (r * (cl.cols + 1)) = r * (cl.cols + 1) := u32_of_lt (by omega)
    have ea : map_base cl.cols + u32 (r * u32 (cl.cols + 1)) = map_index cl.cols r 0 := by
      rw [hst, hrs]; unfold map_base map_index; omega
    have eb : u32 (r * cl.cols) = label_of cl.cols r 0 := by
      rw [u32_of_lt (by omega)]; rfl
    have ec : map_base cl.cols + sub32 (u32 (u32 (r * u32 (cl.cols + 1)) + cl.cols)) 1 =
        map_index cl.cols r (cl.cols - 1) := by
      rw [hst, hrs, u32_of_lt (by omega), sub32_of_le (by omega) (by omega)]
      unfold map_base map_index; omega
    have ed : sub32 (u32 (u32 (r * cl.cols) + cl.cols)) 1 = label_of cl.cols r (cl.cols - 1) := by
      rw [u32_of_lt (show r * cl.cols < 2 ^ 32 by omega), u32_of_lt (by omega),
        sub32_of_le (by omega) (by omega)]
      unfold label_of; omega
    simp only [color_at]
    rw [ea, ec, ed, eb]

theorem span_lists_cols_eq {cl : cluster} (hsz : (cl.rows + 2) * (cl.cols + 1) < 2 ^ 32)
    (hr : 1 ≤ cl.rows) (color : Nat) :
    span_lists_cols cl color =
      (((List.range cl.cols).filter (fun c => decide (color_at cl 0 c = color))).map
          (fun c => cl.djs (label_of cl.cols 0 c)),
        ((List.range cl.cols).filter (fun c => decide (color_at cl (cl.rows - 1) c = color))).map
          (fun c => cl.djs (label_of cl.cols (cl.rows - 1) c))) := by
  unfold span_lists_cols
  rw [List.foldl_ext _ (fun acc c =>
    (if color_at cl 0 c = color then acc.1 ++ [cl.djs (label_of cl.cols 0 c)] else acc.1,
      if color_at cl (cl.rows - 1) c = color then
        acc.2 ++ [cl.djs (label_of cl.cols (cl.rows - 1) c)] else acc.2))]
  · rw [foldl_pair]; simp
  · intro acc c hc
    have hc' : c < cl.cols := List.mem_range.1 hc
    obtain ⟨g1, g2, g3⟩ := grid_facts hsz (show cl.rows - 1 < cl.rows by omega) hc'
    have e0 : (cl.rows - 1) * (cl.cols + 1) = (cl.rows - 1) * cl.cols + (cl.rows - 1) := by ring
    have e1 : (cl.rows - 1 + 1) * (cl.cols + 1) =
        (cl.rows - 1) * cl.cols + (cl.rows - 1) + cl.cols + 1 := by ring
    have hst : u32 (cl.cols + 1) = cl.cols + 1 := u32_of_lt (by omega)
    have hs1 : sub32 cl.rows 1 = cl.rows - 1 := sub32_of_le hr (by omega)
    have hrs : u32 ((cl.rows - 1) * (cl.cols + 1)) = (cl.rows - 1) * (cl.cols + 1) :=
      u32_of_lt (by omega)
    have ea : map_base cl.cols + c = map_index cl.cols 0 c := by
      unfold map_base map_index; omega
    have eb : c = label_of cl.cols 0 c := by unfold label_of; omega
    have ec : map_base cl.cols + u32 (sub32 cl.rows 1 * u32 (cl.cols + 1)) + c =
        map_index cl.cols (cl.rows - 1) c := by
      rw [hst, hs1, hrs]; unfold map_base map_index; omega
    have ed : u32 (sub32 cl.rows 1 * cl.cols) + c = label_of cl.cols (cl.rows - 1) c := by
      rw [hs1, u32_of_lt (by omega)]; rfl
    simp only [ea, ec, ed, color_at]
    rw [← eb]

theorem common_rows_iff (cl : cluster) (color : Nat) :
    (∃ x, x ∈ ((List.range cl.rows).filter (fun r => decide (color_at cl r 0 = color))).map
          (fun r => cl.djs (label_of cl.cols r 0)) ∧
        x ∈ ((List.range cl.rows).filter
          (fun r => decide (color_at cl r (cl.cols - 1) = color))).map
          (fun r => cl.djs (label_of cl.cols r (cl.cols - 1)))) ↔ SpansRows cl color := by
  unfold SpansRows
  simp only [List.mem_map, List.mem_filter, List.mem_range, decide_eq_true_eq]
  constructor
  · rintro ⟨x, ⟨r1, ⟨a1, a2⟩, a3⟩, ⟨r2, ⟨b1, b2⟩, b3⟩⟩
    exact ⟨r1, r2, a1, b1, a2, b2, a3.trans b3.symm⟩
  · rintro ⟨r1, r2, a1, b1, a2, b2, e⟩
    exact ⟨_, ⟨r1, ⟨a1, a2⟩, rfl⟩, ⟨r2, ⟨b1, b2⟩, e.symm⟩⟩

theorem common_cols_iff (cl : cluster) (color : Nat) :
    (∃ x, x ∈ ((List.range cl.cols).filter (fun c => decide (color_at cl 0 c = color))).map
          (fun c => cl.djs (label_of cl.cols 0 c)) ∧
        x ∈ ((List.range cl.cols).filter
          (fun c => decide (color_at cl (cl.rows - 1) c = color))).map
          (fun c => cl.djs (label_of cl.cols (cl.rows - 1) c))) ↔ SpansCols cl color := by
  unfold SpansCols
  simp only [List.mem_map, List.mem_filter, List.mem_range, decide_eq_true_eq]
  constructor
  · rintro ⟨x, ⟨r1, ⟨a1, a2⟩, a3⟩, ⟨r2, ⟨b1, b2⟩, b3⟩⟩
    exact ⟨r1, r2, a1, b1, a2, b2, a3.trans b3.symm⟩
  · rintro ⟨r1, r2, a1, b1, a2, b2, e⟩
    exact ⟨_, ⟨r1, ⟨a1, a2⟩, rfl⟩, ⟨r2, ⟨b1, b2⟩, e.symm⟩⟩

theorem filter_map_length_le (n : Nat) (p : Nat → Bool) (f : Nat → Nat) :
    (((List.range n).filter p).map f).length ≤ n := by
  rw [List.length_map]
  exact (List.length_filter_le _ _).trans (by simp)

/-- One spanning check returns, and finds a span exactly when a cluster of the colour
joins the two opposite columns or the two opposite rows. -/
theorem span_check_spec {cl : cluster} (hsz : (cl.rows + 2) * (cl.cols + 1) < 2 ^ 32)
    (hr : 1 ≤ cl.rows) (hc : 1 ≤ cl.cols) (color : Nat) {fuel : Nat}
    (hf1 : 2 * cl.rows + 1 ≤ fuel) (hf2 : 2 * cl.cols + 1 ≤ fuel) :
    ∃ b wr br, span_check fuel cl color = some (b, wr, br) ∧
      (b = true ↔ SpansRows cl color ∨ SpansCols cl color) := by
  classical
  refine ⟨decide (SpansRows cl color ∨ SpansCols cl color), ?_⟩
  suffices hh : ∃ wr br, span_check fuel cl color =
      some (decide (SpansRows cl color ∨ SpansCols cl color), wr, br) by
    obtain ⟨wr, br, e⟩ := hh
    exact ⟨wr, br, e, by simp⟩
  unfold span_check
  rw [span_lists_rows_eq hsz hc, span_lists_cols_eq hsz hr]
  obtain ⟨s1, s2, e1, _⟩ := have_same_labels_spec fuel
    (((List.range cl.rows).filter (fun r => decide (color_at cl r 0 = color))).map
      (fun r => cl.djs (label_of cl.cols r 0)))
    (((List.range cl.rows).filter (fun r => decide (color_at cl r (cl.cols - 1) = color))).map
      (fun r => cl.djs (label_of cl.cols r (cl.cols - 1))))
    (by
      have := filter_map_length_le cl.rows (fun r => decide (color_at cl r 0 = color))
        (fun r => cl.djs (label_of cl.cols r 0))
      have := filter_map_length_le cl.rows (fun r => decide (color_at cl r (cl.cols - 1) = color))
        (fun r => cl.djs (label_of cl.cols r (cl.cols - 1)))
      omega)
  obtain ⟨t1, t2, e2, _⟩ := have_same_labels_spec fuel
    (((List.range cl.cols).filter (fun c => decide (color_at cl 0 c = color))).map
      (fun c => cl.djs (label_of cl.cols 0 c)))
    (((List.range cl.cols).filter (fun c => decide (color_at cl (cl.rows - 1) c = color))).map
      (fun c => cl.djs (label_of cl.cols (cl.rows - 1) c)))
    (by
      have := filter_map_length_le cl.cols (fun c => decide (color_at cl 0 c = color))
        (fun c => cl.djs (label_of cl.cols 0 c))
      have := filter_map_length_le cl.cols
        (fun c => decide (color_at cl (cl.rows - 1) c = color))
        (fun c => cl.djs (label_of cl.cols (cl.rows - 1) c))
      omega)
  simp only [e1, e2, Option.bind_eq_bind, Option.some_bind, Option.pure_def,
    common_rows_iff, common_cols_iff]
  by_cases h1 : SpansRows cl color
  · simp [h1]
  · simp [h1]

theorem mayJoin_congr {cl cl' : cluster} (h1 : cl'.cols = cl.cols) (h2 : cl'.map = cl.map)
    (h3 : cl'.d_white = cl.d_white) (h4 : cl'.d_black = cl.d_black) (m : Nat) :
    MayJoin cl' m = MayJoin cl m := by
  funext p q
  unfold MayJoin color_at diag_limit
  rw [h1, h2, h3, h4]

theorem mustJoin_congr {cl cl' : cluster} (h1 : cl'.cols = cl.cols) (h2 : cl'.map = cl.map)
    (h3 : cl'.d_white = cl.d_white) (h4 : cl'.d_black = cl.d_black) (m : Nat) :
    MustJoin cl' m = MustJoin cl m := by
  funext p q
  unfold MustJoin color_at diag_limit
  rw [h1, h2, h3, h4]

theorem label_color_congr {cl cl' : cluster} (h1 : cl'.cols = cl.cols) (h2 : cl'.map = cl.map) :
    label_color cl' = label_color cl := by
  funext i
  unfold label_color color_at
  rw [h1, h2]

/-- The per-colour count of flattened roots, read through the final parent array. -/
theorem cluster_count_eq {cl' cl1 : cluster} {rt : Nat → Nat} (hr : cl'.rows = cl1.rows)
    (hc : cl'.cols = cl1.cols) (hm : cl'.map = cl1.map)
    (hflat : ∀ j, j < cl1.rows * cl1.cols → cl'.djs j = rt j) (color k : Nat) :
    cluster_count cl' color k =
      (List.range (cl1.rows * cl1.cols)).countP
        (fun x => rt x == x && label_color cl1 x == color &&
          (List.range (cl1.rows * cl1.cols)).countP (fun i => rt i == x) == k) := by
  unfold cluster_count cluster_size
  rw [hr, hc, label_color_congr hc hm]
  apply List.countP_congr
  intro x hx
  have hx' := List.mem_range.1 hx
  have : (List.range (cl1.rows * cl1.cols)).countP (fun i => cl'.djs i == x) =
      (List.range (cl1.rows * cl1.cols)).countP (fun i => rt i == x) := by
    apply List.countP_congr
    intro i hi
    rw [hflat i (List.mem_range.1 hi)]
  rw [this, hflat x hx']

theorem iterate_spec {cl : cluster} (h : Ready cl) {fuel : Nat}
    (hf : 2 * (cl.rows * cl.cols) + 3 ≤ fuel) :
    ∃ cl', iterate fuel cl = some cl' ∧ IterPost cl cl' := by
  have hsz := h.size_ok
  have hN : (cl.rows + 2) * (cl.cols + 1) = cl.rows * cl.cols + cl.rows + 2 * cl.cols + 2 := by
    ring
  have hrN : cl.rows ≤ cl.rows * cl.cols := Nat.le_mul_of_pos_right _ h.cols_pos
  have hcN : cl.cols ≤ cl.rows * cl.cols := Nat.le_mul_of_pos_left _ h.rows_pos
  obtain ⟨cl1, rt, e1, g⟩ := @iterate_generate_spec cl h fuel (by omega)
  have hr1 := g.rows_eq
  have hc1 := g.cols_eq
  have hcol1 : ∀ r c, r < cl1.rows → c < cl1.cols →
      color_at cl1 r c = CLUSTER_WHITE ∨ color_at cl1 r c = CLUSTER_BLACK := by
    intro r c a b
    exact g.color_ok (r, c) (by rw [hc1]; exact (done_all_iff (r, c)).2 ⟨by omega, by omega⟩)
  have hF1 : Forest (cl1.rows * cl1.cols) cl1.djs rt := by rw [hr1, hc1]; exact g.forest
  have g' : GenInv cl (cl1.rows * cl1.cols) cl1 rt := by rw [hr1, hc1]; exact g
  obtain ⟨cl2, e2, k⟩ := @iterate_count_spec cl1 rt
    (by rw [hr1, hc1]; exact hsz) hF1 hcol1 fuel (by rw [hr1, hc1]; omega)
  have hsz2 : (cl2.rows + 2) * (cl2.cols + 1) < 2 ^ 32 := by
    rw [k.rows_eq, k.cols_eq, hr1, hc1]; exact hsz
  -- the two spanning checks
  obtain ⟨b1, wr1, br1, s1, hb1⟩ := @span_check_spec (iterate_histogram cl2) hsz2
    (by show 1 ≤ cl2.rows; rw [k.rows_eq, hr1]; exact h.rows_pos)
    (by show 1 ≤ cl2.cols; rw [k.cols_eq, hc1]; exact h.cols_pos) CLUSTER_WHITE fuel
    (by show 2 * cl2.rows + 1 ≤ fuel; rw [k.rows_eq, hr1]; omega)
    (by show 2 * cl2.cols + 1 ≤ fuel; rw [k.cols_eq, hc1]; omega)
  obtain ⟨b2, wr2, br2, s2, hb2⟩ := @span_check_spec
    ({ iterate_histogram cl2 with
      white_roots := wr1, black_roots := br1,
      white_spans := if b1 = true then u64 ((iterate_histogram cl2).white_spans + 1)
        else (iterate_histogram cl2).white_spans }) hsz2
    (by show 1 ≤ cl2.rows; rw [k.rows_eq, hr1]; exact h.rows_pos)
    (by show 1 ≤ cl2.cols; rw [k.cols_eq, hc1]; exact h.cols_pos) CLUSTER_BLACK fuel
    (by show 2 * cl2.rows + 1 ≤ fuel; rw [k.rows_eq, hr1]; omega)
    (by show 2 * cl2.cols + 1 ≤ fuel; rw [k.cols_eq, hc1]; omega)
  have hrun : iterate fuel cl = some
      { iterate_histogram cl2 with
        white_roots := wr2, black_roots := br2,
        white_spans := if b1 = true then u64 (cl2.white_spans + 1) else cl2.white_spans,
        black_spans := if b2 = true then u64 (cl2.black_spans + 1) else cl2.black_spans,
        iterations := u64 (cl2.iterations + 1) } := by
    simp only [iterate, e1, e2, iterate_spans, s1, s2, Option.bind_eq_bind, Option.some_bind,
      Option.pure_def]
    rfl
  refine ⟨_, hrun, ?_⟩
  · have hflat : ∀ j, j < cl1.rows * cl1.cols → cl2.djs j = rt j := k.flat
    have hpart : FlatPart (cl1.rows * cl1.cols) rt (label_color cl1) :=
      { lt := fun i hi => (hF1 i hi).2.1
        idem := fun i hi => hF1.rt_idem hi
        colr := fun i hi => g'.color_eq (hF1 i hi).2.1 hi (hF1.rt_idem hi) }
    have hlabels : u32 (u32 (cl2.rows * cl2.cols) + 1) = cl1.rows * cl1.cols + 1 := by
      rw [k.rows_eq, k.cols_eq, hr1, hc1, u32_of_lt (show cl.rows * cl.cols < 2 ^ 32 by omega),
        u32_of_lt (by omega)]
    have hhist : ∀ (color : Nat) (roots hist : Nat → Nat),
        (∀ x, x < cl1.rows * cl1.cols + 2 → roots x = root_count cl1 rt color (cl1.rows * cl1.cols) x) →
        ∀ kk, 1 ≤ kk → kk ≤ cl1.rows * cl1.cols →
        hist kk + (List.range (cl1.rows * cl1.cols)).countP
          (fun x => rt x == x && label_color cl1 x == color &&
            (List.range (cl1.rows * cl1.cols)).countP (fun i => rt i == x) == kk) < 2 ^ 64 →
        Function.update (Function.update
            (histogram_collect (cl1.rows * cl1.cols + 1) roots hist) 0 0)
            (cl1.rows * cl1.cols + 1) 0 kk =
          hist kk + (List.range (cl1.rows * cl1.cols)).countP
            (fun x => rt x == x && label_color cl1 x == color &&
              (List.range (cl1.rows * cl1.cols)).countP (fun i => rt i == x) == kk) := by
      intro color roots hist hroots kk h1 h2 hlt
      rw [Function.update_noteq (by omega), Function.update_noteq (by omega)]
      have hcnt : (List.range (cl1.rows * cl1.cols + 1)).countP (fun i => roots i == kk) =
          (List.range (cl1.rows * cl1.cols)).countP
            (fun x => rt x == x && label_color cl1 x == color &&
              (List.range (cl1.rows * cl1.cols)).countP (fun i => rt i == x) == kk) := by
        rw [← hpart.count_roots color h1]
        apply List.countP_congr
        intro j hj
        have hj' := List.mem_range.1 hj
        rw [hroots j (by omega)]
        rfl
      rw [histogram_collect_spec _ _ _ _ (by rw [hcnt]; exact hlt), hcnt]
    have hcc : ∀ color kk, cluster_count cl2 color kk =
        (List.range (cl1.rows * cl1.cols)).countP
          (fun x => rt x == x && label_color cl1 x == color &&
            (List.range (cl1.rows * cl1.cols)).countP (fun i => rt i == x) == kk) :=
      fun color kk => cluster_count_eq k.rows_eq k.cols_eq k.map_eq hflat color kk
    have hmay := mayJoin_congr k.cols_eq k.map_eq k.dw_eq k.db_eq (cl1.rows * cl1.cols)
    have hmust := mustJoin_congr k.cols_eq k.map_eq k.dw_eq k.db_eq (cl1.rows * cl1.cols)
    have hlc := label_color_congr k.cols_eq k.map_eq
    exact
      { rows_eq := k.rows_eq.trans hr1
        cols_eq := k.cols_eq.trans hc1
        p_eq := k.p_eq.trans g.p_eq
        dw_eq := k.dw_eq.trans g.dw_eq
        db_eq := k.db_eq.trans g.db_eq
        ready :=
          { rows_pos := by show 1 ≤ cl2.rows; rw [k.rows_eq, hr1]; exact h.rows_pos
            cols_pos := by show 1 ≤ cl2.cols; rw [k.cols_eq, hc1]; exact h.cols_pos
            size_ok := hsz2
            rng_ne := by show cl2.rng ≠ 0; rw [k.rng_eq]; exact g.rng_ne
            rng_lt := by show cl2.rng < 2 ^ 64; rw [k.rng_eq]; exact g.rng_lt
            border_row := by
              show ∀ i, i ≤ cl2.cols → cl2.map i = CLUSTER_NONE
              rw [k.cols_eq, k.map_eq]; exact g.border_row
            border_col := by
              show ∀ i, i ≤ cl2.rows + 1 → cl2.map (i * (cl2.cols + 1)) = CLUSTER_NONE
              rw [k.cols_eq, k.rows_eq, k.map_eq]; exact g.border_col }
        color_ok := by
          intro r c a b
          show cl2.map (map_index cl2.cols r c) = _ ∨ cl2.map (map_index cl2.cols r c) = _
          rw [k.cols_eq, k.map_eq]
          exact hcol1 r c (by omega) (by omega)
        flat := by
          show FlatPart (cl.rows * cl.cols) cl2.djs (label_color cl2)
          rw [hlc, ← hr1, ← hc1]
          exact
            { lt := fun i hi => by rw [hflat i hi]; exact hpart.lt i hi
              idem := fun i hi => by
                rw [hflat i hi, hflat _ (hpart.lt i hi)]; exact hpart.idem i hi
              colr := fun i hi => by rw [hflat i hi]; exact hpart.colr i hi }
        sound := by
          intro p q hp hq e
          show Relation.ReflTransGen (MayJoin cl2 (cl.rows * cl.cols)) p q
          rw [← hr1, ← hc1] at hp hq ⊢
          rw [← hc1] at e
          rw [hmay]
          apply g'.sound p q hp hq
          have e' : cl2.djs (label_of cl1.cols p.1 p.2) = cl2.djs (label_of cl1.cols q.1 q.2) := e
          rw [hflat _ hp.2, hflat _ hq.2] at e'
          exact e'
        complete := by
          intro p q hpq
          show cl2.djs _ = cl2.djs _
          have hpq' : MustJoin cl2 (cl.rows * cl.cols) p q := hpq
          rw [← hr1, ← hc1] at hpq'
          rw [← hc1]
          rw [hmust] at hpq'
          rw [hflat _ hpq'.1.2, hflat _ hpq'.2.1.2]
          exact g'.complete p q hpq'
        white_hist := by
          intro kk a b hlt
          have hlt' : cl.white_histogram kk + cluster_count cl2 CLUSTER_WHITE kk < 2 ^ 64 := hlt
          show Function.update (Function.update (histogram_collect _ cl2.white_roots
            cl2.white_histogram) 0 0) _ 0 kk = cl.white_histogram kk + cluster_count cl2 CLUSTER_WHITE kk
          rw [hlabels, hcc, k.wh_eq, g.wh_eq]
          rw [hcc] at hlt'
          exact hhist CLUSTER_WHITE _ _ k.white kk a (by rw [hr1, hc1]; exact b) hlt'
        black_hist := by
          intro kk a b hlt
          have hlt' : cl.black_histogram kk + cluster_count cl2 CLUSTER_BLACK kk < 2 ^ 64 := hlt
          show Function.update (Function.update (histogram_collect _ cl2.black_roots
            cl2.black_histogram) 0 0) _ 0 kk = cl.black_histogram kk + cluster_count cl2 CLUSTER_BLACK kk
          rw [hlabels, hcc, k.bh_eq, g.bh_eq]
          rw [hcc] at hlt'
          exact hhist CLUSTER_BLACK _ _ k.black kk a (by rw [hr1, hc1]; exact b) hlt'
        white_zero := by
          constructor
          · show Function.update (Function.update _ 0 0) _ 0 0 = 0
            rw [hlabels, Function.update_noteq (by omega), Function.update_same]
          · show Function.update (Function.update _ 0 0) _ 0 (cl.rows * cl.cols + 1) = 0
            rw [hlabels, hr1, hc1, Function.update_same]
        black_zero := by
          constructor
          · show Function.update (Function.update _ 0 0) _ 0 0 = 0
            rw [hlabels, Function.update_noteq (by omega), Function.update_same]
          · show Function.update (Function.update _ 0 0) _ 0 (cl.rows * cl.cols + 1) = 0
            rw [hlabels, hr1, hc1, Function.update_same]
        white_span := by
          constructor
          · intro hs
            show (if b1 = true then u64 (cl2.white_spans + 1) else cl2.white_spans) = _
            rw [if_pos (hb1.2 hs), k.ws_eq, g.ws_eq]
          · intro hs
            show (if b1 = true then u64 (cl2.white_spans + 1) else cl2.white_spans) = _
            rw [if_neg (fun e => hs (hb1.1 e)), k.ws_eq, g.ws_eq]
        black_span := by
          constructor
          · intro hs
            show (if b2 = true then u64 (cl2.black_spans + 1) else cl2.black_spans) = _
            rw [if_pos (hb2.2 hs), k.bs_eq, g.bs_eq]
          · intro hs
            show (if b2 = true then u64 (cl2.black_spans + 1) else cl2.black_spans) = _
            rw [if_neg (fun e => hs (hb2.1 e)), k.bs_eq, g.bs_eq]
        iterations := by
          show u64 (cl2.iterations + 1) = _
          rw [k.iter_eq, g.iter_eq] }

theorem ready_seeded {rows cols seed : Nat} (p dw db : Nat) (hr : 1 ≤ rows) (hc : 1 ≤ cols)
    (hsz : (rows + 2) * (cols + 1) < 2 ^ 32) (hs : seed ≠ 0) (hlt : seed < 2 ^ 64) :
    Ready (seeded_cluster rows cols p dw db seed) :=
  { rows_pos := hr, cols_pos := hc, size_ok := hsz, rng_ne := hs, rng_lt := hlt
    border_row := fun _ _ => rfl, border_col := fun _ _ => rfl }

theorem IterPost.color_of_djs_eq {cl cl' : cluster} (h : IterPost cl cl') {r1 c1 r2 c2 : Nat}
    (h1 : r1 < cl.rows) (h2 : c1 < cl.cols) (h3 : r2 < cl.rows) (h4 : c2 < cl.cols)
    (e : cl'.djs (label_of cl.cols r1 c1) = cl'.djs (label_of cl.cols r2 c2)) :
    color_at cl' r1 c1 = color_at cl' r2 c2 := by
  have a := (@done_all_iff cl.rows cl.cols (r1, c1)).2 ⟨h1, h2⟩
  have b := (@done_all_iff cl.rows cl.cols (r2, c2)).2 ⟨h3, h4⟩
  exact mayJoin_path_color (h.sound (r1, c1) (r2, c2) a b e)

theorem cluster_count_le (cl : cluster) (color k : Nat) :
    cluster_count cl color k ≤ cl.rows * cl.cols := by
  unfold cluster_count
  exact (List.countP_le_length _).trans (by simp)

theorem fill_count_total {cl cl' : cluster} (h : IterPost cl cl') :
    fill_count cl' CLUSTER_WHITE + fill_count cl' CLUSTER_BLACK = cl.rows * cl.cols := by
  unfold fill_count
  rw [h.rows_eq, h.cols_eq]
  have hneg : (List.range (cl.rows * cl.cols)).countP (fun i => label_color cl' i == CLUSTER_BLACK) =
      (List.range (cl.rows * cl.cols)).countP
        (fun i => ! (label_color cl' i == CLUSTER_WHITE)) := by
    apply List.countP_congr
    intro i hi
    obtain ⟨a1, a2, _⟩ := cell_of_label (List.mem_range.1 hi)
    have := h.color_ok _ _ a1 a2
    have e : label_color cl' i = color_at cl' (i / cl.cols) (i % cl.cols) := by
      unfold label_color; rw [h.cols_eq]
    rw [e]
    rcases this with w | w <;> rw [w] <;> decide
  rw [hneg]
  have := List.length_eq_countP_add_countP (fun i => label_color cl' i == CLUSTER_WHITE)
    (List.range (cl.rows * cl.cols))
  simp only [List.length_range] at this
  have e2 : (List.range (cl.rows * cl.cols)).countP
      (fun a => decide ¬(label_color cl' a == CLUSTER_WHITE) = true) =
      (List.range (cl.rows * cl.cols)).countP
        (fun i => ! (label_color cl' i == CLUSTER_WHITE)) := by
    apply List.countP_congr
    intro i _
    simp
  omega

theorem djs_root_flat {n : Nat} {djs col : Nat → Nat} (h : FlatPart n djs col) {i fuel : Nat}
    (hi : i < n) (hf : 2 ≤ fuel) : djs_root fuel djs i = some (djs i) := by
  obtain ⟨f, rfl⟩ : ∃ f, fuel = f + 2 := ⟨fuel - 2, by omega⟩
  by_cases e : i = djs i
  · rw [djs_root, if_neg (by simpa using e), ← e]
  · rw [djs_root, if_pos e, djs_root, if_neg (by simpa using (h.idem i hi).symm)]

theorem same_root_iff {n : Nat} {cl : cluster} {col : Nat → Nat} (h : FlatPart n cl.djs col)
    {i j fuel : Nat} (hi : i < n) (hj : j < n) (hf : 2 ≤ fuel) :
    same_root fuel cl i j ↔ cl.djs i = cl.djs j := by
  unfold same_root
  rw [djs_root_flat h hi hf, djs_root_flat h hj hf]
  constructor
  · rintro ⟨r, a, b⟩
    exact (Option.some.inj a).trans (Option.some.inj b).symm
  · intro e
    exact ⟨cl.djs i, rfl, by rw [e]⟩

theorem label_lt_of_cell {rows cols r c : Nat} (hr : r < rows) (hc : c < cols) :
    label_of cols r c < rows * cols :=
  ((@done_all_iff rows cols (r, c)).2 ⟨hr, hc⟩).2

theorem sample_forest : Forest 5 sample_djs sample_rt := by
  intro i hi
  interval_cases i
  · exact ⟨by decide, by decide, 0, by decide⟩
  · exact ⟨by decide, by decide, 1, by decide⟩
  · exact ⟨by decide, by decide, 2, by decide⟩
  · exact ⟨by decide, by decide, 0, by decide⟩
  · exact ⟨by decide, by decide, 1, by decide⟩

/-- C1 (as stated, refuted): on the 2 x 2 grid that `iterate` generates from seed 8 with
`p_black` at one half and both diagonal limits at `2^64 - 1`, the colours are
W B / B W and both diagonal pairs are joined: cells 0 and 3 share a parent entry,
and so do cells 1 and 2; no cell is left a singleton. -/
theorem no_cross_counterexample :
    ∃ cl', iterate 11 sample_cluster = some cl' ∧
      color_at cl' 0 0 = CLUSTER_WHITE ∧ color_at cl' 0 1 = CLUSTER_BLACK ∧
      color_at cl' 1 0 = CLUSTER_BLACK ∧ color_at cl' 1 1 = CLUSTER_WHITE ∧
      same_root 11 cl' 0 3 ∧ same_root 11 cl' 1 2 := by
  have key : (iterate 11 sample_cluster).map (fun cl' =>
      ([color_at cl' 0 0, color_at cl' 0 1, color_at cl' 1 0, color_at cl' 1 1],
        [djs_root 11 cl'.djs 0, djs_root 11 cl'.djs 1, djs_root 11 cl'.djs 2,
          djs_root 11 cl'.djs 3])) =
      some ([CLUSTER_WHITE, CLUSTER_BLACK, CLUSTER_BLACK, CLUSTER_WHITE],
        [some 3, some 2, some 2, some 3]) := by decide
  obtain ⟨cl', e, hobs⟩ := Option.map_eq_some'.1 key
  simp only [Prod.mk.injEq, List.cons.injEq, and_true] at hobs
  obtain ⟨⟨a, b, c, d⟩, r0, r1, r2, r3⟩ := hobs
  exact ⟨cl', e, a, b, c, d, ⟨3, r0, r3⟩, ⟨2, r1, r2⟩⟩

/-- C1 (amended): with both diagonal limits at `2^64 - 1`, for every valid generator
state `iterate` returns, and in every crossed interior 2 x 2 block both diagonal
pairs are joined (each pair shares a root) while the two pairs keep different roots. -/
theorem crossed_block_both_joined (cl : cluster) (h : Ready cl)
    (hw : 2 ^ 64 - 1 ≤ cl.d_white) (hb : 2 ^ 64 - 1 ≤ cl.d_black) (fuel : Nat)
    (hf : 2 * (cl.rows * cl.cols) + 3 ≤ fuel) :
    ∃ cl', iterate fuel cl = some cl' ∧
      ∀ r c, r + 1 < cl.rows → c + 1 < cl.cols →
        color_at cl' r c = color_at cl' (r + 1) (c + 1) →
        color_at cl' r (c + 1) = color_at cl' (r + 1) c →
        color_at cl' r c ≠ color_at cl' r (c + 1) →
        same_root fuel cl' (label_of cl.cols r c) (label_of cl.cols (r + 1) (c + 1)) ∧
        same_root fuel cl' (label_of cl.cols r (c + 1)) (label_of cl.cols (r + 1) c) ∧
        ¬ same_root fuel cl' (label_of cl.cols r c) (label_of cl.cols r (c + 1)) := by
  obtain ⟨cl', e, post⟩ := iterate_spec h hf
  refine ⟨cl', e, ?_⟩
  intro r c hr hc e1 e2 hne
  have l1 := label_lt_of_cell (show r < cl.rows by omega) (show c < cl.cols by omega)
  have l2 := label_lt_of_cell hr hc
  have l3 := label_lt_of_cell (show r < cl.rows by omega) hc
  have l4 := label_lt_of_cell hr (show c < cl.cols by omega)
  have hdl : ∀ x, 2 ^ 64 - 1 ≤ diag_limit cl' x := by
    intro x
    unfold diag_limit
    rw [post.dw_eq, post.db_eq]
    split <;> assumption
  have hdone : ∀ a b, a < cl.rows → b < cl.cols → Done cl'.cols (cl.rows * cl.cols) (a, b) := by
    intro a b ha hb'
    rw [post.cols_eq]
    exact (done_all_iff (a, b)).2 ⟨ha, hb'⟩
  rw [same_root_iff post.flat l1 l2 (by omega), same_root_iff post.flat l3 l4 (by omega),
    same_root_iff post.flat l1 l3 (by omega)]
  refine ⟨?_, ?_, ?_⟩
  · exact post.complete (r, c) (r + 1, c + 1)
      ⟨hdone _ _ (by omega) (by omega), hdone _ _ hr hc, e1,
        Or.inr ⟨by rw [diagAdj_iff]; omega, hdl _⟩⟩
  · exact post.complete (r, c + 1) (r + 1, c)
      ⟨hdone _ _ (by omega) hc, hdone _ _ hr (by omega), e2,
        Or.inr ⟨by rw [diagAdj_iff]; omega, hdl _⟩⟩
  · intro e3
    exact hne (post.color_of_djs_eq (by omega) (by omega) (by omega) hc e3)

/-- C1 (amended), instance: the 2 x 2 sample cluster with seed 8. -/
theorem crossed_block_both_joined_witness :
    Ready sample_cluster ∧ 2 ^ 64 - 1 ≤ sample_cluster.d_white ∧
      2 ^ 64 - 1 ≤ sample_cluster.d_black ∧
      2 * (sample_cluster.rows * sample_cluster.cols) + 3 ≤ 11 ∧
      ∃ cl', iterate 11 sample_cluster = some cl' ∧
        ∀ r c, r + 1 < sample_cluster.rows → c + 1 < sample_cluster.cols →
          color_at cl' r c = color_at cl' (r + 1) (c + 1) →
          color_at cl' r (c + 1) = color_at cl' (r + 1) c →
          color_at cl' r c ≠ color_at cl' r (c + 1) →
          same_root 11 cl' (label_of sample_cluster.cols r c)
            (label_of sample_cluster.cols (r + 1) (c + 1)) ∧
          same_root 11 cl' (label_of sample_cluster.cols r (c + 1))
            (label_of sample_cluster.cols (r + 1) c) ∧
          ¬ same_root 11 cl' (label_of sample_cluster.cols r c)
            (label_of sample_cluster.cols r (c + 1)) :=
  ⟨ready_seeded _ _ _ (by decide) (by decide) (by decide) (by decide) (by decide),
    by decide, by decide, by decide,
    crossed_block_both_joined sample_cluster
      (ready_seeded _ _ _ (by decide) (by decide) (by decide) (by decide) (by decide))
      (by decide) (by decide) 11 (by decide)⟩

/-- C2 (code at the failing input): on the two singleton sets `{0}` and `{1}`,
`djs_join2(djs, 1, 0)` returns with both parent entries equal to 1: the survivor
is the root of the first argument, not the minimum root 0. -/
theorem djs_join2_survivor_is_first_root :
    djs_root 4 (fun i => i) 1 = some 1 ∧ djs_root 4 (fun i => i) 0 = some 0 ∧
      (djs_join2 4 (fun i => i) 1 0).map (fun d => (d 0, d 1)) = some (1, 1) ∧
      (djs_join2 4 (fun i => i) 1 0).bind (fun d => djs_root 4 d 0) = some 1 := by
  decide

/-- C3 (code at the failing input): on a 1 x 2 grid with `p_black = 0` (both cells
white) and seed 1, `iterate` leaves `djs[0] = djs[1] = 1`: the stored root of the
cluster `{0, 1}` is 1, not its smallest label 0, and `djs[0] > 0`. -/
theorem iterate_root_not_smallest :
    (iterate 7 (seeded_cluster 1 2 0 0 0 1)).map
        (fun cl' => (color_at cl' 0 0, color_at cl' 0 1, cl'.djs 0, cl'.djs 1)) =
      some (CLUSTER_WHITE, CLUSTER_WHITE, 1, 1) := by
  decide

/-- C4: on a forest, `djs_join3`, `djs_join4` and `djs_join5` return; the surviving root
is the minimum of the roots of the given labels, every given label's parent entry
is that root, the sets of the given labels become one set with that root, and the
root of every other label is unchanged (`JoinSpec`). -/
theorem djs_join345_correct (n : Nat) (djs rt : Nat → Nat) (h : Forest n djs rt)
    (a b c d e : Nat) (ha : a < n) (hb : b < n) (hc : c < n) (hd : d < n) (he : e < n)
    (fuel : Nat) (hf : n + 2 ≤ fuel) :
    (∃ djs', djs_join3 fuel djs a b c = some djs' ∧
      JoinSpec n djs rt djs' [a, b, c] (min (min (rt a) (rt b)) (rt c))) ∧
    (∃ djs', djs_join4 fuel djs a b c d = some djs' ∧
      JoinSpec n djs rt djs' [a, b, c, d] (min (min (min (rt a) (rt b)) (rt c)) (rt d))) ∧
    (∃ djs', djs_join5 fuel djs a b c d e = some djs' ∧
      JoinSpec n djs rt djs' [a, b, c, d, e]
        (min (min (min (min (rt a) (rt b)) (rt c)) (rt d)) (rt e))) :=
  ⟨djs_join3_spec h ha hb hc hf, djs_join4_spec h ha hb hc hd hf,
    djs_join5_spec h ha hb hc hd he hf⟩

/-- C4, instance: the forest `0 ← 1 ← 2`, `3 ← 4` and the labels 4, 2, 1, 0, 3. -/
theorem djs_join345_correct_witness :
    Forest 5 sample_djs sample_rt ∧ 4 < 5 ∧ 2 < 5 ∧ 1 < 5 ∧ 0 < 5 ∧ 3 < 5 ∧ 5 + 2 ≤ 7 ∧
    ((∃ djs', djs_join3 7 sample_djs 4 2 1 = some djs' ∧
      JoinSpec 5 sample_djs sample_rt djs' [4, 2, 1]
        (min (min (sample_rt 4) (sample_rt 2)) (sample_rt 1))) ∧
    (∃ djs', djs_join4 7 sample_djs 4 2 1 0 = some djs' ∧
      JoinSpec 5 sample_djs sample_rt djs' [4, 2, 1, 0]
        (min (min (min (sample_rt 4) (sample_rt 2)) (sample_rt 1)) (sample_rt 0))) ∧
    (∃ djs', djs_join5 7 sample_djs 4 2 1 0 3 = some djs' ∧
      JoinSpec 5 sample_djs sample_rt djs' [4, 2, 1, 0, 3]
        (min (min (min (min (sample_rt 4) (sample_rt 2)) (sample_rt 1)) (sample_rt 0))
          (sample_rt 3)))) :=
  ⟨sample_forest, by decide, by decide, by decide, by decide, by decide, by decide,
    djs_join345_correct 5 sample_djs sample_rt sample_forest 4 2 1 0 3
      (by decide) (by decide) (by decide) (by decide) (by decide) 7 (by decide)⟩

/-- C5: for every valid generator state and all diagonal limits, `iterate` returns, and
any two cells of the grid whose labels have the same root have the same colour. -/
theorem iterate_color_consistent (cl : cluster) (h : Ready cl) (fuel : Nat)
    (hf : 2 * (cl.rows * cl.cols) + 3 ≤ fuel) :
    ∃ cl', iterate fuel cl = some cl' ∧
      ∀ r1 c1 r2 c2, r1 < cl.rows → c1 < cl.cols → r2 < cl.rows → c2 < cl.cols →
        same_root fuel cl' (label_of cl.cols r1 c1) (label_of cl.cols r2 c2) →
        color_at cl' r1 c1 = color_at cl' r2 c2 := by
  obtain ⟨cl', e, post⟩ := iterate_spec h hf
  refine ⟨cl', e, ?_⟩
  intro r1 c1 r2 c2 h1 h2 h3 h4 hs
  rw [same_root_iff post.flat (label_lt_of_cell h1 h2) (label_lt_of_cell h3 h4) (by omega)] at hs
  exact post.color_of_djs_eq h1 h2 h3 h4 hs

/-- C5, instance: the 3 x 4 sample cluster with diagonal limits at one half. -/
theorem iterate_color_consistent_witness :
    Ready sample_cluster_mixed ∧
      2 * (sample_cluster_mixed.rows * sample_cluster_mixed.cols) + 3 ≤ 27 ∧
      ∃ cl', iterate 27 sample_cluster_mixed = some cl' ∧
        ∀ r1 c1 r2 c2, r1 < sample_cluster_mixed.rows → c1 < sample_cluster_mixed.cols →
          r2 < sample_cluster_mixed.rows → c2 < sample_cluster_mixed.cols →
          same_root 27 cl' (label_of sample_cluster_mixed.cols r1 c1)
            (label_of sample_cluster_mixed.cols r2 c2) →
          color_at cl' r1 c1 = color_at cl' r2 c2 :=
  ⟨ready_seeded _ _ _ (by decide) (by decide) (by decide) (by decide) (by decide), by decide,
    iterate_color_consistent sample_cluster_mixed
      (ready_seeded _ _ _ (by decide) (by decide) (by decide) (by decide) (by decide))
      27 (by decide)⟩

/-- C6: for every valid generator state and all diagonal limits, `iterate` returns, and
any two cells of the grid that are horizontally or vertically adjacent and have
the same colour have the same root. -/
theorem iterate_orthogonal_joined (cl : cluster) (h : Ready cl) (fuel : Nat)
    (hf : 2 * (cl.rows * cl.cols) + 3 ≤ fuel) :
    ∃ cl', iterate fuel cl = some cl' ∧
      ∀ p q : Nat × Nat, OrthLink cl' p q →
        same_root fuel cl' (label_of cl.cols p.1 p.2) (label_of cl.cols q.1 q.2) := by
  obtain ⟨cl', e, post⟩ := iterate_spec h hf
  refine ⟨cl', e, ?_⟩
  rintro p q ⟨h1, h2, h3, h4, hadj, hcol⟩
  rw [post.rows_eq] at h1 h3
  rw [post.cols_eq] at h2 h4
  rw [same_root_iff post.flat (label_lt_of_cell h1 h2) (label_lt_of_cell h3 h4) (by omega)]
  refine post.complete p q ⟨?_, ?_, hcol, Or.inl hadj⟩
  · rw [post.cols_eq]; exact (done_all_iff p).2 ⟨h1, h2⟩
  · rw [post.cols_eq]; exact (done_all_iff q).2 ⟨h3, h4⟩

/-- C6, instance: the 3 x 4 sample cluster with diagonal limits at one half. -/
theorem iterate_orthogonal_joined_witness :
    Ready sample_cluster_mixed ∧
      2 * (sample_cluster_mixed.rows * sample_cluster_mixed.cols) + 3 ≤ 27 ∧
      ∃ cl', iterate 27 sample_cluster_mixed = some cl' ∧
        ∀ p q : Nat × Nat, OrthLink cl' p q →
          same_root 27 cl' (label_of sample_cluster_mixed.cols p.1 p.2)
            (label_of sample_cluster_mixed.cols q.1 q.2) :=
  ⟨ready_seeded _ _ _ (by decide) (by decide) (by decide) (by decide) (by decide), by decide,
    iterate_orthogonal_joined sample_cluster_mixed
      (ready_seeded _ _ _ (by decide) (by decide) (by decide) (by decide) (by decide))
      27 (by decide)⟩

/-- C7: with both diagonal limits 0 and a valid (nonzero) generator state, `iterate`
returns and two cells of the grid have the same root if and only if they are linked
by a path of orthogonally adjacent cells of the same colour. -/
theorem iterate_four_connected (cl : cluster) (h : Ready cl) (hw : cl.d_white = 0)
    (hb : cl.d_black = 0) (fuel : Nat) (hf : 2 * (cl.rows * cl.cols) + 3 ≤ fuel) :
    ∃ cl', iterate fuel cl = some cl' ∧
      ∀ p q : Nat × Nat, p.1 < cl.rows → p.2 < cl.cols → q.1 < cl.rows → q.2 < cl.cols →
        (same_root fuel cl' (label_of cl.cols p.1 p.2) (label_of cl.cols q.1 q.2) ↔
          Relation.ReflTransGen (OrthLink cl') p q) := by
  obtain ⟨cl', e, post⟩ := iterate_spec h hf
  refine ⟨cl', e, ?_⟩
  have hdl : ∀ x, diag_limit cl' x = 0 := by
    intro x
    unfold diag_limit
    rw [post.dw_eq, post.db_eq, hw, hb]
    split <;> rfl
  have hcell : ∀ p : Nat × Nat, Done cl'.cols (cl.rows * cl.cols) p ↔
      p.1 < cl'.rows ∧ p.2 < cl'.cols := by
    intro p
    rw [post.cols_eq, post.rows_eq]
    exact done_all_iff p
  have hmay : ∀ p q, MayJoin cl' (cl.rows * cl.cols) p q → OrthLink cl' p q := by
    rintro p q ⟨a, b, c, d⟩
    have a' := (hcell p).1 a
    have b' := (hcell q).1 b
    rcases d with d | ⟨_, d⟩
    · exact ⟨a'.1, a'.2, b'.1, b'.2, d, c⟩
    · exact absurd (hdl _) d
  have hlink : ∀ p q, OrthLink cl' p q →
      cl'.djs (label_of cl.cols p.1 p.2) = cl'.djs (label_of cl.cols q.1 q.2) := by
    rintro p q ⟨h1, h2, h3, h4, hadj, hcol⟩
    exact post.complete p q ⟨(hcell p).2 ⟨h1, h2⟩, (hcell q).2 ⟨h3, h4⟩, hcol, Or.inl hadj⟩
  have hpathEq : ∀ p q, Relation.ReflTransGen (OrthLink cl') p q →
      cl'.djs (label_of cl.cols p.1 p.2) = cl'.djs (label_of cl.cols q.1 q.2) := by
    intro p q hpath
    induction hpath with
    | refl => rfl
    | tail _ hstep ih => exact ih.trans (hlink _ _ hstep)
  intro p q h1 h2 h3 h4
  rw [same_root_iff post.flat (label_lt_of_cell h1 h2) (label_lt_of_cell h3 h4) (by omega)]
  constructor
  · intro hs
    have hp : Done cl.cols (cl.rows * cl.cols) p := (done_all_iff p).2 ⟨h1, h2⟩
    have hq : Done cl.cols (cl.rows * cl.cols) q := (done_all_iff q).2 ⟨h3, h4⟩
    exact Relation.ReflTransGen.mono hmay (post.sound p q hp hq hs)
  · exact hpathEq p q

/-- C7, instance: the 3 x 4 sample cluster with both diagonal limits 0. -/
theorem iterate_four_connected_witness :
    Ready sample_cluster_orth ∧ sample_cluster_orth.d_white = 0 ∧
      sample_cluster_orth.d_black = 0 ∧
      2 * (sample_cluster_orth.rows * sample_cluster_orth.cols) + 3 ≤ 27 ∧
      ∃ cl', iterate 27 sample_cluster_orth = some cl' ∧
        ∀ p q : Nat × Nat, p.1 < sample_cluster_orth.rows → p.2 < sample_cluster_orth.cols →
          q.1 < sample_cluster_orth.rows → q.2 < sample_cluster_orth.cols →
          (same_root 27 cl' (label_of sample_cluster_orth.cols p.1 p.2)
              (label_of sample_cluster_orth.cols q.1 q.2) ↔
            Relation.ReflTransGen (OrthLink cl') p q) :=
  ⟨ready_seeded _ _ _ (by decide) (by decide) (by decide) (by decide) (by decide),
    rfl, rfl, by decide,
    iterate_four_connected sample_cluster_orth
      (ready_seeded _ _ _ (by decide) (by decide) (by decide) (by decide) (by decide))
      rfl rfl 27 (by decide)⟩

theorem iterate_n_spec (cl : cluster) (h : Ready cl) (fuel : Nat)
    (hf : 2 * (cl.rows * cl.cols) + 3 ≤ fuel)
    (hz : ∀ k, cl.white_histogram k = 0 ∧ cl.black_histogram k = 0) (hi : cl.iterations = 0) :
    ∀ n, n * (cl.rows * cl.cols + 1) < 2 ^ 64 →
      ∃ cln, iterate_n fuel n cl = some cln ∧ Ready cln ∧ cln.rows = cl.rows ∧
        cln.cols = cl.cols ∧ cln.iterations = n ∧
        ∀ k, 1 ≤ k → k ≤ cl.rows * cl.cols →
          (cln.white_histogram k = hist_total fuel cl CLUSTER_WHITE k n ∧
            hist_total fuel cl CLUSTER_WHITE k n ≤ n * (cl.rows * cl.cols)) ∧
          (cln.black_histogram k = hist_total fuel cl CLUSTER_BLACK k n ∧
            hist_total fuel cl CLUSTER_BLACK k n ≤ n * (cl.rows * cl.cols)) := by
  intro n
  induction n with
  | zero =>
    intro _
    refine ⟨cl, rfl, h, rfl, rfl, hi, ?_⟩
    intro k _ _
    simp [hist_total, hz k]
  | succ n ih =>
    intro hn
    have e1 : (n + 1) * (cl.rows * cl.cols + 1) =
        n * (cl.rows * cl.cols) + n + cl.rows * cl.cols + 1 := by ring
    have e2 : n * (cl.rows * cl.cols + 1) = n * (cl.rows * cl.cols) + n := by ring
    have e3 : (n + 1) * (cl.rows * cl.cols) = n * (cl.rows * cl.cols) + cl.rows * cl.cols := by
      ring
    obtain ⟨cln, en, hr, hrows, hcols, hiter, hh⟩ := ih (by omega)
    obtain ⟨cl', e', post⟩ := @iterate_spec cln hr fuel (by rw [hrows, hcols]; exact hf)
    have hrun : iterate_n fuel (n + 1) cl = some cl' := by
      simp only [iterate_n, en, Option.some_bind, e']
    have hcc : ∀ color k, cluster_count cl' color k ≤ cl.rows * cl.cols := by
      intro color k
      have := cluster_count_le cl' color k
      rw [post.rows_eq, post.cols_eq, hrows, hcols] at this
      exact this
    refine ⟨cl', hrun, post.ready, post.rows_eq.trans hrows, post.cols_eq.trans hcols, ?_, ?_⟩
    · rw [post.iterations, hiter]
      exact u64_of_lt (by omega)
    · intro k h1 h2
      obtain ⟨⟨w1, w2⟩, ⟨b1, b2⟩⟩ := hh k h1 h2
      have hw := hcc CLUSTER_WHITE k
      have hb := hcc CLUSTER_BLACK k
      have tw : hist_total fuel cl CLUSTER_WHITE k (n + 1) =
          hist_total fuel cl CLUSTER_WHITE k n + cluster_count cl' CLUSTER_WHITE k := by
        simp only [hist_total, hrun]
      have tb : hist_total fuel cl CLUSTER_BLACK k (n + 1) =
          hist_total fuel cl CLUSTER_BLACK k n + cluster_count cl' CLUSTER_BLACK k := by
        simp only [hist_total, hrun]
      refine ⟨⟨?_, by omega⟩, ⟨?_, by omega⟩⟩
      · rw [post.white_hist k h1 (by rw [hrows, hcols]; exact h2) (by omega), w1, tw]
      · rw [post.black_hist k h1 (by rw [hrows, hcols]; exact h2) (by omega), b1, tb]

/-- C8: one call of `iterate` adds to bin `k` (for `1 ≤ k ≤ R*C`) of each colour's
histogram exactly the number of clusters of that colour with `k` cells in the grid
just generated, provided the 64-bit bin does not overflow, and so never lowers the
bin; and `n` calls on a freshly initialised cluster leave `iterations = n` and each
bin equal to the sum of those numbers over the `n` grids (while the totals fit in
64 bits). -/
theorem histogram_accumulation (cl : cluster) (h : Ready cl) (fuel : Nat)
    (hf : 2 * (cl.rows * cl.cols) + 3 ≤ fuel) :
    (∃ cl', iterate fuel cl = some cl' ∧
      ∀ k, 1 ≤ k → k ≤ cl.rows * cl.cols →
        (cl.white_histogram k + cl.rows * cl.cols < 2 ^ 64 →
          cl'.white_histogram k = cl.white_histogram k + cluster_count cl' CLUSTER_WHITE k ∧
          cl.white_histogram k ≤ cl'.white_histogram k) ∧
        (cl.black_histogram k + cl.rows * cl.cols < 2 ^ 64 →
          cl'.black_histogram k = cl.black_histogram k + cluster_count cl' CLUSTER_BLACK k ∧
          cl.black_histogram k ≤ cl'.black_histogram k)) ∧
    (∀ n, (∀ k, cl.white_histogram k = 0 ∧ cl.black_histogram k = 0) → cl.iterations = 0 →
      n * (cl.rows * cl.cols + 1) < 2 ^ 64 →
      ∃ cln, iterate_n fuel n cl = some cln ∧ cln.iterations = n ∧
        ∀ k, 1 ≤ k → k ≤ cl.rows * cl.cols →
          cln.white_histogram k = hist_total fuel cl CLUSTER_WHITE k n ∧
          cln.black_histogram k = hist_total fuel cl CLUSTER_BLACK k n) := by
  constructor
  · obtain ⟨cl', e, post⟩ := iterate_spec h hf
    refine ⟨cl', e, ?_⟩
    intro k h1 h2
    have hw := cluster_count_le cl' CLUSTER_WHITE k
    have hb := cluster_count_le cl' CLUSTER_BLACK k
    rw [post.rows_eq, post.cols_eq] at hw hb
    constructor
    · intro hlt
      have := post.white_hist k h1 h2 (by omega)
      exact ⟨this, by omega⟩
    · intro hlt
      have := post.black_hist k h1 h2 (by omega)
      exact ⟨this, by omega⟩
  · intro n hz hi hn
    obtain ⟨cln, en, _, _, _, hiter, hh⟩ := iterate_n_spec cl h fuel hf hz hi n hn
    exact ⟨cln, en, hiter, fun k h1 h2 => ⟨(hh k h1 h2).1.1, (hh k h1 h2).2.1⟩⟩

/-- C8, instance: the 3 x 4 sample cluster with diagonal limits at one half. -/
theorem histogram_accumulation_witness :
    Ready sample_cluster_mixed ∧
      2 * (sample_cluster_mixed.rows * sample_cluster_mixed.cols) + 3 ≤ 27 ∧
      ((∃ cl', iterate 27 sample_cluster_mixed = some cl' ∧
        ∀ k, 1 ≤ k → k ≤ sample_cluster_mixed.rows * sample_cluster_mixed.cols →
          (sample_cluster_mixed.white_histogram k +
              sample_cluster_mixed.rows * sample_cluster_mixed.cols < 2 ^ 64 →
            cl'.white_histogram k =
              sample_cluster_mixed.white_histogram k + cluster_count cl' CLUSTER_WHITE k ∧
            sample_cluster_mixed.white_histogram k ≤ cl'.white_histogram k) ∧
          (sample_cluster_mixed.black_histogram k +
              sample_cluster_mixed.rows * sample_cluster_mixed.cols < 2 ^ 64 →
            cl'.black_histogram k =
              sample_cluster_mixed.black_histogram k + cluster_count cl' CLUSTER_BLACK k ∧
            sample_cluster_mixed.black_histogram k ≤ cl'.black_histogram k)) ∧
      (∀ n, (∀ k, sample_cluster_mixed.white_histogram k = 0 ∧
            sample_cluster_mixed.black_histogram k = 0) →
        sample_cluster_mixed.iterations = 0 →
        n * (sample_cluster_mixed.rows * sample_cluster_mixed.cols + 1) < 2 ^ 64 →
        ∃ cln, iterate_n 27 n sample_cluster_mixed = some cln ∧ cln.iterations = n ∧
          ∀ k, 1 ≤ k → k ≤ sample_cluster_mixed.rows * sample_cluster_mixed.cols →
            cln.white_histogram k = hist_total 27 sample_cluster_mixed CLUSTER_WHITE k n ∧
            cln.black_histogram k = hist_total 27 sample_cluster_mixed CLUSTER_BLACK k n)) :=
  ⟨ready_seeded _ _ _ (by decide) (by decide) (by decide) (by decide) (by decide), by decide,
    histogram_accumulation sample_cluster_mixed
      (ready_seeded _ _ _ (by decide) (by decide) (by decide) (by decide) (by decide))
      27 (by decide)⟩

/-- C9: for one call of `iterate` and each colour, the sum over `k = 1..R*C` of `k` times
the increase of bin `k` equals the number of cells of that colour in the generated
grid, and the two colours' cell counts add up to `R*C` (bins not overflowing). -/
theorem histogram_mass_conservation (cl : cluster) (h : Ready cl) (fuel : Nat)
    (hf : 2 * (cl.rows * cl.cols) + 3 ≤ fuel)
    (hw : ∀ k, 1 ≤ k → k ≤ cl.rows * cl.cols →
      cl.white_histogram k + cl.rows * cl.cols < 2 ^ 64)
    (hb : ∀ k, 1 ≤ k → k ≤ cl.rows * cl.cols →
      cl.black_histogram k + cl.rows * cl.cols < 2 ^ 64) :
    ∃ cl', iterate fuel cl = some cl' ∧
      ∑ k in Finset.Icc 1 (cl.rows * cl.cols), k * (cl'.white_histogram k - cl.white_histogram k) =
        fill_count cl' CLUSTER_WHITE ∧
      ∑ k in Finset.Icc 1 (cl.rows * cl.cols), k * (cl'.black_histogram k - cl.black_histogram k) =
        fill_count cl' CLUSTER_BLACK ∧
      fill_count cl' CLUSTER_WHITE + fill_count cl' CLUSTER_BLACK = cl.rows * cl.cols := by
  obtain ⟨cl', e, post⟩ := iterate_spec h hf
  refine ⟨cl', e, ?_, ?_, fill_count_total post⟩
  · have hmass := post.flat.mass CLUSTER_WHITE
    have hfill : fill_count cl' CLUSTER_WHITE =
        (List.range (cl.rows * cl.cols)).countP (fun i => label_color cl' i == CLUSTER_WHITE) := by
      unfold fill_count; rw [post.rows_eq, post.cols_eq]
    rw [hfill, ← hmass]
    apply Finset.sum_congr rfl
    intro k hk
    obtain ⟨h1, h2⟩ := Finset.mem_Icc.1 hk
    have hc := cluster_count_le cl' CLUSTER_WHITE k
    rw [post.rows_eq, post.cols_eq] at hc
    rw [post.white_hist k h1 h2 (by have := hw k h1 h2; omega), Nat.add_sub_cancel_left]
    unfold cluster_count cluster_size
    rw [post.rows_eq, post.cols_eq]
  · have hmass := post.flat.mass CLUSTER_BLACK
    have hfill : fill_count cl' CLUSTER_BLACK =
        (List.range (cl.rows * cl.cols)).countP (fun i => label_color cl' i == CLUSTER_BLACK) := by
      unfold fill_count; rw [post.rows_eq, post.cols_eq]
    rw [hfill, ← hmass]
    apply Finset.sum_congr rfl
    intro k hk
    obtain ⟨h1, h2⟩ := Finset.mem_Icc.1 hk
    have hc := cluster_count_le cl' CLUSTER_BLACK k
    rw [post.rows_eq, post.cols_eq] at hc
    rw [post.black_hist k h1 h2 (by have := hb k h1 h2; omega), Nat.add_sub_cancel_left]
    unfold cluster_count cluster_size
    rw [post.rows_eq, post.cols_eq]

/-- C9, instance: the 3 x 4 sample cluster with diagonal limits at one half. -/
theorem histogram_mass_conservation_witness :
    Ready sample_cluster_mixed ∧
      2 * (sample_cluster_mixed.rows * sample_cluster_mixed.cols) + 3 ≤ 27 ∧
      (∀ k, 1 ≤ k → k ≤ sample_cluster_mixed.rows * sample_cluster_mixed.cols →
        sample_cluster_mixed.white_histogram k +
          sample_cluster_mixed.rows * sample_cluster_mixed.cols < 2 ^ 64) ∧
      (∀ k, 1 ≤ k → k ≤ sample_cluster_mixed.rows * sample_cluster_mixed.cols →
        sample_cluster_mixed.black_histogram k +
          sample_cluster_mixed.rows * sample_cluster_mixed.cols < 2 ^ 64) ∧
      ∃ cl', iterate 27 sample_cluster_mixed = some cl' ∧
        ∑ k in Finset.Icc 1 (sample_cluster_mixed.rows * sample_cluster_mixed.cols),
            k * (cl'.white_histogram k - sample_cluster_mixed.white_histogram k) =
          fill_count cl' CLUSTER_WHITE ∧
        ∑ k in Finset.Icc 1 (sample_cluster_mixed.rows * sample_cluster_mixed.cols),
            k * (cl'.black_histogram k - sample_cluster_mixed.black_histogram k) =
          fill_count cl' CLUSTER_BLACK ∧
        fill_count cl' CLUSTER_WHITE + fill_count cl' CLUSTER_BLACK =
          sample_cluster_mixed.rows * sample_cluster_mixed.cols :=
  ⟨ready_seeded _ _ _ (by decide) (by decide) (by decide) (by decide) (by decide), by decide,
    fun _ _ _ => (by decide : (0 : Nat) + 3 * 4 < 2 ^ 64), fun _ _ _ => (by decide : (0 : Nat) + 3 * 4 < 2 ^ 64),
    histogram_mass_conservation sample_cluster_mixed
      (ready_seeded _ _ _ (by decide) (by decide) (by decide) (by decide) (by decide))
      27 (by decide) (fun _ _ _ => (by decide : (0 : Nat) + 3 * 4 < 2 ^ 64)) (fun _ _ _ => (by decide : (0 : Nat) + 3 * 4 < 2 ^ 64))⟩

/-- C10: one call of `iterate` raises a colour's spans counter by exactly 1 when some
cluster of that colour has a cell in column 0 and a cell in column `C-1`, or a cell
in row 0 and a cell in row `R-1`, and leaves it unchanged otherwise; it never adds 2
(the 64-bit counter not overflowing). -/
theorem spanning_detection (cl : cluster) (h : Ready cl) (fuel : Nat)
    (hf : 2 * (cl.rows * cl.cols) + 3 ≤ fuel) (hw : cl.white_spans + 1 < 2 ^ 64)
    (hb : cl.black_spans + 1 < 2 ^ 64) :
    ∃ cl', iterate fuel cl = some cl' ∧
      (SpansRows cl' CLUSTER_WHITE ∨ SpansCols cl' CLUSTER_WHITE →
        cl'.white_spans = cl.white_spans + 1) ∧
      (¬ (SpansRows cl' CLUSTER_WHITE ∨ SpansCols cl' CLUSTER_WHITE) →
        cl'.white_spans = cl.white_spans) ∧
      (SpansRows cl' CLUSTER_BLACK ∨ SpansCols cl' CLUSTER_BLACK →
        cl'.black_spans = cl.black_spans + 1) ∧
      (¬ (SpansRows cl' CLUSTER_BLACK ∨ SpansCols cl' CLUSTER_BLACK) →
        cl'.black_spans = cl.black_spans) := by
  obtain ⟨cl', e, post⟩ := iterate_spec h hf
  refine ⟨cl', e, ?_, post.white_span.2, ?_, post.black_span.2⟩
  · intro hs
    rw [post.white_span.1 hs]
    exact u64_of_lt hw
  · intro hs
    rw [post.black_span.1 hs]
    exact u64_of_lt hb

/-- C10, instance: the 3 x 4 sample cluster with diagonal limits at one half. -/
theorem spanning_detection_witness :
    Ready sample_cluster_mixed ∧
      2 * (sample_cluster_mixed.rows * sample_cluster_mixed.cols) + 3 ≤ 27 ∧
      sample_cluster_mixed.white_spans + 1 < 2 ^ 64 ∧
      sample_cluster_mixed.black_spans + 1 < 2 ^ 64 ∧
      ∃ cl', iterate 27 sample_cluster_mixed = some cl' ∧
        (SpansRows cl' CLUSTER_WHITE ∨ SpansCols cl' CLUSTER_WHITE →
          cl'.white_spans = sample_cluster_mixed.white_spans + 1) ∧
        (¬ (SpansRows cl' CLUSTER_WHITE ∨ SpansCols cl' CLUSTER_WHITE) →
          cl'.white_spans = sample_cluster_mixed.white_spans) ∧
        (SpansRows cl' CLUSTER_BLACK ∨ SpansCols cl' CLUSTER_BLACK →
          cl'.black_spans = sample_cluster_mixed.black_spans + 1) ∧
        (¬ (SpansRows cl' CLUSTER_BLACK ∨ SpansCols cl' CLUSTER_BLACK) →
          cl'.black_spans = sample_cluster_mixed.black_spans) :=
  ⟨ready_seeded _ _ _ (by decide) (by decide) (by decide) (by decide) (by decide), by decide,
    by decide, by decide,
    spanning_detection sample_cluster_mixed
      (ready_seeded _ _ _ (by decide) (by decide) (by decide) (by decide) (by decide))
      27 (by decide) (by decide) (by decide)⟩

theorem probability_zero_state (fuel limit : Nat) : probability fuel 0 limit = none := by
  induction fuel with
  | zero => rfl
  | succ fuel ih =>
    have e1 : xorshift_round 0 = 0 := by decide
    have e2 : u64 (0 * 2685821657736338717) = 0 := by decide
    rw [probability]
    simp only [e1, e2, if_true]
    exact ih

/-- On the invalid generator state 0 the draw never returns, and with it `iterate`:
no amount of fuel gives a result. -/
theorem iterate_zero_state (cl : cluster) (hr : 1 ≤ cl.rows) (hc : 1 ≤ cl.cols)
    (h0 : cl.rng = 0) (fuel : Nat) : iterate fuel cl = none := by
  have hcell : iterate_cell fuel 0 0 cl = none := by
    simp [iterate_cell, h0, probability_zero_state]
  obtain ⟨n, hn⟩ : ∃ n, cl.rows = n + 1 := ⟨cl.rows - 1, by omega⟩
  obtain ⟨m, hm⟩ : ∃ m, cl.cols = m + 1 := ⟨cl.cols - 1, by omega⟩
  have hgen : iterate_generate fuel cl = none := by
    unfold iterate_generate
    rw [hn, hm]
    simp only [List.range_succ_eq_map, List.foldlM_cons, hcell]
    rfl
  simp [iterate, hgen]

theorem iterate_lt_of_closed {djs : Nat → Nat} {n : Nat} (hcl : ∀ x, x < n → djs x < n)
    {i : Nat} (hi : i < n) : ∀ j, djs^[j] i < n := by
  intro j
  induction j with
  | zero => simpa using hi
  | succ j ih => rw [Function.iterate_succ_apply']; exact hcl _ ih

theorem IsRootOfN.root_lt {djs : Nat → Nat} {n i r k : Nat}
    (hcl : ∀ x, x < n → djs x < n) (hi : i < n) (h : IsRootOfN djs i r k) : r < n := by
  have h0 := h.hops k (Nat.le_refl k)
  rw [Nat.sub_self] at h0
  have e : djs^[k] i = r := h0.1
  rw [← e]
  exact iterate_lt_of_closed hcl hi k

theorem Forest.reaches {n : Nat} {djs rt : Nat → Nat} (h : Forest n djs rt) : Reaches n djs :=
  fun i hi => ⟨(h i hi).1, rt i, (h i hi).2.2⟩

theorem Reaches.forest {n : Nat} {djs : Nat → Nat} (h : Reaches n djs) :
    Forest n djs (fun i => (djs_root n djs i).getD i) := by
  intro i hi
  obtain ⟨h1, r, k, hk⟩ := h i hi
  have hcl : ∀ x, x < n → djs x < n := fun x hx => (h x hx).1
  have hkn := hk.lt_of_closed hcl hi
  have e : djs_root n djs i = some r := djs_root_of_isRootOfN hk n hkn
  have e2 : (djs_root n djs i).getD i = r := by rw [e]; rfl
  refine ⟨h1, ?_, k, ?_⟩
  · show (djs_root n djs i).getD i < n
    rw [e2]; exact hk.root_lt hcl hi
  · show IsRootOfN djs i ((djs_root n djs i).getD i) k
    rw [e2]; exact hk

theorem JoinSpec.reaches_after {n : Nat} {djs rt djs' : Nat → Nat} {L : List Nat} {root : Nat}
    (h : JoinSpec n djs rt djs' L root) : Reaches n djs' :=
  h.1.reaches

/-- C11: for every valid generator state, `iterate` returns, and afterwards every parent
entry `djs[i]` with `i < rows * cols` is a label below `rows * cols` that is its own
parent, so `djs_root` finds the root of `i` with at most one hop (two evaluations
of its loop condition). -/
theorem iterate_post_flatten (cl : cluster) (h : Ready cl) (fuel : Nat)
    (hf : 2 * (cl.rows * cl.cols) + 3 ≤ fuel) :
    ∃ cl', iterate fuel cl = some cl' ∧
      ∀ i, i < cl.rows * cl.cols →
        cl'.djs i < cl.rows * cl.cols ∧ cl'.djs (cl'.djs i) = cl'.djs i ∧
        djs_root 2 cl'.djs i = some (cl'.djs i) := by
  obtain ⟨cl', e, post⟩ := iterate_spec h hf
  refine ⟨cl', e, ?_⟩
  intro i hi
  exact ⟨post.flat.lt i hi, post.flat.idem i hi, djs_root_flat post.flat hi (Nat.le_refl 2)⟩

/-- C11, instance: the 3 x 4 sample cluster with diagonal limits at one half. -/
theorem iterate_post_flatten_witness :
    Ready sample_cluster_mixed ∧
      2 * (sample_cluster_mixed.rows * sample_cluster_mixed.cols) + 3 ≤ 27 ∧
      ∃ cl', iterate 27 sample_cluster_mixed = some cl' ∧
        ∀ i, i < sample_cluster_mixed.rows * sample_cluster_mixed.cols →
          cl'.djs i < sample_cluster_mixed.rows * sample_cluster_mixed.cols ∧
          cl'.djs (cl'.djs i) = cl'.djs i ∧ djs_root 2 cl'.djs i = some (cl'.djs i) :=
  ⟨ready_seeded _ _ _ (by decide) (by decide) (by decide) (by decide) (by decide), by decide,
    iterate_post_flatten sample_cluster_mixed
      (ready_seeded _ _ _ (by decide) (by decide) (by decide) (by decide) (by decide))
      27 (by decide)⟩

/-- C12: if following parent entries from every label below `n` reaches a self-parented
label, then with fuel `n + 2` or more `djs_root` returns on every label (a
self-parented label below `n`), `djs_path` returns for every label and every
self-parented root, `djs_flatten` and the four joins return on all labels, and
the array each of them leaves has the same property again. -/
theorem djs_forest_preserved (n : Nat) (djs : Nat → Nat) (h : Reaches n djs) (fuel : Nat)
    (hf : n + 2 ≤ fuel) :
    (∀ i, i < n → ∃ r, djs_root fuel djs i = some r ∧ r < n ∧ djs r = r) ∧
    (∀ from0 root, from0 < n → root < n → djs root = root →
      ∃ djs', djs_path fuel djs from0 root = some djs' ∧ Reaches n djs') ∧
    (∀ from0, from0 < n →
      ∃ root djs', djs_flatten fuel djs from0 = some (root, djs') ∧ Reaches n djs') ∧
    (∀ a b, a < n → b < n → ∃ djs', djs_join2 fuel djs a b = some djs' ∧ Reaches n djs') ∧
    (∀ a b c, a < n → b < n → c < n →
      ∃ djs', djs_join3 fuel djs a b c = some djs' ∧ Reaches n djs') ∧
    (∀ a b c d, a < n → b < n → c < n → d < n →
      ∃ djs', djs_join4 fuel djs a b c d = some djs' ∧ Reaches n djs') ∧
    (∀ a b c d e, a < n → b < n → c < n → d < n → e < n →
      ∃ djs', djs_join5 fuel djs a b c d e = some djs' ∧ Reaches n djs') := by
  have hF := h.forest
  refine ⟨?_, ?_, ?_, ?_, ?_, ?_, ?_⟩
  · intro i hi
    exact ⟨_, hF.root_eq hi (by omega), (hF i hi).2.1, hF.root_is_root hi⟩
  · intro from0 root hfrom hroot hself
    obtain ⟨djs', e, hF', _⟩ := hF.path_attach hfrom hroot hself hf
    exact ⟨djs', e, hF'.reaches⟩
  · intro from0 hfrom
    obtain ⟨djs', e, hF', _⟩ := hF.flatten_keeps hfrom hf
    exact ⟨_, djs', e, hF'.reaches⟩
  · intro a b ha hb
    obtain ⟨djs', e, hs⟩ := djs_join2_spec hF ha hb hf
    exact ⟨djs', e, hs.reaches_after⟩
  · intro a b c ha hb hc
    obtain ⟨djs', e, hs⟩ := djs_join3_spec hF ha hb hc hf
    exact ⟨djs', e, hs.reaches_after⟩
  · intro a b c d ha hb hc hd
    obtain ⟨djs', e, hs⟩ := djs_join4_spec hF ha hb hc hd hf
    exact ⟨djs', e, hs.reaches_after⟩
  · intro a b c d e ha hb hc hd he
    obtain ⟨djs', e', hs⟩ := djs_join5_spec hF ha hb hc hd he hf
    exact ⟨djs', e', hs.reaches_after⟩

/-- C12, instance: the sample forest on five labels with fuel 7. -/
theorem djs_forest_preserved_witness :
    Reaches 5 sample_djs ∧ 5 + 2 ≤ 7 ∧
    ((∀ i, i < 5 → ∃ r, djs_root 7 sample_djs i = some r ∧ r < 5 ∧ sample_djs r = r) ∧
    (∀ from0 root, from0 < 5 → root < 5 → sample_djs root = root →
      ∃ djs', djs_path 7 sample_djs from0 root = some djs' ∧ Reaches 5 djs') ∧
    (∀ from0, from0 < 5 →
      ∃ root djs', djs_flatten 7 sample_djs from0 = some (root, djs') ∧ Reaches 5 djs') ∧
    (∀ a b, a < 5 → b < 5 →
      ∃ djs', djs_join2 7 sample_djs a b = some djs' ∧ Reaches 5 djs') ∧
    (∀ a b c, a < 5 → b < 5 → c < 5 →
      ∃ djs', djs_join3 7 sample_djs a b c = some djs' ∧ Reaches 5 djs') ∧
    (∀ a b c d, a < 5 → b < 5 → c < 5 → d < 5 →
      ∃ djs', djs_join4 7 sample_djs a b c d = some djs' ∧ Reaches 5 djs') ∧
    (∀ a b c d e, a < 5 → b < 5 → c < 5 → d < 5 → e < 5 →
      ∃ djs', djs_join5 7 sample_djs a b c d e = some djs' ∧ Reaches 5 djs')) :=
  ⟨sample_forest.reaches, by decide,
    djs_forest_preserved 5 sample_djs sample_forest.reaches 7 (by decide)⟩

/-- C13: on a forest, `djs_flatten` returns the label `djs_root` returns; afterwards every
label on the former parent chain from `from0` (the labels `djs^[j] from0` up to the
root) has the root as its parent entry, every entry off the chain is unchanged,
and `djs_root` returns on every label what it returned before. -/
theorem djs_flatten_find_compress (n : Nat) (djs rt : Nat → Nat) (h : Forest n djs rt)
    (from0 : Nat) (hi : from0 < n) (fuel : Nat) (hf : n + 2 ≤ fuel) :
    ∃ djs' k, djs_root fuel djs from0 = some (rt from0) ∧
      djs_flatten fuel djs from0 = some (rt from0, djs') ∧
      IsRootOfN djs from0 (rt from0) k ∧
      (∀ j, j ≤ k → djs' (djs^[j] from0) = rt from0) ∧
      (∀ x, (∀ j, j ≤ k → djs^[j] from0 ≠ x) → djs' x = djs x) ∧
      (∀ y, y < n → djs_root fuel djs y = some (rt y) ∧ djs_root fuel djs' y = some (rt y)) := by
  have hr := Forest.root_eq h hi (show n ≤ fuel by omega)
  have hself := Forest.root_is_root h hi
  obtain ⟨djs2, e2, hF2, _⟩ := Forest.flatten_keeps h hi hf
  have hall : ∀ y, y < n → djs_root fuel djs y = some (rt y) :=
    fun y hy => Forest.root_eq h hy (by omega)
  obtain ⟨_, _, k, hk⟩ := h from0 hi
  have hkn := hk.lt_of_closed (fun x hx => (h x hx).1) hi
  obtain ⟨djs1, hrun, _, hkeep, hset⟩ :=
    djs_path_spec k djs from0 (rt from0) hself hk fuel (by omega)
  have e1 : djs_flatten fuel djs from0 = some (rt from0, djs1) := by
    simp [djs_flatten, hr, hrun]
  have e12 : djs2 = djs1 := by
    rw [e1] at e2
    exact ((Prod.mk.inj (Option.some.inj e2)).2).symm
  subst e12
  refine ⟨djs2, k, hr, e1, hk, hset, ?_, ?_⟩
  · intro x hx
    rcases hkeep x with e | ⟨_, j, hj, hxj⟩
    · exact e
    · exact absurd hxj (hx j hj)
  · intro y hy
    exact ⟨hall y hy, hF2.root_eq hy (by omega)⟩

/-- C13, instance: flattening label 2 of the sample forest `0 ← 1 ← 2`, `3 ← 4`. -/
theorem djs_flatten_find_compress_witness :
    Forest 5 sample_djs sample_rt ∧ 2 < 5 ∧ 5 + 2 ≤ 7 ∧
    ∃ djs' k, djs_root 7 sample_djs 2 = some (sample_rt 2) ∧
      djs_flatten 7 sample_djs 2 = some (sample_rt 2, djs') ∧
      IsRootOfN sample_djs 2 (sample_rt 2) k ∧
      (∀ j, j ≤ k → djs' (sample_djs^[j] 2) = sample_rt 2) ∧
      (∀ x, (∀ j, j ≤ k → sample_djs^[j] 2 ≠ x) → djs' x = sample_djs x) ∧
      (∀ y, y < 5 → djs_root 7 sample_djs y = some (sample_rt y) ∧
        djs_root 7 djs' y = some (sample_rt y)) :=
  ⟨sample_forest, by decide, by decide,
    djs_flatten_find_compress 5 sample_djs sample_rt sample_forest 2 (by decide) 7 (by decide)⟩

theorem prng_probability_of_ne_zero {s : Nat} (hs : s ≠ 0) (hlt : s < 2 ^ 64) (fuel limit : Nat)
    (hf : 1 ≤ fuel) :
    prng_probability fuel s limit = some (xorshift_round s,
      if u64 (xorshift_round s * 2685821657736338717) ≤ limit then 1 else 0) := by
  obtain ⟨f, rfl⟩ : ∃ f, fuel = f + 1 := ⟨fuel - 1, by omega⟩
  have h1 := xorshift_round_ne_zero hs hlt
  have h2 := mul_const_ne_zero h1.1 h1.2
  simp only [prng_probability]
  rw [if_neg h2]

theorem draws_of_ne_zero (fuel : Nat) (hf : 1 ≤ fuel) :
    ∀ (limits : List Nat) (s : Nat), s ≠ 0 → s < 2 ^ 64 →
      ∃ s' colors, draws fuel limits s = some (s', colors) ∧
        s' = xorshift_round^[limits.length] s ∧ s' ≠ 0 ∧ s' < 2 ^ 64 ∧
        colors.length = limits.length := by
  intro limits
  induction limits with
  | nil => intro s hs hlt; exact ⟨s, [], rfl, rfl, hs, hlt, rfl⟩
  | cons limit limits ih =>
    intro s hs hlt
    have h1 := xorshift_round_ne_zero hs hlt
    obtain ⟨s', colors, e, e1, e2, e3, e4⟩ := ih (xorshift_round s) h1.1 h1.2
    refine ⟨s', (if u64 (xorshift_round s * 2685821657736338717) ≤ limit then CLUSTER_BLACK
      else CLUSTER_WHITE) :: colors, ?_, ?_, e2, e3, ?_⟩
    · simp only [draws, probability_of_ne_zero hs hlt fuel limit hf, Option.some_bind, e,
        Option.map_some']
    · rw [e1]; rfl
    · simp [e4]

/-- C14: for every nonzero 64-bit state, `probability` (and `prng_probability` of `prng.h`)
returns after one execution of the loop body, that is after exactly one xorshift
round; the multiplied value compared with the limit is nonzero and the state
stored is nonzero (and 64-bit); hence any number of successive draws on a
generator with a nonzero state all return and leave a nonzero state. -/
theorem probability_never_zero (s : Nat) (hs : s ≠ 0) (hlt : s < 2 ^ 64) (limit : Nat) :
    probability 1 s limit = some (xorshift_round s,
      if u64 (xorshift_round s * 2685821657736338717) ≤ limit then CLUSTER_BLACK
      else CLUSTER_WHITE) ∧
    prng_probability 1 s limit = some (xorshift_round s,
      if u64 (xorshift_round s * 2685821657736338717) ≤ limit then 1 else 0) ∧
    u64 (xorshift_round s * 2685821657736338717) ≠ 0 ∧
    xorshift_round s ≠ 0 ∧ xorshift_round s < 2 ^ 64 ∧
    ∀ fuel, 1 ≤ fuel → ∀ limits : List Nat,
      ∃ s' colors, draws fuel limits s = some (s', colors) ∧
        s' = xorshift_round^[limits.length] s ∧ s' ≠ 0 ∧ s' < 2 ^ 64 ∧
        colors.length = limits.length := by
  have h1 := xorshift_round_ne_zero hs hlt
  exact ⟨probability_of_ne_zero hs hlt 1 limit (Nat.le_refl 1),
    prng_probability_of_ne_zero hs hlt 1 limit (Nat.le_refl 1),
    mul_const_ne_zero h1.1 h1.2, h1.1, h1.2,
    fun fuel hf limits => draws_of_ne_zero fuel hf limits s hs hlt⟩

/-- C14, instance: the state 1 with the limit `2^63`. -/
theorem probability_never_zero_witness :
    (1 : Nat) ≠ 0 ∧ (1 : Nat) < 2 ^ 64 ∧
    (probability 1 1 (2 ^ 63) = some (xorshift_round 1,
      if u64 (xorshift_round 1 * 2685821657736338717) ≤ 2 ^ 63 then CLUSTER_BLACK
      else CLUSTER_WHITE) ∧
    prng_probability 1 1 (2 ^ 63) = some (xorshift_round 1,
      if u64 (xorshift_round 1 * 2685821657736338717) ≤ 2 ^ 63 then 1 else 0) ∧
    u64 (xorshift_round 1 * 2685821657736338717) ≠ 0 ∧
    xorshift_round 1 ≠ 0 ∧ xorshift_round 1 < 2 ^ 64 ∧
    ∀ fuel, 1 ≤ fuel → ∀ limits : List Nat,
      ∃ s' colors, draws fuel limits 1 = some (s', colors) ∧
        s' = xorshift_round^[limits.length] 1 ∧ s' ≠ 0 ∧ s' < 2 ^ 64 ∧
        colors.length = limits.length) :=
  ⟨by decide, by decide, probability_never_zero 1 (by decide) (by decide) (2 ^ 63)⟩

theorem probability_limit_of_one_le {p : ℚ} (h : 1 ≤ p) :
    probability_limit p = 2 ^ 64 - 1 := by
  unfold probability_limit
  rw [if_neg (by linarith), if_neg (by linarith), if_pos h]
  norm_num

theorem probability_limit_of_le_zero {p : ℚ} (h : p ≤ 0) : probability_limit p = 0 := by
  unfold probability_limit
  rw [if_pos h]

/-- C15: for every nonzero 64-bit state and every limit, `probability` returns
`CLUSTER_BLACK` exactly when the drawn value (the state after one xorshift round,
multiplied, modulo `2^64`) is at most the limit, and `CLUSTER_WHITE` otherwise;
the state it leaves is the state after one xorshift round whatever the limit;
with the limit `2^64 - 1`, which is `probability_limit p` for every `p ≥ 1`, the
result is `CLUSTER_BLACK`, and with the limit 0, which is `probability_limit p`
for every `p ≤ 0`, it is `CLUSTER_WHITE`. -/
theorem probability_threshold (s : Nat) (hs : s ≠ 0) (hlt : s < 2 ^ 64) (fuel : Nat)
    (hf : 1 ≤ fuel) (limit : Nat) :
    (∃ color, probability fuel s limit = some (xorshift_round s, color) ∧
      (color = CLUSTER_BLACK ∨ color = CLUSTER_WHITE) ∧
      (color = CLUSTER_BLACK ↔ u64 (xorshift_round s * 2685821657736338717) ≤ limit)) ∧
    probability fuel s (2 ^ 64 - 1) = some (xorshift_round s, CLUSTER_BLACK) ∧
    probability fuel s 0 = some (xorshift_round s, CLUSTER_WHITE) ∧
    (∀ p : ℚ, 1 ≤ p →
      probability fuel s (probability_limit p) = some (xorshift_round s, CLUSTER_BLACK)) ∧
    (∀ p : ℚ, p ≤ 0 →
      probability fuel s (probability_limit p) = some (xorshift_round s, CLUSTER_WHITE)) := by
  have h1 := xorshift_round_ne_zero hs hlt
  have h2 := mul_const_ne_zero h1.1 h1.2
  have hv : u64 (xorshift_round s * 2685821657736338717) < 2 ^ 64 := Nat.mod_lt _ (by norm_num)
  have hmax : probability fuel s (2 ^ 64 - 1) = some (xorshift_round s, CLUSTER_BLACK) := by
    rw [probability_of_ne_zero hs hlt fuel _ hf, if_pos (by omega)]
  have hmin : probability fuel s 0 = some (xorshift_round s, CLUSTER_WHITE) := by
    rw [probability_of_ne_zero hs hlt fuel _ hf, if_neg (by omega)]
  refine ⟨⟨_, probability_of_ne_zero hs hlt fuel limit hf, ?_, ?_⟩, hmax, hmin, ?_, ?_⟩
  · by_cases hle : u64 (xorshift_round s * 2685821657736338717) ≤ limit
    · rw [if_pos hle]; exact Or.inl rfl
    · rw [if_neg hle]; exact Or.inr rfl
  · by_cases hle : u64 (xorshift_round s * 2685821657736338717) ≤ limit
    · rw [if_pos hle]; exact ⟨fun _ => hle, fun _ => rfl⟩
    · rw [if_neg hle]
      exact ⟨fun e => absurd e (by decide), fun e => absurd e hle⟩
  · intro p hp
    rw [probability_limit_of_one_le hp]; exact hmax
  · intro p hp
    rw [probability_limit_of_le_zero hp]; exact hmin

/-- C15, instance: the state 1 with fuel 1 and the limit `2^63`. -/
theorem probability_threshold_witness :
    (1 : Nat) ≠ 0 ∧ (1 : Nat) < 2 ^ 64 ∧ 1 ≤ 1 ∧
    ((∃ color, probability 1 1 (2 ^ 63) = some (xorshift_round 1, color) ∧
      (color = CLUSTER_BLACK ∨ color = CLUSTER_WHITE) ∧
      (color = CLUSTER_BLACK ↔ u64 (xorshift_round 1 * 2685821657736338717) ≤ 2 ^ 63)) ∧
    probability 1 1 (2 ^ 64 - 1) = some (xorshift_round 1, CLUSTER_BLACK) ∧
    probability 1 1 0 = some (xorshift_round 1, CLUSTER_WHITE) ∧
    (∀ p : ℚ, 1 ≤ p →
      probability 1 1 (probability_limit p) = some (xorshift_round 1, CLUSTER_BLACK)) ∧
    (∀ p : ℚ, p ≤ 0 →
      probability 1 1 (probability_limit p) = some (xorshift_round 1, CLUSTER_WHITE))) :=
  ⟨by decide, by decide, by decide,
    probability_threshold 1 (by decide) (by decide) 1 (by decide) (2 ^ 63)⟩

theorem to_label_of_nonneg {x : Int} (h0 : 0 ≤ x) (h1 : x < 2 ^ 32) : to_label x = x.toNat := by
  unfold to_label
  rw [Int.emod_eq_of_lt h0 h1]

theorem size_test_fits {R C : Nat} (hR : 1 ≤ R) (hC : 1 ≤ C)
    (h : (R + 2) * (C + 1) < 2 ^ 32) :
    u32 (u32 ((R + 2) * (C + 1)) / (R + 2)) = C + 1 ∧
    u32 (u32 ((R + 2) * (C + 1)) / (C + 1)) = R + 2 ∧
    u32 (u32 (R * C) / R) = C ∧ u32 (u32 (R * C) / C) = R := by
  have hRC : R * C < 2 ^ 32 := by
    have : R * C ≤ (R + 2) * (C + 1) := Nat.mul_le_mul (by omega) (by omega)
    omega
  have hR1 : R + 2 ≤ (R + 2) * (C + 1) := Nat.le_mul_of_pos_right _ (by omega)
  have hC1 : C + 1 ≤ (R + 2) * (C + 1) := Nat.le_mul_of_pos_left _ (by omega)
  have hR2 : R ≤ R * C := Nat.le_mul_of_pos_right _ (by omega)
  have hC2 : C ≤ R * C := Nat.le_mul_of_pos_left _ (by omega)
  rw [u32_of_lt h, u32_of_lt hRC, Nat.mul_div_cancel_left _ (by omega : 0 < R + 2),
    Nat.mul_div_cancel _ (by omega : 0 < C + 1), Nat.mul_div_cancel_left _ (by omega : 0 < R),
    Nat.mul_div_cancel _ (by omega : 0 < C)]
  exact ⟨u32_of_lt (by omega), u32_of_lt (by omega), u32_of_lt (by omega), u32_of_lt (by omega)⟩

theorem size_test_wraps {R C : Nat} (h : 2 ^ 32 ≤ (R + 2) * (C + 1)) :
    u32 (u32 ((R + 2) * (C + 1)) / (R + 2)) ≠ C + 1 := by
  have h1 : u32 ((R + 2) * (C + 1)) < 2 ^ 32 := Nat.mod_lt _ (by norm_num)
  have h2 : u32 ((R + 2) * (C + 1)) / (R + 2) < C + 1 := by
    rw [Nat.div_lt_iff_lt_mul (by omega)]
    have : (C + 1) * (R + 2) = (R + 2) * (C + 1) := Nat.mul_comm _ _
    omega
  have h3 : u32 ((R + 2) * (C + 1)) / (R + 2) ≤ u32 ((R + 2) * (C + 1)) := Nat.div_le_self _ _
  rw [u32_of_lt (by omega)]
  omega

theorem size_too_large_iff {rows cols : Int} (hr : 1 ≤ rows) (hr' : rows < 2 ^ 31)
    (hc : 1 ≤ cols) (hc' : cols < 2 ^ 31) :
    size_too_large rows cols = true ↔ 2 ^ 32 ≤ (rows.toNat + 2) * (cols.toNat + 1) := by
  have e1 : to_label rows = rows.toNat := to_label_of_nonneg (by omega) (by omega)
  have e2 : to_label cols = cols.toNat := to_label_of_nonneg (by omega) (by omega)
  have e3 : to_label (rows + 2) = rows.toNat + 2 := by
    rw [to_label_of_nonneg (by omega) (by omega)]; omega
  have e4 : to_label (cols + 1) = cols.toNat + 1 := by
    rw [to_label_of_nonneg (by omega) (by omega)]; omega
  have hR : 1 ≤ rows.toNat := by omega
  have hC : 1 ≤ cols.toNat := by omega
  unfold size_too_large color_cells_of label_cells_of
  simp only [e1, e2, e3, e4, Bool.or_eq_true, decide_eq_true_eq, bne_iff_ne]
  constructor
  · intro h
    by_contra hlt
    obtain ⟨f1, f2, f3, f4⟩ := size_test_fits hR hC (by omega)
    rcases h with ((((h | h) | h) | h) | h) | h
    · omega
    · omega
    · exact h f1
    · exact h f2
    · exact h f3
    · exact h f4
  · intro h
    exact Or.inl (Or.inl (Or.inl (Or.inr (size_test_wraps h))))

theorem init_cluster_code (calloc : Nat → Bool) (c : cluster_obj) (rows cols : Int)
    (p_black d_white d_black : ℚ) :
    (rows < 1 ∨ cols < 1 →
      init_cluster calloc (some c) rows cols p_black d_white d_black =
        (ERR_INVALID, some CLUSTER_INITIALIZER)) ∧
    (¬ (rows < 1 ∨ cols < 1) → size_too_large rows cols = true →
      init_cluster calloc (some c) rows cols p_black d_white d_black =
        (ERR_TOOLARGE, some CLUSTER_INITIALIZER)) ∧
    (¬ (rows < 1 ∨ cols < 1) → size_too_large rows cols = false →
      (init_cluster calloc (some c) rows cols p_black d_white d_black).1 = ERR_NOMEM ∨
      (init_cluster calloc (some c) rows cols p_black d_white d_black).1 = 0) := by
  refine ⟨?_, ?_, ?_⟩
  · intro h
    simp only [init_cluster, if_pos h]
  · intro h1 h2
    simp only [init_cluster, if_neg h1, h2, if_true]
  · intro h1 h2
    simp only [init_cluster, if_neg h1, h2]
    by_cases hq : ((calloc_result (calloc 5)).is_null || (calloc_result (calloc 4)).is_null ||
        (calloc_result (calloc 3)).is_null || (calloc_result (calloc 2)).is_null ||
        (calloc_result (calloc 1)).is_null || (calloc_result (calloc 0)).is_null) = true
    · left
      simp only [CLUSTER_INITIALIZER, hq, if_true, Bool.false_eq_true, if_false]
    · right
      simp only [CLUSTER_INITIALIZER, hq, if_true, Bool.false_eq_true, if_false]

/-- C18: for a non-null cluster, `init_cluster` returns `ERR_INVALID` exactly when
`rows < 1` or `cols < 1`, whatever the size test would say; and whenever it
returns `ERR_INVALID` or `ERR_TOOLARGE` the cluster is left as `CLUSTER_INITIALIZER`:
sizes, counters, limits and generator state 0 and all six pointers `NULL`. -/
theorem init_cluster_invalid (calloc : Nat → Bool) (c : cluster_obj) (rows cols : Int)
    (p_black d_white d_black : ℚ) :
    ((init_cluster calloc (some c) rows cols p_black d_white d_black).1 = ERR_INVALID ↔
      (rows < 1 ∨ cols < 1)) ∧
    ((init_cluster calloc (some c) rows cols p_black d_white d_black).1 = ERR_INVALID ∨
      (init_cluster calloc (some c) rows cols p_black d_white d_black).1 = ERR_TOOLARGE →
      (init_cluster calloc (some c) rows cols p_black d_white d_black).2 =
        some CLUSTER_INITIALIZER) ∧
    CLUSTER_INITIALIZER.rows = 0 ∧ CLUSTER_INITIALIZER.cols = 0 ∧
    CLUSTER_INITIALIZER.iterations = 0 ∧ CLUSTER_INITIALIZER.p_black = 0 ∧
    CLUSTER_INITIALIZER.d_white = 0 ∧ CLUSTER_INITIALIZER.d_black = 0 ∧
    CLUSTER_INITIALIZER.rng = 0 ∧ CLUSTER_INITIALIZER.map = pointer.null ∧
    CLUSTER_INITIALIZER.djs = pointer.null ∧ CLUSTER_INITIALIZER.white_roots = pointer.null ∧
    CLUSTER_INITIALIZER.black_roots = pointer.null ∧
    CLUSTER_INITIALIZER.white_histogram = pointer.null ∧
    CLUSTER_INITIALIZER.black_histogram = pointer.null := by
  obtain ⟨h1, h2, h3⟩ := init_cluster_code calloc c rows cols p_black d_white d_black
  refine ⟨?_, ?_, rfl, rfl, rfl, rfl, rfl, rfl, rfl, rfl, rfl, rfl, rfl, rfl, rfl⟩
  · constructor
    · intro e
      by_contra hn
      cases hs : size_too_large rows cols with
      | true => rw [h2 hn hs] at e; exact absurd e (by decide)
      | false =>
        rcases h3 hn hs with e' | e' <;> rw [e'] at e <;> exact absurd e (by decide)
    · intro h
      rw [h1 h]
  · intro e
    by_cases hn : rows < 1 ∨ cols < 1
    · rw [h1 hn]
    · cases hs : size_too_large rows cols with
      | true => rw [h2 hn hs]
      | false =>
        rcases h3 hn hs with e' | e' <;> rw [e'] at e <;>
          rcases e with e | e <;> exact absurd e (by decide)

/-- C19: for 32-bit `int` arguments `rows ≥ 1` and `cols ≥ 1` and a non-null cluster,
`init_cluster` returns `ERR_TOOLARGE` exactly when the padded cell count
`(rows + 2) * (cols + 1)` is at least `2^32`. -/
theorem init_cluster_toolarge_exact (calloc : Nat → Bool) (c : cluster_obj) (rows cols : Int)
    (p_black d_white d_black : ℚ) (hr : 1 ≤ rows) (hr' : rows < 2 ^ 31) (hc : 1 ≤ cols)
    (hc' : cols < 2 ^ 31) :
    (init_cluster calloc (some c) rows cols p_black d_white d_black).1 = ERR_TOOLARGE ↔
      2 ^ 32 ≤ (rows.toNat + 2) * (cols.toNat + 1) := by
  obtain ⟨_, h2, h3⟩ := init_cluster_code calloc c rows cols p_black d_white d_black
  have hn : ¬ (rows < 1 ∨ cols < 1) := by omega
  rw [← size_too_large_iff hr hr' hc hc']
  cases hs : size_too_large rows cols with
  | true => rw [h2 hn hs]; simp
  | false =>
    constructor
    · intro e
      rcases h3 hn hs with e' | e' <;> rw [e'] at e <;> exact absurd e (by decide)
    · intro e; exact absurd e (by decide)

/-- C19, instance: 65535 rows and 65535 columns, whose padded cell count is `2^32 + 65536`. -/
theorem init_cluster_toolarge_exact_witness :
    (1 : Int) ≤ 65535 ∧ (65535 : Int) < 2 ^ 31 ∧
    ((init_cluster (fun _ => true) (some CLUSTER_INITIALIZER) 65535 65535 0 0 0).1 =
        ERR_TOOLARGE ↔
      2 ^ 32 ≤ ((65535 : Int).toNat + 2) * ((65535 : Int).toNat + 1)) :=
  ⟨by decide, by decide,
    init_cluster_toolarge_exact (fun _ => true) CLUSTER_INITIALIZER 65535 65535 0 0 0
      (by decide) (by decide) (by decide) (by decide)⟩

/-- C20: for 32-bit `int` arguments, whenever `init_cluster` on a non-null cluster returns
neither `ERR_INVALID` nor `ERR_TOOLARGE`, `rows * cols + 2 < 2^32`; hence the
local `labels` of `init_cluster` and the values `rows * cols + 2` and
`rows * cols + 1` that `iterate` computes in `cluster_label` arithmetic are the
mathematical ones. -/
theorem init_cluster_labels_exact (calloc : Nat → Bool) (c : cluster_obj) (rows cols : Int)
    (p_black d_white d_black : ℚ) (hr' : rows < 2 ^ 31) (hc' : cols < 2 ^ 31)
    (h1 : (init_cluster calloc (some c) rows cols p_black d_white d_black).1 ≠ ERR_INVALID)
    (h2 : (init_cluster calloc (some c) rows cols p_black d_white d_black).1 ≠ ERR_TOOLARGE) :
    rows.toNat * cols.toNat + 2 < 2 ^ 32 ∧
    labels_of rows cols = rows.toNat * cols.toNat + 2 ∧
    u32 (u32 (to_label rows * to_label cols) + 2) = rows.toNat * cols.toNat + 2 ∧
    u32 (u32 (to_label rows * to_label cols) + 1) = rows.toNat * cols.toNat + 1 := by
  obtain ⟨g1, g2, _⟩ := init_cluster_code calloc c rows cols p_black d_white d_black
  have hn : ¬ (rows < 1 ∨ cols < 1) := fun h => h1 (by rw [g1 h])
  have hr : 1 ≤ rows := by omega
  have hc : 1 ≤ cols := by omega
  have hs : ¬ (2 ^ 32 ≤ (rows.toNat + 2) * (cols.toNat + 1)) := by
    rw [← size_too_large_iff hr hr' hc hc']
    intro hs
    exact h2 (by rw [g2 hn hs])
  have e1 : to_label rows = rows.toNat := to_label_of_nonneg (by omega) (by omega)
  have e2 : to_label cols = cols.toNat := to_label_of_nonneg (by omega) (by omega)
  have hle : rows.toNat * cols.toNat + 2 ≤ (rows.toNat + 2) * (cols.toNat + 1) := by
    have : (rows.toNat + 2) * (cols.toNat + 1) =
        rows.toNat * cols.toNat + rows.toNat + 2 * cols.toNat + 2 := by ring
    omega
  have hlt : rows.toNat * cols.toNat + 2 < 2 ^ 32 := by omega
  have e3 : u32 (rows.toNat * cols.toNat) = rows.toNat * cols.toNat := u32_of_lt (by omega)
  refine ⟨hlt, ?_, ?_, ?_⟩
  · unfold labels_of label_cells_of
    rw [e1, e2, e3]; exact u32_of_lt hlt
  · rw [e1, e2, e3]; exact u32_of_lt hlt
  · rw [e1, e2, e3]; exact u32_of_lt (by omega)

/-- C20, instance: 3 rows and 4 columns with every allocation succeeding. -/
theorem init_cluster_labels_exact_witness :
    (3 : Int) < 2 ^ 31 ∧ (4 : Int) < 2 ^ 31 ∧
    (init_cluster (fun _ => true) (some CLUSTER_INITIALIZER) 3 4 0 0 0).1 ≠ ERR_INVALID ∧
    (init_cluster (fun _ => true) (some CLUSTER_INITIALIZER) 3 4 0 0 0).1 ≠ ERR_TOOLARGE ∧
    ((3 : Int).toNat * (4 : Int).toNat + 2 < 2 ^ 32 ∧
    labels_of 3 4 = (3 : Int).toNat * (4 : Int).toNat + 2 ∧
    u32 (u32 (to_label 3 * to_label 4) + 2) = (3 : Int).toNat * (4 : Int).toNat + 2 ∧
    u32 (u32 (to_label 3 * to_label 4) + 1) = (3 : Int).toNat * (4 : Int).toNat + 1) :=
  ⟨by decide, by decide, by decide, by decide,
    init_cluster_labels_exact (fun _ => true) CLUSTER_INITIALIZER 3 4 0 0 0
      (by decide) (by decide) (by decide) (by decide)⟩

theorem Agree.closed {n : Nat} {d1 d2 : Nat → Nat} (h : Agree n d1 d2) (hc : Closed n d1) :
    Closed n d2 := fun x hx => by rw [← h x hx]; exact hc x hx

theorem Agree.update_both {n : Nat} {d1 d2 : Nat → Nat} (h : Agree n d1 d2) (i v : Nat) :
    Agree n (Function.update d1 i v) (Function.update d2 i v) := by
  intro x hx
  by_cases e : x = i
  · rw [e, Function.update_same, Function.update_same]
  · rw [Function.update_noteq e, Function.update_noteq e]; exact h x hx

theorem Closed.update_lt {n : Nat} {d : Nat → Nat} (h : Closed n d) (i : Nat) {v : Nat}
    (hv : v < n) : Closed n (Function.update d i v) := by
  intro x hx
  by_cases e : x = i
  · rw [e, Function.update_same]; exact hv
  · rw [Function.update_noteq e]; exact h x hx

theorem djs_root_agree {n : Nat} :
    ∀ (fuel : Nat) (d1 d2 : Nat → Nat) (i : Nat), Agree n d1 d2 → Closed n d1 → i < n →
      djs_root fuel d1 i = djs_root fuel d2 i := by
  intro fuel
  induction fuel with
  | zero => intro d1 d2 i _ _ _; rfl
  | succ fuel ih =>
    intro d1 d2 i ha hc hi
    simp only [djs_root]
    rw [← ha i hi]
    by_cases e : i ≠ d1 i
    · rw [if_pos e, if_pos e]; exact ih d1 d2 (d1 i) ha hc (hc i hi)
    · rw [if_neg e, if_neg e]

theorem djs_root_lt {n : Nat} :
    ∀ (fuel : Nat) (d : Nat → Nat) (i r : Nat), Closed n d → i < n →
      djs_root fuel d i = some r → r < n := by
  intro fuel
  induction fuel with
  | zero => intro d i r _ _ h; simp [djs_root] at h
  | succ fuel ih =>
    intro d i r hc hi h
    simp only [djs_root] at h
    by_cases e : i ≠ d i
    · rw [if_pos e] at h; exact ih d (d i) r hc (hc i hi) h
    · rw [if_neg e] at h
      have := Option.some.inj h
      omega

theorem djs_path_agree {n root : Nat} (hroot : root < n) :
    ∀ (fuel : Nat) (d1 d2 : Nat → Nat) (from0 : Nat), Agree n d1 d2 → Closed n d1 →
      from0 < n → OAgree n (djs_path fuel d1 from0 root) (djs_path fuel d2 from0 root) := by
  intro fuel
  induction fuel with
  | zero => intro d1 d2 from0 _ _ _; exact True.intro
  | succ fuel ih =>
    intro d1 d2 from0 ha hc hi
    simp only [djs_path]
    by_cases e : from0 ≠ root
    · rw [if_pos e, if_pos e, ← ha from0 hi]
      exact ih _ _ (d1 from0) (ha.update_both from0 root) (hc.update_lt from0 hroot) (hc from0 hi)
    · rw [if_neg e, if_neg e]
      exact ⟨ha, hc⟩

theorem OAgree.bind {n : Nat} {o1 o2 : Option (Nat → Nat)} (h : OAgree n o1 o2)
    {f g : (Nat → Nat) → Option (Nat → Nat)}
    (hfg : ∀ e1 e2, Agree n e1 e2 → Closed n e1 → OAgree n (f e1) (g e2)) :
    OAgree n (o1.bind f) (o2.bind g) := by
  cases o1 with
  | none =>
    cases o2 with
    | none => exact True.intro
    | some e2 => exact h.elim
  | some e1 =>
    cases o2 with
    | none => exact h.elim
    | some e2 => exact hfg e1 e2 h.1 h.2

theorem OAgree.of_some {n : Nat} {o1 o2 : Option (Nat → Nat)} (h : OAgree n o1 o2)
    {e1 : Nat → Nat} (e : o1 = some e1) : ∃ e2, o2 = some e2 ∧ Agree n e1 e2 ∧ Closed n e1 := by
  subst e
  cases o2 with
  | none => exact h.elim
  | some e2 => exact ⟨e2, rfl, h.1, h.2⟩

theorem djs_join2_agree {n : Nat} {d1 d2 : Nat → Nat} (ha : Agree n d1 d2) (hc : Closed n d1)
    {a b : Nat} (h1 : a < n) (h2 : b < n) (fuel : Nat) :
    OAgree n (djs_join2 fuel d1 a b) (djs_join2 fuel d2 a b) := by
  simp only [djs_join2, Option.bind_eq_bind, ← djs_root_agree fuel d1 d2 _ ha hc h1,
    ← djs_root_agree fuel d1 d2 _ ha hc h2]
  cases e1 : djs_root fuel d1 a with
  | none => exact True.intro
  | some r1 =>
    cases e2 : djs_root fuel d1 b with
    | none => exact True.intro
    | some r2 =>
      have l1 := djs_root_lt fuel d1 a r1 hc h1 e1
      simp only [Option.some_bind]
      have hr : (if r1 > r2 then (r1, r1) else (r1, r2)).1 = r1 := by split <;> rfl
      rw [hr]
      exact (djs_path_agree l1 fuel d1 d2 a ha hc h1).bind
        (fun e1 e2 ha' hc' => djs_path_agree l1 fuel e1 e2 b ha' hc' h2)

theorem keep_min_lt {n r1 r2 : Nat} (h1 : r1 < n) (h2 : r2 < n) :
    (if r1 > r2 then r2 else r1) < n := by split <;> assumption

theorem djs_join3_agree {n : Nat} {d1 d2 : Nat → Nat} (ha : Agree n d1 d2) (hc : Closed n d1)
    {a b c : Nat} (h1 : a < n) (h2 : b < n) (h3 : c < n) (fuel : Nat) :
    OAgree n (djs_join3 fuel d1 a b c) (djs_join3 fuel d2 a b c) := by
  simp only [djs_join3, Option.bind_eq_bind, ← djs_root_agree fuel d1 d2 _ ha hc h1,
    ← djs_root_agree fuel d1 d2 _ ha hc h2, ← djs_root_agree fuel d1 d2 _ ha hc h3]
  cases e1 : djs_root fuel d1 a with
  | none => exact True.intro
  | some r1 =>
    cases e2 : djs_root fuel d1 b with
    | none => exact True.intro
    | some r2 =>
      cases e3 : djs_root fuel d1 c with
      | none => exact True.intro
      | some r3 =>
        have l1 := djs_root_lt fuel d1 a r1 hc h1 e1
        have l2 := djs_root_lt fuel d1 b r2 hc h2 e2
        have l3 := djs_root_lt fuel d1 c r3 hc h3 e3
        have l := keep_min_lt (keep_min_lt l1 l2) l3
        simp only [Option.some_bind]
        exact (djs_path_agree l fuel d1 d2 a ha hc h1).bind
          (fun e1 e2 ha' hc' => (djs_path_agree l fuel e1 e2 b ha' hc' h2).bind
            (fun e1 e2 ha' hc' => djs_path_agree l fuel e1 e2 c ha' hc' h3))

theorem djs_join4_agree {n : Nat} {d1 d2 : Nat → Nat} (ha : Agree n d1 d2) (hc : Closed n d1)
    {a b c d : Nat} (h1 : a < n) (h2 : b < n) (h3 : c < n) (h4 : d < n) (fuel : Nat) :
    OAgree n (djs_join4 fuel d1 a b c d) (djs_join4 fuel d2 a b c d) := by
  simp only [djs_join4, Option.bind_eq_bind, ← djs_root_agree fuel d1 d2 _ ha hc h1,
    ← djs_root_agree fuel d1 d2 _ ha hc h2, ← djs_root_agree fuel d1 d2 _ ha hc h3,
    ← djs_root_agree fuel d1 d2 _ ha hc h4]
  cases e1 : djs_root fuel d1 a with
  | none => exact True.intro
  | some r1 =>
    cases e2 : djs_root fuel d1 b with
    | none => exact True.intro
    | some r2 =>
      cases e3 : djs_root fuel d1 c with
      | none => exact True.intro
      | some r3 =>
        cases e4 : djs_root fuel d1 d with
        | none => exact True.intro
        | some r4 =>
          have l1 := djs_root_lt fuel d1 a r1 hc h1 e1
          have l2 := djs_root_lt fuel d1 b r2 hc h2 e2
          have l3 := djs_root_lt fuel d1 c r3 hc h3 e3
          have l4 := djs_root_lt fuel d1 d r4 hc h4 e4
          have l := keep_min_lt (keep_min_lt (keep_min_lt l1 l2) l3) l4
          simp only [Option.some_bind]
          exact (djs_path_agree l fuel d1 d2 a ha hc h1).bind
            (fun e1 e2 ha' hc' => (djs_path_agree l fuel e1 e2 b ha' hc' h2).bind
              (fun e1 e2 ha' hc' => (djs_path_agree l fuel e1 e2 c ha' hc' h3).bind
                (fun e1 e2 ha' hc' => djs_path_agree l fuel e1 e2 d ha' hc' h4)))

theorem djs_join5_agree {n : Nat} {d1 d2 : Nat → Nat} (ha : Agree n d1 d2) (hc : Closed n d1)
    {a b c d e : Nat} (h1 : a < n) (h2 : b < n) (h3 : c < n) (h4 : d < n) (h5 : e < n)
    (fuel : Nat) :
    OAgree n (djs_join5 fuel d1 a b c d e) (djs_join5 fuel d2 a b c d e) := by
  simp only [djs_join5, Option.bind_eq_bind, ← djs_root_agree fuel d1 d2 _ ha hc h1,
    ← djs_root_agree fuel d1 d2 _ ha hc h2, ← djs_root_agree fuel d1 d2 _ ha hc h3,
    ← djs_root_agree fuel d1 d2 _ ha hc h4, ← djs_root_agree fuel d1 d2 _ ha hc h5]
  cases e1 : djs_root fuel d1 a with
  | none => exact True.intro
  | some r1 =>
    cases e2 : djs_root fuel d1 b with
    | none => exact True.intro
    | some r2 =>
      cases e3 : djs_root fuel d1 c with
      | none => exact True.intro
      | some r3 =>
        cases e4 : djs_root fuel d1 d with
        | none => exact True.intro
        | some r4 =>
          cases e5 : djs_root fuel d1 e with
          | none => exact True.intro
          | some r5 =>
            have l1 := djs_root_lt fuel d1 a r1 hc h1 e1
            have l2 := djs_root_lt fuel d1 b r2 hc h2 e2
            have l3 := djs_root_lt fuel d1 c r3 hc h3 e3
            have l4 := djs_root_lt fuel d1 d r4 hc h4 e4
            have l5 := djs_root_lt fuel d1 e r5 hc h5 e5
            have l := keep_min_lt (keep_min_lt (keep_min_lt (keep_min_lt l1 l2) l3) l4) l5
            simp only [Option.some_bind]
            exact (djs_path_agree l fuel d1 d2 a ha hc h1).bind
              (fun e1 e2 ha' hc' => (djs_path_agree l fuel e1 e2 b ha' hc' h2).bind
                (fun e1 e2 ha' hc' => (djs_path_agree l fuel e1 e2 c ha' hc' h3).bind
                  (fun e1 e2 ha' hc' => (djs_path_agree l fuel e1 e2 d ha' hc' h4).bind
                    (fun e1 e2 ha' hc' => djs_path_agree l fuel e1 e2 e ha' hc' h5))))

theorem join_switch_agree {n : Nat} {d1 d2 : Nat → Nat} (ha : Agree n d1 d2) (hc : Closed n d1)
    {cols label fuel : Nat} (b0 b1 b2 b3 : Bool) (hl : label < n)
    (h0 : b0 = true → sub32 label 1 < n) (h1 : b1 = true → sub32 label cols < n)
    (h2 : b2 = true → sub32 (sub32 label cols) 1 < n)
    (h3 : b3 = true → u32 (sub32 label cols + 1) < n) :
    OAgree n
      (join_switch fuel d1 cols label (bit_of b0 0 ||| bit_of b1 1 ||| bit_of b2 2 ||| bit_of b3 3))
      (join_switch fuel d2 cols label
        (bit_of b0 0 ||| bit_of b1 1 ||| bit_of b2 2 ||| bit_of b3 3)) := by
  cases b0 <;> cases b1 <;> cases b2 <;> cases b3 <;>
    simp only [bit_of, if_true, if_false, Bool.false_eq_true] <;>
    norm_num [join_switch]
  · exact ⟨ha, hc⟩
  · exact djs_join2_agree ha hc hl (h3 rfl) fuel
  · exact djs_join2_agree ha hc hl (h2 rfl) fuel
  · exact djs_join3_agree ha hc hl (h2 rfl) (h3 rfl) fuel
  · exact djs_join2_agree ha hc hl (h1 rfl) fuel
  · exact djs_join3_agree ha hc hl (h1 rfl) (h3 rfl) fuel
  · exact djs_join3_agree ha hc hl (h1 rfl) (h2 rfl) fuel
  · exact djs_join4_agree ha hc hl (h1 rfl) (h2 rfl) (h3 rfl) fuel
  · exact djs_join2_agree ha hc hl (h0 rfl) fuel
  · exact djs_join3_agree ha hc hl (h0 rfl) (h3 rfl) fuel
  · exact djs_join3_agree ha hc hl (h0 rfl) (h2 rfl) fuel
  · exact djs_join4_agree ha hc hl (h0 rfl) (h2 rfl) (h3 rfl) fuel
  · exact djs_join3_agree ha hc hl (h0 rfl) (h1 rfl) fuel
  · exact djs_join4_agree ha hc hl (h0 rfl) (h1 rfl) (h3 rfl) fuel
  · exact djs_join4_agree ha hc hl (h0 rfl) (h1 rfl) (h2 rfl) fuel
  · exact djs_join5_agree ha hc hl (h0 rfl) (h1 rfl) (h2 rfl) (h3 rfl) fuel

theorem diag_test_eq {s : Nat} (hs : s ≠ 0) (hlt : s < 2 ^ 64) (fuel diag : Nat) (same : Bool)
    (hf : 1 ≤ fuel) : diag_test fuel s diag same = some (diag_step s diag same) := by
  cases same with
  | false => rfl
  | true =>
    simp only [diag_test, diag_step, if_true, probability_of_ne_zero hs hlt fuel diag hf,
      Option.map_some']
    by_cases h : u64 (xorshift_round s * 2685821657736338717) ≤ diag
    · simp [h, CLUSTER_BLACK]
    · simp [h, CLUSTER_WHITE]

theorem diag_step_ne_zero {s : Nat} (hs : s ≠ 0) (hlt : s < 2 ^ 64) (diag : Nat) (same : Bool) :
    (diag_step s diag same).1 ≠ 0 ∧ (diag_step s diag same).1 < 2 ^ 64 := by
  cases same with
  | false => exact ⟨hs, hlt⟩
  | true => exact xorshift_round_ne_zero hs hlt

theorem diag_step_true {s diag : Nat} {same : Bool} (h : (diag_step s diag same).2 = true) :
    same = true := by
  cases same with
  | false => exact absurd h (by simp [diag_step])
  | true => rfl

theorem drawn_color_cases (s limit : Nat) :
    drawn_color s limit = CLUSTER_WHITE ∨ drawn_color s limit = CLUSTER_BLACK := by
  unfold drawn_color
  split
  · exact Or.inr rfl
  · exact Or.inl rfl

/-- The generation step of one cell, with every draw spelled out. -/
theorem iterate_cell_explicit (cl : cluster) {r c fuel : Nat}
    (hsz : (cl.rows + 2) * (cl.cols + 1) < 2 ^ 32) (hr : r < cl.rows) (hc : c < cl.cols)
    (hs : cl.rng ≠ 0) (hlt : cl.rng < 2 ^ 64) (hf : 1 ≤ fuel) :
    iterate_cell fuel r c cl =
      (join_switch fuel (Function.update cl.djs (label_of cl.cols r c) (label_of cl.cols r c))
        cl.cols (label_of cl.cols r c)
        (bit_of (cell_draw_of cl r c).b0 0 ||| bit_of (cell_draw_of cl r c).b1 1 |||
          bit_of (cell_draw_of cl r c).b2 2 ||| bit_of (cell_draw_of cl r c).b3 3)).map
        (fun djs1 => { cl with rng := (cell_draw_of cl r c).rng,
                               map := Function.update cl.map (map_index cl.cols r c)
                                 (cell_draw_of cl r c).color,
                               djs := djs1 }) := by
  have hc0 : 0 < cl.cols := by omega
  have hcur := curr_row_of_eq hsz hr hc0
  have hlab := label_eq hsz hr hc
  obtain ⟨g1, g2, _⟩ := grid_facts hsz hr hc
  have hst : u32 (cl.cols + 1) = cl.cols + 1 := u32_of_lt (by omega)
  have hidx : map_index cl.cols r 0 + c = map_index cl.cols r c := by
    unfold map_index; ring
  have hidx1 : map_index cl.cols r 0 - (cl.cols + 1) + c = map_index cl.cols r c - (cl.cols + 1) := by
    unfold map_index
    have : (r + 1) * (cl.cols + 1) = r * (cl.cols + 1) + (cl.cols + 1) := by ring
    omega
  have hx := xorshift_round_ne_zero hs hlt
  have hp : probability fuel cl.rng cl.p_black =
      some (xorshift_round cl.rng, drawn_color cl.rng cl.p_black) :=
    probability_of_ne_zero hs hlt fuel cl.p_black hf
  have e2 := diag_test_eq hx.1 hx.2 fuel (diag_limit cl (drawn_color cl.rng cl.p_black))
    (Function.update cl.map (map_index cl.cols r c) (drawn_color cl.rng cl.p_black)
      (map_index cl.cols r c - (cl.cols + 1) - 1) == drawn_color cl.rng cl.p_black) hf
  have hx2 := diag_step_ne_zero hx.1 hx.2 (diag_limit cl (drawn_color cl.rng cl.p_black))
    (Function.update cl.map (map_index cl.cols r c) (drawn_color cl.rng cl.p_black)
      (map_index cl.cols r c - (cl.cols + 1) - 1) == drawn_color cl.rng cl.p_black)
  have e3 := diag_test_eq hx2.1 hx2.2 fuel (diag_limit cl (drawn_color cl.rng cl.p_black))
    (Function.update cl.map (map_index cl.cols r c) (drawn_color cl.rng cl.p_black)
      (map_index cl.cols r c - (cl.cols + 1) + 1) == drawn_color cl.rng cl.p_black) hf
  unfold diag_limit at e2 e3
  simp only [iterate_cell, cell_draw_of]
  rw [hcur, hlab, hst, hp, hidx, hidx1]
  unfold diag_limit
  simp only [Option.bind_eq_bind, Option.some_bind, e2, e3, Option.pure_def, Option.map_eq_map]
  cases join_switch fuel _ cl.cols (label_of cl.cols r c) _ <;> rfl

/-- When a bit of `joins` is set, the neighbour exists and the label passed to the join
is the label of that neighbour, which is smaller than the label of the cell. -/
theorem cell_neighbours_lt (cl : cluster) {r c : Nat}
    (hsz : (cl.rows + 2) * (cl.cols + 1) < 2 ^ 32) (hr : r < cl.rows) (hc : c < cl.cols)
    (hrow : ∀ i, i ≤ cl.cols → cl.map i = CLUSTER_NONE)
    (hcol : ∀ k, k ≤ cl.rows + 1 → cl.map (k * (cl.cols + 1)) = CLUSTER_NONE) :
    ((cell_draw_of cl r c).b0 = true →
      1 ≤ c ∧ sub32 (label_of cl.cols r c) 1 = label_of cl.cols r (c - 1)) ∧
    ((cell_draw_of cl r c).b1 = true →
      1 ≤ r ∧ sub32 (label_of cl.cols r c) cl.cols = label_of cl.cols (r - 1) c) ∧
    ((cell_draw_of cl r c).b2 = true → 1 ≤ r ∧ 1 ≤ c ∧
      sub32 (sub32 (label_of cl.cols r c) cl.cols) 1 = label_of cl.cols (r - 1) (c - 1)) ∧
    ((cell_draw_of cl r c).b3 = true → 1 ≤ r ∧ c + 1 < cl.cols ∧
      u32 (sub32 (label_of cl.cols r c) cl.cols + 1) = label_of cl.cols (r - 1) (c + 1)) := by
  obtain ⟨rd0, rd1, rd2, rd3⟩ :=
    read_neighbours hrow hcol hr hc (drawn_color_cases cl.rng cl.p_black)
  obtain ⟨n0, n1, n2, n3⟩ := neighbour_labels hsz hr hc
  refine ⟨?_, ?_, ?_, ?_⟩
  · intro h
    have h' := rd0.1 (beq_iff_eq.1 h)
    exact ⟨h'.1, n0 h'.1⟩
  · intro h
    have h' := rd1.1 (beq_iff_eq.1 h)
    exact ⟨h'.1, n1 h'.1⟩
  · intro h
    have h' := rd2.1 (beq_iff_eq.1 (diag_step_true h))
    exact ⟨h'.1, h'.2.1, n2 h'.1 h'.2.1⟩
  · intro h
    have h' := rd3.1 (beq_iff_eq.1 (diag_step_true h))
    exact ⟨h'.1, h'.2.1, n3 h'.1⟩

theorem beq_congr_of_iff {x y color : Nat} (h : x = color ↔ y = color) :
    (x == color) = (y == color) := by
  by_cases e : x = color
  · rw [beq_iff_eq.2 e, beq_iff_eq.2 (h.1 e)]
  · have e' : ¬ y = color := fun k => e (h.2 k)
    rw [beq_eq_false_iff_ne.2 e, beq_eq_false_iff_ne.2 e']

/-- The four neighbour reads of a cell give the same result in two clusters that agree
on the cells generated so far and both have the sentinel border. -/
theorem reads_sim {a b : cluster} {r c color : Nat}
    (s : GenSim (label_of a.cols r c) a b) (hr : r < a.rows) (hc : c < a.cols)
    (hrow : ∀ i, i ≤ a.cols → a.map i = CLUSTER_NONE)
    (hcol : ∀ k, k ≤ a.rows + 1 → a.map (k * (a.cols + 1)) = CLUSTER_NONE)
    (hrow' : ∀ i, i ≤ a.cols → b.map i = CLUSTER_NONE)
    (hcol' : ∀ k, k ≤ a.rows + 1 → b.map (k * (a.cols + 1)) = CLUSTER_NONE)
    (hcolor : color = CLUSTER_WHITE ∨ color = CLUSTER_BLACK) :
    ((Function.update b.map (map_index a.cols r c) color (map_index a.cols r c - 1) == color) =
      (Function.update a.map (map_index a.cols r c) color (map_index a.cols r c - 1) == color)) ∧
    ((Function.update b.map (map_index a.cols r c) color
        (map_index a.cols r c - (a.cols + 1)) == color) =
      (Function.update a.map (map_index a.cols r c) color
        (map_index a.cols r c - (a.cols + 1)) == color)) ∧
    ((Function.update b.map (map_index a.cols r c) color
        (map_index a.cols r c - (a.cols + 1) - 1) == color) =
      (Function.update a.map (map_index a.cols r c) color
        (map_index a.cols r c - (a.cols + 1) - 1) == color)) ∧
    ((Function.update b.map (map_index a.cols r c) color
        (map_index a.cols r c - (a.cols + 1) + 1) == color) =
      (Function.update a.map (map_index a.cols r c) color
        (map_index a.cols r c - (a.cols + 1) + 1) == color)) := by
  obtain ⟨a0, a1, a2, a3⟩ := read_neighbours hrow hcol hr hc hcolor
  obtain ⟨b0, b1, b2, b3⟩ := read_neighbours hrow' hcol' hr hc hcolor
  have key : ∀ r' c', c' < a.cols → label_of a.cols r' c' < label_of a.cols r c →
      a.map (map_index a.cols r' c') = b.map (map_index a.cols r' c') := by
    intro r' c' h1 h2
    have := s.map_eq (r', c') ⟨h1, h2⟩
    unfold color_at at this
    rw [← s.cols_eq] at this
    exact this
  refine ⟨?_, ?_, ?_, ?_⟩
  · apply beq_congr_of_iff
    rw [a0, b0]
    constructor
    · rintro ⟨h1, h2⟩
      exact ⟨h1, by rw [key r (c - 1) (by omega) (by unfold label_of; omega)]; exact h2⟩
    · rintro ⟨h1, h2⟩
      exact ⟨h1, by rw [← key r (c - 1) (by omega) (by unfold label_of; omega)]; exact h2⟩
  · have hl : 1 ≤ r → label_of a.cols (r - 1) c < label_of a.cols r c := fun h =>
      (label_of_lt_iff hc hc).2 (Or.inl (by omega))
    apply beq_congr_of_iff
    rw [a1, b1]
    constructor
    · rintro ⟨h1, h2⟩
      exact ⟨h1, by rw [key (r - 1) c hc (hl h1)]; exact h2⟩
    · rintro ⟨h1, h2⟩
      exact ⟨h1, by rw [← key (r - 1) c hc (hl h1)]; exact h2⟩
  · have hl : 1 ≤ r → 1 ≤ c → label_of a.cols (r - 1) (c - 1) < label_of a.cols r c :=
      fun h _ => (label_of_lt_iff (by omega) hc).2 (Or.inl (by omega))
    apply beq_congr_of_iff
    rw [a2, b2]
    constructor
    · rintro ⟨h1, h2, h3⟩
      exact ⟨h1, h2, by rw [key (r - 1) (c - 1) (by omega) (hl h1 h2)]; exact h3⟩
    · rintro ⟨h1, h2, h3⟩
      exact ⟨h1, h2, by rw [← key (r - 1) (c - 1) (by omega) (hl h1 h2)]; exact h3⟩
  · have hl : 1 ≤ r → c + 1 < a.cols → label_of a.cols (r - 1) (c + 1) < label_of a.cols r c :=
      fun h h' => (label_of_lt_iff h' hc).2 (Or.inl (by omega))
    apply beq_congr_of_iff
    rw [a3, b3]
    constructor
    · rintro ⟨h1, h2, h3⟩
      exact ⟨h1, h2, by rw [key (r - 1) (c + 1) h2 (hl h1 h2)]; exact h3⟩
    · rintro ⟨h1, h2, h3⟩
      exact ⟨h1, h2, by rw [← key (r - 1) (c + 1) h2 (hl h1 h2)]; exact h3⟩

/-- Two clusters that agree on the cells generated so far take the same decisions for
the next cell. -/
theorem cell_draw_sim {a b : cluster} {r c : Nat}
    (s : GenSim (label_of a.cols r c) a b) (hr : r < a.rows) (hc : c < a.cols)
    (hrow : ∀ i, i ≤ a.cols → a.map i = CLUSTER_NONE)
    (hcol : ∀ k, k ≤ a.rows + 1 → a.map (k * (a.cols + 1)) = CLUSTER_NONE)
    (hrow' : ∀ i, i ≤ a.cols → b.map i = CLUSTER_NONE)
    (hcol' : ∀ k, k ≤ a.rows + 1 → b.map (k * (a.cols + 1)) = CLUSTER_NONE) :
    cell_draw_of b r c = cell_draw_of a r c := by
  obtain ⟨h0, h1, h2, h3⟩ :=
    reads_sim s hr hc hrow hcol hrow' hcol' (drawn_color_cases a.rng a.p_black)
  have hd : ∀ x, diag_limit b x = diag_limit a x := by
    intro x; unfold diag_limit; rw [s.dw_eq, s.db_eq]
  simp only [cell_draw_of]
  rw [← s.cols_eq, ← s.rng_eq, ← s.p_eq]
  simp only [hd, h0, h1, h2, h3]

theorem GenSim.sim_step {a0 b0 a b a' b' : cluster} {rta rtb : Nat → Nat} {r c fuel : Nat}
    (ga : GenInv a0 (label_of a.cols r c) a rta) (gb : GenInv b0 (label_of a.cols r c) b rtb)
    (s : GenSim (label_of a.cols r c) a b)
    (hsz : (a.rows + 2) * (a.cols + 1) < 2 ^ 32) (hr : r < a.rows) (hc : c < a.cols)
    (hf : 1 ≤ fuel)
    (ea : iterate_cell fuel r c a = some a') (eb : iterate_cell fuel r c b = some b') :
    GenSim (label_of a.cols r c + 1) a' b' := by
  have hbrow : ∀ i, i ≤ a.cols → b.map i = CLUSTER_NONE := by
    rw [s.cols_eq]; exact gb.border_row
  have hbcol : ∀ k, k ≤ a.rows + 1 → b.map (k * (a.cols + 1)) = CLUSTER_NONE := by
    rw [s.cols_eq, s.rows_eq]; exact gb.border_col
  have hd := cell_draw_sim s hr hc ga.border_row ga.border_col hbrow hbcol
  obtain ⟨n0, n1, n2, n3⟩ := cell_neighbours_lt a hsz hr hc ga.border_row ga.border_col
  rw [iterate_cell_explicit a hsz hr hc ga.rng_ne ga.rng_lt hf] at ea
  rw [iterate_cell_explicit b (by rw [← s.rows_eq, ← s.cols_eq]; exact hsz)
    (by rw [← s.rows_eq]; exact hr) (by rw [← s.cols_eq]; exact hc) gb.rng_ne gb.rng_lt hf,
    hd, ← s.cols_eq] at eb
  set m := label_of a.cols r c with hm
  have hcl : Closed (m + 1) (Function.update a.djs m m) := by
    intro x hx
    by_cases e : x = m
    · rw [e, Function.update_same]; omega
    · rw [Function.update_noteq e]
      have := (ga.forest x (by omega)).1
      omega
  have hag : Agree (m + 1) (Function.update a.djs m m) (Function.update b.djs m m) := by
    intro x hx
    by_cases e : x = m
    · rw [e, Function.update_same, Function.update_same]
    · rw [Function.update_noteq e, Function.update_noteq e]
      exact s.djs_eq x (by omega)
  have hlt : ∀ {r' c'}, c' < a.cols → (r' < r ∨ (r' = r ∧ c' < c)) →
      label_of a.cols r' c' < m + 1 := by
    intro r' c' h1 h2
    have := (label_of_lt_iff h1 hc).2 h2
    omega
  have hsw := @join_switch_agree (m + 1) _ _ hag hcl a.cols m fuel
    (cell_draw_of a r c).b0 (cell_draw_of a r c).b1 (cell_draw_of a r c).b2
    (cell_draw_of a r c).b3 (by omega)
    (fun e => by rw [(n0 e).2]; exact hlt (by omega) (Or.inr ⟨rfl, by have := (n0 e).1; omega⟩))
    (fun e => by rw [(n1 e).2]; exact hlt hc (Or.inl (by have := (n1 e).1; omega)))
    (fun e => by
      rw [(n2 e).2.2]; exact hlt (by omega) (Or.inl (by have := (n2 e).1; omega)))
    (fun e => by
      rw [(n3 e).2.2]; exact hlt (n3 e).2.1 (Or.inl (by have := (n3 e).1; omega)))
  obtain ⟨da, eda, ha'⟩ := Option.map_eq_some'.1 ea
  obtain ⟨db, edb, hb'⟩ := Option.map_eq_some'.1 eb
  obtain ⟨db', edb', hagree, _⟩ := hsw.of_some eda
  rw [edb] at edb'
  have hdb : db' = db := (Option.some.inj edb').symm
  subst hdb
  subst ha' hb'
  exact
    { rng_eq := rfl
      rows_eq := s.rows_eq
      cols_eq := rfl
      p_eq := s.p_eq
      dw_eq := s.dw_eq
      db_eq := s.db_eq
      map_eq := by
        intro p hp
        show Function.update a.map (map_index a.cols r c) _ (map_index a.cols p.1 p.2) =
          Function.update b.map (map_index a.cols r c) _ (map_index a.cols p.1 p.2)
        by_cases e : map_index a.cols p.1 p.2 = map_index a.cols r c
        · rw [e, Function.update_same, Function.update_same]
        · rw [Function.update_noteq e, Function.update_noteq e]
          have hp' : Done a.cols m p := by
            rcases (done_succ_iff hc p).1 hp with h | h
            · exact h
            · exact absurd (by rw [h]) e
          have := s.map_eq p hp'
          unfold color_at at this
          rw [← s.cols_eq] at this
          exact this
      djs_eq := hagree }

theorem GenPair.pair_step {a0 b0 a b : cluster} {r c fuel : Nat}
    (h : GenPair a0 b0 (label_of a0.cols r c) a b)
    (hsz : (a0.rows + 2) * (a0.cols + 1) < 2 ^ 32) (hr : r < a0.rows) (hc : c < a0.cols)
    (hf : a0.rows * a0.cols + 2 ≤ fuel) :
    ∃ a' b', iterate_cell fuel r c a = some a' ∧ iterate_cell fuel r c b = some b' ∧
      GenPair a0 b0 (label_of a0.cols r c + 1) a' b' := by
  obtain ⟨⟨rta, ga⟩, ⟨rtb, gb⟩, s⟩ := h
  have hca := ga.cols_eq
  have hra := ga.rows_eq
  have hcb : b.cols = a.cols := s.cols_eq.symm
  have hrb : b.rows = a.rows := s.rows_eq.symm
  rw [← hca] at ga gb s
  obtain ⟨a', rta', ea, ga'⟩ := @GenInv.cell_step a0 a rta r c fuel ga
    (by rw [hca, hra]; exact hsz) (by rw [hra]; exact hr) (by rw [hca]; exact hc)
    (by rw [hca, hra]; exact hf)
  have gb0 : GenInv b0 (label_of b.cols r c) b rtb := by rw [hcb]; exact gb
  obtain ⟨b', rtb', eb, gb'⟩ := @GenInv.cell_step b0 b rtb r c fuel gb0
    (by rw [hcb, hrb, hca, hra]; exact hsz) (by rw [hrb, hra]; exact hr)
    (by rw [hcb, hca]; exact hc) (by rw [hcb, hrb, hca, hra]; exact hf)
  have s' := GenSim.sim_step ga gb s (by rw [hca, hra]; exact hsz) (by rw [hra]; exact hr)
    (by rw [hca]; exact hc) (by omega) ea eb
  refine ⟨a', b', ea, eb, ?_⟩
  rw [hcb] at gb'
  rw [hca] at ga' gb' s'
  exact ⟨⟨rta', ga'⟩, ⟨rtb', gb'⟩, s'⟩

theorem GenPair.pair_row {a0 b0 : cluster} {fuel r : Nat}
    (hsz : (a0.rows + 2) * (a0.cols + 1) < 2 ^ 32) (hr : r < a0.rows)
    (hf : a0.rows * a0.cols + 2 ≤ fuel) :
    ∀ n, n ≤ a0.cols → ∀ a b, GenPair a0 b0 (label_of a0.cols r 0) a b →
      ∃ a' b', (List.range n).foldlM (fun cl2 c => iterate_cell fuel r c cl2) a = some a' ∧
        (List.range n).foldlM (fun cl2 c => iterate_cell fuel r c cl2) b = some b' ∧
        GenPair a0 b0 (label_of a0.cols r n) a' b' := by
  intro n
  induction n with
  | zero =>
    intro _ a b h
    exact ⟨a, b, by simp, by simp, h⟩
  | succ n ih =>
    intro hn a b h
    obtain ⟨a1, b1, ea1, eb1, h1⟩ := ih (by omega) a b h
    obtain ⟨a2, b2, ea2, eb2, h2⟩ := GenPair.pair_step h1 hsz hr (by omega) hf
    refine ⟨a2, b2, ?_, ?_, h2⟩
    · rw [List.range_succ, List.foldlM_append, ea1]
      simp only [Option.bind_eq_bind, Option.some_bind, List.foldlM_cons, List.foldlM_nil]
      rw [ea2]; rfl
    · rw [List.range_succ, List.foldlM_append, eb1]
      simp only [Option.bind_eq_bind, Option.some_bind, List.foldlM_cons, List.foldlM_nil]
      rw [eb2]; rfl

theorem GenPair.pair_grid {a0 b0 : cluster} {fuel : Nat}
    (hsz : (a0.rows + 2) * (a0.cols + 1) < 2 ^ 32) (hf : a0.rows * a0.cols + 2 ≤ fuel) :
    ∀ n, n ≤ a0.rows → ∀ a b, GenPair a0 b0 0 a b →
      ∃ a' b', (List.range n).foldlM
          (fun cl1 r => (List.range a0.cols).foldlM (fun cl2 c => iterate_cell fuel r c cl2) cl1)
          a = some a' ∧
        (List.range n).foldlM
          (fun cl1 r => (List.range a0.cols).foldlM (fun cl2 c => iterate_cell fuel r c cl2) cl1)
          b = some b' ∧
        GenPair a0 b0 (label_of a0.cols n 0) a' b' := by
  intro n
  induction n with
  | zero =>
    intro _ a b h
    exact ⟨a, b, by simp, by simp, by simpa [label_of] using h⟩
  | succ n ih =>
    intro hn a b h
    obtain ⟨a1, b1, ea1, eb1, h1⟩ := ih (by omega) a b h
    obtain ⟨a2, b2, ea2, eb2, h2⟩ :=
      GenPair.pair_row hsz (show n < a0.rows by omega) hf a0.cols (le_refl _) a1 b1 h1
    refine ⟨a2, b2, ?_, ?_, ?_⟩
    · rw [List.range_succ, List.foldlM_append, ea1]
      simp only [Option.bind_eq_bind, Option.some_bind, List.foldlM_cons, List.foldlM_nil]
      rw [ea2]; rfl
    · rw [List.range_succ, List.foldlM_append, eb1]
      simp only [Option.bind_eq_bind, Option.some_bind, List.foldlM_cons, List.foldlM_nil]
      rw [eb2]; rfl
    · have : label_of a0.cols (n + 1) 0 = label_of a0.cols n a0.cols := by
        unfold label_of; ring
      rw [this]; exact h2

/-- The generation loops on two clusters with the same configuration leave the same
generator state, the same colours and the same parent entries. -/
theorem iterate_generate_sim {a b : cluster} (ha : Ready a) (hb : Ready b) (hcfg : SameConfig a b)
    {fuel : Nat} (hf : a.rows * a.cols + 2 ≤ fuel) :
    ∃ a1 b1, iterate_generate fuel a = some a1 ∧ iterate_generate fuel b = some b1 ∧
      GenPair a b (a.rows * a.cols) a1 b1 := by
  have h0 : GenPair a b 0 a b :=
    ⟨⟨_, GenInv.at_entry ha⟩, ⟨_, GenInv.at_entry hb⟩,
      { rng_eq := hcfg.rng_eq, rows_eq := hcfg.rows_eq, cols_eq := hcfg.cols_eq,
        p_eq := hcfg.p_eq, dw_eq := hcfg.dw_eq, db_eq := hcfg.db_eq,
        map_eq := fun _ hp => absurd hp.2 (Nat.not_lt_zero _),
        djs_eq := fun _ hx => absurd hx (Nat.not_lt_zero _) }⟩
  obtain ⟨a1, b1, ea, eb, h1⟩ := GenPair.pair_grid ha.size_ok hf a.rows (le_refl _) a b h0
  refine ⟨a1, b1, ea, ?_, by simpa [label_of] using h1⟩
  unfold iterate_generate
  rw [← hcfg.rows_eq, ← hcfg.cols_eq]
  exact eb

theorem histogram_fold_mod (root_count : Nat → Nat) (k : Nat) :
    ∀ (l : List Nat) (h : Nat → Nat), h k < 2 ^ 64 →
      l.foldl (fun h i => Function.update h (root_count i) (u64 (h (root_count i) + 1))) h k =
        u64 (h k + l.countP (fun i => root_count i == k)) := by
  intro l
  induction l with
  | nil => intro h hlt; simp [u64_of_lt hlt]
  | cons i l ih =>
    intro h hlt
    rw [List.foldl_cons]
    by_cases e : root_count i = k
    · have e' : (i :: l).countP (fun i => root_count i == k) =
          l.countP (fun i => root_count i == k) + 1 := by
        simp [List.countP_cons, e]
      have hk : Function.update h (root_count i) (u64 (h (root_count i) + 1)) k =
          u64 (h k + 1) := by
        rw [e, Function.update_same]
      rw [ih _ (by rw [hk]; exact Nat.mod_lt _ (by norm_num)), hk, e']
      unfold u64
      rw [Nat.mod_add_mod]
      congr 1
      omega
    · have e' : (i :: l).countP (fun i => root_count i == k) =
          l.countP (fun i => root_count i == k) := by
        simp [List.countP_cons, e]
      have hk : Function.update h (root_count i) (u64 (h (root_count i) + 1)) k = h k := by
        rw [Function.update_noteq (fun hh => e hh.symm)]
      rw [ih _ (by rw [hk]; exact hlt), hk, e']

theorem histogram_collect_mod (n : Nat) (root_count h : Nat → Nat) (k : Nat) (hlt : h k < 2 ^ 64) :
    histogram_collect n root_count h k =
      u64 (h k + (List.range n).countP (fun i => root_count i == k)) := by
  unfold histogram_collect
  have hp : (List.range n).reverse.countP (fun i => root_count i == k) =
      (List.range n).countP (fun i => root_count i == k) :=
    (List.reverse_perm _).countP_eq _
  rw [histogram_fold_mod root_count k _ h hlt, hp]

/-- The spanning checks change nothing but the two scratch arrays and the two counters. -/
theorem iterate_spans_frame {fuel : Nat} {c c4 : cluster} (h : iterate_spans fuel c = some c4) :
    ∃ wr br ws bs, c4 = { c with white_roots := wr, black_roots := br, white_spans := ws,
                                 black_spans := bs } := by
  simp only [iterate_spans, Option.bind_eq_bind, Option.bind_eq_some] at h
  obtain ⟨⟨w, wr1, br1⟩, _, ⟨b, wr2, br2⟩, _, h3⟩ := h
  simp only [Option.pure_def, Option.some.injEq] at h3
  exact ⟨_, _, _, _, h3.symm⟩

/-- The stages of one call of `iterate`, with what the later stages keep of the earlier ones. -/
theorem iterate_run_shape {cl : cluster} (h : Ready cl) {fuel : Nat}
    (hf : 2 * (cl.rows * cl.cols) + 3 ≤ fuel) :
    ∃ cl1 rt cl2 cl', iterate_generate fuel cl = some cl1 ∧
      GenInv cl (cl.rows * cl.cols) cl1 rt ∧ iterate_count fuel cl1 = some cl2 ∧
      CountInv cl1 rt (cl.rows * cl.cols) cl2 ∧ iterate fuel cl = some cl' ∧ IterPost cl cl' ∧
      cl'.rng = cl2.rng ∧ cl'.map = cl2.map ∧ cl'.djs = cl2.djs ∧
      cl'.white_histogram = (iterate_histogram cl2).white_histogram ∧
      cl'.black_histogram = (iterate_histogram cl2).black_histogram := by
  have hsz := h.size_ok
  have hN : (cl.rows + 2) * (cl.cols + 1) = cl.rows * cl.cols + cl.rows + 2 * cl.cols + 2 := by
    ring
  obtain ⟨cl1, rt, e1, g⟩ := @iterate_generate_spec cl h fuel (by omega)
  have hr1 := g.rows_eq
  have hc1 := g.cols_eq
  have hcol1 : ∀ r c, r < cl1.rows → c < cl1.cols →
      color_at cl1 r c = CLUSTER_WHITE ∨ color_at cl1 r c = CLUSTER_BLACK := by
    intro r c a b
    exact g.color_ok (r, c) (by rw [hc1]; exact (done_all_iff (r, c)).2 ⟨by omega, by omega⟩)
  have hF1 : Forest (cl1.rows * cl1.cols) cl1.djs rt := by rw [hr1, hc1]; exact g.forest
  obtain ⟨cl2, e2, k⟩ := @iterate_count_spec cl1 rt
    (by rw [hr1, hc1]; exact hsz) hF1 hcol1 fuel (by rw [hr1, hc1]; omega)
  obtain ⟨cl', e, post⟩ := iterate_spec h hf
  have e' := e
  simp only [iterate, e1, e2, Option.bind_eq_bind, Option.some_bind, Option.bind_eq_some,
    Option.pure_def, Option.some.injEq] at e'
  obtain ⟨cl4, e4, e5⟩ := e'
  obtain ⟨wr, br, ws, bs, e6⟩ := iterate_spans_frame e4
  subst e6
  subst e5
  rw [hr1, hc1] at k
  exact ⟨cl1, rt, cl2, _, e1, g, e2, k, e, post, rfl, rfl, rfl, rfl, rfl⟩

/-- After the counting loops, the number of labels whose count is `kk` is the number of
clusters of that colour with `kk` cells. -/
theorem roots_count_eq {cl0 cl1 cl2 cl' : cluster} {rt : Nat → Nat}
    (g : GenInv cl0 (cl1.rows * cl1.cols) cl1 rt)
    (k : CountInv cl1 rt (cl1.rows * cl1.cols) cl2) (hr : cl'.rows = cl1.rows)
    (hc : cl'.cols = cl1.cols) (hm : cl'.map = cl1.map) (hd : cl'.djs = cl2.djs)
    {kk : Nat} (h1 : 1 ≤ kk) :
    (List.range (cl1.rows * cl1.cols + 1)).countP (fun i => cl2.white_roots i == kk) =
      cluster_count cl' CLUSTER_WHITE kk ∧
    (List.range (cl1.rows * cl1.cols + 1)).countP (fun i => cl2.black_roots i == kk) =
      cluster_count cl' CLUSTER_BLACK kk := by
  have hF1 : Forest (cl1.rows * cl1.cols) cl1.djs rt := g.forest
  have hflat : ∀ j, j < cl1.rows * cl1.cols → cl'.djs j = rt j := by
    intro j hj; rw [hd]; exact k.flat j hj
  have hpart : FlatPart (cl1.rows * cl1.cols) rt (label_color cl1) :=
    { lt := fun i hi => (hF1 i hi).2.1
      idem := fun i hi => hF1.rt_idem hi
      colr := fun i hi => g.color_eq (hF1 i hi).2.1 hi (hF1.rt_idem hi) }
  have hcnt : ∀ (color : Nat) (roots : Nat → Nat),
      (∀ x, x < cl1.rows * cl1.cols + 2 →
        roots x = root_count cl1 rt color (cl1.rows * cl1.cols) x) →
      (List.range (cl1.rows * cl1.cols + 1)).countP (fun i => roots i == kk) =
        cluster_count cl' color kk := by
    intro color roots hroots
    rw [cluster_count_eq hr hc hm hflat color kk, ← hpart.count_roots color h1]
    apply List.countP_congr
    intro j hj
    have hj' := List.mem_range.1 hj
    rw [hroots j (by omega)]
    rfl
  exact ⟨hcnt CLUSTER_WHITE cl2.white_roots k.white, hcnt CLUSTER_BLACK cl2.black_roots k.black⟩

/-- The histogram bins after one call of `iterate`, in 64-bit arithmetic. -/
theorem iterate_hist_mod {cl : cluster} (h : Ready cl) {fuel : Nat}
    (hf : 2 * (cl.rows * cl.cols) + 3 ≤ fuel) {cl' : cluster} (e : iterate fuel cl = some cl') :
    ∀ kk, 1 ≤ kk → kk ≤ cl.rows * cl.cols →
      (cl.white_histogram kk < 2 ^ 64 → cl'.white_histogram kk =
        u64 (cl.white_histogram kk + cluster_count cl' CLUSTER_WHITE kk)) ∧
      (cl.black_histogram kk < 2 ^ 64 → cl'.black_histogram kk =
        u64 (cl.black_histogram kk + cluster_count cl' CLUSTER_BLACK kk)) := by
  obtain ⟨cl1, rt, cl2, cl'', e1, g, e2, k, e', post, q1, q2, q3, q4, q5⟩ := iterate_run_shape h hf
  rw [e] at e'
  have := Option.some.inj e'
  subst this
  intro kk h1 h2
  have hsz := h.size_ok
  have hN : (cl.rows + 2) * (cl.cols + 1) = cl.rows * cl.cols + cl.rows + 2 * cl.cols + 2 := by
    ring
  have hr1 := g.rows_eq
  have hc1 := g.cols_eq
  have hlabels : u32 (u32 (cl2.rows * cl2.cols) + 1) = cl.rows * cl.cols + 1 := by
    rw [k.rows_eq, k.cols_eq, hr1, hc1, u32_of_lt (show cl.rows * cl.cols < 2 ^ 32 by omega),
      u32_of_lt (by omega)]
  have g' : GenInv cl (cl1.rows * cl1.cols) cl1 rt := by rw [hr1, hc1]; exact g
  have k' : CountInv cl1 rt (cl1.rows * cl1.cols) cl2 := by rw [hr1, hc1]; exact k
  obtain ⟨cw, cb⟩ := @roots_count_eq cl cl1 cl2 cl' rt g' k'
    (post.rows_eq.trans hr1.symm) (post.cols_eq.trans hc1.symm) (q2.trans k.map_eq) q3 kk h1
  rw [hr1, hc1] at cw cb
  constructor
  · intro hlt
    rw [q4]
    show Function.update (Function.update (histogram_collect _ cl2.white_roots
      cl2.white_histogram) 0 0) _ 0 kk = _
    rw [hlabels, Function.update_noteq (by omega), Function.update_noteq (by omega),
      histogram_collect_mod _ _ _ _ (by rw [k.wh_eq, g.wh_eq]; exact hlt), cw, k.wh_eq, g.wh_eq]
  · intro hlt
    rw [q5]
    show Function.update (Function.update (histogram_collect _ cl2.black_roots
      cl2.black_histogram) 0 0) _ 0 kk = _
    rw [hlabels, Function.update_noteq (by omega), Function.update_noteq (by omega),
      histogram_collect_mod _ _ _ _ (by rw [k.bh_eq, g.bh_eq]; exact hlt), cb, k.bh_eq, g.bh_eq]

theorem cluster_count_congr {a b : cluster} (hr : a.rows = b.rows) (hc : a.cols = b.cols)
    (hd : ∀ i, i < a.rows * a.cols → a.djs i = b.djs i)
    (hl : ∀ i, i < a.rows * a.cols → label_color a i = label_color b i) (color k : Nat) :
    cluster_count a color k = cluster_count b color k := by
  unfold cluster_count cluster_size
  rw [← hr, ← hc]
  apply List.countP_congr
  intro x hx
  have hx' := List.mem_range.1 hx
  have : (List.range (a.rows * a.cols)).countP (fun i => a.djs i == x) =
      (List.range (a.rows * a.cols)).countP (fun i => b.djs i == x) := by
    apply List.countP_congr
    intro i hi
    rw [hd i (List.mem_range.1 hi)]
  rw [this, hd x hx', hl x hx']

theorem spans_congr {a b : cluster} (hr : a.rows = b.rows) (hc : a.cols = b.cols)
    (hr0 : 1 ≤ a.rows) (hc0 : 1 ≤ a.cols)
    (hd : ∀ i, i < a.rows * a.cols → a.djs i = b.djs i)
    (hm : ∀ r c, r < a.rows → c < a.cols → color_at a r c = color_at b r c) (color : Nat) :
    (SpansRows a color ∨ SpansCols a color) → (SpansRows b color ∨ SpansCols b color) := by
  have hlab : ∀ r c, r < a.rows → c < a.cols → a.djs (label_of a.cols r c) =
      b.djs (label_of a.cols r c) := fun r c h1 h2 => hd _ (label_lt_of_cell h1 h2)
  rintro (⟨r1, r2, h1, h2, h3, h4, h5⟩ | ⟨c1, c2, h1, h2, h3, h4, h5⟩)
  · left
    refine ⟨r1, r2, by omega, by omega, ?_, ?_, ?_⟩
    · rw [← hm r1 0 h1 (by omega)]; exact h3
    · rw [← hc, ← hm r2 (a.cols - 1) h2 (by omega)]; exact h4
    · rw [← hc, ← hlab r1 0 h1 (by omega), ← hlab r2 (a.cols - 1) h2 (by omega)]; exact h5
  · right
    refine ⟨c1, c2, by omega, by omega, ?_, ?_, ?_⟩
    · rw [← hm 0 c1 (by omega) h1]; exact h3
    · rw [← hr, ← hm (a.rows - 1) c2 (by omega) h2]; exact h4
    · rw [← hc, ← hr, ← hlab 0 c1 (by omega) h1, ← hlab (a.rows - 1) c2 (by omega) h2]; exact h5

theorem ready_sample_stale : Ready sample_cluster_stale where
  rows_pos := by decide
  cols_pos := by decide
  size_ok := by decide
  rng_ne := by decide
  rng_lt := by decide
  border_row := fun i hi => by
    have hi' : i ≤ 4 := hi
    show (if i ≤ 4 ∨ i % 5 = 0 then CLUSTER_NONE else CLUSTER_BLACK) = CLUSTER_NONE
    rw [if_pos (Or.inl hi')]
  border_col := fun k _ => by
    show (if k * 5 ≤ 4 ∨ k * 5 % 5 = 0 then CLUSTER_NONE else CLUSTER_BLACK) = CLUSTER_NONE
    rw [if_pos (Or.inr (Nat.mul_mod_left k 5))]

theorem sameConfig_sample_stale : SameConfig sample_cluster_mixed sample_cluster_stale :=
  ⟨rfl, rfl, rfl, rfl, rfl, rfl⟩

/-- C16: two calls of `iterate` on clusters with the same generator state, sizes and
limits (both with a nonzero state, accepted sizes and the sentinel border), whatever
the other contents of their buffers and counters, both return and give the same
next generator state, the same colours, the same flattened parent entries, the
same cluster counts, which are the amounts added (modulo `2^64`) to the bins of
the two histograms, and the same decision to increment each spans counter. -/
theorem iterate_deterministic (a b : cluster) (ha : Ready a) (hb : Ready b)
    (hcfg : SameConfig a b) (fuel : Nat) (hf : 2 * (a.rows * a.cols) + 3 ≤ fuel) :
    ∃ a' b', iterate fuel a = some a' ∧ iterate fuel b = some b' ∧
      a'.rng = b'.rng ∧
      (∀ r c, r < a.rows → c < a.cols → color_at a' r c = color_at b' r c) ∧
      (∀ i, i < a.rows * a.cols → a'.djs i = b'.djs i) ∧
      (∀ color k, cluster_count a' color k = cluster_count b' color k) ∧
      (∀ k, 1 ≤ k → k ≤ a.rows * a.cols →
        (a.white_histogram k < 2 ^ 64 → a'.white_histogram k =
          u64 (a.white_histogram k + cluster_count a' CLUSTER_WHITE k)) ∧
        (b.white_histogram k < 2 ^ 64 → b'.white_histogram k =
          u64 (b.white_histogram k + cluster_count a' CLUSTER_WHITE k)) ∧
        (a.black_histogram k < 2 ^ 64 → a'.black_histogram k =
          u64 (a.black_histogram k + cluster_count a' CLUSTER_BLACK k)) ∧
        (b.black_histogram k < 2 ^ 64 → b'.black_histogram k =
          u64 (b.black_histogram k + cluster_count a' CLUSTER_BLACK k))) ∧
      (∃ ws bs : Bool,
        a'.white_spans = (if ws then u64 (a.white_spans + 1) else a.white_spans) ∧
        b'.white_spans = (if ws then u64 (b.white_spans + 1) else b.white_spans) ∧
        a'.black_spans = (if bs then u64 (a.black_spans + 1) else a.black_spans) ∧
        b'.black_spans = (if bs then u64 (b.black_spans + 1) else b.black_spans)) := by
  have hfb : 2 * (b.rows * b.cols) + 3 ≤ fuel := by
    rw [← hcfg.rows_eq, ← hcfg.cols_eq]; exact hf
  obtain ⟨a1, rta, a2, a', ea1, ga, ea2, ka, ea, posta, qa1, qa2, qa3, _, _⟩ :=
    iterate_run_shape ha hf
  obtain ⟨b1, rtb, b2, b', eb1, gb, eb2, kb, eb, postb, qb1, qb2, qb3, _, _⟩ :=
    iterate_run_shape hb hfb
  obtain ⟨a1', b1', ea1', eb1', _, _, s⟩ := @iterate_generate_sim a b ha hb hcfg fuel (by omega)
  rw [ea1] at ea1'
  rw [eb1] at eb1'
  have h1 := Option.some.inj ea1'
  have h2 := Option.some.inj eb1'
  subst h1 h2
  have hra := ga.rows_eq
  have hca := ga.cols_eq
  have hrb := gb.rows_eq
  have hcb := gb.cols_eq
  rw [← hcfg.rows_eq, ← hcfg.cols_eq] at gb kb
  have hrb' : b'.rows = a.rows := postb.rows_eq.trans hcfg.rows_eq.symm
  have hcb' : b'.cols = a.cols := postb.cols_eq.trans hcfg.cols_eq.symm
  -- colours
  have hmap : ∀ r c, r < a.rows → c < a.cols → color_at a' r c = color_at b' r c := by
    intro r c h1 h2
    have := s.map_eq (r, c) (by rw [hca]; exact (done_all_iff (r, c)).2 ⟨h1, h2⟩)
    unfold color_at at this ⊢
    rw [qa2, ka.map_eq, qb2, kb.map_eq, posta.cols_eq, hcb', ← hca]
    rw [← s.cols_eq] at this
    exact this
  -- parent entries
  have hrt : ∀ i, i < a.rows * a.cols → rta i = rtb i := by
    intro i hi
    have e1 := Forest.root_eq ga.forest hi (le_refl _)
    have e2 := Forest.root_eq gb.forest hi (le_refl _)
    rw [djs_root_agree _ _ _ i s.djs_eq (fun x hx => (ga.forest x hx).1) hi, e2] at e1
    exact (Option.some.inj e1).symm
  have hdjs : ∀ i, i < a.rows * a.cols → a'.djs i = b'.djs i := by
    intro i hi
    rw [qa3, qb3, ka.flat i hi, kb.flat i hi, hrt i hi]
  have hrows : a'.rows = b'.rows := by rw [posta.rows_eq, hrb']
  have hcols : a'.cols = b'.cols := by rw [posta.cols_eq, hcb']
  have hlc : ∀ i, i < a'.rows * a'.cols → label_color a' i = label_color b' i := by
    intro i hi
    rw [posta.rows_eq, posta.cols_eq] at hi
    obtain ⟨c1, c2, _⟩ := cell_of_label hi
    unfold label_color
    rw [← hcols, posta.cols_eq]
    exact hmap _ _ c1 c2
  have hcc : ∀ color k, cluster_count a' color k = cluster_count b' color k := by
    intro color k
    apply cluster_count_congr hrows hcols _ hlc
    intro i hi
    rw [posta.rows_eq, posta.cols_eq] at hi
    exact hdjs i hi
  have hha := iterate_hist_mod ha hf ea
  have hhb := iterate_hist_mod hb hfb eb
  rw [← hcfg.rows_eq, ← hcfg.cols_eq] at hhb
  -- spanning
  have hsp : ∀ color, (SpansRows a' color ∨ SpansCols a' color) ↔
      (SpansRows b' color ∨ SpansCols b' color) := by
    intro color
    constructor
    · apply spans_congr hrows hcols (by rw [posta.rows_eq]; exact ha.rows_pos)
        (by rw [posta.cols_eq]; exact ha.cols_pos)
      · intro i hi; rw [posta.rows_eq, posta.cols_eq] at hi; exact hdjs i hi
      · intro r c h1 h2; rw [posta.rows_eq] at h1; rw [posta.cols_eq] at h2; exact hmap r c h1 h2
    · apply spans_congr hrows.symm hcols.symm (by rw [hrb']; exact ha.rows_pos)
        (by rw [hcb']; exact ha.cols_pos)
      · intro i hi; rw [hrb', hcb'] at hi; exact (hdjs i hi).symm
      · intro r c h1 h2; rw [hrb'] at h1; rw [hcb'] at h2
        exact (hmap r c h1 h2).symm
  refine ⟨a', b', ea, eb, ?_, hmap, hdjs, hcc, ?_, ?_⟩
  · rw [qa1, qb1, ka.rng_eq, kb.rng_eq]; exact s.rng_eq
  · intro k h1 h2
    refine ⟨(hha k h1 h2).1, ?_, (hha k h1 h2).2, ?_⟩
    · intro hlt; rw [hcc]; exact (hhb k h1 h2).1 hlt
    · intro hlt; rw [hcc]; exact (hhb k h1 h2).2 hlt
  · classical
    refine ⟨decide (SpansRows a' CLUSTER_WHITE ∨ SpansCols a' CLUSTER_WHITE),
      decide (SpansRows a' CLUSTER_BLACK ∨ SpansCols a' CLUSTER_BLACK), ?_, ?_, ?_, ?_⟩
    · by_cases h : SpansRows a' CLUSTER_WHITE ∨ SpansCols a' CLUSTER_WHITE
      · rw [decide_eq_true h, if_pos rfl]; exact posta.white_span.1 h
      · rw [decide_eq_false h, if_neg (by simp)]; exact posta.white_span.2 h
    · by_cases h : SpansRows a' CLUSTER_WHITE ∨ SpansCols a' CLUSTER_WHITE
      · rw [decide_eq_true h, if_pos rfl]; exact postb.white_span.1 ((hsp _).1 h)
      · rw [decide_eq_false h, if_neg (by simp)]
        exact postb.white_span.2 (fun k => h ((hsp _).2 k))
    · by_cases h : SpansRows a' CLUSTER_BLACK ∨ SpansCols a' CLUSTER_BLACK
      · rw [decide_eq_true h, if_pos rfl]; exact posta.black_span.1 h
      · rw [decide_eq_false h, if_neg (by simp)]; exact posta.black_span.2 h
    · by_cases h : SpansRows a' CLUSTER_BLACK ∨ SpansCols a' CLUSTER_BLACK
      · rw [decide_eq_true h, if_pos rfl]; exact postb.black_span.1 ((hsp _).1 h)
      · rw [decide_eq_false h, if_neg (by simp)]
        exact postb.black_span.2 (fun k => h ((hsp _).2 k))

/-- C16, instance: the 3 x 4 sample cluster as `init_cluster` leaves it and the same
cluster with left-over values in every buffer. -/
theorem iterate_deterministic_witness :
    Ready sample_cluster_mixed ∧ Ready sample_cluster_stale ∧
    SameConfig sample_cluster_mixed sample_cluster_stale ∧
    2 * (sample_cluster_mixed.rows * sample_cluster_mixed.cols) + 3 ≤ 27 ∧
    ∃ a' b', iterate 27 sample_cluster_mixed = some a' ∧
      iterate 27 sample_cluster_stale = some b' ∧
      a'.rng = b'.rng ∧
      (∀ r c, r < sample_cluster_mixed.rows → c < sample_cluster_mixed.cols →
        color_at a' r c = color_at b' r c) ∧
      (∀ i, i < sample_cluster_mixed.rows * sample_cluster_mixed.cols → a'.djs i = b'.djs i) ∧
      (∀ color k, cluster_count a' color k = cluster_count b' color k) ∧
      (∀ k, 1 ≤ k → k ≤ sample_cluster_mixed.rows * sample_cluster_mixed.cols →
        (sample_cluster_mixed.white_histogram k < 2 ^ 64 → a'.white_histogram k =
          u64 (sample_cluster_mixed.white_histogram k + cluster_count a' CLUSTER_WHITE k)) ∧
        (sample_cluster_stale.white_histogram k < 2 ^ 64 → b'.white_histogram k =
          u64 (sample_cluster_stale.white_histogram k + cluster_count a' CLUSTER_WHITE k)) ∧
        (sample_cluster_mixed.black_histogram k < 2 ^ 64 → a'.black_histogram k =
          u64 (sample_cluster_mixed.black_histogram k + cluster_count a' CLUSTER_BLACK k)) ∧
        (sample_cluster_stale.black_histogram k < 2 ^ 64 → b'.black_histogram k =
          u64 (sample_cluster_stale.black_histogram k + cluster_count a' CLUSTER_BLACK k))) ∧
      (∃ ws bs : Bool,
        a'.white_spans = (if ws then u64 (sample_cluster_mixed.white_spans + 1)
          else sample_cluster_mixed.white_spans) ∧
        b'.white_spans = (if ws then u64 (sample_cluster_stale.white_spans + 1)
          else sample_cluster_stale.white_spans) ∧
        a'.black_spans = (if bs then u64 (sample_cluster_mixed.black_spans + 1)
          else sample_cluster_mixed.black_spans) ∧
        b'.black_spans = (if bs then u64 (sample_cluster_stale.black_spans + 1)
          else sample_cluster_stale.black_spans)) :=
  ⟨ready_seeded _ _ _ (by decide) (by decide) (by decide) (by decide) (by decide),
    ready_sample_stale, sameConfig_sample_stale, by decide,
    iterate_deterministic sample_cluster_mixed sample_cluster_stale
      (ready_seeded _ _ _ (by decide) (by decide) (by decide) (by decide) (by decide))
      ready_sample_stale sameConfig_sample_stale 27 (by decide)⟩

theorem in_bounds_of_lt {size i : Nat} (h : i < size) : in_bounds size i = some () :=
  if_pos h

theorem index_sub_of_le {a b : Nat} (h : b ≤ a) : index_sub a b = some (a - b) :=
  if_pos h

theorem djs_root_chk_eq {k n : Nat} (hk : k ≤ n) :
    ∀ (fuel : Nat) (d : Nat → Nat) (i : Nat), Closed k d → i < k →
      djs_root_chk n fuel d i = djs_root fuel d i := by
  intro fuel
  induction fuel with
  | zero => intro d i _ _; rfl
  | succ fuel ih =>
    intro d i hc hi
    simp only [djs_root_chk, djs_root, in_bounds_of_lt (show i < n by omega), Option.some_bind]
    by_cases e : i ≠ d i
    · rw [if_pos e, if_pos e]; exact ih d (d i) hc (hc i hi)
    · rw [if_neg e, if_neg e]

theorem djs_path_chk_eq {k n root : Nat} (hk : k ≤ n) (hroot : root < k) :
    ∀ (fuel : Nat) (d : Nat → Nat) (from0 : Nat), Closed k d → from0 < k →
      djs_path_chk n fuel d from0 root = djs_path fuel d from0 root := by
  intro fuel
  induction fuel with
  | zero => intro d from0 _ _; rfl
  | succ fuel ih =>
    intro d from0 hc hi
    simp only [djs_path_chk, djs_path, in_bounds_of_lt (show from0 < n by omega),
      Option.some_bind]
    by_cases e : from0 ≠ root
    · rw [if_pos e, if_pos e]
      exact ih _ (d from0) (hc.update_lt from0 hroot) (hc from0 hi)
    · rw [if_neg e, if_neg e]

theorem Agree.same (n : Nat) (d : Nat → Nat) : Agree n d d := fun _ _ => rfl

theorem djs_path_closed {k root : Nat} (hroot : root < k) {fuel : Nat} {d e : Nat → Nat}
    {from0 : Nat} (hc : Closed k d) (hi : from0 < k) (h : djs_path fuel d from0 root = some e) :
    Closed k e := by
  obtain ⟨_, _, _, hce⟩ := (djs_path_agree hroot fuel d d from0 (Agree.same k d) hc hi).of_some h
  exact hce

/-- One link of the chain of `djs_path` calls of a join: the checked call equals the
unchecked one, and so does what follows it. -/
theorem path_bind_eq {k n root fuel x : Nat} {d : Nat → Nat} (hk : k ≤ n) (hroot : root < k)
    (hc : Closed k d) (hx : x < k) {f g : (Nat → Nat) → Option (Nat → Nat)}
    (hfg : ∀ e, Closed k e → f e = g e) :
    (djs_path_chk n fuel d x root).bind f = (djs_path fuel d x root).bind g := by
  rw [djs_path_chk_eq hk hroot fuel d x hc hx]
  cases h : djs_path fuel d x root with
  | none => rfl
  | some e => exact hfg e (djs_path_closed hroot hc hx h)

theorem djs_flatten_chk_eq {k n : Nat} (hk : k ≤ n) {d : Nat → Nat} (hc : Closed k d)
    {i : Nat} (hi : i < k) (fuel : Nat) :
    djs_flatten_chk n fuel d i = djs_flatten fuel d i := by
  simp only [djs_flatten_chk, djs_flatten, Option.bind_eq_bind, djs_root_chk_eq hk fuel d i hc hi]
  cases e : djs_root fuel d i with
  | none => rfl
  | some r =>
    have l := djs_root_lt fuel d i r hc hi e
    simp only [Option.some_bind]
    rw [djs_path_chk_eq hk l fuel d i hc hi]

theorem djs_join2_chk_eq {k n : Nat} (hk : k ≤ n) {d : Nat → Nat} (hc : Closed k d)
    {a b : Nat} (h1 : a < k) (h2 : b < k) (fuel : Nat) :
    djs_join2_chk n fuel d a b = djs_join2 fuel d a b := by
  simp only [djs_join2_chk, djs_join2, Option.bind_eq_bind, djs_root_chk_eq hk fuel d _ hc h1,
    djs_root_chk_eq hk fuel d _ hc h2]
  cases e1 : djs_root fuel d a with
  | none => rfl
  | some r1 =>
    cases e2 : djs_root fuel d b with
    | none => rfl
    | some r2 =>
      have l1 := djs_root_lt fuel d a r1 hc h1 e1
      simp only [Option.some_bind]
      have hr : (if r1 > r2 then (r1, r1) else (r1, r2)).1 = r1 := by split <;> rfl
      rw [hr]
      exact path_bind_eq hk l1 hc h1 (fun e he => djs_path_chk_eq hk l1 fuel e b he h2)

theorem djs_join3_chk_eq {k n : Nat} (hk : k ≤ n) {d : Nat → Nat} (hc : Closed k d)
    {a b c : Nat} (h1 : a < k) (h2 : b < k) (h3 : c < k) (fuel : Nat) :
    djs_join3_chk n fuel d a b c = djs_join3 fuel d a b c := by
  simp only [djs_join3_chk, djs_join3, Option.bind_eq_bind, djs_root_chk_eq hk fuel d _ hc h1,
    djs_root_chk_eq hk fuel d _ hc h2, djs_root_chk_eq hk fuel d _ hc h3]
  cases e1 : djs_root fuel d a with
  | none => rfl
  | some r1 =>
    cases e2 : djs_root fuel d b with
    | none => rfl
    | some r2 =>
      cases e3 : djs_root fuel d c with
      | none => rfl
      | some r3 =>
        have l1 := djs_root_lt fuel d a r1 hc h1 e1
        have l2 := djs_root_lt fuel d b r2 hc h2 e2
        have l3 := djs_root_lt fuel d c r3 hc h3 e3
        have l := keep_min_lt (keep_min_lt l1 l2) l3
        simp only [Option.some_bind]
        exact path_bind_eq hk l hc h1 (fun e he =>
          path_bind_eq hk l he h2 (fun e he => djs_path_chk_eq hk l fuel e c he h3))

theorem djs_join4_chk_eq {k n : Nat} (hk : k ≤ n) {d : Nat → Nat} (hc : Closed k d)
    {a b c x : Nat} (h1 : a < k) (h2 : b < k) (h3 : c < k) (h4 : x < k) (fuel : Nat) :
    djs_join4_chk n fuel d a b c x = djs_join4 fuel d a b c x := by
  simp only [djs_join4_chk, djs_join4, Option.bind_eq_bind, djs_root_chk_eq hk fuel d _ hc h1,
    djs_root_chk_eq hk fuel d _ hc h2, djs_root_chk_eq hk fuel d _ hc h3,
    djs_root_chk_eq hk fuel d _ hc h4]
  cases e1 : djs_root fuel d a with
  | none => rfl
  | some r1 =>
    cases e2 : djs_root fuel d b with
    | none => rfl
    | some r2 =>
      cases e3 : djs_root fuel d c with
      | none => rfl
      | some r3 =>
        cases e4 : djs_root fuel d x with
        | none => rfl
        | some r4 =>
          have l1 := djs_root_lt fuel d a r1 hc h1 e1
          have l2 := djs_root_lt fuel d b r2 hc h2 e2
          have l3 := djs_root_lt fuel d c r3 hc h3 e3
          have l4 := djs_root_lt fuel d x r4 hc h4 e4
          have l := keep_min_lt (keep_min_lt (keep_min_lt l1 l2) l3) l4
          simp only [Option.some_bind]
          exact path_bind_eq hk l hc h1 (fun e he =>
            path_bind_eq hk l he h2 (fun e he =>
              path_bind_eq hk l he h3 (fun e he => djs_path_chk_eq hk l fuel e x he h4)))

theorem djs_join5_chk_eq {k n : Nat} (hk : k ≤ n) {d : Nat → Nat} (hc : Closed k d)
    {a b c x y : Nat} (h1 : a < k) (h2 : b < k) (h3 : c < k) (h4 : x < k) (h5 : y < k)
    (fuel : Nat) :
    djs_join5_chk n fuel d a b c x y = djs_join5 fuel d a b c x y := by
  simp only [djs_join5_chk, djs_join5, Option.bind_eq_bind, djs_root_chk_eq hk fuel d _ hc h1,
    djs_root_chk_eq hk fuel d _ hc h2, djs_root_chk_eq hk fuel d _ hc h3,
    djs_root_chk_eq hk fuel d _ hc h4, djs_root_chk_eq hk fuel d _ hc h5]
  cases e1 : djs_root fuel d a with
  | none => rfl
  | some r1 =>
    cases e2 : djs_root fuel d b with
    | none => rfl
    | some r2 =>
      cases e3 : djs_root fuel d c with
      | none => rfl
      | some r3 =>
        cases e4 : djs_root fuel d x with
        | none => rfl
        | some r4 =>
          cases e5 : djs_root fuel d y with
          | none => rfl
          | some r5 =>
            have l1 := djs_root_lt fuel d a r1 hc h1 e1
            have l2 := djs_root_lt fuel d b r2 hc h2 e2
            have l3 := djs_root_lt fuel d c r3 hc h3 e3
            have l4 := djs_root_lt fuel d x r4 hc h4 e4
            have l5 := djs_root_lt fuel d y r5 hc h5 e5
            have l := keep_min_lt (keep_min_lt (keep_min_lt (keep_min_lt l1 l2) l3) l4) l5
            simp only [Option.some_bind]
            exact path_bind_eq hk l hc h1 (fun e he =>
              path_bind_eq hk l he h2 (fun e he =>
                path_bind_eq hk l he h3 (fun e he =>
                  path_bind_eq hk l he h4 (fun e he =>
                    djs_path_chk_eq hk l fuel e y he h5))))

theorem earlier_of_lt {label : Nat} {L : List Nat} (h : ∀ l, l ∈ L → l < label) :
    earlier label L = some () := by
  unfold earlier
  rw [if_pos]
  rw [List.all_eq_true]
  intro l hl
  exact decide_eq_true (h l hl)

/-- The checked `switch (joins)` equals the unchecked one when the array is closed below
`label + 1` and each set bit selects a neighbour label below `label`. -/
theorem join_switch_chk_eq {n : Nat} {d : Nat → Nat} {cols label fuel : Nat}
    (hc : Closed (label + 1) d) (hn : label + 1 ≤ n) (b0 b1 b2 b3 : Bool)
    (h0 : b0 = true → sub32 label 1 < label) (h1 : b1 = true → sub32 label cols < label)
    (h2 : b2 = true → sub32 (sub32 label cols) 1 < label)
    (h3 : b3 = true → u32 (sub32 label cols + 1) < label) :
    join_switch_chk n fuel d cols label
        (bit_of b0 0 ||| bit_of b1 1 ||| bit_of b2 2 ||| bit_of b3 3) =
      join_switch fuel d cols label
        (bit_of b0 0 ||| bit_of b1 1 ||| bit_of b2 2 ||| bit_of b3 3) := by
  have hl : label < label + 1 := Nat.lt_succ_self _
  have w : ∀ {x}, x < label → x < label + 1 := fun h => Nat.lt_succ_of_lt h
  cases b0 <;> cases b1 <;> cases b2 <;> cases b3 <;>
    simp only [bit_of, if_true, if_false, Bool.false_eq_true] <;>
    norm_num [join_switch, join_switch_chk]
  · rw [earlier_of_lt (by simp [h3 rfl])]
    exact djs_join2_chk_eq hn hc hl (w (h3 rfl)) fuel
  · rw [earlier_of_lt (by simp [h2 rfl])]
    exact djs_join2_chk_eq hn hc hl (w (h2 rfl)) fuel
  · rw [earlier_of_lt (by simp [h2 rfl, h3 rfl])]
    exact djs_join3_chk_eq hn hc hl (w (h2 rfl)) (w (h3 rfl)) fuel
  · rw [earlier_of_lt (by simp [h1 rfl])]
    exact djs_join2_chk_eq hn hc hl (w (h1 rfl)) fuel
  · rw [earlier_of_lt (by simp [h1 rfl, h3 rfl])]
    exact djs_join3_chk_eq hn hc hl (w (h1 rfl)) (w (h3 rfl)) fuel
  · rw [earlier_of_lt (by simp [h1 rfl, h2 rfl])]
    exact djs_join3_chk_eq hn hc hl (w (h1 rfl)) (w (h2 rfl)) fuel
  · rw [earlier_of_lt (by simp [h1 rfl, h2 rfl, h3 rfl])]
    exact djs_join4_chk_eq hn hc hl (w (h1 rfl)) (w (h2 rfl)) (w (h3 rfl)) fuel
  · rw [earlier_of_lt (by simp [h0 rfl])]
    exact djs_join2_chk_eq hn hc hl (w (h0 rfl)) fuel
  · rw [earlier_of_lt (by simp [h0 rfl, h3 rfl])]
    exact djs_join3_chk_eq hn hc hl (w (h0 rfl)) (w (h3 rfl)) fuel
  · rw [earlier_of_lt (by simp [h0 rfl, h2 rfl])]
    exact djs_join3_chk_eq hn hc hl (w (h0 rfl)) (w (h2 rfl)) fuel
  · rw [earlier_of_lt (by simp [h0 rfl, h2 rfl, h3 rfl])]
    exact djs_join4_chk_eq hn hc hl (w (h0 rfl)) (w (h2 rfl)) (w (h3 rfl)) fuel
  · rw [earlier_of_lt (by simp [h0 rfl, h1 rfl])]
    exact djs_join3_chk_eq hn hc hl (w (h0 rfl)) (w (h1 rfl)) fuel
  · rw [earlier_of_lt (by simp [h0 rfl, h1 rfl, h3 rfl])]
    exact djs_join4_chk_eq hn hc hl (w (h0 rfl)) (w (h1 rfl)) (w (h3 rfl)) fuel
  · rw [earlier_of_lt (by simp [h0 rfl, h1 rfl, h2 rfl])]
    exact djs_join4_chk_eq hn hc hl (w (h0 rfl)) (w (h1 rfl)) (w (h2 rfl)) fuel
  · rw [earlier_of_lt (by simp [h0 rfl, h1 rfl, h2 rfl, h3 rfl])]
    exact djs_join5_chk_eq hn hc hl (w (h0 rfl)) (w (h1 rfl)) (w (h2 rfl)) (w (h3 rfl)) fuel

theorem map_index_lt {rows cols r c : Nat} (hr : r < rows) (hc : c < cols) :
    map_index cols r c < (rows + 2) * (cols + 1) := by
  unfold map_index
  have h1 : (r + 1) * (cols + 1) + (cols + 1) ≤ (rows + 2) * (cols + 1) := by
    have : (r + 2) * (cols + 1) ≤ (rows + 2) * (cols + 1) :=
      Nat.mul_le_mul_right _ (by omega)
    have e : (r + 2) * (cols + 1) = (r + 1) * (cols + 1) + (cols + 1) := by ring
    omega
  omega

theorem map_index_ge {cols r c : Nat} : cols + 1 + 1 + c ≤ map_index cols r c := by
  unfold map_index
  have : 1 * (cols + 1) ≤ (r + 1) * (cols + 1) := Nat.mul_le_mul_right _ (by omega)
  omega

/-- The checked generation step of one cell equals the unchecked one: every index it
uses is inside its buffer and every neighbour label handed to a join is smaller
than the label of the cell. -/
theorem iterate_cell_chk_eq (cl : cluster) {r c fuel : Nat}
    (hsz : (cl.rows + 2) * (cl.cols + 1) < 2 ^ 32) (hr : r < cl.rows) (hc : c < cl.cols)
    (hs : cl.rng ≠ 0) (hlt : cl.rng < 2 ^ 64) (hf : 1 ≤ fuel)
    (hrow : ∀ i, i ≤ cl.cols → cl.map i = CLUSTER_NONE)
    (hcol : ∀ k, k ≤ cl.rows + 1 → cl.map (k * (cl.cols + 1)) = CLUSTER_NONE)
    (hcl : Closed (label_of cl.cols r c) cl.djs) :
    iterate_cell_chk fuel r c cl = iterate_cell fuel r c cl := by
  have hc0 : 0 < cl.cols := by omega
  have hcur := curr_row_of_eq hsz hr hc0
  have hlab := label_eq hsz hr hc
  obtain ⟨g1, g2, g3⟩ := grid_facts hsz hr hc
  have g3' : label_of cl.cols r c < cl.rows * cl.cols := g3
  have hst : u32 (cl.cols + 1) = cl.cols + 1 := u32_of_lt (by omega)
  have hidx : map_index cl.cols r 0 + c = map_index cl.cols r c := by
    unfold map_index; ring
  have hidx1 : map_index cl.cols r 0 - (cl.cols + 1) + c = map_index cl.cols r c - (cl.cols + 1) := by
    unfold map_index
    have : (r + 1) * (cl.cols + 1) = r * (cl.cols + 1) + (cl.cols + 1) := by ring
    omega
  have hge0 := @map_index_ge cl.cols r 0
  have hge := @map_index_ge cl.cols r c
  have hlt' := @map_index_lt cl.rows cl.cols r c hr hc
  have hx := xorshift_round_ne_zero hs hlt
  have hp : probability fuel cl.rng cl.p_black =
      some (xorshift_round cl.rng, drawn_color cl.rng cl.p_black) :=
    probability_of_ne_zero hs hlt fuel cl.p_black hf
  have e2 := diag_test_eq hx.1 hx.2 fuel (diag_limit cl (drawn_color cl.rng cl.p_black))
    (Function.update cl.map (map_index cl.cols r c) (drawn_color cl.rng cl.p_black)
      (map_index cl.cols r c - (cl.cols + 1) - 1) == drawn_color cl.rng cl.p_black) hf
  have hx2 := diag_step_ne_zero hx.1 hx.2 (diag_limit cl (drawn_color cl.rng cl.p_black))
    (Function.update cl.map (map_index cl.cols r c) (drawn_color cl.rng cl.p_black)
      (map_index cl.cols r c - (cl.cols + 1) - 1) == drawn_color cl.rng cl.p_black)
  have e3 := diag_test_eq hx2.1 hx2.2 fuel (diag_limit cl (drawn_color cl.rng cl.p_black))
    (Function.update cl.map (map_index cl.cols r c) (drawn_color cl.rng cl.p_black)
      (map_index cl.cols r c - (cl.cols + 1) + 1) == drawn_color cl.rng cl.p_black) hf
  unfold diag_limit at e2 e3
  -- the join
  obtain ⟨n0, n1, n2, n3⟩ := cell_neighbours_lt cl hsz hr hc hrow hcol
  have hcl1 : Closed (label_of cl.cols r c + 1)
      (Function.update cl.djs (label_of cl.cols r c) (label_of cl.cols r c)) := by
    intro x hx
    by_cases e : x = label_of cl.cols r c
    · rw [e, Function.update_same]; omega
    · rw [Function.update_noteq e]
      have := hcl x (by omega)
      omega
  have hltl : ∀ {r' c'}, c' < cl.cols → (r' < r ∨ (r' = r ∧ c' < c)) →
      label_of cl.cols r' c' < label_of cl.cols r c :=
    fun h1 h2 => (label_of_lt_iff h1 hc).2 h2
  have hsw := @join_switch_chk_eq (djs_size cl) _ cl.cols (label_of cl.cols r c) fuel hcl1
    (by unfold djs_size; omega)
    (cell_draw_of cl r c).b0 (cell_draw_of cl r c).b1 (cell_draw_of cl r c).b2
    (cell_draw_of cl r c).b3
    (fun e => by rw [(n0 e).2]; exact hltl (by omega) (Or.inr ⟨rfl, by have := (n0 e).1; omega⟩))
    (fun e => by rw [(n1 e).2]; exact hltl hc (Or.inl (by have := (n1 e).1; omega)))
    (fun e => by
      rw [(n2 e).2.2]; exact hltl (by omega) (Or.inl (by have := (n2 e).1; omega)))
    (fun e => by
      rw [(n3 e).2.2]; exact hltl (n3 e).2.1 (Or.inl (by have := (n3 e).1; omega)))
  rw [iterate_cell_explicit cl hsz hr hc hs hlt hf, ← hsw]
  simp only [iterate_cell_chk, cell_draw_of]
  rw [hcur, hst, index_sub_of_le (by omega), hp]
  simp only [Option.bind_eq_bind, Option.some_bind]
  rw [hlab, hidx, hidx1, in_bounds_of_lt (show label_of cl.cols r c < djs_size cl from g3'),
    in_bounds_of_lt (show map_index cl.cols r c < map_size cl from hlt'),
    index_sub_of_le (by omega)]
  simp only [Option.some_bind]
  rw [in_bounds_of_lt (show map_index cl.cols r c - 1 < map_size cl by unfold map_size; omega),
    in_bounds_of_lt (show map_index cl.cols r c - (cl.cols + 1) < map_size cl by
      unfold map_size; omega),
    index_sub_of_le (by omega)]
  simp only [Option.some_bind]
  rw [in_bounds_of_lt (show map_index cl.cols r c - (cl.cols + 1) - 1 < map_size cl by
      unfold map_size; omega),
    in_bounds_of_lt (show map_index cl.cols r c - (cl.cols + 1) + 1 < map_size cl by
      unfold map_size; omega)]
  unfold diag_limit
  simp only [Option.some_bind, e2, e3, Option.pure_def, Option.map_eq_map]
  cases join_switch_chk (djs_size cl) fuel _ cl.cols (label_of cl.cols r c) _ <;> rfl

/-- Two loop bodies that agree on every state satisfying a loop invariant run to the
same result, and the invariant holds at the end. -/
theorem foldlM_range_eq {σ : Type} (f g : σ → Nat → Option σ) (I : Nat → σ → Prop) :
    ∀ n, (∀ i s, i < n → I i s → g s i = f s i ∧ ∀ s', f s i = some s' → I (i + 1) s') →
      ∀ s, I 0 s → (List.range n).foldlM g s = (List.range n).foldlM f s ∧
        ∀ s', (List.range n).foldlM f s = some s' → I n s' := by
  intro n
  induction n with
  | zero =>
    intro _ s h0
    refine ⟨rfl, ?_⟩
    intro s' e
    simp only [List.range_zero, List.foldlM_nil, Option.pure_def, Option.some.injEq] at e
    rw [← e]; exact h0
  | succ n ih =>
    intro hstep s h0
    obtain ⟨e1, inv⟩ := ih (fun i s hi hI => hstep i s (by omega) hI) s h0
    rw [List.range_succ, List.foldlM_append, List.foldlM_append, e1]
    cases h : (List.range n).foldlM f s with
    | none =>
      refine ⟨rfl, ?_⟩
      intro s' e
      simp at e
    | some s1 =>
      obtain ⟨e2, inv2⟩ := hstep n s1 (by omega) (inv s1 h)
      simp only [Option.bind_eq_bind, Option.some_bind, List.foldlM_cons, List.foldlM_nil]
      rw [e2]
      refine ⟨rfl, ?_⟩
      intro s' e
      cases h2 : f s1 n with
      | none => rw [h2] at e; simp at e
      | some s2 =>
        rw [h2] at e
        simp only [Option.some_bind, Option.pure_def, Option.some.injEq] at e
        rw [← e]; exact inv2 s2 h2

/-- The checked generation loops equal the unchecked ones. -/
theorem iterate_generate_chk_eq {cl : cluster} (h : Ready cl) {fuel : Nat}
    (hf : cl.rows * cl.cols + 2 ≤ fuel) :
    iterate_generate_chk fuel cl = iterate_generate fuel cl := by
  have hsz := h.size_ok
  unfold iterate_generate_chk iterate_generate
  refine (foldlM_range_eq _ _ (fun r s => ∃ rt, GenInv cl (label_of cl.cols r 0) s rt)
    cl.rows ?_ cl ⟨_, by simpa [label_of] using GenInv.at_entry h⟩).1
  intro r s hr ⟨rt, g⟩
  have inner := foldlM_range_eq (fun cl2 c => iterate_cell fuel r c cl2)
    (fun cl2 c => iterate_cell_chk fuel r c cl2)
    (fun c s => ∃ rt, GenInv cl (label_of cl.cols r c) s rt) cl.cols (by
      intro c s hc ⟨rt, g⟩
      have hcs := g.cols_eq
      have hrs := g.rows_eq
      have g' : GenInv cl (label_of s.cols r c) s rt := by rw [hcs]; exact g
      constructor
      · apply iterate_cell_chk_eq s (by rw [hcs, hrs]; exact hsz) (by rw [hrs]; exact hr)
          (by rw [hcs]; exact hc) g.rng_ne g.rng_lt (by omega) g.border_row g.border_col
        intro x hx
        exact (g'.forest x hx).1
      · intro s' e
        obtain ⟨s2, rt2, e2, g2⟩ := @GenInv.cell_step cl s rt r c fuel g'
          (by rw [hcs, hrs]; exact hsz) (by rw [hrs]; exact hr) (by rw [hcs]; exact hc)
          (by rw [hcs, hrs]; exact hf)
        have e' : iterate_cell fuel r c s = some s' := e
        rw [e'] at e2
        have := Option.some.inj e2
        subst this
        rw [hcs] at g2
        exact ⟨rt2, g2⟩) s ⟨rt, g⟩
  refine ⟨inner.1, ?_⟩
  intro s' e
  have : label_of cl.cols (r + 1) 0 = label_of cl.cols r cl.cols := by
    unfold label_of; ring
  rw [this]
  exact inner.2 s' e

theorem djs_flatten_root_lt {k : Nat} {d : Nat → Nat} (hc : Closed k d) {i : Nat} (hi : i < k)
    {fuel root : Nat} {d1 : Nat → Nat} (h : djs_flatten fuel d i = some (root, d1)) :
    root < k := by
  simp only [djs_flatten, Option.bind_eq_bind, Option.bind_eq_some, Option.pure_def,
    Option.some.injEq, Prod.mk.injEq] at h
  obtain ⟨r, e1, _, _, e3, _⟩ := h
  rw [← e3]
  exact djs_root_lt fuel d i r hc hi e1

/-- The checked body of the counting loop equals the unchecked one. -/
theorem count_cell_chk_eq (cl : cluster) {r c fuel : Nat}
    (hsz : (cl.rows + 2) * (cl.cols + 1) < 2 ^ 32) (hr : r < cl.rows) (hc : c < cl.cols)
    (hcl : Closed (cl.rows * cl.cols) cl.djs) :
    count_cell_chk fuel r c cl = count_cell fuel r c cl := by
  have hcur := curr_row_of_eq hsz hr (show 0 < cl.cols by omega)
  have hlab := label_eq hsz hr hc
  obtain ⟨g1, g2, g3⟩ := grid_facts hsz hr hc
  have g3' : label_of cl.cols r c < cl.rows * cl.cols := g3
  have hidx : map_index cl.cols r 0 + c = map_index cl.cols r c := by
    unfold map_index; ring
  have hlt' := @map_index_lt cl.rows cl.cols r c hr hc
  simp only [count_cell_chk, count_cell]
  rw [hcur, hlab, hidx, in_bounds_of_lt (show map_index cl.cols r c < map_size cl from hlt'),
    djs_flatten_chk_eq (show cl.rows * cl.cols ≤ djs_size cl from le_refl _) hcl g3' fuel]
  simp only [Option.bind_eq_bind, Option.some_bind]
  cases e : djs_flatten fuel cl.djs (label_of cl.cols r c) with
  | none => rfl
  | some p =>
    obtain ⟨root, d1⟩ := p
    have hroot := djs_flatten_root_lt hcl g3' e
    simp only [Option.some_bind]
    rw [in_bounds_of_lt (show root < labels_size cl by unfold labels_size; omega)]
    rfl

/-- The checked counting stage equals the unchecked one. -/
theorem iterate_count_chk_eq {cl1 : cluster} {rt : Nat → Nat}
    (hsz : (cl1.rows + 2) * (cl1.cols + 1) < 2 ^ 32)
    (hF : Forest (cl1.rows * cl1.cols) cl1.djs rt)
    (hcol : ∀ r c, r < cl1.rows → c < cl1.cols →
      color_at cl1 r c = CLUSTER_WHITE ∨ color_at cl1 r c = CLUSTER_BLACK)
    {fuel : Nat} (hf : cl1.rows * cl1.cols + 2 ≤ fuel) :
    iterate_count_chk fuel cl1 = iterate_count fuel cl1 := by
  have hN : (cl1.rows + 2) * (cl1.cols + 1) = cl1.rows * cl1.cols + cl1.rows + 2 * cl1.cols + 2 := by
    ring
  have hlabels : u32 (u32 (cl1.rows * cl1.cols) + 2) = cl1.rows * cl1.cols + 2 := by
    rw [u32_of_lt (show cl1.rows * cl1.cols < 2 ^ 32 by omega), u32_of_lt (by omega)]
  have hinit : CountInv cl1 rt 0
      { cl1 with white_roots := memset_zero (u32 (u32 (cl1.rows * cl1.cols) + 2)) cl1.white_roots,
                 black_roots := memset_zero (u32 (u32 (cl1.rows * cl1.cols) + 2)) cl1.black_roots } :=
    { rng_eq := rfl, rows_eq := rfl, cols_eq := rfl, p_eq := rfl, dw_eq := rfl, db_eq := rfl
      iter_eq := rfl, ws_eq := rfl, bs_eq := rfl, wh_eq := rfl, bh_eq := rfl, map_eq := rfl
      forest := hF
      flat := fun j hj => absurd hj (Nat.not_lt_zero _)
      white := by
        intro x hx
        show memset_zero _ _ x = _
        rw [hlabels]
        simp [memset_zero, hx, root_count]
      black := by
        intro x hx
        show memset_zero _ _ x = _
        rw [hlabels]
        simp [memset_zero, hx, root_count] }
  simp only [iterate_count_chk, iterate_count, Option.bind_eq_bind]
  rw [in_bounds_of_lt (show u32 (u32 (cl1.rows * cl1.cols) + 2) < labels_size cl1 + 1 by
    rw [hlabels]; unfold labels_size; omega)]
  simp only [Option.some_bind]
  refine (foldlM_range_eq _ _ (fun r s => CountInv cl1 rt (label_of cl1.cols r 0) s)
    cl1.rows ?_ _ (by simpa [label_of] using hinit)).1
  intro r s hr k
  have inner := foldlM_range_eq (fun cl2 c => count_cell fuel r c cl2)
    (fun cl2 c => count_cell_chk fuel r c cl2)
    (fun c s => CountInv cl1 rt (label_of cl1.cols r c) s) cl1.cols (by
      intro c s hc k
      constructor
      · apply count_cell_chk_eq s (by rw [k.rows_eq, k.cols_eq]; exact hsz)
          (by rw [k.rows_eq]; exact hr) (by rw [k.cols_eq]; exact hc)
        rw [k.rows_eq, k.cols_eq]
        intro x hx
        exact (k.forest x hx).1
      · intro s' e
        obtain ⟨s2, e2, k2⟩ := @CountInv.count_step cl1 s rt r c fuel k hsz hr hc
          (hcol r c hr hc) hf
        have e' : count_cell fuel r c s = some s' := e
        rw [e'] at e2
        have := Option.some.inj e2
        subst this
        exact k2) s k
  refine ⟨inner.1, ?_⟩
  intro s' e
  have : label_of cl1.cols (r + 1) 0 = label_of cl1.cols r cl1.cols := by
    unfold label_of; ring
  rw [this]
  exact inner.2 s' e

theorem histogram_fold_chk (size : Nat) (root_count : Nat → Nat) :
    ∀ (l : List Nat) (h : Nat → Nat), (∀ i, i ∈ l → i < size ∧ root_count i < size) →
      l.foldlM (fun h i => (in_bounds size i).bind (fun _ =>
          (in_bounds size (root_count i)).bind (fun _ =>
            some (Function.update h (root_count i) (u64 (h (root_count i) + 1)))))) h =
        some (l.foldl
          (fun h i => Function.update h (root_count i) (u64 (h (root_count i) + 1))) h) := by
  intro l
  induction l with
  | nil => intro h _; rfl
  | cons i l ih =>
    intro h hl
    obtain ⟨h1, h2⟩ := hl i (List.mem_cons_self _ _)
    rw [List.foldlM_cons, in_bounds_of_lt h1, in_bounds_of_lt h2]
    simp only [Option.bind_eq_bind, Option.some_bind, List.foldl_cons]
    exact ih _ (fun j hj => hl j (List.mem_cons_of_mem _ hj))

theorem histogram_collect_chk_eq {size n : Nat} {root_count : Nat → Nat} (h : Nat → Nat)
    (hb : ∀ i, i < n → i < size ∧ root_count i < size) :
    histogram_collect_chk size n root_count h = some (histogram_collect n root_count h) := by
  unfold histogram_collect_chk histogram_collect
  apply histogram_fold_chk
  intro i hi
  exact hb i (List.mem_range.1 (List.mem_reverse.1 hi))

/-- The checked histogram stage equals the unchecked one after the counting loops. -/
theorem iterate_histogram_chk_eq {cl1 cl2 : cluster} {rt : Nat → Nat}
    (hsz : (cl1.rows + 2) * (cl1.cols + 1) < 2 ^ 32)
    (k : CountInv cl1 rt (cl1.rows * cl1.cols) cl2) :
    iterate_histogram_chk cl2 = some (iterate_histogram cl2) := by
  have hN : (cl1.rows + 2) * (cl1.cols + 1) = cl1.rows * cl1.cols + cl1.rows + 2 * cl1.cols + 2 := by
    ring
  have hlabels : u32 (u32 (cl2.rows * cl2.cols) + 1) = cl1.rows * cl1.cols + 1 := by
    rw [k.rows_eq, k.cols_eq, u32_of_lt (show cl1.rows * cl1.cols < 2 ^ 32 by omega),
      u32_of_lt (by omega)]
  have hsize : labels_size cl2 = cl1.rows * cl1.cols + 2 := by
    unfold labels_size; rw [k.rows_eq, k.cols_eq]
  have hw : ∀ i, i < cl1.rows * cl1.cols + 1 →
      i < cl1.rows * cl1.cols + 2 ∧ cl2.white_roots i < cl1.rows * cl1.cols + 2 := by
    intro i hi
    refine ⟨by omega, ?_⟩
    rw [k.white i (by omega)]
    have := root_count_le cl1 rt CLUSTER_WHITE (cl1.rows * cl1.cols) i
    omega
  have hb : ∀ i, i < cl1.rows * cl1.cols + 1 →
      i < cl1.rows * cl1.cols + 2 ∧ cl2.black_roots i < cl1.rows * cl1.cols + 2 := by
    intro i hi
    refine ⟨by omega, ?_⟩
    rw [k.black i (by omega)]
    have := root_count_le cl1 rt CLUSTER_BLACK (cl1.rows * cl1.cols) i
    omega
  simp only [iterate_histogram_chk, iterate_histogram, Option.bind_eq_bind]
  rw [hlabels, hsize, histogram_collect_chk_eq _ hw, histogram_collect_chk_eq _ hb,
    in_bounds_of_lt (by omega), in_bounds_of_lt (by omega)]
  rfl

/-- A checked loop whose body succeeds with the result of the unchecked body on every
state satisfying a loop invariant runs to the result of the unchecked loop. -/
theorem foldlM_eq_foldl {σ : Type} (G : σ → Nat → Option σ) (F : σ → Nat → σ)
    (I : Nat → σ → Prop) :
    ∀ n, (∀ i s, i < n → I i s → G s i = some (F s i) ∧ I (i + 1) (F s i)) →
      ∀ s, I 0 s → (List.range n).foldlM G s = some ((List.range n).foldl F s) ∧
        I n ((List.range n).foldl F s) := by
  intro n
  induction n with
  | zero => intro _ s h0; exact ⟨rfl, h0⟩
  | succ n ih =>
    intro hstep s h0
    obtain ⟨e1, inv⟩ := ih (fun i s hi hI => hstep i s (by omega) hI) s h0
    obtain ⟨e2, inv2⟩ := hstep n _ (by omega) inv
    rw [List.range_succ, List.foldlM_append, List.foldl_append, e1]
    simp only [Option.bind_eq_bind, Option.some_bind, List.foldlM_cons, List.foldlM_nil,
      List.foldl_cons, List.foldl_nil]
    rw [e2]
    exact ⟨rfl, inv2⟩

theorem span_rows_step_chk (cl : cluster) (hsz : (cl.rows + 2) * (cl.cols + 1) < 2 ^ 32)
    (hc : 1 ≤ cl.cols) {r : Nat} (hr : r < cl.rows) (acc : List Nat × List Nat)
    (h1 : acc.1.length ≤ r) (h2 : acc.2.length ≤ r) :
    in_bounds (map_size cl) (map_base cl.cols + u32 (r * u32 (cl.cols + 1))) = some () ∧
    in_bounds (djs_size cl) (u32 (r * cl.cols)) = some () ∧
    in_bounds (labels_size cl) acc.1.length = some () ∧
    in_bounds (map_size cl)
      (map_base cl.cols + sub32 (u32 (u32 (r * u32 (cl.cols + 1)) + cl.cols)) 1) = some () ∧
    in_bounds (djs_size cl) (sub32 (u32 (u32 (r * cl.cols) + cl.cols)) 1) = some () ∧
    in_bounds (labels_size cl) acc.2.length = some () := by
  have hN : (cl.rows + 2) * (cl.cols + 1) = cl.rows * cl.cols + cl.rows + 2 * cl.cols + 2 := by
    ring
  have hrC : (r + 1) * cl.cols ≤ cl.rows * cl.cols := Nat.mul_le_mul_right _ hr
  have hrN : cl.rows ≤ cl.rows * cl.cols := Nat.le_mul_of_pos_right _ hc
  have e1 : (r + 1) * cl.cols = r * cl.cols + cl.cols := by ring
  have hrS : (r + 1) * (cl.cols + 1) ≤ cl.rows * (cl.cols + 1) := Nat.mul_le_mul_right _ hr
  have e2 : (r + 1) * (cl.cols + 1) = r * (cl.cols + 1) + (cl.cols + 1) := by ring
  have e3 : cl.rows * (cl.cols + 1) = cl.rows * cl.cols + cl.rows := by ring
  have hst : u32 (cl.cols + 1) = cl.cols + 1 := u32_of_lt (by omega)
  have hrs : u32 (r * (cl.cols + 1)) = r * (cl.cols + 1) := u32_of_lt (by omega)
  have hrc : u32 (r * cl.cols) = r * cl.cols := u32_of_lt (by omega)
  have hrcc : u32 (r * (cl.cols + 1) + cl.cols) = r * (cl.cols + 1) + cl.cols :=
    u32_of_lt (by omega)
  have hrcc2 : u32 (r * cl.cols + cl.cols) = r * cl.cols + cl.cols := u32_of_lt (by omega)
  rw [hst, hrs, hrc, hrcc, hrcc2, sub32_of_le (by omega) (by omega),
    sub32_of_le (by omega) (by omega)]
  unfold map_base
  refine ⟨in_bounds_of_lt ?_, in_bounds_of_lt ?_, in_bounds_of_lt ?_, in_bounds_of_lt ?_,
    in_bounds_of_lt ?_, in_bounds_of_lt ?_⟩
  · unfold map_size; omega
  · unfold djs_size; omega
  · unfold labels_size; omega
  · unfold map_size; omega
  · unfold djs_size; omega
  · unfold labels_size; omega

/-- The checked first loop of a spanning check equals the unchecked one. -/
theorem span_lists_rows_chk_eq (cl : cluster) (hsz : (cl.rows + 2) * (cl.cols + 1) < 2 ^ 32)
    (hc : 1 ≤ cl.cols) (color : Nat) :
    span_lists_rows_chk cl color = some (span_lists_rows cl color) := by
  unfold span_lists_rows_chk span_lists_rows
  refine (foldlM_eq_foldl _ _ (fun n (acc : List Nat × List Nat) =>
    acc.1.length ≤ n ∧ acc.2.length ≤ n) cl.rows ?_ ([], []) ⟨by simp, by simp⟩).1
  intro n acc hn ⟨l1, l2⟩
  obtain ⟨b1, b2, b3, b4, b5, b6⟩ := span_rows_step_chk cl hsz hc hn acc l1 l2
  by_cases c1 : cl.map (map_base cl.cols + u32 (n * u32 (cl.cols + 1))) = color <;>
    by_cases c2 : cl.map (map_base cl.cols +
      sub32 (u32 (u32 (n * u32 (cl.cols + 1)) + cl.cols)) 1) = color <;>
    simp only [b1, b2, b3, b4, b5, b6, c1, c2, if_true, if_false, Option.bind_eq_bind,
      Option.some_bind, Option.pure_def] <;>
    refine ⟨trivial, ?_, ?_⟩ <;> first | omega | (simp; omega)

theorem span_cols_step_chk (cl : cluster) (hsz : (cl.rows + 2) * (cl.cols + 1) < 2 ^ 32)
    (hr : 1 ≤ cl.rows) {c : Nat} (hc : c < cl.cols) (acc : List Nat × List Nat)
    (h1 : acc.1.length ≤ c) (h2 : acc.2.length ≤ c) :
    in_bounds (map_size cl) (map_base cl.cols + c) = some () ∧
    in_bounds (djs_size cl) c = some () ∧
    in_bounds (labels_size cl) acc.1.length = some () ∧
    in_bounds (map_size cl)
      (map_base cl.cols + u32 (sub32 cl.rows 1 * u32 (cl.cols + 1)) + c) = some () ∧
    in_bounds (djs_size cl) (u32 (sub32 cl.rows 1 * cl.cols) + c) = some () ∧
    in_bounds (labels_size cl) acc.2.length = some () := by
  have hN : (cl.rows + 2) * (cl.cols + 1) = cl.rows * cl.cols + cl.rows + 2 * cl.cols + 2 := by
    ring
  have hcN : cl.cols ≤ cl.rows * cl.cols := Nat.le_mul_of_pos_left _ hr
  have e1 : cl.rows * cl.cols = (cl.rows - 1) * cl.cols + cl.cols := by
    have : cl.rows = cl.rows - 1 + 1 := by omega
    conv_lhs => rw [this]
    ring
  have e2 : cl.rows * (cl.cols + 1) = (cl.rows - 1) * (cl.cols + 1) + (cl.cols + 1) := by
    have : cl.rows = cl.rows - 1 + 1 := by omega
    conv_lhs => rw [this]
    ring
  have e3 : cl.rows * (cl.cols + 1) = cl.rows * cl.cols + cl.rows := by ring
  have hst : u32 (cl.cols + 1) = cl.cols + 1 := u32_of_lt (by omega)
  have hs1 : sub32 cl.rows 1 = cl.rows - 1 := sub32_of_le hr (by omega)
  have hrs : u32 ((cl.rows - 1) * (cl.cols + 1)) = (cl.rows - 1) * (cl.cols + 1) :=
    u32_of_lt (by omega)
  have hrc : u32 ((cl.rows - 1) * cl.cols) = (cl.rows - 1) * cl.cols := u32_of_lt (by omega)
  rw [hst, hs1, hrs, hrc]
  unfold map_base
  refine ⟨in_bounds_of_lt ?_, in_bounds_of_lt ?_, in_bounds_of_lt ?_, in_bounds_of_lt ?_,
    in_bounds_of_lt ?_, in_bounds_of_lt ?_⟩
  · unfold map_size; omega
  · unfold djs_size; omega
  · unfold labels_size; omega
  · unfold map_size; omega
  · unfold djs_size; omega
  · unfold labels_size; omega

/-- The checked second loop of a spanning check equals the unchecked one. -/
theorem span_lists_cols_chk_eq (cl : cluster) (hsz : (cl.rows + 2) * (cl.cols + 1) < 2 ^ 32)
    (hr : 1 ≤ cl.rows) (color : Nat) :
    span_lists_cols_chk cl color = some (span_lists_cols cl color) := by
  unfold span_lists_cols_chk span_lists_cols
  refine (foldlM_eq_foldl _ _ (fun n (acc : List Nat × List Nat) =>
    acc.1.length ≤ n ∧ acc.2.length ≤ n) cl.cols ?_ ([], []) ⟨by simp, by simp⟩).1
  intro n acc hn ⟨l1, l2⟩
  obtain ⟨b1, b2, b3, b4, b5, b6⟩ := span_cols_step_chk cl hsz hr hn acc l1 l2
  by_cases c1 : cl.map (map_base cl.cols + n) = color <;>
    by_cases c2 : cl.map (map_base cl.cols +
      u32 (sub32 cl.rows 1 * u32 (cl.cols + 1)) + n) = color <;>
    simp only [b1, b2, b3, b4, b5, b6, c1, c2, if_true, if_false, Option.bind_eq_bind,
      Option.some_bind, Option.pure_def] <;>
    refine ⟨trivial, ?_, ?_⟩ <;> first | omega | (simp; omega)

/-- A checked spanning check equals the unchecked one. -/
theorem span_check_chk_eq (cl : cluster) (hsz : (cl.rows + 2) * (cl.cols + 1) < 2 ^ 32)
    (hr : 1 ≤ cl.rows) (hc : 1 ≤ cl.cols) (color fuel : Nat) :
    span_check_chk fuel cl color = span_check fuel cl color := by
  simp only [span_check_chk, span_check, span_lists_rows_chk_eq cl hsz hc color,
    span_lists_cols_chk_eq cl hsz hr color, Option.bind_eq_bind, Option.some_bind]

/-- The checked spanning stage equals the unchecked one. -/
theorem iterate_spans_chk_eq (cl : cluster) (hsz : (cl.rows + 2) * (cl.cols + 1) < 2 ^ 32)
    (hr : 1 ≤ cl.rows) (hc : 1 ≤ cl.cols) (fuel : Nat) :
    iterate_spans_chk fuel cl = iterate_spans fuel cl := by
  simp only [iterate_spans_chk, iterate_spans, span_check_chk_eq cl hsz hr hc, Option.bind_eq_bind]
  cases span_check fuel cl CLUSTER_WHITE with
  | none => rfl
  | some p =>
    obtain ⟨w, wr1, br1⟩ := p
    simp only [Option.some_bind]
    rw [span_check_chk_eq _ (by exact hsz) (by exact hr) (by exact hc)]

/-- The checked `iterate` equals the unchecked one on every cluster with accepted sizes,
a nonzero generator state and the sentinel border. -/
theorem iterate_chk_eq {cl : cluster} (h : Ready cl) {fuel : Nat}
    (hf : 2 * (cl.rows * cl.cols) + 3 ≤ fuel) : iterate_chk fuel cl = iterate fuel cl := by
  obtain ⟨cl1, rt, cl2, cl', e1, g, e2, k, _, post, _⟩ := iterate_run_shape h hf
  have hsz := h.size_ok
  have hr1 := g.rows_eq
  have hc1 := g.cols_eq
  have hcol1 : ∀ r c, r < cl1.rows → c < cl1.cols →
      color_at cl1 r c = CLUSTER_WHITE ∨ color_at cl1 r c = CLUSTER_BLACK := by
    intro r c a b
    exact g.color_ok (r, c) (by rw [hc1]; exact (done_all_iff (r, c)).2 ⟨by omega, by omega⟩)
  have hF1 : Forest (cl1.rows * cl1.cols) cl1.djs rt := by rw [hr1, hc1]; exact g.forest
  have hsz1 : (cl1.rows + 2) * (cl1.cols + 1) < 2 ^ 32 := by rw [hr1, hc1]; exact hsz
  have k' : CountInv cl1 rt (cl1.rows * cl1.cols) cl2 := by rw [hr1, hc1]; exact k
  have c1 := @iterate_generate_chk_eq cl h fuel (by omega)
  have c2 := @iterate_count_chk_eq cl1 rt hsz1 hF1 hcol1 fuel (by rw [hr1, hc1]; omega)
  have c3 := iterate_histogram_chk_eq hsz1 k'
  have c4 := iterate_spans_chk_eq (iterate_histogram cl2)
    (by show (cl2.rows + 2) * (cl2.cols + 1) < 2 ^ 32; rw [k.rows_eq, k.cols_eq]; exact hsz1)
    (by show 1 ≤ cl2.rows; rw [k.rows_eq, hr1]; exact h.rows_pos)
    (by show 1 ≤ cl2.cols; rw [k.cols_eq, hc1]; exact h.cols_pos) fuel
  simp only [iterate_chk, iterate, c1, e1, c2, e2, c3, c4, Option.bind_eq_bind, Option.some_bind]

theorem calloc_of_not_null {ok : Bool} (h : ¬ (calloc_result ok).is_null = true) : ok = true := by
  cases ok with
  | true => rfl
  | false => exact absurd rfl h

/-- When `init_cluster` returns 0, seeding the cluster with a nonzero 64-bit state gives
a cluster on which `iterate` may be called, of the requested size and with the
limits `probability_limit` computes. -/
theorem init_cluster_ready {calloc : Nat → Bool} {c o : cluster_obj} {rows cols : Int}
    {p_black d_white d_black : ℚ} (hr' : rows < 2 ^ 31) (hc' : cols < 2 ^ 31)
    (h : init_cluster calloc (some c) rows cols p_black d_white d_black = (0, some o))
    {seed : Nat} (hs : seed ≠ 0) (hlt : seed < 2 ^ 64) :
    ∃ cl, o.seeded seed = some cl ∧ Ready cl ∧ cl.rng = seed ∧ cl.rows = rows.toNat ∧
      cl.cols = cols.toNat ∧ cl.p_black = probability_limit p_black ∧
      cl.d_white = probability_limit d_white ∧ cl.d_black = probability_limit d_black ∧
      cl.iterations = 0 ∧ cl.white_spans = 0 ∧ cl.black_spans = 0 ∧
      (∀ i, cl.white_histogram i = 0) ∧ (∀ i, cl.black_histogram i = 0) := by
  obtain ⟨g1, g2, _⟩ := init_cluster_code calloc c rows cols p_black d_white d_black
  have hn : ¬ (rows < 1 ∨ cols < 1) := by
    intro hn
    have : ERR_INVALID = 0 := congrArg Prod.fst ((g1 hn).symm.trans h)
    exact absurd this (by decide)
  have hsz : size_too_large rows cols = false := by
    cases hs' : size_too_large rows cols with
    | false => rfl
    | true =>
      have : ERR_TOOLARGE = 0 := congrArg Prod.fst ((g2 hn hs').symm.trans h)
      exact absurd this (by decide)
  have hr : 1 ≤ rows := by omega
  have hc : 1 ≤ cols := by omega
  have hfit : ¬ (2 ^ 32 ≤ (rows.toNat + 2) * (cols.toNat + 1)) := by
    rw [← size_too_large_iff hr hr' hc hc', hsz]; simp
  have e1 : to_label rows = rows.toNat := to_label_of_nonneg (by omega) (by omega)
  have e2 : to_label cols = cols.toNat := to_label_of_nonneg (by omega) (by omega)
  have e3 : to_label (rows + 2) = rows.toNat + 2 := by
    rw [to_label_of_nonneg (by omega) (by omega)]; omega
  have e4 : to_label (cols + 1) = cols.toNat + 1 := by
    rw [to_label_of_nonneg (by omega) (by omega)]; omega
  have ecc : color_cells_of rows cols = (rows.toNat + 2) * (cols.toNat + 1) := by
    unfold color_cells_of
    rw [e3, e4]; exact u32_of_lt (by omega)
  simp only [init_cluster, if_neg hn, hsz, Bool.false_eq_true, if_false] at h
  by_cases hq : ((calloc_result (calloc 5)).is_null || (calloc_result (calloc 4)).is_null ||
      (calloc_result (calloc 3)).is_null || (calloc_result (calloc 2)).is_null ||
      (calloc_result (calloc 1)).is_null || (calloc_result (calloc 0)).is_null) = true
  · rw [if_pos hq] at h
    have : ERR_NOMEM = 0 := congrArg Prod.fst h
    exact absurd this (by decide)
  · rw [if_neg hq] at h
    simp only [Bool.or_eq_true, not_or] at hq
    obtain ⟨⟨⟨⟨⟨q5, q4⟩, q3⟩, q2⟩, q1⟩, q0⟩ := hq
    have k0 := calloc_of_not_null q0
    have k1 := calloc_of_not_null q1
    have k2 := calloc_of_not_null q2
    have k3 := calloc_of_not_null q3
    have k4 := calloc_of_not_null q4
    have k5 := calloc_of_not_null q5
    have ho := (Option.some.inj (congrArg Prod.snd h)).symm
    simp only [k0, k1, k2, k3, k4, k5, calloc_result, if_true, pointer.fill_none, ecc, e1, e2,
      CLUSTER_INITIALIZER] at ho
    subst ho
    refine ⟨_, rfl, ?_, rfl, rfl, rfl, rfl, rfl, rfl, rfl, rfl, rfl, fun _ => rfl, fun _ => rfl⟩
    exact
      { rows_pos := by show 1 ≤ rows.toNat; omega
        cols_pos := by show 1 ≤ cols.toNat; omega
        size_ok := by show (rows.toNat + 2) * (cols.toNat + 1) < 2 ^ 32; omega
        rng_ne := hs
        rng_lt := hlt
        border_row := by
          intro i hi
          have hi' : i ≤ cols.toNat := hi
          show (if i < (rows.toNat + 2) * (cols.toNat + 1) then CLUSTER_NONE else 0) = CLUSTER_NONE
          have : 1 * (cols.toNat + 1) ≤ (rows.toNat + 2) * (cols.toNat + 1) :=
            Nat.mul_le_mul_right _ (by omega)
          rw [if_pos (by omega)]
        border_col := by
          intro k hk
          have hk' : k ≤ rows.toNat + 1 := hk
          show (if k * (cols.toNat + 1) < (rows.toNat + 2) * (cols.toNat + 1) then CLUSTER_NONE
            else 0) = CLUSTER_NONE
          rw [if_pos (Nat.mul_lt_mul_of_pos_right (by omega) (by omega))] }

/-- The bounds check is effective: without the sentinel border the only cell is joined to
its left neighbour, whose label `0 - 1` wraps to `2^32 - 1`, and the checked run
has no result. -/
theorem iterate_chk_rejects_no_border :
    (iterate_chk 5 sample_cluster_no_border).isSome = false := by
  decide

/-- C17: on every cluster with sizes accepted by `init_cluster` (`rows ≥ 1`, `cols ≥ 1`,
padded cell count below `2^32`; 1 x 1, 1 x N and N x 1 included), a nonzero generator
state and the sentinel border, the bounds-checked `iterate` returns, with the
result of `iterate`: every colour-map index read or written is below
`(rows + 2) * (cols + 1)`, every `djs` index is below `rows * cols`, every
neighbour label handed to a join is smaller than the current label, every
`roots` and histogram index is below `rows * cols + 2`, and no index is negative.
The second part applies this to the cluster `init_cluster` returns. -/
theorem iterate_in_bounds (cl : cluster) (h : Ready cl) (fuel : Nat)
    (hf : 2 * (cl.rows * cl.cols) + 3 ≤ fuel) :
    (∃ cl', iterate_chk fuel cl = some cl' ∧ iterate fuel cl = some cl') ∧
    (∀ (calloc : Nat → Bool) (c o : cluster_obj) (rows cols : Int) (p_black d_white d_black : ℚ)
      (seed : Nat), rows < 2 ^ 31 → cols < 2 ^ 31 → seed ≠ 0 → seed < 2 ^ 64 →
      init_cluster calloc (some c) rows cols p_black d_white d_black = (0, some o) →
      2 * (rows.toNat * cols.toNat) + 3 ≤ fuel →
      ∃ cl0 cl', o.seeded seed = some cl0 ∧ iterate_chk fuel cl0 = some cl' ∧
        iterate fuel cl0 = some cl') := by
  constructor
  · obtain ⟨cl', e, _⟩ := iterate_spec h hf
    exact ⟨cl', by rw [iterate_chk_eq h hf]; exact e, e⟩
  · intro calloc c o rows cols p_black d_white d_black seed hr hc hs hlt hinit hfuel
    obtain ⟨cl0, e0, hready, _, er, ec, _⟩ := init_cluster_ready hr hc hinit hs hlt
    have hf0 : 2 * (cl0.rows * cl0.cols) + 3 ≤ fuel := by rw [er, ec]; exact hfuel
    obtain ⟨cl', e, _⟩ := iterate_spec hready hf0
    exact ⟨cl0, cl', e0, by rw [iterate_chk_eq hready hf0]; exact e, e⟩

/-- C17, instance: the 1 x 1 grid with seed 1. -/
theorem iterate_in_bounds_witness :
    Ready (seeded_cluster 1 1 (2 ^ 63) (2 ^ 63) (2 ^ 63) 1) ∧
    2 * ((seeded_cluster 1 1 (2 ^ 63) (2 ^ 63) (2 ^ 63) 1).rows *
      (seeded_cluster 1 1 (2 ^ 63) (2 ^ 63) (2 ^ 63) 1).cols) + 3 ≤ 5 ∧
    ((∃ cl', iterate_chk 5 (seeded_cluster 1 1 (2 ^ 63) (2 ^ 63) (2 ^ 63) 1) = some cl' ∧
      iterate 5 (seeded_cluster 1 1 (2 ^ 63) (2 ^ 63) (2 ^ 63) 1) = some cl') ∧
    (∀ (calloc : Nat → Bool) (c o : cluster_obj) (rows cols : Int) (p_black d_white d_black : ℚ)
      (seed : Nat), rows < 2 ^ 31 → cols < 2 ^ 31 → seed ≠ 0 → seed < 2 ^ 64 →
      init_cluster calloc (some c) rows cols p_black d_white d_black = (0, some o) →
      2 * (rows.toNat * cols.toNat) + 3 ≤ 5 →
      ∃ cl0 cl', o.seeded seed = some cl0 ∧ iterate_chk 5 cl0 = some cl' ∧
        iterate 5 cl0 = some cl')) :=
  ⟨ready_seeded _ _ _ (by decide) (by decide) (by decide) (by decide) (by decide), by decide,
    iterate_in_bounds (seeded_cluster 1 1 (2 ^ 63) (2 ^ 63) (2 ^ 63) 1)
      (ready_seeded _ _ _ (by decide) (by decide) (by decide) (by decide) (by decide))
      5 (by decide)⟩

/-- C24: `have_same_labels` returns (with fuel for one pass over both ranges); the result
is nonzero if and only if some value occurs in both ranges, it is 0 whenever
either range is empty, and each range holds a permutation of its original values
afterwards. -/
theorem have_same_labels_decides (fuel : Nat) (set1 set2 : List Nat)
    (hf : set1.length + set2.length + 1 ≤ fuel) :
    ∃ found s1 s2, have_same_labels fuel set1 set2 = some (found, s1, s2) ∧
      (found = true ↔ ∃ x, x ∈ set1 ∧ x ∈ set2) ∧
      (set1 = [] ∨ set2 = [] → found = false) ∧ s1.Perm set1 ∧ s2.Perm set2 := by
  obtain ⟨s1, s2, e, p1, p2⟩ := have_same_labels_spec fuel set1 set2 hf
  refine ⟨_, s1, s2, e, by simp, ?_, p1, p2⟩
  rintro (h | h) <;> simp [h]

/-- C24, instance: the ranges `[7, 3, 9]` and `[4, 9, 1, 3]` share the values 3 and 9. -/
theorem have_same_labels_decides_witness :
    [7, 3, 9].length + [4, 9, 1, 3].length + 1 ≤ 8 ∧
    ∃ found s1 s2, have_same_labels 8 [7, 3, 9] [4, 9, 1, 3] = some (found, s1, s2) ∧
      (found = true ↔ ∃ x, x ∈ [7, 3, 9] ∧ x ∈ [4, 9, 1, 3]) ∧
      ([7, 3, 9] = [] ∨ [4, 9, 1, 3] = [] → found = false) ∧ s1.Perm [7, 3, 9] ∧
      s2.Perm [4, 9, 1, 3] :=
  ⟨by decide, have_same_labels_decides 8 [7, 3, 9] [4, 9, 1, 3] (by decide)⟩

/-- The shape of `excess_bits`: for a value below `2^(53 + fuel)` the count is at most
`fuel`, it is zero only below `2^53`, and a positive count `e` places the value in
`[2^(e + 52), 2^(e + 53))`. -/
theorem excess_bits_spec (fuel : Nat) : ∀ x, x < 2 ^ (53 + fuel) →
    excess_bits fuel x ≤ fuel ∧ (excess_bits fuel x = 0 → x < 2 ^ 53) ∧
      (0 < excess_bits fuel x →
        2 ^ (excess_bits fuel x + 52) ≤ x ∧ x < 2 ^ (excess_bits fuel x + 53)) := by
  induction fuel with
  | zero => intro x hx; exact ⟨le_refl _, fun _ => hx, fun h => absurd h (by simp [excess_bits])⟩
  | succ n ih =>
    intro x hx
    unfold excess_bits
    by_cases h : x < 2 ^ 53
    · rw [if_pos h]
      exact ⟨by omega, fun _ => h, fun h0 => absurd h0 (by omega)⟩
    · rw [if_neg h]
      have hx2 : x / 2 < 2 ^ (53 + n) := by
        have : 2 ^ (53 + (n + 1)) = 2 * 2 ^ (53 + n) := by rw [← Nat.add_assoc, pow_succ]; ring
        omega
      obtain ⟨h1, h2, h3⟩ := ih (x / 2) hx2
      refine ⟨by omega, fun h0 => absurd h0 (by omega), fun _ => ?_⟩
      by_cases hd : excess_bits n (x / 2) = 0
      · have := h2 hd
        rw [hd]
        norm_num at h this ⊢
        omega
      · obtain ⟨h4, h5⟩ := h3 (by omega)
        have e1 : 2 ^ (excess_bits n (x / 2) + 1 + 52) = 2 * 2 ^ (excess_bits n (x / 2) + 52) := by
          rw [Nat.add_right_comm, pow_succ]; ring
        have e2 : 2 ^ (excess_bits n (x / 2) + 1 + 53) = 2 * 2 ^ (excess_bits n (x / 2) + 53) := by
          rw [Nat.add_right_comm, pow_succ]; ring
        rw [e1, e2]
        omega

/-- The conversion to `double` of a value up to `2^63`: the result is at most `2^63`, it
is within `2^10` of the value, and a value up to `2^53` is kept. -/
theorem double_of_u64_facts (x : Nat) (hx : x ≤ 2 ^ 63) :
    double_of_u64 x ≤ 2 ^ 63 ∧ double_of_u64 x ≤ x + 2 ^ 10 ∧ x ≤ double_of_u64 x + 2 ^ 10 ∧
      (x ≤ 2 ^ 53 → double_of_u64 x = x) := by
  obtain ⟨he, hz, hp⟩ := excess_bits_spec 11 x (by norm_num; omega)
  unfold double_of_u64
  generalize excess_bits 11 x = e at he hz hp
  simp only []
  interval_cases e
  · have := hz rfl
    simp only [pow_zero, Nat.div_one, Nat.mod_one, Nat.mul_zero, Nat.mul_one]
    rw [if_neg (by omega)]
    omega
  all_goals
    have := hp (by norm_num)
    norm_num at this ⊢
    split <;> omega

/-- C26: whenever the loop of `prng_unit` returns, the value `v` it accepted satisfies
`1 ≤ v ≤ 2^63 + 1`.  The quotient `(v - 1) / 2^63` taken as an exact rational is then at
least 0 and at most 1, and so is the value `prng_unit` returns, which is the double
`(double)(v - 1) / 2^63`: the conversion rounds `v - 1` to 53 bits, so that the value
returned is within `2^-53` of the exact quotient, and equal to it for `v ≤ 2^53 + 1`. -/
theorem prng_unit_range (fuel state state1 v : Nat)
    (h : prng_unit_value fuel state = some (state1, v)) :
    1 ≤ v ∧ v ≤ 2 ^ 63 + 1 ∧
      0 ≤ exact_quotient v ∧ exact_quotient v ≤ 1 ∧
      prng_unit fuel state = some (state1, unit_quotient v) ∧
      unit_quotient v = ((double_of_u64 (v - 1) : Nat) : ℚ) / 2 ^ 63 ∧
      0 ≤ unit_quotient v ∧ unit_quotient v ≤ 1 ∧
      |unit_quotient v - exact_quotient v| ≤ 1 / 2 ^ 53 ∧
      (v ≤ 2 ^ 53 + 1 → unit_quotient v = exact_quotient v) := by
  have key : ∀ fuel state, prng_unit_value fuel state = some (state1, v) →
      1 ≤ v ∧ v ≤ 2 ^ 63 + 1 := by
    intro fuel
    induction fuel with
    | zero => intro state h; simp [prng_unit_value] at h
    | succ n ih =>
      intro state h
      simp only [prng_unit_value] at h
      split at h
      · exact ih _ h
      · rename_i hv
        simp only [Option.some.injEq, Prod.mk.injEq] at h
        rw [← h.2]
        omega
  obtain ⟨h1, h2⟩ := key fuel state h
  obtain ⟨d1, d2, d3, d4⟩ := double_of_u64_facts (v - 1) (by omega)
  have hq : unit_quotient v = ((double_of_u64 (v - 1) : Nat) : ℚ) / 2 ^ 63 := by
    unfold unit_quotient u64
    have : (v + (2 ^ 64 - 1)) % 2 ^ 64 = v - 1 := by omega
    rw [this]
    norm_num
  have hv : ((v - 1 : Nat) : ℚ) = (v : ℚ) - 1 := by rw [Nat.cast_sub h1]; norm_num
  have hp : (0 : ℚ) < 2 ^ 63 := by norm_num
  have c1 : ((double_of_u64 (v - 1) : Nat) : ℚ) ≤ 2 ^ 63 := by exact_mod_cast d1
  have c2 : ((double_of_u64 (v - 1) : Nat) : ℚ) ≤ (v : ℚ) - 1 + 2 ^ 10 := by
    rw [← hv]; exact_mod_cast d2
  have c3 : (v : ℚ) - 1 ≤ ((double_of_u64 (v - 1) : Nat) : ℚ) + 2 ^ 10 := by
    rw [← hv]; exact_mod_cast d3
  have c4 : (1 : ℚ) ≤ v := by exact_mod_cast h1
  have c5 : (v : ℚ) ≤ 2 ^ 63 + 1 := by exact_mod_cast h2
  refine ⟨h1, h2, ?_, ?_, by simp [prng_unit, h], hq, ?_, ?_, ?_, ?_⟩
  · unfold exact_quotient
    apply div_nonneg <;> linarith
  · unfold exact_quotient
    rw [div_le_one hp]
    linarith
  · rw [hq]
    exact div_nonneg (Nat.cast_nonneg _) hp.le
  · rw [hq, div_le_one hp]
    exact c1
  · rw [hq]
    unfold exact_quotient
    rw [← sub_div, abs_le]
    constructor
    · rw [le_div_iff₀ hp]
      norm_num
      linarith
    · rw [div_le_iff₀ hp]
      norm_num
      linarith
  · intro hs
    rw [hq, d4 (by omega)]
    unfold exact_quotient
    rw [hv]

/-- C26, instance: from state 2 the loop rejects values above `2^63 + 1` before it accepts
`6313850216121551418`; the conversion rounds `6313850216121551417` up to
`6165869351681203 * 2^10`, so that the double returned is `6165869351681203 / 2^53`. -/
theorem prng_unit_range_witness :
    prng_unit_value 4 2 = some (2252349586296834, 6313850216121551418) ∧
    (1 ≤ 6313850216121551418 ∧ 6313850216121551418 ≤ 2 ^ 63 + 1 ∧
      0 ≤ exact_quotient 6313850216121551418 ∧ exact_quotient 6313850216121551418 ≤ 1 ∧
      prng_unit 4 2 = some (2252349586296834, unit_quotient 6313850216121551418) ∧
      unit_quotient 6313850216121551418 =
        ((double_of_u64 (6313850216121551418 - 1) : Nat) : ℚ) / 2 ^ 63 ∧
      0 ≤ unit_quotient 6313850216121551418 ∧ unit_quotient 6313850216121551418 ≤ 1 ∧
      |unit_quotient 6313850216121551418 - exact_quotient 6313850216121551418| ≤ 1 / 2 ^ 53 ∧
      (6313850216121551418 ≤ 2 ^ 53 + 1 →
        unit_quotient 6313850216121551418 = exact_quotient 6313850216121551418)) ∧
    double_of_u64 (6313850216121551418 - 1) = 6165869351681203 * 2 ^ 10 :=
  ⟨by decide, prng_unit_range 4 2 2252349586296834 6313850216121551418 (by decide), by decide⟩

/-- C27: for every value of the 4-bit mask `joins`, the switch of `iterate` calls the union
whose arity is the number of labels in the list made of the current label followed
by `label - 1` if bit 0 is set, `label - cols` if bit 1 is set, `label - cols - 1` if bit 2
is set and `label - cols + 1` if bit 3 is set, with exactly these labels; the list has
one more element than the mask has set bits, and for `joins = 0` no union is
called.  The second part reads the mask the way `iterate` builds it. -/
theorem join_dispatch_faithful (fuel : Nat) (djs : Nat → Nat) (cols label joins : Nat)
    (h : joins < 16) :
    join_switch fuel djs cols label joins =
      join_by_arity fuel djs (label :: join_labels cols label (joins.testBit 0)
        (joins.testBit 1) (joins.testBit 2) (joins.testBit 3)) ∧
    (label :: join_labels cols label (joins.testBit 0) (joins.testBit 1) (joins.testBit 2)
      (joins.testBit 3)).length = 1 + popcount4 joins ∧
    (joins = 0 → join_switch fuel djs cols label joins = some djs) ∧
    (∀ b0 b1 b2 b3 : Bool,
      bit_of b0 0 ||| bit_of b1 1 ||| bit_of b2 2 ||| bit_of b3 3 < 16 ∧
      join_switch fuel djs cols label (bit_of b0 0 ||| bit_of b1 1 ||| bit_of b2 2 ||| bit_of b3 3) =
        join_by_arity fuel djs (label :: join_labels cols label b0 b1 b2 b3)) := by
  refine ⟨?_, ?_, ?_, ?_⟩
  · interval_cases joins <;> rfl
  · interval_cases joins <;> rfl
  · intro h0; subst h0; rfl
  · intro b0 b1 b2 b3
    cases b0 <;> cases b1 <;> cases b2 <;> cases b3 <;> exact ⟨by decide, rfl⟩

/-- C27, instance: the mask 13 (left, up-left and up-right) on label 9 of a 4-column grid. -/
theorem join_dispatch_faithful_witness :
    (13 : Nat) < 16 ∧
    (join_switch 12 (fun i => i) 4 9 13 =
      join_by_arity 12 (fun i => i) (9 :: join_labels 4 9 (Nat.testBit 13 0)
        (Nat.testBit 13 1) (Nat.testBit 13 2) (Nat.testBit 13 3)) ∧
    (9 :: join_labels 4 9 (Nat.testBit 13 0) (Nat.testBit 13 1) (Nat.testBit 13 2)
      (Nat.testBit 13 3)).length = 1 + popcount4 13 ∧
    ((13 : Nat) = 0 → join_switch 12 (fun i => i) 4 9 13 = some (fun i => i)) ∧
    (∀ b0 b1 b2 b3 : Bool,
      bit_of b0 0 ||| bit_of b1 1 ||| bit_of b2 2 ||| bit_of b3 3 < 16 ∧
      join_switch 12 (fun i => i) 4 9 (bit_of b0 0 ||| bit_of b1 1 ||| bit_of b2 2 ||| bit_of b3 3) =
        join_by_arity 12 (fun i => i) (9 :: join_labels 4 9 b0 b1 b2 b3))) :=
  ⟨by decide, join_dispatch_faithful 12 (fun i => i) 4 9 13 (by decide)⟩

/-- C30 (code at the failing input): on the three singleton sets `{0}`, `{1}`, `{2}`,
`djs_join3(djs, 2, 1, 0)` leaves every parent entry 0, while `djs_join2(djs, 2, 1)`
followed by `djs_join2(djs, 2, 0)` leaves every parent entry 2; likewise on four
singletons `djs_join4(djs, 3, 2, 1, 0)` gives root 0 and three calls of `djs_join2`
give root 3.  The partitions agree, the surviving roots do not. -/
theorem djs_join3_differs_from_pairwise :
    (djs_join3 5 (fun i => i) 2 1 0).map (fun d => (d 0, d 1, d 2)) = some (0, 0, 0) ∧
    ((djs_join2 5 (fun i => i) 2 1).bind (fun d => djs_join2 5 d 2 0)).map
        (fun d => (d 0, d 1, d 2)) = some (2, 2, 2) ∧
    (djs_join4 6 (fun i => i) 3 2 1 0).map (fun d => (d 0, d 1, d 2, d 3)) = some (0, 0, 0, 0) ∧
    (((djs_join2 6 (fun i => i) 3 2).bind (fun d => djs_join2 6 d 3 1)).bind
        (fun d => djs_join2 6 d 3 0)).map (fun d => (d 0, d 1, d 2, d 3)) = some (3, 3, 3, 3) := by
  decide

/-- Two calls of `djs_join2` with the same first label merge the three sets as `djs_join3`
does, but the surviving root is the root of the first label. -/
theorem djs_join2_twice_spec {n : Nat} {djs rt : Nat → Nat} (h : Forest n djs rt)
    {a b c fuel : Nat} (ha : a < n) (hb : b < n) (hc : c < n) (hf : n + 2 ≤ fuel) :
    ∃ djs1 djs2, djs_join2 fuel djs a b = some djs1 ∧ djs_join2 fuel djs1 a c = some djs2 ∧
      Forest n djs2 (fun y => if rt y ∈ [rt a, rt b, rt c] then rt a else rt y) := by
  obtain ⟨djs1, e1, f1, _⟩ := djs_join2_spec h ha hb hf
  obtain ⟨djs2, e2, f2, _⟩ := djs_join2_spec f1 ha hc hf
  refine ⟨djs1, djs2, e1, e2, f2.congr ?_⟩
  intro y _
  simp only [List.map, List.mem_cons, List.mem_singleton, List.not_mem_nil, or_false, true_or,
    if_true]
  by_cases h1 : rt y = rt a
  · simp [h1]
  · by_cases h2 : rt y = rt b
    · simp [h2]
    · by_cases h3 : rt c = rt a
      · simp [h1, h2, h3]
      · by_cases h4 : rt c = rt b
        · simp [h1, h2, h3, h4]
        · by_cases h5 : rt y = rt c
          · simp [h1, h2, h3, h4, h5]
          · simp [h1, h2, h3, h4, h5]

theorem skip_space_eq (s : List Nat) : skip_space s = s.dropWhile is_space := by
  induction s with
  | nil => rfl
  | cons ch rest ih =>
    by_cases h : is_space ch = true
    · simp [skip_space, List.dropWhile, h, ih]
    · simp [skip_space, List.dropWhile, h]

theorem digits_fold_ge (ds : List Nat) :
    ∀ v, v ≤ ds.foldl (fun v ch => 10 * v + (ch - 48)) v := by
  induction ds with
  | nil => intro v; exact le_refl v
  | cons ch rest ih =>
    intro v
    exact le_trans (by omega) (ih (10 * v + (ch - 48)))

theorem is_digit_le {ch : Nat} (h : is_digit ch = true) : ch - 48 ≤ 9 := by
  simp only [is_digit, Bool.and_eq_true, decide_eq_true_eq] at h
  omega

/-- The digit loop of `prng_set_seed` computes the value of the digits read, and fails
exactly when that value does not fit in 64 bits. -/
theorem parse_digits_eq (rest : List Nat) :
    ∀ v, v < 2 ^ 64 →
      parse_digits v rest =
        if (rest.takeWhile is_digit).foldl (fun v ch => 10 * v + (ch - 48)) v < 2 ^ 64
        then some ((rest.takeWhile is_digit).foldl (fun v ch => 10 * v + (ch - 48)) v,
          rest.dropWhile is_digit)
        else none := by
  induction rest with
  | nil =>
    intro v hv
    rw [parse_digits, List.takeWhile_nil, List.foldl_nil, if_pos hv, List.dropWhile_nil]
  | cons ch rest ih =>
    intro v hv
    by_cases hd : is_digit ch = true
    · have hd9 := is_digit_le hd
      rw [parse_digits, if_pos hd, List.takeWhile_cons_of_pos hd, List.foldl_cons,
        List.dropWhile_cons_of_pos hd]
      by_cases hov : 10 * v + (ch - 48) < 2 ^ 64
      · have e1 : u64 (v * 10 + (ch - 48)) = 10 * v + (ch - 48) := by
          unfold u64; rw [Nat.mod_eq_of_lt (by omega)]; omega
        have e2 : u64 ((10 * v + (ch - 48)) / 10) = v := by
          unfold u64
          have : (10 * v + (ch - 48)) / 10 = v := by omega
          rw [this, Nat.mod_eq_of_lt hv]
        show (if u64 (u64 (v * 10 + (ch - 48)) / 10) ≠ v then none
          else parse_digits (u64 (v * 10 + (ch - 48))) rest) = _
        rw [e1, e2, if_neg (fun hne => hne rfl)]
        exact ih _ hov
      · have hge := digits_fold_ge (rest.takeWhile is_digit) (10 * v + (ch - 48))
        have e2 : u64 (u64 (v * 10 + (ch - 48)) / 10) ≠ v := by
          unfold u64
          have h1 : (v * 10 + (ch - 48)) % 2 ^ 64 + 2 ^ 64 ≤ v * 10 + (ch - 48) := by
            have := Nat.mod_add_div (v * 10 + (ch - 48)) (2 ^ 64)
            have hq : 1 ≤ (v * 10 + (ch - 48)) / 2 ^ 64 := by
              apply (Nat.one_le_div_iff (by norm_num)).2; omega
            nlinarith
          have h2 : (v * 10 + (ch - 48)) % 2 ^ 64 / 10 < v := by omega
          have h3 : (v * 10 + (ch - 48)) % 2 ^ 64 / 10 % 2 ^ 64 ≤
              (v * 10 + (ch - 48)) % 2 ^ 64 / 10 := Nat.mod_le _ _
          omega
        show (if u64 (u64 (v * 10 + (ch - 48)) / 10) ≠ v then none
          else parse_digits (u64 (v * 10 + (ch - 48))) rest) = _
        rw [if_pos e2, if_neg (by omega)]
    · rw [parse_digits, if_neg hd, List.takeWhile_cons_of_neg hd, List.foldl_nil, if_pos hv,
        List.dropWhile_cons_of_neg hd]

/-- The part of `prng_set_seed` after the leading whitespace is skipped. -/
theorem set_seed_after_space (rng : Nat) (t : List Nat) :
    (match t with
      | [] => ((none : Option (List Nat)), rng)
      | ch :: rest =>
        if ¬ (is_digit ch = true) then (none, rng)
        else
          match parse_digits (ch - 48) rest with
          | none => (none, rng)
          | some (state, rest1) => if state = 0 then (none, rng) else (some rest1, state)) =
      (if t.takeWhile is_digit = [] ∨ 2 ^ 64 ≤ digits_value (t.takeWhile is_digit) ∨
          digits_value (t.takeWhile is_digit) = 0
        then (none, rng)
        else (some (t.dropWhile is_digit), digits_value (t.takeWhile is_digit))) := by
  cases t with
  | nil => simp
  | cons ch rest =>
    by_cases hd : is_digit ch = true
    · have hd9 := is_digit_le hd
      have hv : digits_value ((ch :: rest).takeWhile is_digit) =
          (rest.takeWhile is_digit).foldl (fun v ch => 10 * v + (ch - 48)) (ch - 48) := by
        rw [List.takeWhile_cons_of_pos hd]
        simp [digits_value]
      rw [hv, List.takeWhile_cons_of_pos hd, List.dropWhile_cons_of_pos hd]
      show (if ¬ (is_digit ch = true) then ((none : Option (List Nat)), rng)
        else
          match parse_digits (ch - 48) rest with
          | none => (none, rng)
          | some (state, rest1) => if state = 0 then (none, rng) else (some rest1, state)) = _
      rw [if_neg (fun hn => hn hd), parse_digits_eq rest (ch - 48) (by omega)]
      by_cases hlt : (rest.takeWhile is_digit).foldl (fun v ch => 10 * v + (ch - 48)) (ch - 48)
          < 2 ^ 64
      · rw [if_pos hlt]
        by_cases hz : (rest.takeWhile is_digit).foldl (fun v ch => 10 * v + (ch - 48))
            (ch - 48) = 0
        · rw [if_pos (Or.inr (Or.inr hz))]
          show (if _ = 0 then _ else _) = _
          rw [if_pos hz]
        · rw [if_neg (by
            rintro (h | h | h)
            · exact absurd h (List.cons_ne_nil _ _)
            · omega
            · exact hz h)]
          show (if _ = 0 then _ else _) = _
          rw [if_neg hz]
      · rw [if_neg hlt, if_pos (Or.inr (Or.inl (by omega)))]
    · rw [List.takeWhile_cons_of_neg hd, if_pos (Or.inl rfl)]
      show (if ¬ (is_digit ch = true) then ((none : Option (List Nat)), rng) else _) = _
      rw [if_pos hd]

/-- C25: `prng_set_seed` returns `NULL` for a null pointer; for a string it returns `NULL`
exactly when the string is empty, no digit follows the leading whitespace, the
maximal run of digits denotes a value of at least `2^64`, or that value is 0, and
otherwise it sets the state to the value and returns the position after the digits;
whenever it returns `NULL` the generator state is unchanged. -/
theorem prng_set_seed_parses (rng : Nat) (s : List Nat) :
    prng_set_seed rng none = (none, rng) ∧
    prng_set_seed rng (some s) =
      (if s = [] ∨ seed_digits s = [] ∨ 2 ^ 64 ≤ digits_value (seed_digits s) ∨
          digits_value (seed_digits s) = 0
        then (none, rng) else (some (seed_rest s), digits_value (seed_digits s))) ∧
    (∀ from0, (prng_set_seed rng from0).1 = none → (prng_set_seed rng from0).2 = rng) := by
  have main : ∀ s, prng_set_seed rng (some s) =
      (if s = [] ∨ seed_digits s = [] ∨ 2 ^ 64 ≤ digits_value (seed_digits s) ∨
          digits_value (seed_digits s) = 0
        then (none, rng) else (some (seed_rest s), digits_value (seed_digits s))) := by
    intro s
    by_cases h0 : s.headD 0 = 0
    · have : s = [] ∨ seed_digits s = [] := by
        cases s with
        | nil => exact Or.inl rfl
        | cons ch rest =>
          right
          have : ch = 0 := h0
          subst this
          rfl
      rw [if_pos (by tauto)]
      show (if s.headD 0 = 0 then ((none : Option (List Nat)), rng) else _) = _
      rw [if_pos h0]
    · have hne : s ≠ [] := by rintro rfl; exact h0 rfl
      show (if s.headD 0 = 0 then ((none : Option (List Nat)), rng) else _) = _
      rw [if_neg h0, skip_space_eq]
      refine (set_seed_after_space rng (s.dropWhile is_space)).trans ?_
      unfold seed_digits seed_rest
      by_cases hc : (s.dropWhile is_space).takeWhile is_digit = [] ∨
          2 ^ 64 ≤ digits_value ((s.dropWhile is_space).takeWhile is_digit) ∨
          digits_value ((s.dropWhile is_space).takeWhile is_digit) = 0
      · rw [if_pos hc, if_pos (Or.inr hc)]
      · rw [if_neg hc, if_neg (by rintro (h | h); exact hne h; exact hc h)]
  refine ⟨rfl, main s, ?_⟩
  intro from0 h
  cases from0 with
  | none => rfl
  | some t =>
    rw [main t] at h ⊢
    by_cases hc : t = [] ∨ seed_digits t = [] ∨ 2 ^ 64 ≤ digits_value (seed_digits t) ∨
        digits_value (seed_digits t) = 0
    · rw [if_pos hc]
    · rw [if_neg hc] at h
      exact absurd h (by simp)

/-- Sample runs of `prng_set_seed`: the string " \t42x" sets the state 42 and leaves "x";
the digits of `2^64` overflow, and "  000x" denotes the invalid state 0. -/
theorem prng_set_seed_samples :
    prng_set_seed 7 (some [32, 9, 52, 50, 120]) = (some [120], 42) ∧
    prng_set_seed 7 (some [49, 56, 52, 52, 54, 55, 52, 52, 48, 55, 51, 55, 48, 57, 53, 53, 49,
      54, 49, 53]) = (some [], 18446744073709551615) ∧
    prng_set_seed 7 (some [49, 56, 52, 52, 54, 55, 52, 52, 48, 55, 51, 55, 48, 57, 53, 53, 49,
      54, 49, 54]) = (none, 7) ∧
    prng_set_seed 7 (some [32, 32, 48, 48, 48, 120]) = (none, 7) := by
  decide

/-- Any number of successive calls of `iterate` on a ready cluster return, each leaving a
ready cluster of the same size with bins 0 and `rows * cols + 1` of both histograms zero. -/
theorem iterate_n_ready {cl : cluster} (h : Ready cl) {fuel : Nat}
    (hf : 2 * (cl.rows * cl.cols) + 3 ≤ fuel) :
    ∀ n, ∃ cln, iterate_n fuel n cl = some cln ∧ Ready cln ∧ cln.rows = cl.rows ∧
      cln.cols = cl.cols ∧ cln.p_black = cl.p_black ∧ cln.d_white = cl.d_white ∧
      cln.d_black = cl.d_black ∧
      (1 ≤ n → cln.white_histogram 0 = 0 ∧ cln.white_histogram (cl.rows * cl.cols + 1) = 0 ∧
        cln.black_histogram 0 = 0 ∧ cln.black_histogram (cl.rows * cl.cols + 1) = 0) := by
  intro n
  induction n with
  | zero => exact ⟨cl, rfl, h, rfl, rfl, rfl, rfl, rfl, fun h0 => absurd h0 (by decide)⟩
  | succ n ih =>
    obtain ⟨cln, e, hready, er, ec, ep, ew, eb, _⟩ := ih
    have hf' : 2 * (cln.rows * cln.cols) + 3 ≤ fuel := by rw [er, ec]; exact hf
    obtain ⟨cl', e', post⟩ := iterate_spec hready hf'
    refine ⟨cl', ?_, post.ready, post.rows_eq.trans er, post.cols_eq.trans ec,
      post.p_eq.trans ep, post.dw_eq.trans ew, post.db_eq.trans eb, fun _ => ?_⟩
    · simp [iterate_n, e, e']
    · have wz := post.white_zero
      have bz := post.black_zero
      rw [er, ec] at wz bz
      exact ⟨wz.1, wz.2, bz.1, bz.2⟩

/-- The report loop of `distribution.c` over `n` sizes stays inside histograms of `n + 2` bins. -/
theorem report_chk_in_bounds (n : Nat) (wh bh : Nat → Nat) :
    (report_chk (n + 2) n wh bh).isSome = true := by
  have key := foldlM_eq_foldl
    (fun (lines : List (Nat × Nat × Nat × Nat)) j => (report_line_chk (n + 2) wh bh (j + 1)).map
      (fun line => match line with
        | some l => lines ++ [l]
        | none => lines))
    (fun lines j =>
      if wh j ≠ 0 ∨ wh (j + 1) ≠ 0 ∨ wh (j + 1 + 1) ≠ 0 ∨ bh j ≠ 0 ∨ bh (j + 1) ≠ 0 ∨
          bh (j + 1 + 1) ≠ 0
      then lines ++ [(j + 1, wh (j + 1), bh (j + 1), u64 (wh (j + 1) + bh (j + 1)))]
      else lines)
    (fun _ _ => True) n
    (by
      intro i s hi _
      refine ⟨?_, trivial⟩
      have e1 : index_sub (i + 1) 1 = some i := by simp [index_sub]
      have e2 : in_bounds (n + 2) i = some () := in_bounds_of_lt (by omega)
      have e3 : in_bounds (n + 2) (i + 1) = some () := in_bounds_of_lt (by omega)
      have e4 : in_bounds (n + 2) (i + 1 + 1) = some () := in_bounds_of_lt (by omega)
      simp only [report_line_chk, e1, e2, e3, e4, Option.bind_eq_bind, Option.some_bind,
        Option.pure_def]
      split <;> simp_all)
    [] trivial
  exact (congrArg Option.isSome key.1).trans rfl

/-- C21: after `init_cluster` and after every call of `iterate`, bins 0 and `R*C + 1` of both
histograms are zero, and the report loop of `distribution.c`, which reads bins
`i-1`, `i` and `i+1` for `i = 1..R*C`, stays inside the `R*C + 2` allocated bins.  The
first part is one call of `iterate` on any ready cluster, whatever its histograms
held; the second follows the program: `init_cluster`, a nonzero seed, then `n`
calls of `iterate` for any `n`, zero included. -/
theorem histogram_sentinels (cl : cluster) (h : Ready cl) (fuel : Nat)
    (hf : 2 * (cl.rows * cl.cols) + 3 ≤ fuel) :
    (∃ cl', iterate fuel cl = some cl' ∧
      cl'.white_histogram 0 = 0 ∧ cl'.white_histogram (cl.rows * cl.cols + 1) = 0 ∧
      cl'.black_histogram 0 = 0 ∧ cl'.black_histogram (cl.rows * cl.cols + 1) = 0 ∧
      labels_size cl' = cl.rows * cl.cols + 2 ∧
      (report_chk (labels_size cl') (cl.rows * cl.cols) cl'.white_histogram
        cl'.black_histogram).isSome = true) ∧
    (∀ (calloc : Nat → Bool) (c o : cluster_obj) (rows cols : Int) (p_black d_white d_black : ℚ)
      (seed : Nat), rows < 2 ^ 31 → cols < 2 ^ 31 → seed ≠ 0 → seed < 2 ^ 64 →
      init_cluster calloc (some c) rows cols p_black d_white d_black = (0, some o) →
      2 * (rows.toNat * cols.toNat) + 3 ≤ fuel →
      ∃ cl0, o.seeded seed = some cl0 ∧ ∀ n, ∃ cln, iterate_n fuel n cl0 = some cln ∧
        cln.white_histogram 0 = 0 ∧ cln.white_histogram (rows.toNat * cols.toNat + 1) = 0 ∧
        cln.black_histogram 0 = 0 ∧ cln.black_histogram (rows.toNat * cols.toNat + 1) = 0 ∧
        labels_size cln = rows.toNat * cols.toNat + 2 ∧
        (report_chk (labels_size cln) (rows.toNat * cols.toNat) cln.white_histogram
          cln.black_histogram).isSome = true) := by
  constructor
  · obtain ⟨cl', e, post⟩ := iterate_spec h hf
    have hl : labels_size cl' = cl.rows * cl.cols + 2 := by
      unfold labels_size; rw [post.rows_eq, post.cols_eq]
    refine ⟨cl', e, post.white_zero.1, post.white_zero.2, post.black_zero.1, post.black_zero.2,
      hl, ?_⟩
    rw [hl]
    exact report_chk_in_bounds _ _ _
  · intro calloc c o rows cols p_black d_white d_black seed hr hc hs hlt hinit hfuel
    obtain ⟨cl0, e0, hready, _, er, ec, _, _, _, _, _, _, hw, hb⟩ :=
      init_cluster_ready hr hc hinit hs hlt
    refine ⟨cl0, e0, fun n => ?_⟩
    have hf0 : 2 * (cl0.rows * cl0.cols) + 3 ≤ fuel := by rw [er, ec]; exact hfuel
    obtain ⟨cln, en, _, ern, ecn, _, _, _, hz⟩ := iterate_n_ready hready hf0 n
    have hl : labels_size cln = rows.toNat * cols.toNat + 2 := by
      unfold labels_size; rw [ern, ecn, er, ec]
    have hrep : (report_chk (labels_size cln) (rows.toNat * cols.toNat) cln.white_histogram
        cln.black_histogram).isSome = true := by
      rw [hl]; exact report_chk_in_bounds _ _ _
    rcases Nat.eq_zero_or_pos n with h0 | h1
    · subst h0
      have : cln = cl0 := by
        have : some cl0 = some cln := en
        exact (Option.some.inj this).symm
      subst this
      exact ⟨cln, en, hw _, hw _, hb _, hb _, hl, hrep⟩
    · obtain ⟨z1, z2, z3, z4⟩ := hz h1
      rw [er, ec] at z2 z4
      exact ⟨cln, en, z1, z2, z3, z4, hl, hrep⟩

/-- C21, instance: the 3 x 4 sample cluster with left-over values in every buffer. -/
theorem histogram_sentinels_witness :
    Ready sample_cluster_stale ∧
    2 * (sample_cluster_stale.rows * sample_cluster_stale.cols) + 3 ≤ 27 ∧
    ((∃ cl', iterate 27 sample_cluster_stale = some cl' ∧
      cl'.white_histogram 0 = 0 ∧
      cl'.white_histogram (sample_cluster_stale.rows * sample_cluster_stale.cols + 1) = 0 ∧
      cl'.black_histogram 0 = 0 ∧
      cl'.black_histogram (sample_cluster_stale.rows * sample_cluster_stale.cols + 1) = 0 ∧
      labels_size cl' = sample_cluster_stale.rows * sample_cluster_stale.cols + 2 ∧
      (report_chk (labels_size cl') (sample_cluster_stale.rows * sample_cluster_stale.cols)
        cl'.white_histogram cl'.black_histogram).isSome = true) ∧
    (∀ (calloc : Nat → Bool) (c o : cluster_obj) (rows cols : Int) (p_black d_white d_black : ℚ)
      (seed : Nat), rows < 2 ^ 31 → cols < 2 ^ 31 → seed ≠ 0 → seed < 2 ^ 64 →
      init_cluster calloc (some c) rows cols p_black d_white d_black = (0, some o) →
      2 * (rows.toNat * cols.toNat) + 3 ≤ 27 →
      ∃ cl0, o.seeded seed = some cl0 ∧ ∀ n, ∃ cln, iterate_n 27 n cl0 = some cln ∧
        cln.white_histogram 0 = 0 ∧ cln.white_histogram (rows.toNat * cols.toNat + 1) = 0 ∧
        cln.black_histogram 0 = 0 ∧ cln.black_histogram (rows.toNat * cols.toNat + 1) = 0 ∧
        labels_size cln = rows.toNat * cols.toNat + 2 ∧
        (report_chk (labels_size cln) (rows.toNat * cols.toNat) cln.white_histogram
          cln.black_histogram).isSome = true)) :=
  ⟨ready_sample_stale, by decide,
    histogram_sentinels sample_cluster_stale ready_sample_stale 27 (by decide)⟩

theorem diag_test_log_eq {s : Nat} (hs : s ≠ 0) (hlt : s < 2 ^ 64) (fuel diag : Nat)
    (same : Bool) (hf : 1 ≤ fuel) :
    diag_test_log fuel s diag same =
      some ((diag_step s diag same).1, (diag_step s diag same).2,
        if same then
          [(diag, if (diag_step s diag same).2 then CLUSTER_BLACK else CLUSTER_WHITE)]
        else []) := by
  cases same with
  | false => rfl
  | true =>
    simp only [diag_test_log, diag_step, if_true, probability_of_ne_zero hs hlt fuel diag hf,
      Option.map_some']
    by_cases h : u64 (xorshift_round s * 2685821657736338717) ≤ diag
    · simp [h, CLUSTER_BLACK]
    · simp [h, CLUSTER_WHITE]

/-- The observer does not change the generation step: the cluster component of
`iterate_cell_log` is the result of `iterate_cell`. -/
theorem iterate_cell_log_fst (fuel r c : Nat) (st : cluster × List cell_event) :
    (iterate_cell_log fuel r c st).map Prod.fst = iterate_cell fuel r c st.1 := by
  have hdt : ∀ s d (same : Bool),
      diag_test fuel s d same = (diag_test_log fuel s d same).map (fun t => (t.1, t.2.1)) := by
    intro s d same
    cases same with
    | false => rfl
    | true =>
      simp only [diag_test, diag_test_log, if_true, Option.map_map]
      rfl
  simp only [iterate_cell_log, iterate_cell, hdt, Option.bind_eq_bind, Option.pure_def]
  cases probability fuel st.1.rng st.1.p_black with
  | none => rfl
  | some p =>
    simp only [Option.some_bind]
    cases diag_test_log fuel p.1 _ _ with
    | none => rfl
    | some t2 =>
      simp only [Option.some_bind, Option.map_some']
      cases diag_test_log fuel t2.1 _ _ with
      | none => rfl
      | some t3 =>
        simp only [Option.some_bind, Option.map_some']
        cases join_switch fuel _ st.1.cols _ _ with
        | none => rfl
        | some d => rfl

/-- The generation step of one cell with its record, every draw spelled out. -/
theorem iterate_cell_log_explicit (cl : cluster) (log : List cell_event) {r c fuel : Nat}
    (hsz : (cl.rows + 2) * (cl.cols + 1) < 2 ^ 32) (hr : r < cl.rows) (hc : c < cl.cols)
    (hs : cl.rng ≠ 0) (hlt : cl.rng < 2 ^ 64) (hf : 1 ≤ fuel) :
    iterate_cell_log fuel r c (cl, log) =
      (iterate_cell fuel r c cl).map (fun cl' => (cl', log ++ [event_of cl r c])) := by
  have hc0 : 0 < cl.cols := by omega
  have hcur := curr_row_of_eq hsz hr hc0
  have hlab := label_eq hsz hr hc
  obtain ⟨g1, g2, _⟩ := grid_facts hsz hr hc
  have hst : u32 (cl.cols + 1) = cl.cols + 1 := u32_of_lt (by omega)
  have hidx : map_index cl.cols r 0 + c = map_index cl.cols r c := by
    unfold map_index; ring
  have hidx1 : map_index cl.cols r 0 - (cl.cols + 1) + c = map_index cl.cols r c - (cl.cols + 1) := by
    unfold map_index
    have : (r + 1) * (cl.cols + 1) = r * (cl.cols + 1) + (cl.cols + 1) := by ring
    omega
  have hx := xorshift_round_ne_zero hs hlt
  have hp : probability fuel cl.rng cl.p_black =
      some (xorshift_round cl.rng, drawn_color cl.rng cl.p_black) :=
    probability_of_ne_zero hs hlt fuel cl.p_black hf
  have e2 := diag_test_log_eq hx.1 hx.2 fuel (diag_limit cl (drawn_color cl.rng cl.p_black))
    (Function.update cl.map (map_index cl.cols r c) (drawn_color cl.rng cl.p_black)
      (map_index cl.cols r c - (cl.cols + 1) - 1) == drawn_color cl.rng cl.p_black) hf
  have hx2 := diag_step_ne_zero hx.1 hx.2 (diag_limit cl (drawn_color cl.rng cl.p_black))
    (Function.update cl.map (map_index cl.cols r c) (drawn_color cl.rng cl.p_black)
      (map_index cl.cols r c - (cl.cols + 1) - 1) == drawn_color cl.rng cl.p_black)
  have e3 := diag_test_log_eq hx2.1 hx2.2 fuel (diag_limit cl (drawn_color cl.rng cl.p_black))
    (Function.update cl.map (map_index cl.cols r c) (drawn_color cl.rng cl.p_black)
      (map_index cl.cols r c - (cl.cols + 1) + 1) == drawn_color cl.rng cl.p_black) hf
  rw [iterate_cell_explicit cl hsz hr hc hs hlt hf]
  unfold diag_limit at e2 e3
  simp only [iterate_cell_log, event_of, cell_draw_of]
  rw [hcur, hlab, hst, hp, hidx, hidx1]
  unfold diag_limit
  simp only [Option.bind_eq_bind, Option.some_bind, e2, e3, Option.pure_def, Option.map_eq_map,
    Option.map_map]
  cases join_switch fuel _ cl.cols (label_of cl.cols r c) _ <;> rfl

theorem beq_eq_decide_of_iff {x color : Nat} {p : Prop} [Decidable p] (h : x = color ↔ p) :
    (x == color) = decide p := by
  by_cases e : x = color
  · rw [beq_iff_eq.2 e, decide_eq_true (h.1 e)]
  · rw [beq_eq_false_iff_ne.2 e, decide_eq_false (fun k => e (h.2 k))]

/-- The record computed from the reads of the padded colour map is the record read off
the colours of the grid after the cell's step. -/
theorem event_of_eq_spec {cl cl' : cluster} {r c : Nat}
    (hr : r < cl.rows) (hc : c < cl.cols)
    (hrow : ∀ i, i ≤ cl.cols → cl.map i = CLUSTER_NONE)
    (hcol : ∀ k, k ≤ cl.rows + 1 → cl.map (k * (cl.cols + 1)) = CLUSTER_NONE)
    (hcols : cl'.cols = cl.cols) (hp : cl'.p_black = cl.p_black)
    (hdw : cl'.d_white = cl.d_white) (hdb : cl'.d_black = cl.d_black)
    (hmap : cl'.map = Function.update cl.map (map_index cl.cols r c)
      (drawn_color cl.rng cl.p_black)) :
    event_of cl r c = cell_event_spec cl' r c cl.rng := by
  obtain ⟨rd0, rd1, rd2, rd3⟩ :=
    read_neighbours hrow hcol hr hc (drawn_color_cases cl.rng cl.p_black)
  have hd : ∀ x, diag_limit cl' x = diag_limit cl x := by
    intro x; unfold diag_limit; rw [hdw, hdb]
  have hself : color_at cl' r c = drawn_color cl.rng cl.p_black := by
    unfold color_at; rw [hcols, hmap, Function.update_same]
  have hother : ∀ r' c', c' < cl.cols → (r', c') ≠ (r, c) →
      color_at cl' r' c' = cl.map (map_index cl.cols r' c') := by
    intro r' c' h1 h2
    unfold color_at
    rw [hcols, hmap, Function.update_noteq]
    intro e
    have := map_index_inj h1 hc e
    exact h2 (by rw [this.1, this.2])
  have e0 : (Function.update cl.map (map_index cl.cols r c) (drawn_color cl.rng cl.p_black)
      (map_index cl.cols r c - 1) == drawn_color cl.rng cl.p_black) =
      decide (1 ≤ c ∧ color_at cl' r (c - 1) = drawn_color cl.rng cl.p_black) := by
    apply beq_eq_decide_of_iff
    rw [rd0]
    constructor
    · rintro ⟨h1, h2⟩
      exact ⟨h1, by rw [hother r (c - 1) (by omega) (by simp; omega)]; exact h2⟩
    · rintro ⟨h1, h2⟩
      exact ⟨h1, by rw [← hother r (c - 1) (by omega) (by simp; omega)]; exact h2⟩
  have e1 : (Function.update cl.map (map_index cl.cols r c) (drawn_color cl.rng cl.p_black)
      (map_index cl.cols r c - (cl.cols + 1)) == drawn_color cl.rng cl.p_black) =
      decide (1 ≤ r ∧ color_at cl' (r - 1) c = drawn_color cl.rng cl.p_black) := by
    apply beq_eq_decide_of_iff
    rw [rd1]
    constructor
    · rintro ⟨h1, h2⟩
      exact ⟨h1, by rw [hother (r - 1) c hc (by simp; omega)]; exact h2⟩
    · rintro ⟨h1, h2⟩
      exact ⟨h1, by rw [← hother (r - 1) c hc (by simp; omega)]; exact h2⟩
  have e2 : (Function.update cl.map (map_index cl.cols r c) (drawn_color cl.rng cl.p_black)
      (map_index cl.cols r c - (cl.cols + 1) - 1) == drawn_color cl.rng cl.p_black) =
      decide (1 ≤ r ∧ 1 ≤ c ∧ color_at cl' (r - 1) (c - 1) = drawn_color cl.rng cl.p_black) := by
    apply beq_eq_decide_of_iff
    rw [rd2]
    constructor
    · rintro ⟨h1, h2, h3⟩
      exact ⟨h1, h2, by rw [hother (r - 1) (c - 1) (by omega) (by simp; omega)]; exact h3⟩
    · rintro ⟨h1, h2, h3⟩
      exact ⟨h1, h2, by rw [← hother (r - 1) (c - 1) (by omega) (by simp; omega)]; exact h3⟩
  have e3 : (Function.update cl.map (map_index cl.cols r c) (drawn_color cl.rng cl.p_black)
      (map_index cl.cols r c - (cl.cols + 1) + 1) == drawn_color cl.rng cl.p_black) =
      decide (1 ≤ r ∧ c + 1 < cl.cols ∧
        color_at cl' (r - 1) (c + 1) = drawn_color cl.rng cl.p_black) := by
    apply beq_eq_decide_of_iff
    rw [rd3]
    constructor
    · rintro ⟨h1, h2, h3⟩
      exact ⟨h1, h2, by rw [hother (r - 1) (c + 1) h2 (by simp)]; exact h3⟩
    · rintro ⟨h1, h2, h3⟩
      exact ⟨h1, h2, by rw [← hother (r - 1) (c + 1) h2 (by simp)]; exact h3⟩
  simp only [event_of, cell_event_spec, cell_draw_of]
  rw [hself, hcols, hp]
  simp only [hd, e0, e1, e2, e3]

/-- The record read off the grid depends only on the colours of the cell and of its four
earlier neighbours. -/
theorem cell_event_spec_congr {cl cl' : cluster} {r c : Nat} (hc : c < cl.cols)
    (hcols : cl'.cols = cl.cols) (hp : cl'.p_black = cl.p_black)
    (hdw : cl'.d_white = cl.d_white) (hdb : cl'.d_black = cl.d_black)
    (hmap : ∀ r' c', c' < cl.cols → label_of cl.cols r' c' ≤ label_of cl.cols r c →
      color_at cl' r' c' = color_at cl r' c') (s : Nat) :
    cell_event_spec cl' r c s = cell_event_spec cl r c s := by
  have hd : ∀ x, diag_limit cl' x = diag_limit cl x := by
    intro x; unfold diag_limit; rw [hdw, hdb]
  have hself := hmap r c hc (le_refl _)
  have hle : ∀ r' c', c' < cl.cols → (r' < r ∨ (r' = r ∧ c' < c)) →
      color_at cl' r' c' = color_at cl r' c' := fun r' c' h1 h2 =>
    hmap r' c' h1 (le_of_lt ((label_of_lt_iff h1 hc).2 h2))
  have e0 : decide (1 ≤ c ∧ color_at cl' r (c - 1) = color_at cl r c) =
      decide (1 ≤ c ∧ color_at cl r (c - 1) = color_at cl r c) := by
    apply decide_eq_decide.2
    constructor
    · rintro ⟨h1, h2⟩
      exact ⟨h1, by rw [← hle r (c - 1) (by omega) (Or.inr ⟨rfl, by omega⟩)]; exact h2⟩
    · rintro ⟨h1, h2⟩
      exact ⟨h1, by rw [hle r (c - 1) (by omega) (Or.inr ⟨rfl, by omega⟩)]; exact h2⟩
  have e1 : decide (1 ≤ r ∧ color_at cl' (r - 1) c = color_at cl r c) =
      decide (1 ≤ r ∧ color_at cl (r - 1) c = color_at cl r c) := by
    apply decide_eq_decide.2
    constructor
    · rintro ⟨h1, h2⟩
      exact ⟨h1, by rw [← hle (r - 1) c hc (Or.inl (by omega))]; exact h2⟩
    · rintro ⟨h1, h2⟩
      exact ⟨h1, by rw [hle (r - 1) c hc (Or.inl (by omega))]; exact h2⟩
  have e2 : decide (1 ≤ r ∧ 1 ≤ c ∧ color_at cl' (r - 1) (c - 1) = color_at cl r c) =
      decide (1 ≤ r ∧ 1 ≤ c ∧ color_at cl (r - 1) (c - 1) = color_at cl r c) := by
    apply decide_eq_decide.2
    constructor
    · rintro ⟨h1, h2, h3⟩
      exact ⟨h1, h2, by rw [← hle (r - 1) (c - 1) (by omega) (Or.inl (by omega))]; exact h3⟩
    · rintro ⟨h1, h2, h3⟩
      exact ⟨h1, h2, by rw [hle (r - 1) (c - 1) (by omega) (Or.inl (by omega))]; exact h3⟩
  have e3 : decide (1 ≤ r ∧ c + 1 < cl.cols ∧ color_at cl' (r - 1) (c + 1) = color_at cl r c) =
      decide (1 ≤ r ∧ c + 1 < cl.cols ∧ color_at cl (r - 1) (c + 1) = color_at cl r c) := by
    apply decide_eq_decide.2
    constructor
    · rintro ⟨h1, h2, h3⟩
      exact ⟨h1, h2, by rw [← hle (r - 1) (c + 1) h2 (Or.inl (by omega))]; exact h3⟩
    · rintro ⟨h1, h2, h3⟩
      exact ⟨h1, h2, by rw [hle (r - 1) (c + 1) h2 (Or.inl (by omega))]; exact h3⟩
  simp only [cell_event_spec]
  rw [hself, hcols, hp]
  simp only [hd, e0, e1, e2, e3]

theorem diag_step_iterate (s diag : Nat) (same : Bool) :
    (diag_step s diag same).1 = xorshift_round^[if same then 1 else 0] s := by
  cases same <;> rfl

/-- Every record advances the generator once for each of its trials. -/
theorem cell_event_spec_rng (cl : cluster) (r c s : Nat) :
    (cell_event_spec cl r c s).rng_after =
      xorshift_round^[(cell_event_spec cl r c s).trials.length] s := by
  simp only [cell_event_spec, diag_step_iterate, List.length_cons, List.length_append]
  generalize decide (1 ≤ r ∧ 1 ≤ c ∧ color_at cl (r - 1) (c - 1) = color_at cl r c) = ul
  generalize decide (1 ≤ r ∧ c + 1 < cl.cols ∧ color_at cl (r - 1) (c + 1) = color_at cl r c) = ur
  cases ul <;> cases ur <;> rfl

/-- A loop whose body returns and re-establishes the invariant on every state that
satisfies it returns, with the invariant at the end. -/
theorem foldlM_range_inv {σ : Type} (f : σ → Nat → Option σ) (I : Nat → σ → Prop) :
    ∀ n, (∀ i s, i < n → I i s → ∃ s', f s i = some s' ∧ I (i + 1) s') →
      ∀ s, I 0 s → ∃ s', (List.range n).foldlM f s = some s' ∧ I n s' := by
  intro n
  induction n with
  | zero => intro _ s h0; exact ⟨s, rfl, h0⟩
  | succ n ih =>
    intro hstep s h0
    obtain ⟨s1, e1, h1⟩ := ih (fun i s hi hI => hstep i s (by omega) hI) s h0
    obtain ⟨s2, e2, h2⟩ := hstep n s1 (by omega) h1
    refine ⟨s2, ?_, h2⟩
    rw [List.range_succ, List.foldlM_append, e1]
    simp only [Option.bind_eq_bind, Option.some_bind, List.foldlM_cons, List.foldlM_nil]
    rw [e2]; rfl

/-- A loop over a state with an extra component that the body only carries along projects
to the loop over the first component. -/
theorem foldlM_fst {σ τ : Type} (g : σ × τ → Nat → Option (σ × τ)) (f : σ → Nat → Option σ)
    (h : ∀ st i, (g st i).map Prod.fst = f st.1 i) :
    ∀ (l : List Nat) (st : σ × τ), (l.foldlM g st).map Prod.fst = l.foldlM f st.1 := by
  intro l
  induction l with
  | nil => intro st; rfl
  | cons a l ih =>
    intro st
    have ha := h st a
    simp only [List.foldlM_cons, Option.bind_eq_bind]
    cases hg : g st a with
    | none =>
      rw [hg] at ha
      rw [← ha]; rfl
    | some st' =>
      rw [hg] at ha
      rw [← ha]
      exact ih st'

/-- The observer does not change the generation loops. -/
theorem iterate_generate_log_fst (fuel : Nat) (cl : cluster) :
    (iterate_generate_log fuel cl).map Prod.fst = iterate_generate fuel cl := by
  unfold iterate_generate_log iterate_generate
  exact foldlM_fst _ _
    (fun st r => foldlM_fst _ _ (fun st2 c => iterate_cell_log_fst fuel r c st2) _ st) _ (cl, [])

theorem draw_count_append (log : List cell_event) (e : cell_event) :
    draw_count (log ++ [e]) = e.trials.length + draw_count log := by
  simp [draw_count, Nat.add_comm]

/-- One observed generation step keeps the invariant of the records. -/
theorem LogInv.log_step {cl0 cl cl' : cluster} {log : List cell_event} {rt : Nat → Nat}
    {r c fuel : Nat} (g : GenInv cl0 (label_of cl0.cols r c) cl rt)
    (l : LogInv cl0 (label_of cl0.cols r c) cl log)
    (hsz : (cl0.rows + 2) * (cl0.cols + 1) < 2 ^ 32) (hr : r < cl0.rows) (hc : c < cl0.cols)
    (hf : 1 ≤ fuel) (e : iterate_cell fuel r c cl = some cl') :
    iterate_cell_log fuel r c (cl, log) = some (cl', log ++ [event_of cl r c]) ∧
      LogInv cl0 (label_of cl0.cols r c + 1) cl' (log ++ [event_of cl r c]) := by
  have hcols := g.cols_eq
  have hrows := g.rows_eq
  have hsz' : (cl.rows + 2) * (cl.cols + 1) < 2 ^ 32 := by rw [hcols, hrows]; exact hsz
  have hr' : r < cl.rows := by rw [hrows]; exact hr
  have hc' : c < cl.cols := by rw [hcols]; exact hc
  have e1 := iterate_cell_log_explicit cl log hsz' hr' hc' g.rng_ne g.rng_lt hf
  rw [e] at e1
  refine ⟨e1, ?_⟩
  have e2 := iterate_cell_explicit cl hsz' hr' hc' g.rng_ne g.rng_lt hf
  rw [e] at e2
  obtain ⟨djs1, _, hcl'⟩ := Option.map_eq_some'.1 e2.symm
  have hc1 : cl'.cols = cl.cols := by rw [← hcl']
  have hp1 : cl'.p_black = cl.p_black := by rw [← hcl']
  have hw1 : cl'.d_white = cl.d_white := by rw [← hcl']
  have hb1 : cl'.d_black = cl.d_black := by rw [← hcl']
  have hm1 : cl'.map = Function.update cl.map (map_index cl.cols r c)
      (drawn_color cl.rng cl.p_black) := by rw [← hcl']; rfl
  have hr1 : cl'.rng = (event_of cl r c).rng_after := by rw [← hcl']; rfl
  have hev := event_of_eq_spec hr' hc' g.border_row g.border_col hc1 hp1 hw1 hb1 hm1
  have hcolor : ∀ r' c', c' < cl0.cols → label_of cl0.cols r' c' < label_of cl0.cols r c →
      color_at cl' r' c' = color_at cl r' c' := by
    intro r' c' h1 h2
    unfold color_at
    rw [hc1, hm1, Function.update_noteq]
    intro e
    rw [hcols] at e
    have := map_index_inj h1 hc e
    rw [this.1, this.2] at h2
    exact absurd h2 (lt_irrefl _)
  exact
    { len := by rw [List.length_append, l.len]; rfl
      rng_total := by
        rw [hr1, hev, cell_event_spec_rng, draw_count_append, Function.iterate_add_apply,
          ← l.rng_total, ← hev]
      frame := by
        intro i hi
        rw [hm1, Function.update_noteq, l.frame i (fun r' c' h1 h2 => hi r' c' h1 (by omega))]
        rw [hcols]
        exact hi r c hc (by omega)
      events := by
        intro r' c' h1 h2
        rcases Nat.lt_or_ge (label_of cl0.cols r' c') (label_of cl0.cols r c) with h3 | h3
        · obtain ⟨s, s0, s1, s2, s3, s4⟩ := l.events r' c' h1 h3
          refine ⟨s, s0, s1, ?_, ?_, ?_⟩
          · rw [List.take_append_of_le_length (by rw [l.len]; omega)]
            exact s2
          · rw [hcolor r' c' h1 h3]; exact s3
          · rw [List.getElem?_append_left (by rw [l.len]; exact h3), s4]
            congr 1
            symm
            apply cell_event_spec_congr (by rw [hcols]; exact h1) hc1 hp1 hw1 hb1
            intro r2 c2 k1 k2
            rw [hcols] at k1 k2
            exact hcolor r2 c2 k1 (by omega)
        · have heq : label_of cl0.cols r' c' = label_of cl0.cols r c := by omega
          obtain ⟨k1, k2⟩ := label_of_inj h1 hc heq
          subst k1 k2
          refine ⟨cl.rng, g.rng_ne, g.rng_lt, ?_, ?_, ?_⟩
          · have : (log ++ [event_of cl r' c']).take (label_of cl0.cols r' c') = log := by
              rw [← l.len]; exact List.take_left' rfl
            rw [this]; exact l.rng_total
          · unfold color_at
            rw [hc1, hm1, Function.update_same, g.p_eq]
          · rw [← l.len, List.getElem?_concat_length, hev] }

theorem LogPair.pair_cell {cl0 : cluster} {st : cluster × List cell_event} {r c fuel : Nat}
    (h : LogPair cl0 (label_of cl0.cols r c) st)
    (hsz : (cl0.rows + 2) * (cl0.cols + 1) < 2 ^ 32) (hr : r < cl0.rows) (hc : c < cl0.cols)
    (hf : cl0.rows * cl0.cols + 2 ≤ fuel) :
    ∃ st', iterate_cell_log fuel r c st = some st' ∧
      LogPair cl0 (label_of cl0.cols r (c + 1)) st' := by
  obtain ⟨⟨rt, g⟩, l⟩ := h
  have hc1 := g.cols_eq
  have hr1 := g.rows_eq
  have g' := g
  rw [← hc1] at g'
  obtain ⟨cl', rt', e, g2⟩ := @GenInv.cell_step cl0 st.1 rt r c fuel g'
    (by rw [hc1, hr1]; exact hsz) (by rw [hr1]; exact hr) (by rw [hc1]; exact hc)
    (by rw [hc1, hr1]; exact hf)
  rw [hc1] at g2
  obtain ⟨e', l2⟩ := LogInv.log_step g l hsz hr hc (by omega) e
  exact ⟨_, e', ⟨rt', g2⟩, l2⟩

theorem LogPair.line {cl0 : cluster} {fuel r : Nat}
    (hsz : (cl0.rows + 2) * (cl0.cols + 1) < 2 ^ 32) (hr : r < cl0.rows)
    (hf : cl0.rows * cl0.cols + 2 ≤ fuel) (st : cluster × List cell_event)
    (h : LogPair cl0 (label_of cl0.cols r 0) st) :
    ∃ st', (List.range cl0.cols).foldlM (fun st2 c => iterate_cell_log fuel r c st2) st =
        some st' ∧ LogPair cl0 (label_of cl0.cols (r + 1) 0) st' := by
  obtain ⟨st', e, h'⟩ := foldlM_range_inv (fun st2 c => iterate_cell_log fuel r c st2)
    (fun c st2 => LogPair cl0 (label_of cl0.cols r c) st2) cl0.cols
    (fun c st2 hc hI => LogPair.pair_cell hI hsz hr hc hf) st h
  refine ⟨st', e, ?_⟩
  have : label_of cl0.cols (r + 1) 0 = label_of cl0.cols r cl0.cols := by
    unfold label_of; ring
  rw [this]; exact h'

/-- The observed generation loops return the cluster `iterate_generate` returns, with one
record for each cell in raster order; each record is the one read off the final
colours, and the generator was advanced once for every call of `probability`. -/
theorem iterate_generate_log_spec {cl : cluster} (h : Ready cl) {fuel : Nat}
    (hf : cl.rows * cl.cols + 2 ≤ fuel) :
    ∃ cl1 log rt, iterate_generate_log fuel cl = some (cl1, log) ∧
      iterate_generate fuel cl = some cl1 ∧ GenInv cl (cl.rows * cl.cols) cl1 rt ∧
      LogInv cl (cl.rows * cl.cols) cl1 log := by
  have h0 : LogPair cl (label_of cl.cols 0 0) (cl, []) := by
    have e : label_of cl.cols 0 0 = 0 := by simp [label_of]
    rw [e]
    exact ⟨⟨_, GenInv.at_entry h⟩,
      { len := rfl
        rng_total := rfl
        frame := fun _ _ => rfl
        events := fun _ _ _ hlt => absurd hlt (Nat.not_lt_zero _) }⟩
  obtain ⟨st', e, ⟨rt, g⟩, l⟩ := foldlM_range_inv
    (fun st1 r => (List.range cl.cols).foldlM (fun st2 c => iterate_cell_log fuel r c st2) st1)
    (fun r st => LogPair cl (label_of cl.cols r 0) st) cl.rows
    (fun r st hr hI => LogPair.line h.size_ok hr hf st hI) (cl, []) h0
  have e0 : label_of cl.cols cl.rows 0 = cl.rows * cl.cols := by simp [label_of]
  rw [e0] at g l
  have e1 : iterate_generate_log fuel cl = some st' := e
  have e2 := iterate_generate_log_fst fuel cl
  rw [e1] at e2
  exact ⟨st'.1, st'.2, rt, e1, e2.symm, g, l⟩

theorem join_mask_bits (b0 b1 b2 b3 : Bool) :
    (bit_of b0 0 ||| bit_of b1 1 ||| bit_of b2 2 ||| bit_of b3 3).testBit 0 = b0 ∧
    (bit_of b0 0 ||| bit_of b1 1 ||| bit_of b2 2 ||| bit_of b3 3).testBit 1 = b1 ∧
    (bit_of b0 0 ||| bit_of b1 1 ||| bit_of b2 2 ||| bit_of b3 3).testBit 2 = b2 ∧
    (bit_of b0 0 ||| bit_of b1 1 ||| bit_of b2 2 ||| bit_of b3 3).testBit 3 = b3 := by
  revert b0 b1 b2 b3
  decide

theorem cell_event_spec_trials_length (cl : cluster) (r c s : Nat) :
    1 ≤ (cell_event_spec cl r c s).trials.length ∧
      (cell_event_spec cl r c s).trials.length ≤ 3 := by
  simp only [cell_event_spec, List.length_cons, List.length_append]
  generalize decide (1 ≤ r ∧ 1 ≤ c ∧ color_at cl (r - 1) (c - 1) = color_at cl r c) = ul
  generalize decide (1 ≤ r ∧ c + 1 < cl.cols ∧ color_at cl (r - 1) (c + 1) = color_at cl r c) = ur
  cases ul <;> cases ur <;> simp

theorem draw_count_bounds (log : List cell_event)
    (h : ∀ e, e ∈ log → 1 ≤ e.trials.length ∧ e.trials.length ≤ 3) :
    log.length ≤ draw_count log ∧ draw_count log ≤ 3 * log.length := by
  induction log with
  | nil => exact ⟨le_refl _, le_refl _⟩
  | cons e log ih =>
    have h1 := h e (List.mem_cons_self _ _)
    have h2 := ih (fun e' he' => h e' (List.mem_cons_of_mem _ he'))
    have e1 : draw_count (e :: log) = e.trials.length + draw_count log := by
      simp [draw_count]
    rw [e1, List.length_cons]
    omega

/-- Every label below `rows * cols` is the label of a cell of the grid. -/
theorem label_cell {rows cols i : Nat} (hi : i < rows * cols) :
    i / cols < rows ∧ i % cols < cols ∧ label_of cols (i / cols) (i % cols) = i := by
  have hc : 0 < cols := by
    rcases Nat.eq_zero_or_pos cols with h | h
    · rw [h] at hi; simp at hi
    · exact h
  refine ⟨?_, Nat.mod_lt _ hc, ?_⟩
  · exact Nat.div_lt_of_lt_mul (by rw [Nat.mul_comm]; exact hi)
  · unfold label_of
    have := Nat.div_add_mod i cols
    rw [Nat.mul_comm]; exact this

/-- The truth value of a diagonal test in terms of the colour its trial returned. -/
theorem diag_step_snd (s diag : Nat) (same : Bool) :
    ((diag_step s diag same).2 = true ↔
      same = true ∧ (if (diag_step s diag same).2 then CLUSTER_BLACK else CLUSTER_WHITE) =
        CLUSTER_BLACK) := by
  cases same with
  | false => simp [diag_step]
  | true =>
    cases h : (diag_step s diag true).2 <;> simp [CLUSTER_BLACK, CLUSTER_WHITE]

/-- A run of `sample_cluster_orth`, whose diagonal limits are 0: the 12 cells make 19
calls of `probability`; the cell with label 6 makes three, two of them diagonal
trials with limit 0, and none of its neighbours is joined to it. -/
theorem sample_orth_draws :
    (iterate_generate_log 14 sample_cluster_orth).map
        (fun p => (draw_count p.2, (p.2.getD 6 ⟨0, 0, 0, 0, [], 0, 0⟩).trials,
          (p.2.getD 6 ⟨0, 0, 0, 0, [], 0, 0⟩).joins)) =
      some (19, [(2 ^ 63, CLUSTER_WHITE), (0, CLUSTER_WHITE), (0, CLUSTER_WHITE)], 0) := by
  decide

/-- C28: in one call of `iterate` on a ready cluster, the record of every cell shows one call
of `probability` with the limit `p_black` for the colour, followed by exactly one
call for the up-left neighbour if it exists and has the cell's colour and one for
the up-right neighbour if it exists and has the cell's colour, and no other call;
each of these trials is made with the diagonal limit of the cell's colour, whatever
its value; bit 2 (bit 3) of `joins` is set if and only if the up-left (up-right)
trial was made and returned `CLUSTER_BLACK`; every call advances the generator by
one round; and the number of calls of the whole iteration is between `R*C` and
`3*R*C`. -/
theorem diagonal_trials (cl : cluster) (h : Ready cl) (fuel : Nat)
    (hf : 2 * (cl.rows * cl.cols) + 3 ≤ fuel) :
    ∃ cl1 log cl', iterate_generate_log fuel cl = some (cl1, log) ∧
      iterate_generate fuel cl = some cl1 ∧ iterate fuel cl = some cl' ∧
      log.length = cl.rows * cl.cols ∧
      (∀ r c, r < cl.rows → c < cl.cols →
        ∃ e, log[label_of cl.cols r c]? = some e ∧ e.label = label_of cl.cols r c ∧
          e.color = color_at cl' r c ∧
          ∃ t2 t3,
            e.trials = (cl.p_black, e.color) ::
              ((if 1 ≤ r ∧ 1 ≤ c ∧ color_at cl' (r - 1) (c - 1) = e.color
                then [(diag_limit cl e.color, t2)] else []) ++
              (if 1 ≤ r ∧ c + 1 < cl.cols ∧ color_at cl' (r - 1) (c + 1) = e.color
                then [(diag_limit cl e.color, t3)] else [])) ∧
            (e.joins.testBit 2 = true ↔
              (1 ≤ r ∧ 1 ≤ c ∧ color_at cl' (r - 1) (c - 1) = e.color) ∧ t2 = CLUSTER_BLACK) ∧
            (e.joins.testBit 3 = true ↔
              (1 ≤ r ∧ c + 1 < cl.cols ∧ color_at cl' (r - 1) (c + 1) = e.color) ∧
                t3 = CLUSTER_BLACK) ∧
            e.rng_after = xorshift_round^[e.trials.length] e.rng_before) ∧
      cl'.rng = xorshift_round^[draw_count log] cl.rng ∧
      cl.rows * cl.cols ≤ draw_count log ∧ draw_count log ≤ 3 * (cl.rows * cl.cols) := by
  obtain ⟨cl1, rt, cl2, cl', e1, g, _, cnt, e', post, hrng, hmap, _⟩ := iterate_run_shape h hf
  obtain ⟨cl1', log, _, elog, e1', _, l⟩ :=
    iterate_generate_log_spec h (show cl.rows * cl.cols + 2 ≤ fuel by omega)
  have hcl : cl1' = cl1 := Option.some.inj (e1'.symm.trans e1)
  subst hcl
  have hcol : ∀ r c, color_at cl' r c = color_at cl1' r c := by
    intro r c
    unfold color_at
    rw [hmap, cnt.map_eq, post.cols_eq.trans g.cols_eq.symm]
  have hd : ∀ x, diag_limit cl x = diag_limit cl1' x := by
    intro x; unfold diag_limit; rw [g.dw_eq, g.db_eq]
  refine ⟨cl1', log, cl', elog, e1, e', l.len, ?_, ?_, ?_⟩
  · intro r c hr hc
    have hlt : label_of cl.cols r c < cl.rows * cl.cols := (grid_facts h.size_ok hr hc).2.2
    obtain ⟨s, _, _, _, _, hlog⟩ := l.events r c hc hlt
    refine ⟨_, hlog, ?_, ?_,
      (if (diag_step (xorshift_round s) (diag_limit cl1' (color_at cl1' r c))
          (decide (1 ≤ r ∧ 1 ≤ c ∧ color_at cl1' (r - 1) (c - 1) = color_at cl1' r c))).2
        then CLUSTER_BLACK else CLUSTER_WHITE),
      (if (diag_step (diag_step (xorshift_round s) (diag_limit cl1' (color_at cl1' r c))
            (decide (1 ≤ r ∧ 1 ≤ c ∧ color_at cl1' (r - 1) (c - 1) = color_at cl1' r c))).1
          (diag_limit cl1' (color_at cl1' r c))
          (decide (1 ≤ r ∧ c + 1 < cl1'.cols ∧
            color_at cl1' (r - 1) (c + 1) = color_at cl1' r c))).2
        then CLUSTER_BLACK else CLUSTER_WHITE), ?_, ?_, ?_, ?_⟩
    · show label_of cl1'.cols r c = label_of cl.cols r c
      rw [g.cols_eq]
    · exact (hcol r c).symm
    · simp only [hcol, hd, ← g.cols_eq, ← g.p_eq]
      simp only [cell_event_spec, decide_eq_true_eq]
    · simp only [hcol]
      simp only [cell_event_spec, (join_mask_bits _ _ _ _).2.2.1]
      exact (diag_step_snd _ _ _).trans (and_congr_left (fun _ => decide_eq_true_iff))
    · simp only [hcol, ← g.cols_eq]
      simp only [cell_event_spec, (join_mask_bits _ _ _ _).2.2.2]
      exact (diag_step_snd _ _ _).trans (and_congr_left (fun _ => decide_eq_true_iff))
    · exact cell_event_spec_rng cl1' r c s
  · rw [hrng, cnt.rng_eq]; exact l.rng_total
  · have hb := draw_count_bounds log (by
      intro e he
      obtain ⟨n, hn⟩ := List.mem_iff_getElem?.1 he
      obtain ⟨hlen, _⟩ := List.getElem?_eq_some.1 hn
      rw [l.len] at hlen
      obtain ⟨_, k2, k3⟩ := label_cell hlen
      obtain ⟨s, _, _, _, _, hlog⟩ := l.events (n / cl.cols) (n % cl.cols) k2 (by rw [k3]; exact hlen)
      rw [k3, hn] at hlog
      rw [Option.some.inj hlog]
      exact cell_event_spec_trials_length _ _ _ _)
    rw [l.len] at hb
    exact hb

/-- C28, instance: the 3 x 4 sample cluster whose diagonal limits are 0. -/
theorem diagonal_trials_witness :
    Ready sample_cluster_orth ∧
    2 * (sample_cluster_orth.rows * sample_cluster_orth.cols) + 3 ≤ 27 ∧
    ∃ cl1 log cl', iterate_generate_log 27 sample_cluster_orth = some (cl1, log) ∧
      iterate_generate 27 sample_cluster_orth = some cl1 ∧
      iterate 27 sample_cluster_orth = some cl' ∧
      log.length = sample_cluster_orth.rows * sample_cluster_orth.cols ∧
      (∀ r c, r < sample_cluster_orth.rows → c < sample_cluster_orth.cols →
        ∃ e, log[label_of sample_cluster_orth.cols r c]? = some e ∧
          e.label = label_of sample_cluster_orth.cols r c ∧
          e.color = color_at cl' r c ∧
          ∃ t2 t3,
            e.trials = (sample_cluster_orth.p_black, e.color) ::
              ((if 1 ≤ r ∧ 1 ≤ c ∧ color_at cl' (r - 1) (c - 1) = e.color
                then [(diag_limit sample_cluster_orth e.color, t2)] else []) ++
              (if 1 ≤ r ∧ c + 1 < sample_cluster_orth.cols ∧
                  color_at cl' (r - 1) (c + 1) = e.color
                then [(diag_limit sample_cluster_orth e.color, t3)] else [])) ∧
            (e.joins.testBit 2 = true ↔
              (1 ≤ r ∧ 1 ≤ c ∧ color_at cl' (r - 1) (c - 1) = e.color) ∧ t2 = CLUSTER_BLACK) ∧
            (e.joins.testBit 3 = true ↔
              (1 ≤ r ∧ c + 1 < sample_cluster_orth.cols ∧
                color_at cl' (r - 1) (c + 1) = e.color) ∧ t3 = CLUSTER_BLACK) ∧
            e.rng_after = xorshift_round^[e.trials.length] e.rng_before) ∧
      cl'.rng = xorshift_round^[draw_count log] sample_cluster_orth.rng ∧
      sample_cluster_orth.rows * sample_cluster_orth.cols ≤ draw_count log ∧
      draw_count log ≤ 3 * (sample_cluster_orth.rows * sample_cluster_orth.cols) :=
  ⟨ready_seeded _ _ _ (by decide) (by decide) (by decide) (by decide) (by decide), by decide,
    diagonal_trials sample_cluster_orth
      (ready_seeded _ _ _ (by decide) (by decide) (by decide) (by decide) (by decide))
      27 (by decide)⟩

/-- The padded row and column of a cell's colour-map index: never row 0 or column 0. -/
theorem map_index_row_col (cols r c : Nat) (hc : c < cols) :
    map_index cols r c / (cols + 1) = r + 1 ∧ map_index cols r c % (cols + 1) = c + 1 := by
  unfold map_index
  constructor
  · rw [Nat.add_comm, Nat.add_mul_div_right _ _ (by omega), Nat.div_eq_of_lt (by omega),
      Nat.zero_add]
  · rw [Nat.add_comm, Nat.add_mul_mod_self_right, Nat.mod_eq_of_lt (by omega)]

/-- What the record of a cell says about its joins: no bit is set for a neighbour outside
the grid, and every label selected by the bits is the label of a cell of the grid
next to the cell, of the same colour. -/
theorem cell_event_spec_joins {cl : cluster} {r c : Nat} (s : Nat)
    (hsz : (cl.rows + 2) * (cl.cols + 1) < 2 ^ 32) (hr : r < cl.rows) (hc : c < cl.cols) :
    (r = 0 → (cell_event_spec cl r c s).joins.testBit 1 = false ∧
      (cell_event_spec cl r c s).joins.testBit 2 = false ∧
      (cell_event_spec cl r c s).joins.testBit 3 = false) ∧
    (c = 0 → (cell_event_spec cl r c s).joins.testBit 0 = false ∧
      (cell_event_spec cl r c s).joins.testBit 2 = false) ∧
    (c + 1 = cl.cols → (cell_event_spec cl r c s).joins.testBit 3 = false) ∧
    (∀ l, l ∈ join_labels cl.cols (label_of cl.cols r c)
        ((cell_event_spec cl r c s).joins.testBit 0) ((cell_event_spec cl r c s).joins.testBit 1)
        ((cell_event_spec cl r c s).joins.testBit 2)
        ((cell_event_spec cl r c s).joins.testBit 3) →
      ∃ q : Nat × Nat, q.1 < cl.rows ∧ q.2 < cl.cols ∧ l = label_of cl.cols q.1 q.2 ∧
        (OrthAdj (r, c) q ∨ DiagAdj (r, c) q) ∧ color_at cl q.1 q.2 = color_at cl r c) := by
  obtain ⟨n0, n1, n2, n3⟩ := neighbour_labels hsz hr hc
  simp only [cell_event_spec, (join_mask_bits _ _ _ _).1, (join_mask_bits _ _ _ _).2.1,
    (join_mask_bits _ _ _ _).2.2.1, (join_mask_bits _ _ _ _).2.2.2]
  refine ⟨?_, ?_, ?_, ?_⟩
  · intro h0
    subst h0
    simp [diag_step]
  · intro h0
    subst h0
    simp [diag_step]
  · intro h0
    have : ¬ (c + 1 < cl.cols) := by omega
    simp [diag_step, this]
  · intro l hl
    simp only [join_labels, List.mem_append] at hl
    rcases hl with ((hl | hl) | hl) | hl
    · split at hl
      · rename_i hb
        have hb' := of_decide_eq_true hb
        rw [List.mem_singleton] at hl
        exact ⟨(r, c - 1), hr, by show c - 1 < cl.cols; omega, by rw [hl, n0 hb'.1],
          Or.inl (Or.inl ⟨rfl, Or.inr (by show c - 1 + 1 = c; omega)⟩), hb'.2⟩
      · exact absurd hl (List.not_mem_nil _)
    · split at hl
      · rename_i hb
        have hb' := of_decide_eq_true hb
        rw [List.mem_singleton] at hl
        exact ⟨(r - 1, c), by show r - 1 < cl.rows; omega, hc, by rw [hl, n1 hb'.1],
          Or.inl (Or.inr ⟨rfl, Or.inr (by show r - 1 + 1 = r; omega)⟩), hb'.2⟩
      · exact absurd hl (List.not_mem_nil _)
    · split at hl
      · rename_i hb
        have hb' := of_decide_eq_true (diag_step_true hb)
        rw [List.mem_singleton] at hl
        exact ⟨(r - 1, c - 1), by show r - 1 < cl.rows; omega, by show c - 1 < cl.cols; omega,
          by rw [hl, n2 hb'.1 hb'.2.1],
          Or.inr ⟨Or.inr (by show r - 1 + 1 = r; omega), Or.inr (by show c - 1 + 1 = c; omega)⟩,
          hb'.2.2⟩
      · exact absurd hl (List.not_mem_nil _)
    · split at hl
      · rename_i hb
        have hb' := of_decide_eq_true (diag_step_true hb)
        rw [List.mem_singleton] at hl
        exact ⟨(r - 1, c + 1), by show r - 1 < cl.rows; omega, hb'.2.1,
          by rw [hl, n3 hb'.1],
          Or.inr ⟨Or.inr (by show r - 1 + 1 = r; omega), Or.inl rfl⟩, hb'.2.2⟩
      · exact absurd hl (List.not_mem_nil _)

/-- C29: after any number of calls of `iterate` on a ready cluster, every colour-map
entry of padded row 0 and of padded column 0 still holds `CLUSTER_NONE`; in the
call that follows, the colour map is written only at the entries of the cells of
the grid (padded row `r + 1`, padded column `c + 1`) and is unchanged elsewhere, no
cell of row 0 has bit 1, 2 or 3 of `joins` set, no cell of column 0 has bit 0 or 2
set, no cell of column `C-1` has bit 3 set, and every label the bits of `joins`
select is the label of a cell of the grid next to the current cell, of its colour. -/
theorem border_survives (cl : cluster) (h : Ready cl) (fuel : Nat)
    (hf : 2 * (cl.rows * cl.cols) + 3 ≤ fuel) :
    ∀ n, ∃ cln, iterate_n fuel n cl = some cln ∧
      (∀ i, i ≤ cl.cols → cln.map i = CLUSTER_NONE) ∧
      (∀ k, k ≤ cl.rows + 1 → cln.map (k * (cl.cols + 1)) = CLUSTER_NONE) ∧
      ∃ cl1 log cl', iterate_generate_log fuel cln = some (cl1, log) ∧
        iterate fuel cln = some cl' ∧ cl'.map = cl1.map ∧
        log.length = cl.rows * cl.cols ∧
        (∀ i, (∀ r c, r < cl.rows → c < cl.cols → i ≠ map_index cl.cols r c) →
          cl'.map i = cln.map i) ∧
        (∀ r c, r < cl.rows → c < cl.cols →
          ∃ e, log[label_of cl.cols r c]? = some e ∧ e.label = label_of cl.cols r c ∧
            e.map_write = map_index cl.cols r c ∧
            e.map_write / (cl.cols + 1) = r + 1 ∧ e.map_write % (cl.cols + 1) = c + 1 ∧
            (r = 0 → e.joins.testBit 1 = false ∧ e.joins.testBit 2 = false ∧
              e.joins.testBit 3 = false) ∧
            (c = 0 → e.joins.testBit 0 = false ∧ e.joins.testBit 2 = false) ∧
            (c + 1 = cl.cols → e.joins.testBit 3 = false) ∧
            (∀ l, l ∈ join_labels cl.cols e.label (e.joins.testBit 0) (e.joins.testBit 1)
                (e.joins.testBit 2) (e.joins.testBit 3) →
              ∃ q : Nat × Nat, q.1 < cl.rows ∧ q.2 < cl.cols ∧ l = label_of cl.cols q.1 q.2 ∧
                (OrthAdj (r, c) q ∨ DiagAdj (r, c) q) ∧ color_at cl' q.1 q.2 = color_at cl' r c)) := by
  intro n
  obtain ⟨cln, en, hready, ern, ecn, _⟩ := iterate_n_ready h hf n
  have hfn : 2 * (cln.rows * cln.cols) + 3 ≤ fuel := by rw [ern, ecn]; exact hf
  obtain ⟨cl1, rt, cl2, cl', e1, g, _, cnt, e', post, _, hmap, _⟩ := iterate_run_shape hready hfn
  obtain ⟨cl1', log, _, elog, e1', _, l⟩ :=
    iterate_generate_log_spec hready (show cln.rows * cln.cols + 2 ≤ fuel by omega)
  have hcl : cl1' = cl1 := Option.some.inj (e1'.symm.trans e1)
  subst hcl
  have hm : cl'.map = cl1'.map := by rw [hmap, cnt.map_eq]
  have hcol : ∀ r c, color_at cl' r c = color_at cl1' r c := by
    intro r c
    unfold color_at
    rw [hm, post.cols_eq.trans g.cols_eq.symm]
  have hc1 : cl1'.cols = cl.cols := g.cols_eq.trans ecn
  have hr1 : cl1'.rows = cl.rows := g.rows_eq.trans ern
  refine ⟨cln, en, ?_, ?_, cl1', log, cl', elog, e', hm, ?_, ?_, ?_⟩
  · rw [← ecn]; exact hready.border_row
  · rw [← ecn, ← ern]; exact hready.border_col
  · rw [l.len, ern, ecn]
  · intro i hi
    rw [hm]
    apply l.frame
    intro r c hc hlt
    rw [ecn] at hc ⊢
    have hr : r < cl.rows := by
      have := (@done_all_iff cln.rows cln.cols (r, c)).1 ⟨by rw [ecn]; exact hc, by
        rw [ecn] at hlt ⊢; exact hlt⟩
      rw [← ern]; exact this.1
    exact hi r c hr hc
  · intro r c hr hc
    have hlt : label_of cln.cols r c < cln.rows * cln.cols :=
      (grid_facts hready.size_ok (by rw [ern]; exact hr) (by rw [ecn]; exact hc)).2.2
    obtain ⟨s, _, _, _, _, hlog⟩ := l.events r c (by rw [ecn]; exact hc) hlt
    rw [ecn] at hlog
    obtain ⟨j0, j1, j2, j3⟩ := @cell_event_spec_joins cl1' r c s
      (by rw [hc1, hr1]; exact h.size_ok) (by rw [hr1]; exact hr) (by rw [hc1]; exact hc)
    have hrc := map_index_row_col cl.cols r c hc
    have hlab : (cell_event_spec cl1' r c s).label = label_of cl.cols r c := by
      show label_of cl1'.cols r c = _; rw [hc1]
    have hw : (cell_event_spec cl1' r c s).map_write = map_index cl.cols r c := by
      show map_index cl1'.cols r c = _; rw [hc1]
    refine ⟨_, hlog, hlab, hw, by rw [hw]; exact hrc.1, by rw [hw]; exact hrc.2, j0, j1,
      by rw [← hc1]; exact j2, ?_⟩
    intro lb hlb
    rw [hlab, ← hc1] at hlb
    obtain ⟨q, q1, q2, q3, q4, q5⟩ := j3 lb hlb
    exact ⟨q, by rw [← hr1]; exact q1, by rw [← hc1]; exact q2, by rw [← hc1]; exact q3, q4,
      by rw [hcol, hcol]; exact q5⟩

/-- C29, instance: the 3 x 4 sample cluster. -/
theorem border_survives_witness :
    Ready sample_cluster_mixed ∧
    2 * (sample_cluster_mixed.rows * sample_cluster_mixed.cols) + 3 ≤ 27 ∧
    ∀ n, ∃ cln, iterate_n 27 n sample_cluster_mixed = some cln ∧
      (∀ i, i ≤ sample_cluster_mixed.cols → cln.map i = CLUSTER_NONE) ∧
      (∀ k, k ≤ sample_cluster_mixed.rows + 1 →
        cln.map (k * (sample_cluster_mixed.cols + 1)) = CLUSTER_NONE) ∧
      ∃ cl1 log cl', iterate_generate_log 27 cln = some (cl1, log) ∧
        iterate 27 cln = some cl' ∧ cl'.map = cl1.map ∧
        log.length = sample_cluster_mixed.rows * sample_cluster_mixed.cols ∧
        (∀ i, (∀ r c, r < sample_cluster_mixed.rows → c < sample_cluster_mixed.cols →
            i ≠ map_index sample_cluster_mixed.cols r c) →
          cl'.map i = cln.map i) ∧
        (∀ r c, r < sample_cluster_mixed.rows → c < sample_cluster_mixed.cols →
          ∃ e, log[label_of sample_cluster_mixed.cols r c]? = some e ∧
            e.label = label_of sample_cluster_mixed.cols r c ∧
            e.map_write = map_index sample_cluster_mixed.cols r c ∧
            e.map_write / (sample_cluster_mixed.cols + 1) = r + 1 ∧
            e.map_write % (sample_cluster_mixed.cols + 1) = c + 1 ∧
            (r = 0 → e.joins.testBit 1 = false ∧ e.joins.testBit 2 = false ∧
              e.joins.testBit 3 = false) ∧
            (c = 0 → e.joins.testBit 0 = false ∧ e.joins.testBit 2 = false) ∧
            (c + 1 = sample_cluster_mixed.cols → e.joins.testBit 3 = false) ∧
            (∀ l, l ∈ join_labels sample_cluster_mixed.cols e.label (e.joins.testBit 0)
                (e.joins.testBit 1) (e.joins.testBit 2) (e.joins.testBit 3) →
              ∃ q : Nat × Nat, q.1 < sample_cluster_mixed.rows ∧
                q.2 < sample_cluster_mixed.cols ∧
                l = label_of sample_cluster_mixed.cols q.1 q.2 ∧
                (OrthAdj (r, c) q ∨ DiagAdj (r, c) q) ∧
                color_at cl' q.1 q.2 = color_at cl' r c)) :=
  ⟨ready_seeded _ _ _ (by decide) (by decide) (by decide) (by decide) (by decide), by decide,
    border_survives sample_cluster_mixed
      (ready_seeded _ _ _ (by decide) (by decide) (by decide) (by decide) (by decide))
      27 (by decide)⟩

theorem drawn_color_max (s : Nat) {limit : Nat} (h : 2 ^ 64 - 1 ≤ limit) :
    drawn_color s limit = CLUSTER_BLACK := by
  unfold drawn_color
  rw [if_pos]
  have : u64 (xorshift_round s * 2685821657736338717) < 2 ^ 64 := Nat.mod_lt _ (by norm_num)
  omega

theorem drawn_color_zero {s : Nat} (hs : s ≠ 0) (hlt : s < 2 ^ 64) :
    drawn_color s 0 = CLUSTER_WHITE := by
  unfold drawn_color
  have hx := xorshift_round_ne_zero hs hlt
  have := mul_const_ne_zero hx.1 hx.2
  rw [if_neg (by omega)]

/-- One call of `iterate` on a ready cluster returns, and the colour of every cell is the
result of a draw with the limit `p_black` on a nonzero generator state. -/
theorem iterate_colors {cl : cluster} (h : Ready cl) {fuel : Nat}
    (hf : 2 * (cl.rows * cl.cols) + 3 ≤ fuel) :
    ∃ cl', iterate fuel cl = some cl' ∧ IterPost cl cl' ∧
      ∀ r c, r < cl.rows → c < cl.cols →
        ∃ s, s ≠ 0 ∧ s < 2 ^ 64 ∧ color_at cl' r c = drawn_color s cl.p_black := by
  obtain ⟨cl1, rt, cl2, cl', e1, g, _, cnt, e', post, _, hmap, _⟩ := iterate_run_shape h hf
  obtain ⟨cl1', log, _, _, e1', _, l⟩ :=
    iterate_generate_log_spec h (show cl.rows * cl.cols + 2 ≤ fuel by omega)
  have hcl : cl1' = cl1 := Option.some.inj (e1'.symm.trans e1)
  subst hcl
  refine ⟨cl', e', post, ?_⟩
  intro r c hr hc
  obtain ⟨s, s0, s1, _, s3, _⟩ := l.events r c hc (grid_facts h.size_ok hr hc).2.2
  refine ⟨s, s0, s1, ?_⟩
  rw [← s3]
  unfold color_at
  rw [hmap, cnt.map_eq, post.cols_eq.trans g.cols_eq.symm]

/-- In a grid whose cells all have the same colour, every cell has the parent entry of cell 0. -/
theorem uniform_one_root {cl cl' : cluster} (post : IterPost cl cl') {X : Nat}
    (hall : ∀ r c, r < cl.rows → c < cl.cols → color_at cl' r c = X) :
    ∀ r c, r < cl.rows → c < cl.cols → cl'.djs (label_of cl.cols r c) = cl'.djs 0 := by
  have hdone : ∀ r c, r < cl.rows → c < cl.cols → Done cl'.cols (cl.rows * cl.cols) (r, c) := by
    intro r c hr hc
    rw [post.cols_eq]
    exact (@done_all_iff cl.rows cl.cols (r, c)).2 ⟨hr, hc⟩
  have hrow : ∀ c, c < cl.cols → cl'.djs (label_of cl.cols 0 c) = cl'.djs 0 := by
    intro c
    induction c with
    | zero => intro _; simp [label_of]
    | succ c ih =>
      intro hc
      have hr0 : 0 < cl.rows := post.ready.rows_pos.trans_eq post.rows_eq
      have := post.complete (0, c) (0, c + 1)
        ⟨hdone 0 c hr0 (by omega), hdone 0 (c + 1) hr0 hc,
          by rw [hall 0 c hr0 (by omega), hall 0 (c + 1) hr0 hc], Or.inl (Or.inl ⟨rfl, Or.inl rfl⟩)⟩
      rw [← this]
      exact ih (by omega)
  intro r
  induction r with
  | zero => intro c _ hc; exact hrow c hc
  | succ r ih =>
    intro c hr hc
    have := post.complete (r, c) (r + 1, c)
      ⟨hdone r c (by omega) hc, hdone (r + 1) c hr hc,
        by rw [hall r c (by omega) hc, hall (r + 1) c hr hc], Or.inl (Or.inr ⟨rfl, Or.inl rfl⟩)⟩
    rw [← this]
    exact ih c (by omega) hc

/-- Counting the classes of a partition with a single class and a single colour. -/
theorem one_class_count {n ρ X : Nat} {djs col : Nat → Nat} (hρ : ρ < n)
    (hall : ∀ i, i < n → djs i = ρ) (hcol : ∀ i, i < n → col i = X) (color k : Nat) :
    (List.range n).countP
        (fun x => djs x == x && col x == color &&
          (List.range n).countP (fun i => djs i == x) == k) =
      if X = color ∧ n = k then 1 else 0 := by
  have hsize : (List.range n).countP (fun i => djs i == ρ) = n := by
    rw [List.countP_eq_length.2]
    · simp
    · intro i hi
      simp [hall i (List.mem_range.1 hi)]
  by_cases hc : X = color ∧ n = k
  · rw [if_pos hc]
    have : (List.range n).countP
        (fun x => djs x == x && col x == color &&
          (List.range n).countP (fun i => djs i == x) == k) = (List.range n).count ρ := by
      unfold List.count
      apply List.countP_congr
      intro x hx
      have hx' := List.mem_range.1 hx
      simp only [Bool.and_eq_true, beq_iff_eq, hall x hx', hcol x hx']
      constructor
      · rintro ⟨⟨h1, _⟩, _⟩; exact h1.symm
      · intro h1
        subst h1
        exact ⟨⟨rfl, hc.1⟩, by rw [hsize]; exact hc.2⟩
    rw [this]
    exact List.count_eq_one_of_mem (List.nodup_range n) (List.mem_range.2 hρ)
  · rw [if_neg hc]
    apply List.countP_eq_zero.2
    intro x hx
    have hx' := List.mem_range.1 hx
    simp only [Bool.and_eq_true, beq_iff_eq, hall x hx', hcol x hx']
    rintro ⟨⟨h1, h2⟩, h3⟩
    rw [← h1, hsize] at h3
    exact hc ⟨h2, h3⟩

/-- One call of `iterate` on a freshly initialised cluster that colours every cell `X`:
each histogram has a single cluster of size `rows * cols` if it is the histogram of
`X` and is empty otherwise, and likewise for the spans counters. -/
theorem uniform_result {cl cl' : cluster} (post : IterPost cl cl') {X : Nat}
    (hall : ∀ r c, r < cl.rows → c < cl.cols → color_at cl' r c = X)
    (hw : ∀ i, cl.white_histogram i = 0) (hb : ∀ i, cl.black_histogram i = 0)
    (hws : cl.white_spans = 0) (hbs : cl.black_spans = 0) :
    (∀ r c, r < cl.rows → c < cl.cols → cl'.djs (label_of cl.cols r c) = cl'.djs 0) ∧
    (∀ i, i ≤ cl.rows * cl.cols + 1 →
      cl'.white_histogram i = if X = CLUSTER_WHITE ∧ i = cl.rows * cl.cols then 1 else 0) ∧
    (∀ i, i ≤ cl.rows * cl.cols + 1 →
      cl'.black_histogram i = if X = CLUSTER_BLACK ∧ i = cl.rows * cl.cols then 1 else 0) ∧
    cl'.white_spans = (if X = CLUSTER_WHITE then 1 else 0) ∧
    cl'.black_spans = (if X = CLUSTER_BLACK then 1 else 0) := by
  have hr0 : 0 < cl.rows := post.ready.rows_pos.trans_eq post.rows_eq
  have hc0 : 0 < cl.cols := post.ready.cols_pos.trans_eq post.cols_eq
  have hn : 0 < cl.rows * cl.cols := Nat.mul_pos hr0 hc0
  have hroot := uniform_one_root post hall
  have hdjs : ∀ i, i < cl.rows * cl.cols → cl'.djs i = cl'.djs 0 := by
    intro i hi
    obtain ⟨k1, k2, k3⟩ := label_cell hi
    rw [← k3]; exact hroot _ _ k1 k2
  have hρ : cl'.djs 0 < cl.rows * cl.cols := post.flat.lt 0 hn
  have hlc : ∀ i, i < cl.rows * cl.cols → label_color cl' i = X := by
    intro i hi
    obtain ⟨k1, k2, _⟩ := label_cell hi
    unfold label_color
    rw [post.cols_eq]
    exact hall _ _ k1 k2
  have hcount : ∀ color k, cluster_count cl' color k =
      if X = color ∧ cl.rows * cl.cols = k then 1 else 0 := by
    intro color k
    unfold cluster_count cluster_size
    rw [post.rows_eq, post.cols_eq]
    exact one_class_count hρ hdjs hlc color k
  have hspan : ∀ color, (SpansRows cl' color ∨ SpansCols cl' color) ↔ X = color := by
    intro color
    constructor
    · rintro (⟨r1, _, h1, _, h2, _⟩ | ⟨c1, _, h1, _, h2, _⟩)
      · rw [post.rows_eq] at h1
        rw [← h2]; exact (hall r1 0 h1 hc0).symm
      · rw [post.cols_eq] at h1
        rw [← h2]; exact (hall 0 c1 hr0 h1).symm
    · intro e
      left
      refine ⟨0, 0, by rw [post.rows_eq]; exact hr0, by rw [post.rows_eq]; exact hr0, ?_, ?_, ?_⟩
      · rw [← e]; exact hall 0 0 hr0 hc0
      · rw [← e, post.cols_eq]; exact hall 0 _ hr0 (by omega)
      · rw [post.cols_eq, hroot 0 0 hr0 hc0, hroot 0 (cl.cols - 1) hr0 (by omega)]
  have hu : u64 (0 + 1) = 1 := by decide
  refine ⟨hroot, ?_, ?_, ?_, ?_⟩
  · intro i hi
    rcases Nat.eq_zero_or_pos i with h0 | h0
    · subst h0
      rw [post.white_zero.1, if_neg (by omega)]
    · rcases Nat.lt_or_ge (cl.rows * cl.cols) i with h1 | h1
      · have : i = cl.rows * cl.cols + 1 := by omega
        subst this
        rw [post.white_zero.2, if_neg (by omega)]
      · have hle : cluster_count cl' CLUSTER_WHITE i ≤ 1 := by
          rw [hcount]; split <;> omega
        rw [post.white_hist i h0 h1 (by rw [hw]; omega), hw, Nat.zero_add, hcount]
        by_cases hc : X = CLUSTER_WHITE ∧ i = cl.rows * cl.cols
        · rw [if_pos hc, if_pos ⟨hc.1, hc.2.symm⟩]
        · rw [if_neg hc, if_neg (fun k => hc ⟨k.1, k.2.symm⟩)]
  · intro i hi
    rcases Nat.eq_zero_or_pos i with h0 | h0
    · subst h0
      rw [post.black_zero.1, if_neg (by omega)]
    · rcases Nat.lt_or_ge (cl.rows * cl.cols) i with h1 | h1
      · have : i = cl.rows * cl.cols + 1 := by omega
        subst this
        rw [post.black_zero.2, if_neg (by omega)]
      · have hle : cluster_count cl' CLUSTER_BLACK i ≤ 1 := by
          rw [hcount]; split <;> omega
        rw [post.black_hist i h0 h1 (by rw [hb]; omega), hb, Nat.zero_add, hcount]
        by_cases hc : X = CLUSTER_BLACK ∧ i = cl.rows * cl.cols
        · rw [if_pos hc, if_pos ⟨hc.1, hc.2.symm⟩]
        · rw [if_neg hc, if_neg (fun k => hc ⟨k.1, k.2.symm⟩)]
  · by_cases hc : X = CLUSTER_WHITE
    · rw [if_pos hc, post.white_span.1 ((hspan _).2 hc), hws, hu]
    · rw [if_neg hc, post.white_span.2 (fun k => hc ((hspan _).1 k)), hws]
  · by_cases hc : X = CLUSTER_BLACK
    · rw [if_pos hc, post.black_span.1 ((hspan _).2 hc), hbs, hu]
    · rw [if_neg hc, post.black_span.2 (fun k => hc ((hspan _).1 k)), hbs]

/-- The function `init_cluster` always leaves a cluster structure behind when it is given one. -/
theorem init_cluster_snd (calloc : Nat → Bool) (c : cluster_obj) (rows cols : Int)
    (p_black d_white d_black : ℚ) :
    ∃ o, (init_cluster calloc (some c) rows cols p_black d_white d_black).2 = some o := by
  simp only [init_cluster]
  split_ifs <;> exact ⟨_, rfl⟩

/-- A successful `init_cluster` seeded with a nonzero state, followed by one `iterate`. -/
theorem init_then_iterate {calloc : Nat → Bool} {c : cluster_obj} {rows cols : Int}
    {p_black d_white d_black : ℚ} {seed fuel : Nat} (hr : rows < 2 ^ 31) (hc : cols < 2 ^ 31)
    (hs : seed ≠ 0) (hlt : seed < 2 ^ 64)
    (hinit : (init_cluster calloc (some c) rows cols p_black d_white d_black).1 = 0)
    (hf : 2 * (rows.toNat * cols.toNat) + 3 ≤ fuel) :
    ∃ o cl0 cl', (init_cluster calloc (some c) rows cols p_black d_white d_black).2 = some o ∧
      o.seeded seed = some cl0 ∧ iterate fuel cl0 = some cl' ∧ IterPost cl0 cl' ∧
      cl0.rows = rows.toNat ∧ cl0.cols = cols.toNat ∧
      cl0.white_spans = 0 ∧ cl0.black_spans = 0 ∧
      (∀ i, cl0.white_histogram i = 0) ∧ (∀ i, cl0.black_histogram i = 0) ∧
      ∀ r c, r < rows.toNat → c < cols.toNat →
        ∃ s, s ≠ 0 ∧ s < 2 ^ 64 ∧ color_at cl' r c = drawn_color s (probability_limit p_black) := by
  obtain ⟨o, ho⟩ := init_cluster_snd calloc c rows cols p_black d_white d_black
  have hpair : init_cluster calloc (some c) rows cols p_black d_white d_black = (0, some o) :=
    Prod.ext hinit ho
  obtain ⟨cl0, e0, hready, _, er, ec, ep, _, _, _, ews, ebs, hw, hb⟩ :=
    init_cluster_ready hr hc hpair hs hlt
  obtain ⟨cl', e', post, hcolors⟩ := iterate_colors hready
    (show 2 * (cl0.rows * cl0.cols) + 3 ≤ fuel by rw [er, ec]; exact hf)
  refine ⟨o, cl0, cl', ho, e0, e', post, er, ec, ews, ebs, hw, hb, ?_⟩
  intro r c h1 h2
  rw [← ep]
  exact hcolors r c (by rw [er]; exact h1) (by rw [ec]; exact h2)

/-- C22 (Scenario A): for every nonzero 64-bit seed and any diagonal probabilities, a
successful `init_cluster` with `rows = cols = 1` and `p_black = 1.0` followed by one
`iterate` colours the cell black and gives `black_histogram[1] = 1`, every other
black bin 0, every white bin 0 (bins 0 to 2 are the allocated ones), `black_spans = 1`
and `white_spans = 0`. -/
theorem scenario_single_black (calloc : Nat → Bool) (c : cluster_obj) (d_white d_black : ℚ)
    (seed fuel : Nat) (hs : seed ≠ 0) (hlt : seed < 2 ^ 64)
    (hinit : (init_cluster calloc (some c) 1 1 1 d_white d_black).1 = 0) (hf : 5 ≤ fuel) :
    ∃ o cl0 cl', (init_cluster calloc (some c) 1 1 1 d_white d_black).2 = some o ∧
      o.seeded seed = some cl0 ∧ iterate fuel cl0 = some cl' ∧
      color_at cl' 0 0 = CLUSTER_BLACK ∧ cl'.black_histogram 1 = 1 ∧
      (∀ i, i ≤ 2 → i ≠ 1 → cl'.black_histogram i = 0) ∧
      (∀ i, i ≤ 2 → cl'.white_histogram i = 0) ∧ cl'.black_spans = 1 ∧ cl'.white_spans = 0 := by
  obtain ⟨o, cl0, cl', ho, e0, e', post, er, ec, ews, ebs, hw, hb, hcolors⟩ :=
    @init_then_iterate calloc c 1 1 1 d_white d_black seed fuel (by norm_num) (by norm_num)
      hs hlt hinit (show 2 * ((1 : Int).toNat * (1 : Int).toNat) + 3 ≤ fuel by simpa using hf)
  have er' : cl0.rows = 1 := by simpa using er
  have ec' : cl0.cols = 1 := by simpa using ec
  have hall : ∀ r c, r < cl0.rows → c < cl0.cols → color_at cl' r c = CLUSTER_BLACK := by
    intro r c h1 h2
    obtain ⟨s, _, _, hcol⟩ := hcolors r c (by simpa [er'] using h1) (by simpa [ec'] using h2)
    rw [hcol, probability_limit_of_one_le (le_refl _)]
    exact drawn_color_max s (le_refl _)
  obtain ⟨_, uw, ub, uws, ubs⟩ := uniform_result post hall hw hb ews ebs
  rw [er', ec'] at uw ub
  have hne : CLUSTER_BLACK ≠ CLUSTER_WHITE := by decide
  refine ⟨o, cl0, cl', ho, e0, e', hall 0 0 (by omega) (by omega), ?_, ?_, ?_, ?_, ?_⟩
  · rw [ub 1 (by omega), if_pos ⟨rfl, rfl⟩]
  · intro i hi hne1
    rw [ub i (by omega), if_neg (fun k => hne1 k.2)]
  · intro i hi
    rw [uw i (by omega), if_neg (fun k => hne k.1)]
  · rw [ubs, if_pos rfl]
  · rw [uws, if_neg hne]

/-- C22, instance: seed 1 with every allocation succeeding and both diagonal probabilities 0. -/
theorem scenario_single_black_witness :
    (1 : Nat) ≠ 0 ∧ (1 : Nat) < 2 ^ 64 ∧
    (init_cluster (fun _ => true) (some CLUSTER_INITIALIZER) 1 1 1 0 0).1 = 0 ∧ 5 ≤ 5 ∧
    ∃ o cl0 cl', (init_cluster (fun _ => true) (some CLUSTER_INITIALIZER) 1 1 1 0 0).2 = some o ∧
      o.seeded 1 = some cl0 ∧ iterate 5 cl0 = some cl' ∧
      color_at cl' 0 0 = CLUSTER_BLACK ∧ cl'.black_histogram 1 = 1 ∧
      (∀ i, i ≤ 2 → i ≠ 1 → cl'.black_histogram i = 0) ∧
      (∀ i, i ≤ 2 → cl'.white_histogram i = 0) ∧ cl'.black_spans = 1 ∧ cl'.white_spans = 0 :=
  ⟨by decide, by decide, by decide, by decide,
    scenario_single_black (fun _ => true) CLUSTER_INITIALIZER 0 0 1 5 (by decide) (by decide)
      (by decide) (by decide)⟩

/-- C23 (Scenario B, every grid size): for every nonzero 64-bit seed, a successful
`init_cluster` with `p_black = 0.0` and both diagonal probabilities `0.0` followed by one
`iterate` colours every cell white and gives every cell the same root;
`white_histogram[R*C] = 1` and every other white bin is 0, `white_spans = 1`, every
black bin is 0 and `black_spans = 0` (bins 0 to `R*C + 1` are the allocated ones). -/
theorem scenario_all_white (calloc : Nat → Bool) (c : cluster_obj) (rows cols : Int)
    (seed fuel : Nat) (hr : rows < 2 ^ 31) (hc : cols < 2 ^ 31) (hs : seed ≠ 0)
    (hlt : seed < 2 ^ 64) (hinit : (init_cluster calloc (some c) rows cols 0 0 0).1 = 0)
    (hf : 2 * (rows.toNat * cols.toNat) + 3 ≤ fuel) :
    ∃ o cl0 cl', (init_cluster calloc (some c) rows cols 0 0 0).2 = some o ∧
      o.seeded seed = some cl0 ∧ iterate fuel cl0 = some cl' ∧
      (∀ r c, r < rows.toNat → c < cols.toNat →
        color_at cl' r c = CLUSTER_WHITE ∧ cl'.djs (label_of cols.toNat r c) = cl'.djs 0) ∧
      cl'.white_histogram (rows.toNat * cols.toNat) = 1 ∧
      (∀ i, i ≤ rows.toNat * cols.toNat + 1 → i ≠ rows.toNat * cols.toNat →
        cl'.white_histogram i = 0) ∧
      cl'.white_spans = 1 ∧
      (∀ i, i ≤ rows.toNat * cols.toNat + 1 → cl'.black_histogram i = 0) ∧
      cl'.black_spans = 0 := by
  obtain ⟨o, cl0, cl', ho, e0, e', post, er, ec, ews, ebs, hw, hb, hcolors⟩ :=
    init_then_iterate hr hc hs hlt hinit hf
  have hall : ∀ r c, r < cl0.rows → c < cl0.cols → color_at cl' r c = CLUSTER_WHITE := by
    intro r c h1 h2
    obtain ⟨s, s0, s1, hcol⟩ := hcolors r c (by rw [← er]; exact h1) (by rw [← ec]; exact h2)
    rw [hcol, probability_limit_of_le_zero (le_refl _)]
    exact drawn_color_zero s0 s1
  obtain ⟨uroot, uw, ub, uws, ubs⟩ := uniform_result post hall hw hb ews ebs
  rw [er, ec] at uw ub uroot
  have hne : CLUSTER_WHITE ≠ CLUSTER_BLACK := by decide
  refine ⟨o, cl0, cl', ho, e0, e', ?_, ?_, ?_, ?_, ?_, ?_⟩
  · intro r c h1 h2
    exact ⟨hall r c (by rw [er]; exact h1) (by rw [ec]; exact h2),
      uroot r c h1 h2⟩
  · rw [uw _ (by omega), if_pos ⟨rfl, rfl⟩]
  · intro i hi hne1
    rw [uw i hi, if_neg (fun k => hne1 k.2)]
  · rw [uws, if_pos rfl]
  · intro i hi
    rw [ub i hi, if_neg (fun k => hne k.1)]
  · rw [ubs, if_neg hne]

/-- C23, instance: the 2 x 2 grid with seed 1; one white cluster of size 4. -/
theorem scenario_all_white_witness :
    (2 : Int) < 2 ^ 31 ∧ (1 : Nat) ≠ 0 ∧ (1 : Nat) < 2 ^ 64 ∧
    (init_cluster (fun _ => true) (some CLUSTER_INITIALIZER) 2 2 0 0 0).1 = 0 ∧
    2 * ((2 : Int).toNat * (2 : Int).toNat) + 3 ≤ 11 ∧
    ∃ o cl0 cl', (init_cluster (fun _ => true) (some CLUSTER_INITIALIZER) 2 2 0 0 0).2 = some o ∧
      o.seeded 1 = some cl0 ∧ iterate 11 cl0 = some cl' ∧
      (∀ r c, r < (2 : Int).toNat → c < (2 : Int).toNat →
        color_at cl' r c = CLUSTER_WHITE ∧ cl'.djs (label_of (2 : Int).toNat r c) = cl'.djs 0) ∧
      cl'.white_histogram ((2 : Int).toNat * (2 : Int).toNat) = 1 ∧
      (∀ i, i ≤ (2 : Int).toNat * (2 : Int).toNat + 1 → i ≠ (2 : Int).toNat * (2 : Int).toNat →
        cl'.white_histogram i = 0) ∧
      cl'.white_spans = 1 ∧
      (∀ i, i ≤ (2 : Int).toNat * (2 : Int).toNat + 1 → cl'.black_histogram i = 0) ∧
      cl'.black_spans = 0 :=
  ⟨by decide, by decide, by decide, by decide, by decide,
    scenario_all_white (fun _ => true) CLUSTER_INITIALIZER 2 2 1 11 (by decide) (by decide)
      (by decide) (by decide) (by decide) (by decide)⟩

theorem churn_eq_iterate (rounds : Nat) : ∀ state, churn rounds state = xorshift_round^[rounds] state := by
  induction rounds with
  | zero => intro state; rfl
  | succ n ih => intro state; rw [churn, ih, Function.iterate_succ_apply]

theorem churn_succ (rounds state : Nat) :
    churn (rounds + 1) state = xorshift_round (churn rounds state) := by
  rw [churn_eq_iterate, churn_eq_iterate, Function.iterate_succ_apply']

/-- The warm-up rounds map nonzero 64-bit states to nonzero 64-bit states. -/
theorem churn_ne_zero (rounds : Nat) :
    ∀ {state : Nat}, state ≠ 0 → state < 2 ^ 64 →
      churn rounds state ≠ 0 ∧ churn rounds state < 2 ^ 64 := by
  induction rounds with
  | zero => intro state h1 h2; exact ⟨h1, h2⟩
  | succ n ih =>
    intro state h1 h2
    have hx := xorshift_round_ne_zero h1 h2
    exact ih hx.1 hx.2

theorem time_mix_lt (time clock : Nat) : time_mix time clock < 2 ^ 64 :=
  Nat.xor_lt_two_pow (Nat.mod_lt _ (by norm_num)) (Nat.mod_lt _ (by norm_num))

/-- The state the warm-up starts from is a nonzero 64-bit value. -/
theorem seed_start_ne_zero (time clock : Nat) :
    (if time_mix time clock = 0 then 1 else time_mix time clock) ≠ 0 ∧
      (if time_mix time clock = 0 then 1 else time_mix time clock) < 2 ^ 64 := by
  have := time_mix_lt time clock
  split <;> omega

/-- C38: for every pair of `time()` and `clock()` values, `randomize` and `prng_init` produce
a nonzero 64-bit state; when the raw mix is zero (as for `time = clock = 0`) the
warm-up starts from the fixed value 1; and the warm-up rounds map nonzero states to
nonzero states. -/
theorem seeding_never_zero (time clock : Nat) :
    randomize time clock ≠ 0 ∧ randomize time clock < 2 ^ 64 ∧
    prng_init time clock ≠ 0 ∧ prng_init time clock < 2 ^ 64 ∧
    (time_mix time clock = 0 →
      randomize time clock = churn 127 1 ∧ prng_init time clock = churn 128 1) ∧
    time_mix 0 0 = 0 ∧
    (∀ rounds state, state ≠ 0 → state < 2 ^ 64 →
      churn rounds state ≠ 0 ∧ churn rounds state < 2 ^ 64) := by
  have h := seed_start_ne_zero time clock
  have r := @churn_ne_zero 127 _ h.1 h.2
  have p := @churn_ne_zero 128 _ h.1 h.2
  refine ⟨r.1, r.2, p.1, p.2, ?_, by decide, fun rounds state h1 h2 => churn_ne_zero rounds h1 h2⟩
  intro h0
  show churn 127 (if time_mix time clock = 0 then 1 else time_mix time clock) = _ ∧
    churn 128 (if time_mix time clock = 0 then 1 else time_mix time clock) = _
  rw [if_pos h0]
  exact ⟨rfl, rfl⟩

set_option maxRecDepth 100000 in
/-- C39 (as stated, refuted): for `time() = 1` and `clock() = 0`, `randomize` returns
5161176721825604695 and `prng_init` stores 9671141916973324801. -/
theorem seeding_rounds_differ :
    randomize 1 0 = 5161176721825604695 ∧ prng_init 1 0 = 9671141916973324801 ∧
      randomize 1 0 ≠ prng_init 1 0 := by
  decide

/-- C39 (amended): `randomize` applies 127 warm-up rounds and `prng_init` applies 128 to the
same starting state, so for the same `time()` and `clock()` values the state of
`prng_init` is the state of `randomize` advanced by one more round. -/
theorem seeding_rounds_offset (time clock : Nat) :
    randomize time clock =
      xorshift_round^[127] (if time_mix time clock = 0 then 1 else time_mix time clock) ∧
    prng_init time clock =
      xorshift_round^[128] (if time_mix time clock = 0 then 1 else time_mix time clock) ∧
    prng_init time clock = xorshift_round (randomize time clock) := by
  refine ⟨churn_eq_iterate _ _, churn_eq_iterate _ _, ?_⟩
  exact churn_succ 127 _

/-- The function `prng_set_seed` on a string, in terms of the digits after the leading
whitespace and the number they denote. -/
theorem prng_set_seed_eq (rng : Nat) (s : List Nat) :
    prng_set_seed rng (some s) =
      (if s = [] ∨ seed_digits s = [] ∨ 2 ^ 64 ≤ digits_value (seed_digits s) ∨
          digits_value (seed_digits s) = 0
        then (none, rng) else (some (seed_rest s), digits_value (seed_digits s))) := by
  by_cases h0 : s.headD 0 = 0
  · have : s = [] ∨ seed_digits s = [] := by
      cases s with
      | nil => exact Or.inl rfl
      | cons ch rest =>
        right
        have : ch = 0 := h0
        subst this
        rfl
    rw [if_pos (by tauto)]
    show (if s.headD 0 = 0 then ((none : Option (List Nat)), rng) else _) = _
    rw [if_pos h0]
  · have hne : s ≠ [] := by rintro rfl; exact h0 rfl
    show (if s.headD 0 = 0 then ((none : Option (List Nat)), rng) else _) = _
    rw [if_neg h0, skip_space_eq]
    refine (set_seed_after_space rng (s.dropWhile is_space)).trans ?_
    unfold seed_digits seed_rest
    by_cases hc : (s.dropWhile is_space).takeWhile is_digit = [] ∨
        2 ^ 64 ≤ digits_value ((s.dropWhile is_space).takeWhile is_digit) ∨
        digits_value ((s.dropWhile is_space).takeWhile is_digit) = 0
    · rw [if_pos hc, if_pos (Or.inr hc)]
    · rw [if_neg hc, if_neg (by rintro (h | h); exact hne h; exact hc h)]

/-- A character the loop of `prng_get_seed` stores is a decimal digit, and not whitespace. -/
theorem digit_char (d : Nat) (h : d < 10) :
    is_digit (48 + d) = true ∧ is_space (48 + d) = false ∧ 48 + d - 48 = d := by
  interval_cases d <;> decide

/-- The loop of `prng_get_seed` returns when the state has at most `fuel` decimal digits;
it stores at most as many characters as the state has digits, all of them digits,
and the string denotes the state in front of what was stored before. -/
theorem prng_get_seed_loop_spec :
    ∀ (fuel k state : Nat) (written : List Nat), state < 10 ^ k → 1 ≤ k → k ≤ fuel →
      (∀ ch, ch ∈ written → is_digit ch = true) →
      ∃ s, prng_get_seed_loop fuel state written = some s ∧
        s.length ≤ written.length + k ∧ written.length < s.length ∧
        (∀ ch, ch ∈ s → is_digit ch = true) ∧
        (∀ v, s.foldl (fun v ch => 10 * v + (ch - 48)) v =
          written.foldl (fun v ch => 10 * v + (ch - 48))
            (10 ^ (s.length - written.length) * v + state)) := by
  intro fuel
  induction fuel with
  | zero => intro k state written _ h1 h2; omega
  | succ n ih =>
    intro k state written hlt hk hkf hw
    have hd := digit_char (state % 10) (Nat.mod_lt _ (by norm_num))
    have hw1 : ∀ ch, ch ∈ (48 + state % 10) :: written → is_digit ch = true := by
      intro ch hch
      rcases List.mem_cons.1 hch with h | h
      · rw [h]; exact hd.1
      · exact hw ch h
    by_cases h0 : state / 10 = 0
    · refine ⟨(48 + state % 10) :: written, ?_, ?_, ?_, hw1, ?_⟩
      · rw [prng_get_seed_loop]
        simp only [ne_eq, h0, not_true_eq_false, if_false]
      · simp only [List.length_cons]; omega
      · simp
      · intro v
        have : state % 10 = state := by omega
        simp only [List.foldl_cons, List.length_cons, hd.2.2]
        rw [this]
        have : written.length + 1 - written.length = 1 := by omega
        rw [this, pow_one]
    · obtain ⟨j, rfl⟩ : ∃ j, k = j + 1 := ⟨k - 1, by omega⟩
      have hj : 1 ≤ j := by
        rcases Nat.eq_zero_or_pos j with h | h
        · subst h; simp at hlt; omega
        · exact h
      have hlt' : state / 10 < 10 ^ j := by
        rw [Nat.div_lt_iff_lt_mul (by norm_num)]
        rw [pow_succ] at hlt; exact hlt
      obtain ⟨s, e, l1, l2, hs, hv⟩ :=
        ih j (state / 10) ((48 + state % 10) :: written) hlt' hj (by omega) hw1
      refine ⟨s, ?_, ?_, ?_, hs, ?_⟩
      · rw [prng_get_seed_loop]
        simp only [ne_eq, h0, not_false_eq_true, if_true]
        exact e
      · simp only [List.length_cons] at l1; omega
      · simp only [List.length_cons] at l2; omega
      · intro v
        rw [hv v]
        simp only [List.foldl_cons, List.length_cons, hd.2.2] at l2 ⊢
        congr 1
        have e1 : s.length - written.length = (s.length - (written.length + 1)) + 1 := by omega
        rw [e1, pow_succ]
        nlinarith [Nat.div_add_mod state 10]

/-- C40: for every nonzero 64-bit state `s`, `prng_get_seed` returns (fuel 20 suffices) a
string of at most 20 characters, all decimal digits, so that the characters and the
terminator take at most 21 of the 24 bytes of `prng_seed_string`; `prng_set_seed`
applied to that string returns the position of the terminator (the whole string is
consumed) and sets the state to `s`, whatever the state was before. -/
theorem seed_round_trip (s : Nat) (hs : s ≠ 0) (hlt : s < 2 ^ 64) (fuel : Nat)
    (hf : 20 ≤ fuel) (rng : Nat) :
    ∃ str, prng_get_seed fuel s = some (str, str.length + 1) ∧ 1 ≤ str.length ∧
      str.length ≤ 20 ∧ str.length + 1 ≤ 24 ∧ (∀ ch, ch ∈ str → is_digit ch = true) ∧
      prng_set_seed rng (some str) = (some [], s) := by
  obtain ⟨str, e, l1, l2, hd, hv⟩ := prng_get_seed_loop_spec fuel 20 s []
    (lt_trans hlt (by norm_num)) (by norm_num) hf (fun _ h => absurd h (List.not_mem_nil _))
  have hval : digits_value str = s := by
    have := hv 0
    simpa [digits_value] using this
  have hne : str ≠ [] := by
    intro h; rw [h] at l2; simp at l2
  have hsp : str.dropWhile is_space = str := by
    cases str with
    | nil => rfl
    | cons ch rest =>
      have h1 := hd ch (List.mem_cons_self _ _)
      have h2 : is_space ch = false := by
        simp only [is_digit, Bool.and_eq_true, decide_eq_true_eq] at h1
        simp only [is_space, Bool.or_eq_false_iff, beq_eq_false_iff_ne]
        omega
      exact List.dropWhile_cons_of_neg (by rw [h2]; simp)
  have htake : str.takeWhile is_digit = str := List.takeWhile_eq_self_iff.2 hd
  have hdrop : str.dropWhile is_digit = [] := List.dropWhile_eq_nil_iff.2 hd
  refine ⟨str, by simp [prng_get_seed, e], by simp only [List.length_nil] at l2; omega,
    by simpa using l1, by simp only [List.length_nil] at l1; omega, hd, ?_⟩
  rw [prng_set_seed_eq]
  unfold seed_digits seed_rest
  rw [hsp, htake, hdrop, hval, if_neg]
  rintro (h | h | h | h)
  · exact hne h
  · exact hne h
  · omega
  · exact hs h

/-- C40, instance: the largest state, `2^64 - 1`, whose string has 20 digits. -/
theorem seed_round_trip_witness :
    (18446744073709551615 : Nat) ≠ 0 ∧ (18446744073709551615 : Nat) < 2 ^ 64 ∧ 20 ≤ 20 ∧
    ∃ str, prng_get_seed 20 18446744073709551615 = some (str, str.length + 1) ∧
      1 ≤ str.length ∧ str.length ≤ 20 ∧ str.length + 1 ≤ 24 ∧
      (∀ ch, ch ∈ str → is_digit ch = true) ∧
      prng_set_seed 7 (some str) = (some [], 18446744073709551615) :=
  ⟨by decide, by decide, by decide,
    seed_round_trip 18446744073709551615 (by decide) (by decide) 20 (by decide) 7⟩

theorem u16_of_lt {x : Nat} (h : x < 2 ^ 16) : u16 x = x := Nat.mod_eq_of_lt h

theorem cell_index_eq (v : Nat) : CELL_INDEX v = v % 2 ^ 16 / 2 := by
  unfold CELL_INDEX u16
  rw [Nat.shiftRight_eq_div_pow, pow_one]

theorem cell_color_eq (v : Nat) : CELL_COLOR v = v % 2 := by
  unfold CELL_COLOR u16
  rw [Nat.and_one_is_mod]
  omega

/-- A packed value is twice the index plus the colour bit. -/
theorem cell_value_eq (i c : Nat) : CELL_VALUE i c = 2 * (i % 2 ^ 16) + c % 2 := by
  unfold CELL_VALUE u16
  rw [Nat.and_one_is_mod, Nat.shiftLeft_eq, pow_one]
  have h2 : c % 2 ^ 16 % 2 = c % 2 := by omega
  rw [h2]
  have := @Nat.mul_add_lt_is_or 1 (c % 2) (Nat.mod_lt _ (by norm_num)) (i % 2 ^ 16)
  rw [pow_one] at this
  rw [Nat.mul_comm (i % 2 ^ 16) 2, ← this]

/-- Packing and unpacking: for an index below `2^15` and a colour 0 or 1 the packed value
fits in a `cell` and gives back the index and the colour. -/
theorem cell_round_trip {i c : Nat} (hi : i < 2 ^ 15) (hc : c < 2) :
    CELL_VALUE i c = 2 * i + c ∧ CELL_VALUE i c < 2 ^ 16 ∧
      CELL_INDEX (CELL_VALUE i c) = i ∧ CELL_COLOR (CELL_VALUE i c) = c := by
  have e : CELL_VALUE i c = 2 * i + c := by
    rw [cell_value_eq]; omega
  refine ⟨e, by omega, ?_, ?_⟩
  · rw [cell_index_eq, e]; omega
  · rw [cell_color_eq, e]; omega

theorem same_color_iff (v1 v2 : Nat) : SAME_COLOR v1 v2 = true ↔ v1 % 2 = v2 % 2 := by
  unfold SAME_COLOR u16
  rw [beq_iff_eq, Nat.and_one_is_mod]
  have h : ∀ a b : Nat, (a ^^^ b) % 2 = (a % 2 + b % 2) % 2 := by
    intro a b
    have := Nat.testBit_xor a b 0
    simp only [Nat.testBit_zero] at this
    rcases Nat.mod_two_eq_zero_or_one a with ha | ha <;>
      rcases Nat.mod_two_eq_zero_or_one b with hb | hb <;>
      rcases Nat.mod_two_eq_zero_or_one (a ^^^ b) with hx | hx <;>
      simp [ha, hb, hx] at this ⊢
  rw [h]
  omega

/-- The size test of `matrix_init`: it rejects exactly the sizes whose square does not
fit in the 15 index bits of a `cell`. -/
theorem matrix_size_test {size : Nat} (h2 : 2 ≤ size) (hsz : size < 2 ^ 64) :
    (CELL_INDEX (u16 (CELL_VALUE (u64 (size * size)) 0)) / size ≠ size ∨
      u64 (u64 (size * size) * 2) / size / 2 ≠ size) ↔ 2 ^ 15 ≤ size * size := by
  have hcells : CELL_INDEX (u16 (CELL_VALUE (u64 (size * size)) 0)) =
      u64 (size * size) % 2 ^ 15 := by
    rw [cell_index_eq, cell_value_eq]
    unfold u16 u64
    omega
  rw [hcells]
  constructor
  · intro h
    by_contra hlt
    have hn : size * size < 2 ^ 15 := by omega
    have e1 : u64 (size * size) = size * size := by unfold u64; omega
    have e2 : u64 (size * size * 2) = size * size * 2 := by unfold u64; omega
    rw [e1, e2] at h
    have e3 : size * size % 2 ^ 15 = size * size := Nat.mod_eq_of_lt hn
    have e4 : size * size / size = size := Nat.mul_div_cancel _ (by omega)
    have e5 : size * size * 2 / size = size * 2 := by
      rw [Nat.mul_assoc, Nat.mul_div_cancel_left _ (by omega)]
    rw [e3, e4, e5] at h
    omega
  · intro h
    left
    have : u64 (size * size) % 2 ^ 15 < size * size := by
      have := Nat.mod_lt (u64 (size * size)) (show 0 < 2 ^ 15 by norm_num)
      omega
    have := (Nat.div_lt_iff_lt_mul (show 0 < size by omega)).2 this
    omega

/-- The squares that fit in 15 bits are those of the sizes up to 181. -/
theorem square_fits_iff (size : Nat) : size * size < 2 ^ 15 ↔ size ≤ 181 := by
  constructor
  · intro h
    by_contra hgt
    have : 182 * 182 ≤ size * size := Nat.mul_le_mul (by omega) (by omega)
    omega
  · intro h
    have : size * size ≤ 181 * 181 := Nat.mul_le_mul h h
    omega

/-- The value `matrix_init` returns for a non-null matrix. -/
theorem matrix_init_code (calloc : Nat → Bool) (time clock : Nat) (m : matrix)
    (size statistics : Nat) (hsz : size < 2 ^ 64) :
    (size < 2 → (matrix_init calloc time clock (some m) size statistics).1 = 2) ∧
    (2 ≤ size → 2 ^ 15 ≤ size * size →
      (matrix_init calloc time clock (some m) size statistics).1 = 3) ∧
    (2 ≤ size → size * size < 2 ^ 15 →
      (matrix_init calloc time clock (some m) size statistics).1 = 4 ∨
      (matrix_init calloc time clock (some m) size statistics).1 = 0) := by
  refine ⟨?_, ?_, ?_⟩
  · intro h
    simp only [matrix_init, if_pos h]
  · intro h2 h
    have ht := (matrix_size_test h2 hsz).2 h
    simp only [matrix_init, if_neg (show ¬ size < 2 by omega)]
    rw [if_pos ht]
  · intro h2 h
    have ht : ¬ (CELL_INDEX (u16 (CELL_VALUE (u64 (size * size)) 0)) / size ≠ size ∨
        u64 (u64 (size * size) * 2) / size / 2 ≠ size) := by
      rw [matrix_size_test h2 hsz]; omega
    simp only [matrix_init, if_neg (show ¬ size < 2 by omega)]
    rw [if_neg ht]
    split_ifs <;> simp

/-- C34: for a non-null matrix and a `size_t` size, `matrix_init` returns 2 if and only if
`size < 2`, and otherwise returns 3 if and only if `size * size ≥ 2^15`; the sizes on
which it returns neither are exactly 2 to 181; and for each of these sizes every
cell index `i < size * size` and colour `c` in `{0, 1}` is packed into a value that fits
a 16-bit `cell` and gives back `i` and `c`. -/
theorem matrix_init_sizes (calloc : Nat → Bool) (time clock : Nat) (m : matrix)
    (size statistics : Nat) (hsz : size < 2 ^ 64) :
    ((matrix_init calloc time clock (some m) size statistics).1 = 2 ↔ size < 2) ∧
    (2 ≤ size →
      ((matrix_init calloc time clock (some m) size statistics).1 = 3 ↔ 2 ^ 15 ≤ size * size)) ∧
    ((matrix_init calloc time clock (some m) size statistics).1 ≠ 2 ∧
      (matrix_init calloc time clock (some m) size statistics).1 ≠ 3 ↔ 2 ≤ size ∧ size ≤ 181) ∧
    (2 ≤ size → size ≤ 181 → ∀ i c, i < size * size → c < 2 →
      CELL_VALUE i c < 2 ^ 16 ∧ CELL_INDEX (CELL_VALUE i c) = i ∧
        CELL_COLOR (CELL_VALUE i c) = c) := by
  obtain ⟨c2, c3, c0⟩ := matrix_init_code calloc time clock m size statistics hsz
  have hcases : size < 2 ∨ (2 ≤ size ∧ 2 ^ 15 ≤ size * size) ∨
      (2 ≤ size ∧ size * size < 2 ^ 15) := by omega
  refine ⟨?_, ?_, ?_, ?_⟩
  · constructor
    · intro h
      rcases hcases with h1 | ⟨h1, h2⟩ | ⟨h1, h2⟩
      · exact h1
      · rw [c3 h1 h2] at h; omega
      · rcases c0 h1 h2 with h3 | h3 <;> rw [h3] at h <;> omega
    · exact c2
  · intro h2
    constructor
    · intro h
      by_contra hlt
      rcases c0 h2 (by omega) with h3 | h3 <;> rw [h3] at h <;> omega
    · exact c3 h2
  · constructor
    · rintro ⟨n2, n3⟩
      rcases hcases with h1 | ⟨h1, h2⟩ | ⟨h1, h2⟩
      · exact absurd (c2 h1) n2
      · exact absurd (c3 h1 h2) n3
      · exact ⟨h1, (square_fits_iff size).1 h2⟩
    · rintro ⟨h1, h2⟩
      have hfit := (square_fits_iff size).2 h2
      rcases c0 h1 hfit with h3 | h3 <;> rw [h3] <;> omega
  · intro h1 h2 i c hi hc
    have hfit := (square_fits_iff size).2 h2
    have := cell_round_trip (show i < 2 ^ 15 by omega) hc
    exact ⟨this.2.1, this.2.2.1, this.2.2.2⟩

/-- C34, instance: the largest accepted size, 181. -/
theorem matrix_init_sizes_witness :
    (181 : Nat) < 2 ^ 64 ∧
    (((matrix_init (fun _ => true) 1 0 (some ⟨0, 0, none, 0, 0, 0, id, id, id, none, none, id⟩)
        181 3).1 = 2 ↔ 181 < 2) ∧
    (2 ≤ 181 →
      ((matrix_init (fun _ => true) 1 0 (some ⟨0, 0, none, 0, 0, 0, id, id, id, none, none, id⟩)
        181 3).1 = 3 ↔ 2 ^ 15 ≤ 181 * 181)) ∧
    ((matrix_init (fun _ => true) 1 0 (some ⟨0, 0, none, 0, 0, 0, id, id, id, none, none, id⟩)
        181 3).1 ≠ 2 ∧
      (matrix_init (fun _ => true) 1 0 (some ⟨0, 0, none, 0, 0, 0, id, id, id, none, none, id⟩)
        181 3).1 ≠ 3 ↔ 2 ≤ 181 ∧ 181 ≤ 181) ∧
    (2 ≤ 181 → 181 ≤ 181 → ∀ i c, i < 181 * 181 → c < 2 →
      CELL_VALUE i c < 2 ^ 16 ∧ CELL_INDEX (CELL_VALUE i c) = i ∧
        CELL_COLOR (CELL_VALUE i c) = c)) :=
  ⟨by decide, matrix_init_sizes (fun _ => true) 1 0
    ⟨0, 0, none, 0, 0, 0, id, id, id, none, none, id⟩ 181 3 (by decide)⟩

theorem cell_cmp_le_iff (a b : Nat) : decide (cell_cmp a b ≤ 0) = true ↔ a ≤ b := by
  unfold cell_cmp
  rw [decide_eq_true_iff]
  by_cases h1 : a < b
  · simp [h1]; omega
  · by_cases h2 : a > b
    · simp [h1, h2]
    · simp [h1, h2]; omega

theorem cell_qsort_sorted (l : List Nat) : (cell_qsort l).Sorted (· ≤ ·) := by
  have ht : IsTotal Nat (fun a b => decide (cell_cmp a b ≤ 0) = true) :=
    ⟨fun a b => by simp only [cell_cmp_le_iff]; exact Nat.le_total a b⟩
  have htr : IsTrans Nat (fun a b => decide (cell_cmp a b ≤ 0) = true) :=
    ⟨fun a b c => by simp only [cell_cmp_le_iff]; exact Nat.le_trans⟩
  have := List.sorted_insertionSort (fun a b => decide (cell_cmp a b ≤ 0) = true) l
  exact List.Pairwise.imp (fun h => (cell_cmp_le_iff _ _).1 h) this

theorem cell_qsort_perm (l : List Nat) : (cell_qsort l).Perm l :=
  List.perm_insertionSort _ l

/-- In an ascending list whose elements are at least `a`, what is left after the
elements equal to `a` is above `a`. -/
theorem dropWhile_eq_gt (a : Nat) :
    ∀ l : List Nat, l.Sorted (· ≤ ·) → (∀ x ∈ l, a ≤ x) →
      ∀ x ∈ l.dropWhile (fun x => x == a), a < x := by
  intro l
  induction l with
  | nil => intro _ _ x hx; simp at hx
  | cons y t ih =>
    intro hs hge x hx
    rw [List.dropWhile_cons] at hx
    by_cases hy : (y == a) = true
    · rw [if_pos hy] at hx
      exact ih hs.of_cons (fun z hz => hge z (List.mem_cons_of_mem _ hz)) x hx
    · rw [if_neg hy] at hx
      have hya : y ≠ a := by simpa using hy
      have h1 : a ≤ y := hge y (List.mem_cons_self _ _)
      rcases List.mem_cons.1 hx with e | e
      · omega
      · have := List.rel_of_sorted_cons hs x e
        omega

theorem MergeInv.sub {l1 l2 dest r1 r2 : List Nat} (h : MergeInv l1 l2 dest)
    (h1 : r1.Sublist l1) (h2 : r2.Sublist l2) : MergeInv r1 r2 dest :=
  ⟨h.s1.sublist h1, h.s2.sublist h2, h.sd, fun d hd x hx =>
    h.below d hd x (hx.imp (fun p => h1.subset p) (fun p => h2.subset p))⟩

theorem cell_common_run_spec :
    ∀ (fuel : Nat) (l1 l2 dest : List Nat), MergeInv l1 l2 dest →
      min l1.length l2.length + 1 ≤ fuel →
      ∃ r1 r2 dest1, cell_common_run fuel l1 l2 dest = some (r1, r2, dest1) ∧
        MergeInv r1 r2 dest1 ∧
        (∀ x, (x ∈ dest1 ∨ (x ∈ r1 ∧ x ∈ r2)) ↔ (x ∈ dest ∨ (x ∈ l1 ∧ x ∈ l2))) ∧
        r1.length + r2.length ≤ l1.length + l2.length ∧
        (∀ a t1 t2, l1 = a :: t1 → l2 = a :: t2 →
          r1.length + r2.length < l1.length + l2.length) := by
  intro fuel
  induction fuel with
  | zero => intro l1 l2 dest _ h; omega
  | succ fuel ih =>
    intro l1 l2 dest hinv hf
    cases l1 with
    | nil =>
      refine ⟨[], l2, dest, by simp [cell_common_run], hinv, fun x => Iff.rfl, le_refl _, ?_⟩
      intro a t1 t2 h; simp at h
    | cons a t1 =>
      cases l2 with
      | nil =>
        refine ⟨a :: t1, [], dest, by simp [cell_common_run], hinv, fun x => Iff.rfl,
          le_refl _, ?_⟩
        intro a t1 t2 _ h; simp at h
      | cons b t2 =>
        rw [cell_common_run]
        by_cases hab : a = b
        · subst hab
          rw [if_pos rfl]
          have hsub1 : (t1.dropWhile (fun x => x == a)).Sublist t1 := List.dropWhile_sublist _
          have hsub2 : (t2.dropWhile (fun x => x == a)).Sublist t2 := List.dropWhile_sublist _
          have hg1 := dropWhile_eq_gt a t1 hinv.s1.of_cons
            (fun x hx => List.rel_of_sorted_cons hinv.s1 x hx)
          have hg2 := dropWhile_eq_gt a t2 hinv.s2.of_cons
            (fun x hx => List.rel_of_sorted_cons hinv.s2 x hx)
          have hinv1 : MergeInv (t1.dropWhile (fun x => x == a)) (t2.dropWhile (fun x => x == a))
              (dest ++ [a]) := by
            refine ⟨hinv.s1.of_cons.sublist hsub1, hinv.s2.of_cons.sublist hsub2, ?_, ?_⟩
            · apply List.pairwise_append.2
              refine ⟨hinv.sd, List.pairwise_singleton _ _, ?_⟩
              intro d hd x hx
              rw [List.mem_singleton] at hx
              rw [hx]
              exact hinv.below d hd a (Or.inl (List.mem_cons_self _ _))
            · intro d hd x hx
              rcases List.mem_append.1 hd with hd | hd
              · exact hinv.below d hd x (hx.imp (fun p => List.mem_cons_of_mem _ (hsub1.subset p))
                  (fun p => List.mem_cons_of_mem _ (hsub2.subset p)))
              · rw [List.mem_singleton] at hd
                rw [hd]
                rcases hx with p | p
                · exact hg1 x p
                · exact hg2 x p
          have hl1 := hsub1.length_le
          have hl2 := hsub2.length_le
          obtain ⟨r1, r2, dest1, e, i1, m1, len1, _⟩ := ih _ _ _ hinv1
            (by simp only [List.length_cons] at hf; omega)
          refine ⟨r1, r2, dest1, e, i1, ?_, ?_, ?_⟩
          · intro x
            rw [m1 x]
            constructor
            · rintro (p | ⟨p, q⟩)
              · rcases List.mem_append.1 p with p | p
                · exact Or.inl p
                · rw [List.mem_singleton] at p
                  rw [p]
                  exact Or.inr ⟨List.mem_cons_self _ _, List.mem_cons_self _ _⟩
              · exact Or.inr ⟨List.mem_cons_of_mem _ (hsub1.subset p),
                  List.mem_cons_of_mem _ (hsub2.subset q)⟩
            · rintro (p | ⟨p, q⟩)
              · exact Or.inl (List.mem_append_left _ p)
              · by_cases hx : x = a
                · exact Or.inl (List.mem_append_right _ (by rw [hx]; exact List.mem_singleton_self _))
                · have p1 : x ∈ t1 := (List.mem_cons.1 p).resolve_left hx
                  have q1 : x ∈ t2 := (List.mem_cons.1 q).resolve_left hx
                  exact Or.inr ⟨mem_dropWhile_of_not p1 (by simpa using hx),
                    mem_dropWhile_of_not q1 (by simpa using hx)⟩
          · simp only [List.length_cons]; omega
          · intro _ _ _ _ _
            simp only [List.length_cons]; omega
        · rw [if_neg hab]
          refine ⟨a :: t1, b :: t2, dest, rfl, hinv, fun x => Iff.rfl, le_refl _, ?_⟩
          intro c u1 u2 h1 h2
          simp only [List.cons.injEq] at h1 h2
          exact absurd (h1.1.trans h2.1.symm) hab

/-- One pass of the outer loop of `cell_common` when the first inner loop stops inside
the first range. -/
theorem cell_common_scan_in (after1 : Option Nat) (fuel a b v1 : Nat) (l1 l2 t dest : List Nat)
    (h : (a :: l1).dropWhile (fun x => decide (x < b)) = v1 :: t) :
    cell_common_scan after1 (fuel + 1) (a :: l1) (b :: l2) dest =
      (cell_common_run fuel (v1 :: t) ((b :: l2).dropWhile (fun x => decide (x < v1))) dest).bind
        (fun r => cell_common_scan after1 fuel r.1 r.2.1 r.2.2) := by
  rw [cell_common_scan]
  simp only [h]

/-- One pass of the outer loop of `cell_common` when the first inner loop has used up the
first range and the read of `array1[count]` yields `v1`. -/
theorem cell_common_scan_out (fuel a b v1 : Nat) (l1 l2 dest : List Nat)
    (h : (a :: l1).dropWhile (fun x => decide (x < b)) = []) :
    cell_common_scan (some v1) (fuel + 1) (a :: l1) (b :: l2) dest =
      (cell_common_run fuel [] ((b :: l2).dropWhile (fun x => decide (x < v1))) dest).bind
        (fun r => cell_common_scan (some v1) fuel r.1 r.2.1 r.2.2) := by
  rw [cell_common_scan]
  simp only [h]

/-- One pass of the outer loop of `cell_common` when the first inner loop has used up the
first range and `array1[count]` may not be read. -/
theorem cell_common_scan_stray (fuel a b : Nat) (l1 l2 dest : List Nat)
    (h : (a :: l1).dropWhile (fun x => decide (x < b)) = []) :
    cell_common_scan none (fuel + 1) (a :: l1) (b :: l2) dest = none := by
  rw [cell_common_scan]
  simp only [h]

theorem cell_common_scan_spec (v : Nat) :
    ∀ (fuel : Nat) (l1 l2 dest : List Nat), MergeInv l1 l2 dest →
      l1.length + l2.length + 1 ≤ fuel →
      ∃ out, cell_common_scan (some v) fuel l1 l2 dest = some out ∧ out.Sorted (· < ·) ∧
        ∀ x, x ∈ out ↔ (x ∈ dest ∨ (x ∈ l1 ∧ x ∈ l2)) := by
  intro fuel
  induction fuel with
  | zero => intro l1 l2 dest _ h; omega
  | succ fuel ih =>
    intro l1 l2 dest hinv hf
    cases l1 with
    | nil => exact ⟨dest, by simp [cell_common_scan], hinv.sd, fun x => by simp⟩
    | cons a t1 =>
      cases l2 with
      | nil => exact ⟨dest, by simp [cell_common_scan], hinv.sd, fun x => by simp⟩
      | cons b t2 =>
        have hsub1 : ((a :: t1).dropWhile (fun x => decide (x < b))).Sublist (a :: t1) :=
          List.dropWhile_sublist _
        have hkeep1 : ∀ x, x ∈ a :: t1 → x ∈ b :: t2 →
            x ∈ (a :: t1).dropWhile (fun x => decide (x < b)) := by
          intro x p q
          apply mem_dropWhile_of_not p
          have hbx : b ≤ x := by
            rcases List.mem_cons.1 q with e | e
            · omega
            · exact List.rel_of_sorted_cons hinv.s2 x e
          simp only [decide_eq_false_iff_not]
          omega
        simp only [List.length_cons] at hf
        cases hs : (a :: t1).dropWhile (fun x => decide (x < b)) with
        | nil =>
          rw [cell_common_scan_out fuel a b v t1 t2 dest hs]
          have hsub2 : ((b :: t2).dropWhile (fun x => decide (x < v))).Sublist (b :: t2) :=
            List.dropWhile_sublist _
          have hl2 := hsub2.length_le
          simp only [List.length_cons] at hl2
          have hinv1 : MergeInv [] ((b :: t2).dropWhile (fun x => decide (x < v))) dest :=
            hinv.sub (List.nil_sublist _) hsub2
          obtain ⟨r1, r2, dest1, e, i1, m1, len1, _⟩ := cell_common_run_spec fuel _ _ _ hinv1
            (by simp only [List.length_nil]; omega)
          rw [e]
          simp only [List.length_nil] at len1
          obtain ⟨out, eo, so, mo⟩ := ih r1 r2 dest1 i1 (by omega)
          refine ⟨out, eo, so, ?_⟩
          intro x
          rw [mo x, m1 x]
          constructor
          · rintro (p | ⟨p, _⟩)
            · exact Or.inl p
            · simp at p
          · rintro (p | ⟨p, q⟩)
            · exact Or.inl p
            · have := hkeep1 x p q
              rw [hs] at this
              simp at this
        | cons v1 t =>
          rw [cell_common_scan_in (some v) fuel a b v1 t1 t2 t dest hs]
          rw [hs] at hsub1 hkeep1
          have hsub2 : ((b :: t2).dropWhile (fun x => decide (x < v1))).Sublist (b :: t2) :=
            List.dropWhile_sublist _
          have hs1 : (v1 :: t).Sorted (· ≤ ·) := hinv.s1.sublist hsub1
          have hkeep2 : ∀ x, x ∈ v1 :: t → x ∈ b :: t2 →
              x ∈ (b :: t2).dropWhile (fun x => decide (x < v1)) := by
            intro x p q
            apply mem_dropWhile_of_not q
            have hvx : v1 ≤ x := by
              rcases List.mem_cons.1 p with e | e
              · omega
              · exact List.rel_of_sorted_cons hs1 x e
            simp only [decide_eq_false_iff_not]
            omega
          have hinv1 : MergeInv (v1 :: t) ((b :: t2).dropWhile (fun x => decide (x < v1))) dest :=
            hinv.sub hsub1 hsub2
          have hl1 := hsub1.length_le
          have hl2 := hsub2.length_le
          simp only [List.length_cons] at hl1 hl2
          obtain ⟨r1, r2, dest1, e, i1, m1, len1, strict⟩ := cell_common_run_spec fuel _ _ _ hinv1
            (by simp only [List.length_cons]; omega)
          rw [e]
          simp only [List.length_cons] at len1
          have hprog : r1.length + r2.length < t1.length + 1 + (t2.length + 1) := by
            by_cases hab : a < b
            · have : t.length + 1 ≤ t1.length := by
                have e2 : (a :: t1).dropWhile (fun x => decide (x < b)) =
                    t1.dropWhile (fun x => decide (x < b)) := by
                  rw [List.dropWhile_cons, if_pos (by simpa using hab)]
                rw [e2] at hs
                have := (List.dropWhile_sublist (fun x => decide (x < b)) (l := t1)).length_le
                rw [hs] at this
                simpa using this
              omega
            · have e2 : (a :: t1).dropWhile (fun x => decide (x < b)) = a :: t1 := by
                rw [List.dropWhile_cons, if_neg (by simpa using hab)]
              rw [e2] at hs
              simp only [List.cons.injEq] at hs
              obtain ⟨hav, htt⟩ := hs
              by_cases hba : b < a
              · have : ((b :: t2).dropWhile (fun x => decide (x < v1))).length ≤ t2.length := by
                  rw [List.dropWhile_cons, if_pos (by rw [← hav]; simpa using hba)]
                  exact (List.dropWhile_sublist _).length_le
                omega
              · have hbe : b = v1 := by omega
                have e3 : (b :: t2).dropWhile (fun x => decide (x < v1)) = v1 :: t2 := by
                  rw [List.dropWhile_cons, if_neg (by rw [hbe]; simp), hbe]
                have := strict v1 t ((b :: t2).dropWhile (fun x => decide (x < v1)) |>.tail)
                  rfl (by rw [e3]; rfl)
                simp only [List.length_cons] at this
                omega
          obtain ⟨out, eo, so, mo⟩ := ih r1 r2 dest1 i1 (by omega)
          refine ⟨out, eo, so, ?_⟩
          intro x
          rw [mo x, m1 x]
          constructor
          · rintro (p | ⟨p, q⟩)
            · exact Or.inl p
            · exact Or.inr ⟨hsub1.subset p, hsub2.subset q⟩
          · rintro (p | ⟨p, q⟩)
            · exact Or.inl p
            · exact Or.inr ⟨hkeep1 x p q, hkeep2 x (hkeep1 x p q) q⟩

/-- Whenever the merge returns without the read of `array1[count]` being allowed, it
returns the same with the read yielding any value. -/
theorem cell_common_scan_mono (v : Nat) :
    ∀ (fuel : Nat) (l1 l2 dest out : List Nat),
      cell_common_scan none fuel l1 l2 dest = some out →
      cell_common_scan (some v) fuel l1 l2 dest = some out := by
  intro fuel
  induction fuel with
  | zero => intro l1 l2 dest out h; simp [cell_common_scan] at h
  | succ fuel ih =>
    intro l1 l2 dest out h
    cases l1 with
    | nil => simpa [cell_common_scan] using h
    | cons a t1 =>
      cases l2 with
      | nil => simpa [cell_common_scan] using h
      | cons b t2 =>
        cases hs : (a :: t1).dropWhile (fun x => decide (x < b)) with
        | nil =>
          rw [cell_common_scan_stray fuel a b t1 t2 dest hs] at h
          exact absurd h (by simp)
        | cons v1 t =>
          rw [cell_common_scan_in none fuel a b v1 t1 t2 t dest hs] at h
          rw [cell_common_scan_in (some v) fuel a b v1 t1 t2 t dest hs]
          cases hr : cell_common_run fuel (v1 :: t)
              ((b :: t2).dropWhile (fun x => decide (x < v1))) dest with
          | none => rw [hr] at h; simp at h
          | some r =>
            rw [hr] at h
            simp only [Option.some_bind] at h ⊢
            exact ih _ _ _ _ h

/-- The function `cell_common` on two arrays of the same length, with the element after
the first array holding `after`: it returns, and `dest` receives the values common to
both arrays in strictly increasing order. -/
theorem cell_common_spec (after : Nat) (array1 array2 : List Nat) (fuel : Nat)
    (hf : array1.length + array2.length + 1 ≤ fuel) :
    ∃ dest, cell_common fuel (some after) array1 array2 =
        some (dest.length, dest, cell_qsort array1, cell_qsort array2) ∧
      dest.Sorted (· < ·) ∧ (∀ x, x ∈ dest ↔ (x ∈ array1 ∧ x ∈ array2)) := by
  have p1 := cell_qsort_perm array1
  have p2 := cell_qsort_perm array2
  have hinv : MergeInv (cell_qsort array1) (cell_qsort array2) [] :=
    ⟨cell_qsort_sorted _, cell_qsort_sorted _, List.sorted_nil, fun d hd => by simp at hd⟩
  obtain ⟨out, e, so, mo⟩ := cell_common_scan_spec after fuel _ _ _ hinv
    (by rw [p1.length_eq, p2.length_eq]; exact hf)
  refine ⟨out, ?_, so, ?_⟩
  · show Option.map _ (cell_common_scan (some after) fuel (cell_qsort array1)
      (cell_qsort array2) []) = _
    rw [e]; rfl
  · intro x
    rw [mo x]
    simp only [List.not_mem_nil, false_or]
    exact and_congr p1.mem_iff p2.mem_iff

/-- C36: for two arrays of the same length `count` (and whatever value the element after
the first array holds), `cell_common` returns; the value returned is the length of
`dest`, which holds exactly the values that occur in both arrays, each once, in strictly
increasing order; the value returned is the number of distinct common values and is at
most `count`.  If the call returns when the element after the first array may not be
read, it returns the same. -/
theorem cell_common_distinct (after count : Nat) (array1 array2 : List Nat)
    (h1 : array1.length = count) (h2 : array2.length = count)
    (fuel : Nat) (hf : 2 * count + 1 ≤ fuel) :
    ∃ dest, cell_common fuel (some after) array1 array2 =
        some (dest.length, dest, cell_qsort array1, cell_qsort array2) ∧
      dest.Sorted (· < ·) ∧ dest.Nodup ∧
      (∀ x, x ∈ dest ↔ (x ∈ array1 ∧ x ∈ array2)) ∧
      dest.length = (array1.toFinset ∩ array2.toFinset).card ∧
      dest.length ≤ count ∧
      (∀ r, cell_common fuel none array1 array2 = some r →
        r = (dest.length, dest, cell_qsort array1, cell_qsort array2)) := by
  obtain ⟨dest, e, sd, md⟩ := cell_common_spec after array1 array2 fuel (by omega)
  have hnd : dest.Nodup := sd.imp (fun h => Nat.ne_of_lt h)
  refine ⟨dest, e, sd, hnd, md, ?_, ?_, ?_⟩
  · rw [← List.toFinset_card_of_nodup hnd]
    congr 1
    ext x
    simp only [List.mem_toFinset, Finset.mem_inter]
    exact md x
  · rw [← h1]
    exact (List.subperm_of_subset hnd (fun x hx => ((md x).1 hx).1)).length_le
  · intro r hr
    have hr1 : Option.map (fun dest => (dest.length, dest, cell_qsort array1, cell_qsort array2))
        (cell_common_scan none fuel (cell_qsort array1) (cell_qsort array2) []) = some r := hr
    cases hs : cell_common_scan none fuel (cell_qsort array1) (cell_qsort array2) [] with
    | none => rw [hs] at hr1; simp at hr1
    | some out =>
      rw [hs] at hr1
      have e1 : Option.map (fun dest => (dest.length, dest, cell_qsort array1, cell_qsort array2))
          (cell_common_scan (some after) fuel (cell_qsort array1) (cell_qsort array2) []) =
            some (dest.length, dest, cell_qsort array1, cell_qsort array2) := e
      rw [cell_common_scan_mono after fuel _ _ _ _ hs] at e1
      simp only [Option.map_some', Option.some.injEq] at hr1 e1
      rw [← hr1, e1]

/-- C36, instance: the arrays `3, 5, 1, 3` and `7, 5, 3, 5` have the two common values 3 and 5. -/
theorem cell_common_distinct_witness :
    [3, 5, 1, 3].length = 4 ∧ [7, 5, 3, 5].length = 4 ∧ 2 * 4 + 1 ≤ 9 ∧
    ∃ dest, cell_common 9 (some 0) [3, 5, 1, 3] [7, 5, 3, 5] =
        some (dest.length, dest, cell_qsort [3, 5, 1, 3], cell_qsort [7, 5, 3, 5]) ∧
      dest.Sorted (· < ·) ∧ dest.Nodup ∧
      (∀ x, x ∈ dest ↔ (x ∈ [3, 5, 1, 3] ∧ x ∈ [7, 5, 3, 5])) ∧
      dest.length = (([3, 5, 1, 3] : List Nat).toFinset ∩ ([7, 5, 3, 5] : List Nat).toFinset).card ∧
      dest.length ≤ 4 ∧
      (∀ r, cell_common 9 none [3, 5, 1, 3] [7, 5, 3, 5] = some r →
        r = (dest.length, dest, cell_qsort [3, 5, 1, 3], cell_qsort [7, 5, 3, 5])) :=
  ⟨rfl, rfl, by decide,
    cell_common_distinct 0 4 [3, 5, 1, 3] [7, 5, 3, 5] rfl rfl 9 (by decide)⟩

/-- C37: on the arrays `[a]` and `[a + d + 1]` of length 1 the merge loop of `cell_common`
reads `array1[1]`: the first inner loop moves `src1` to `end1`, and the condition of the
second inner loop then evaluates `*src1`.  With that element not readable the call has
no result, whatever the fuel; with any value in it the call returns 0 and leaves both
arrays as they were. -/
theorem cell_common_stray_read (a d : Nat) :
    (∀ fuel, cell_common fuel none [a] [a + d + 1] = none) ∧
    (∀ v, cell_common 3 (some v) [a] [a + d + 1] = some (0, [], [a], [a + d + 1])) ∧
    cell_common 3 none [1] [2] = none ∧
    cell_common 3 (some 2) [1] [2] = some (0, [], [1], [2]) := by
  have q1 : ∀ x : Nat, cell_qsort [x] = [x] := fun x => rfl
  have hd : ([a] : List Nat).dropWhile (fun x => decide (x < a + d + 1)) = [] := by
    rw [List.dropWhile_cons, if_pos (by simp; omega)]; rfl
  have h1 : ∀ fuel, cell_common fuel none [a] [a + d + 1] = none := by
    intro fuel
    show Option.map _ (cell_common_scan none fuel (cell_qsort [a]) (cell_qsort [a + d + 1]) []) = _
    rw [q1, q1]
    cases fuel with
    | zero => rfl
    | succ fuel => rw [cell_common_scan_stray fuel a (a + d + 1) [] [] [] hd]; rfl
  have h2 : ∀ v, cell_common 3 (some v) [a] [a + d + 1] = some (0, [], [a], [a + d + 1]) := by
    intro v
    show Option.map _ (cell_common_scan (some v) 3 (cell_qsort [a]) (cell_qsort [a + d + 1]) []) = _
    rw [q1, q1, cell_common_scan_out 2 a (a + d + 1) v [] [] [] hd]
    by_cases hv : a + d + 1 < v
    · rw [List.dropWhile_cons, if_pos (by simpa using hv)]
      rfl
    · rw [List.dropWhile_cons, if_neg (by simpa using hv)]
      rfl
  exact ⟨h1, h2, by decide, by decide⟩

/-- The switch of `clusters.h` is the one of `clusters_modified.h` on the three low bits,
except for the case of the upper left neighbour alone. -/
theorem clusters_h_join_switch_eq (fuel : Nat) (djs : Nat → Nat) (cols label : Nat)
    (b0 b1 b2 : Bool) (h : ¬ (b0 = false ∧ b1 = false ∧ b2 = true)) :
    clusters_h.join_switch fuel djs cols label (bit_of b0 0 ||| bit_of b1 1 ||| bit_of b2 2) =
      join_switch fuel djs cols label
        (bit_of b0 0 ||| bit_of b1 1 ||| bit_of b2 2 ||| bit_of false 3) := by
  cases b0 <;> cases b1 <;> cases b2 <;>
    first | rfl | exact absurd (And.intro rfl (And.intro rfl rfl)) h

/-- The switch of `clusters.h` returns and leaves a forest. -/
theorem clusters_h_join_switch_forest {n : Nat} {djs rt : Nat → Nat} (h : Forest n djs rt)
    {cols label fuel : Nat} (b0 b1 b2 : Bool) (hl : label < n) (hs : djs label = label)
    (h0 : b0 = true → sub32 label 1 < n) (h1 : b1 = true → sub32 label cols < n)
    (h2 : b2 = true → sub32 (sub32 label cols) 1 < n) (hf : n + 2 ≤ fuel) :
    ∃ djs' rt', clusters_h.join_switch fuel djs cols label
        (bit_of b0 0 ||| bit_of b1 1 ||| bit_of b2 2) = some djs' ∧ Forest n djs' rt' := by
  by_cases hc : b0 = false ∧ b1 = false ∧ b2 = true
  · obtain ⟨rfl, rfl, rfl⟩ := hc
    exact ⟨djs, rt, rfl, h⟩
  · rw [clusters_h_join_switch_eq fuel djs cols label b0 b1 b2 hc]
    obtain ⟨djs', root, e, s⟩ := @join_switch_spec n djs rt h cols label fuel b0 b1 b2 false
      hl hs h0 h1 h2 (by simp) hf
    exact ⟨djs', _, e, s.1⟩

theorem clusters_h.PassInv.cell {cl0 cl : clusters_h.cluster} {r c fuel : Nat}
    (h : clusters_h.PassInv cl0 (label_of cl.cols r c) cl)
    (hsz : (cl.rows + 2) * (cl.cols + 1) < 2 ^ 32) (hr : r < cl.rows) (hc : c < cl.cols)
    (hf : cl.rows * cl.cols + 2 ≤ fuel) :
    ∃ cl', clusters_h.iterate_cell fuel r c cl = some cl' ∧
      clusters_h.PassInv cl0 (label_of cl.cols r c + 1) cl' := by
  obtain ⟨g1, g2, g3⟩ := grid_facts hsz hr hc
  have g3' : label_of cl.cols r c < cl.rows * cl.cols := g3
  have hc0 : 0 < cl.cols := by omega
  have hcur := curr_row_of_eq hsz hr hc0
  have hlab := label_eq hsz hr hc
  have hst : u32 (cl.cols + 1) = cl.cols + 1 := u32_of_lt (by omega)
  have hidx : map_index cl.cols r 0 + c = map_index cl.cols r c := by
    unfold map_index; ring
  have hidx1 : map_index cl.cols r 0 - (cl.cols + 1) + c =
      map_index cl.cols r c - (cl.cols + 1) := by
    unfold map_index
    have : (r + 1) * (cl.cols + 1) = r * (cl.cols + 1) + (cl.cols + 1) := by ring
    omega
  have hx := xorshift_round_ne_zero h.rng_ne h.rng_lt
  have hp := probability_of_ne_zero h.rng_ne h.rng_lt fuel cl.p_black (show 1 ≤ fuel by omega)
  generalize hcol : (if u64 (xorshift_round cl.rng * 2685821657736338717) ≤ cl.p_black
    then CLUSTER_BLACK else CLUSTER_WHITE) = color at hp
  have hcolor : color = CLUSTER_WHITE ∨ color = CLUSTER_BLACK := by
    rw [← hcol]; split <;> simp
  obtain ⟨rd0, rd1, rd2, _⟩ := read_neighbours h.border_row h.border_col hr hc hcolor
  obtain ⟨n0, n1, n2, _⟩ := neighbour_labels hsz hr hc
  obtain ⟨rt, hF⟩ := h.forest
  have hF1 := hF.push
  have hlt0 : 1 ≤ c → label_of cl.cols r (c - 1) < label_of cl.cols r c := by
    intro h1; unfold label_of; omega
  have hlt1 : 1 ≤ r → label_of cl.cols (r - 1) c < label_of cl.cols r c := by
    intro h1
    obtain ⟨r', rfl⟩ : ∃ r', r = r' + 1 := ⟨r - 1, by omega⟩
    have e : (r' + 1) * cl.cols = r' * cl.cols + cl.cols := by ring
    unfold label_of; simp only [Nat.add_sub_cancel]; omega
  have hlt2 : 1 ≤ r → 1 ≤ c → label_of cl.cols (r - 1) (c - 1) < label_of cl.cols r c := by
    intro h1 h2
    obtain ⟨r', rfl⟩ : ∃ r', r = r' + 1 := ⟨r - 1, by omega⟩
    have e : (r' + 1) * cl.cols = r' * cl.cols + cl.cols := by ring
    unfold label_of; simp only [Nat.add_sub_cancel]; omega
  obtain ⟨djs', rt', hrun, hF'⟩ := @clusters_h_join_switch_forest _ _ _ hF1 cl.cols
    (label_of cl.cols r c) fuel
    (Function.update cl.map (map_index cl.cols r c) color (map_index cl.cols r c - 1) == color)
    (Function.update cl.map (map_index cl.cols r c) color
      (map_index cl.cols r c - (cl.cols + 1)) == color)
    (Function.update cl.map (map_index cl.cols r c) color
      (map_index cl.cols r c - (cl.cols + 1) - 1) == color)
    (by omega) (by simp)
    (fun e => by
      have := (rd0.1 (beq_iff_eq.1 e)).1
      rw [n0 this]; have := hlt0 this; omega)
    (fun e => by
      have := (rd1.1 (beq_iff_eq.1 e)).1
      rw [n1 this]; have := hlt1 this; omega)
    (fun e => by
      have := rd2.1 (beq_iff_eq.1 e)
      rw [n2 this.1 this.2.1]; have := hlt2 this.1 this.2.1; omega)
    (by omega)
  refine ⟨{ cl with rng := xorshift_round cl.rng,
                    map := Function.update cl.map (map_index cl.cols r c) color,
                    djs := djs' }, ?_, ?_⟩
  · simp only [clusters_h.iterate_cell]
    rw [hcur, hlab, hst, hp, hidx, hidx1]
    simp only [Option.bind_eq_bind, Option.some_bind, Option.pure_def]
    rw [hrun]
    rfl
  · exact
      { rows_eq := h.rows_eq
        cols_eq := h.cols_eq
        pd_eq := h.pd_eq
        pdb_eq := h.pdb_eq
        rng_ne := hx.1
        rng_lt := hx.2
        rng_eq := by
          show xorshift_round cl.rng = _
          rw [Function.iterate_succ_apply', ← h.rng_eq]
        border_row := by
          intro i hi
          have e1 : (r + 1) * (cl.cols + 1) = r * (cl.cols + 1) + (cl.cols + 1) := by ring
          show Function.update cl.map (map_index cl.cols r c) color i = CLUSTER_NONE
          rw [Function.update_noteq (by unfold map_index; change i ≤ cl.cols at hi; omega)]
          exact h.border_row i hi
        border_col := by
          intro k hk
          show Function.update cl.map (map_index cl.cols r c) color (k * (cl.cols + 1)) =
            CLUSTER_NONE
          rw [Function.update_noteq]
          · exact h.border_col k hk
          · intro e
            have e' : label_of (cl.cols + 1) k 0 = label_of (cl.cols + 1) (r + 1) (c + 1) := by
              rw [← map_index_eq_label, ← e]; simp [label_of]
            have := label_of_inj (by omega) (by omega) e'
            omega
        color_ok := by
          intro r2 c2 hc2 hm
          show Function.update cl.map (map_index cl.cols r c) color (map_index cl.cols r2 c2) = _
            ∨ Function.update cl.map (map_index cl.cols r c) color (map_index cl.cols r2 c2) = _
          change c2 < cl.cols at hc2
          change label_of cl.cols r2 c2 < label_of cl.cols r c + 1 at hm
          by_cases e : map_index cl.cols r2 c2 = map_index cl.cols r c
          · rw [e, Function.update_same]; exact hcolor
          · rw [Function.update_noteq e]
            apply h.color_ok r2 c2 hc2
            by_cases e2 : label_of cl.cols r2 c2 = label_of cl.cols r c
            · have := label_of_inj hc2 hc e2
              rw [this.1, this.2] at e
              exact absurd rfl e
            · omega
        forest := ⟨rt', hF'⟩ }

theorem clusters_h.PassInv.at_start {cl : clusters_h.cluster} (h : clusters_h.Ready cl) :
    clusters_h.PassInv cl 0 cl where
  rows_eq := rfl
  cols_eq := rfl
  pd_eq := rfl
  pdb_eq := rfl
  rng_ne := h.rng_ne
  rng_lt := h.rng_lt
  rng_eq := rfl
  border_row := h.border_row
  border_col := h.border_col
  color_ok := fun _ _ _ hp => absurd hp (Nat.not_lt_zero _)
  forest := ⟨fun i => i, fun _ hi => absurd hi (Nat.not_lt_zero _)⟩

/-- The generation loops of `iterate` in `clusters.h` return and leave a forest on all
labels, every cell white or black and the border as it was. -/
theorem clusters_h_generate_spec {cl : clusters_h.cluster} (h : clusters_h.Ready cl) {fuel : Nat}
    (hf : cl.rows * cl.cols + 2 ≤ fuel) :
    ∃ cl1, clusters_h.iterate_generate fuel cl = some cl1 ∧
      clusters_h.PassInv cl (cl.rows * cl.cols) cl1 := by
  have key := foldlM_range_inv
    (fun cl1 r => (List.range cl.cols).foldlM
      (fun cl2 c => clusters_h.iterate_cell fuel r c cl2) cl1)
    (fun r s => clusters_h.PassInv cl (label_of cl.cols r 0) s) cl.rows
    (by
      intro r s hr hI
      have inner := foldlM_range_inv (fun cl2 c => clusters_h.iterate_cell fuel r c cl2)
        (fun c s => clusters_h.PassInv cl (label_of cl.cols r c) s) cl.cols
        (by
          intro c s2 hc hI2
          have hc1 := hI2.cols_eq
          have hr1 := hI2.rows_eq
          rw [← hc1] at hI2
          obtain ⟨cl', e, hI3⟩ := @clusters_h.PassInv.cell cl s2 r c fuel hI2
            (by rw [hc1, hr1]; exact h.size_ok) (by rw [hr1]; exact hr) (by rw [hc1]; exact hc)
            (by rw [hc1, hr1]; exact hf)
          refine ⟨cl', e, ?_⟩
          rw [hc1] at hI3
          exact hI3)
        s hI
      obtain ⟨s', e, hI'⟩ := inner
      refine ⟨s', e, ?_⟩
      have : label_of cl.cols (r + 1) 0 = label_of cl.cols r cl.cols := by
        unfold label_of; ring
      show clusters_h.PassInv cl (label_of cl.cols (r + 1) 0) s'
      rw [this]; exact hI')
    cl (by simpa [label_of] using clusters_h.PassInv.at_start h)
  obtain ⟨cl1, e, hI⟩ := key
  refine ⟨cl1, e, ?_⟩
  simpa [label_of] using hI

/-- Flattening a list of labels of a forest returns and leaves the forest with its roots. -/
theorem flatten_list_spec {n fuel : Nat} {rt : Nat → Nat} (hf : n + 2 ≤ fuel) :
    ∀ (L : List Nat) (djs : Nat → Nat), (∀ i, i ∈ L → i < n ∧ i < 2 ^ 32) → Forest n djs rt →
      ∃ djs', L.foldlM (fun djs i => (djs_flatten fuel djs (u32 i)).map (fun p => p.2)) djs =
        some djs' ∧ Forest n djs' rt := by
  intro L
  induction L with
  | nil => intro djs _ h; exact ⟨djs, rfl, h⟩
  | cons i L ih =>
    intro djs hL h
    obtain ⟨hi, hi32⟩ := hL i (List.mem_cons_self _ _)
    obtain ⟨djs1, e1, hF1, _⟩ := h.flatten_keeps hi hf
    obtain ⟨djs2, e2, hF2⟩ := ih djs1 (fun j hj => hL j (List.mem_cons_of_mem _ hj)) hF1
    refine ⟨djs2, ?_, hF2⟩
    rw [List.foldlM_cons, u32_of_lt hi32, e1]
    exact e2

theorem clusters_h_flatten_all_spec {cl : clusters_h.cluster} {fuel : Nat} {rt : Nat → Nat}
    (hsz : (cl.rows + 2) * (cl.cols + 1) < 2 ^ 32) (hf : cl.rows * cl.cols + 2 ≤ fuel)
    (h : Forest (cl.rows * cl.cols) cl.djs rt) :
    ∃ djs', clusters_h.flatten_all fuel cl = some { cl with djs := djs' } ∧
      Forest (cl.rows * cl.cols) djs' rt := by
  have h2 : (cl.rows + 2) * (cl.cols + 1) = cl.rows * cl.cols + cl.rows + 2 * cl.cols + 2 := by
    ring
  have hn : u32 (cl.rows * cl.cols) = cl.rows * cl.cols := u32_of_lt (by omega)
  obtain ⟨djs', e, hF⟩ := flatten_list_spec hf (List.range (cl.rows * cl.cols)).reverse cl.djs
    (by
      intro i hi
      rw [List.mem_reverse, List.mem_range] at hi
      exact ⟨hi, by omega⟩) h
  refine ⟨djs', ?_, hF⟩
  unfold clusters_h.flatten_all
  rw [hn, e]
  rfl

theorem and_one_of_color {x : Nat} (h : x = CLUSTER_WHITE ∨ x = CLUSTER_BLACK) : x &&& 1 = x := by
  rcases h with e | e <;> rw [e] <;> rfl

theorem clusters_h.DiagInv.block {cl1 : clusters_h.cluster}
    {st : clusters_h.cluster × List clusters_h.block_event} {r c fuel : Nat}
    (h : clusters_h.DiagInv cl1 st)
    (hsz : (cl1.rows + 2) * (cl1.cols + 1) < 2 ^ 32)
    (hcolor : ∀ r c, r < cl1.rows → c < cl1.cols →
      cl1.map (map_index cl1.cols r c) = CLUSTER_WHITE ∨
      cl1.map (map_index cl1.cols r c) = CLUSTER_BLACK)
    (hr1 : 1 ≤ r) (hr : r < cl1.rows) (hc1 : 1 ≤ c) (hc : c < cl1.cols)
    (hf : cl1.rows * cl1.cols + 2 ≤ fuel) :
    ∃ st' e, clusters_h.diag_block fuel r c st = some st' ∧ clusters_h.DiagInv cl1 st' ∧
      st'.2 = st.2 ++ [e] ∧ e.r = r ∧ e.c = c := by
  obtain ⟨cl, log⟩ := st
  have hce : cl.cols = cl1.cols := h.cols_eq
  have hre : cl.rows = cl1.rows := h.rows_eq
  have hme : cl.map = cl1.map := h.map_eq
  have hpe : cl.p_diag_black = cl1.p_diag_black := h.pdb_eq
  have hne : cl.rng ≠ 0 := h.rng_ne
  have hlt : cl.rng < 2 ^ 64 := h.rng_lt
  obtain ⟨rt, hF⟩ := h.forest
  have hF : Forest (cl1.rows * cl1.cols) cl.djs rt := hF
  have hev : ∀ e, e ∈ log → clusters_h.BlockOk cl1.cols cl1.p_diag_black cl1.map e := h.events
  obtain ⟨r', rfl⟩ : ∃ r', r = r' + 1 := ⟨r - 1, by omega⟩
  obtain ⟨c', rfl⟩ : ∃ c', c = c' + 1 := ⟨c - 1, by omega⟩
  have hr' : r' < cl1.rows := by omega
  have hc' : c' < cl1.cols := by omega
  have hc0 : 0 < cl1.cols := by omega
  obtain ⟨g1, g2, g3⟩ := grid_facts hsz hr hc
  obtain ⟨g1', _, g3'⟩ := grid_facts hsz hr' hc
  have hcur := curr_row_of_eq hsz hr hc0
  have hprev := curr_row_of_eq hsz hr' hc0
  have hla := label_eq hsz hr hc
  have hlc := label_eq hsz hr' hc
  have e1 : (r' + 1) * cl1.cols = r' * cl1.cols + cl1.cols := by ring
  have hlb : sub32 (label_of cl1.cols (r' + 1) (c' + 1)) 1 = label_of cl1.cols (r' + 1) c' := by
    unfold label_of
    rw [sub32_of_le (by omega) (by omega)]; omega
  have hld : sub32 (label_of cl1.cols r' (c' + 1)) 1 = label_of cl1.cols r' c' := by
    unfold label_of
    rw [sub32_of_le (by omega) (by omega)]; omega
  have ia : map_index cl1.cols (r' + 1) 0 + (c' + 1) = map_index cl1.cols (r' + 1) (c' + 1) := by
    unfold map_index; ring
  have ib : map_index cl1.cols (r' + 1) (c' + 1) - 1 = map_index cl1.cols (r' + 1) c' := by
    unfold map_index; omega
  have ic : map_index cl1.cols r' 0 + (c' + 1) = map_index cl1.cols r' (c' + 1) := by
    unfold map_index; ring
  have id : map_index cl1.cols r' (c' + 1) - 1 = map_index cl1.cols r' c' := by
    unfold map_index; omega
  have hA := hcolor (r' + 1) (c' + 1) hr hc
  have hB := hcolor (r' + 1) c' hr hc'
  have hC := hcolor r' (c' + 1) hr' hc
  have hD := hcolor r' c' hr' hc'
  have la_lt : label_of cl1.cols (r' + 1) (c' + 1) < cl1.rows * cl1.cols := g3
  have lc_lt : label_of cl1.cols r' (c' + 1) < cl1.rows * cl1.cols := g3'
  have lb_lt : label_of cl1.cols (r' + 1) c' < cl1.rows * cl1.cols := by
    unfold label_of at la_lt ⊢; omega
  have ld_lt : label_of cl1.cols r' c' < cl1.rows * cl1.cols := by
    unfold label_of at lc_lt ⊢; omega
  have hx := xorshift_round_ne_zero hne hlt
  have hp := probability_of_ne_zero hne hlt fuel cl1.p_diag_black (show 1 ≤ fuel by omega)
  generalize htdef : (if u64 (xorshift_round cl.rng * 2685821657736338717) ≤ cl1.p_diag_black
    then CLUSTER_BLACK else CLUSTER_WHITE) = t at hp
  have ht : t = CLUSTER_WHITE ∨ t = CLUSTER_BLACK := by
    rw [← htdef]; split <;> simp
  obtain ⟨dAD, jAD, sAD⟩ := djs_join2_spec hF la_lt ld_lt hf
  obtain ⟨dBC, jBC, sBC⟩ := djs_join2_spec hF lb_lt lc_lt hf
  simp only [clusters_h.diag_block, Nat.add_sub_cancel]
  rw [hce, hpe, hme, hcur, hprev, hla, hlc, hlb, hld, ia, ib, ic, id, and_one_of_color hA,
    and_one_of_color hB, hp]
  simp only [Option.some_bind]
  rw [jAD, jBC]
  simp only [Option.map_some']
  generalize hAv : cl1.map (map_index cl1.cols (r' + 1) (c' + 1)) = A at hA
  generalize hBv : cl1.map (map_index cl1.cols (r' + 1) c') = B at hB
  generalize hCv : cl1.map (map_index cl1.cols r' (c' + 1)) = C at hC
  generalize hDv : cl1.map (map_index cl1.cols r' c') = D at hD
  have mkInv : ∀ (cl' : clusters_h.cluster) (e : clusters_h.block_event),
      cl'.rows = cl1.rows → cl'.cols = cl1.cols → cl'.p_diag_black = cl1.p_diag_black →
      cl'.map = cl1.map → cl'.rng ≠ 0 → cl'.rng < 2 ^ 64 →
      (∃ rt', Forest (cl1.rows * cl1.cols) cl'.djs rt') →
      clusters_h.BlockOk cl1.cols cl1.p_diag_black cl1.map e →
      clusters_h.DiagInv cl1 (cl', log ++ [e]) := by
    intro cl' e f1 f2 f3 f4 h1 h2 h3 h4
    refine ⟨f1, f2, f3, f4, h1, h2, h3, ?_⟩
    intro e' he'
    rcases List.mem_append.1 he' with p | p
    · exact hev e' p
    · rw [List.mem_singleton] at p; rw [p]; exact h4
  have twoCol : A ≠ C → B = C → A ≠ t → B = t ∧ C = t := by
    intro n1 n2 n3
    simp only [CLUSTER_WHITE, CLUSTER_BLACK] at hA hB hC ht
    omega
  by_cases hcr : A = D ∧ A ≠ C ∧ B = C
  · rw [if_pos hcr]
    by_cases hb : cl.djs (label_of cl1.cols (r' + 1) (c' + 1)) ≠ cl.djs (label_of cl1.cols r' c') ∧
        cl.djs (label_of cl1.cols (r' + 1) c') ≠ cl.djs (label_of cl1.cols r' (c' + 1))
    · rw [if_pos hb]
      by_cases hat : A = t
      · rw [if_pos hat]
        refine ⟨_, _, rfl, mkInv _ _ hre rfl rfl rfl hx.1 hx.2 ⟨_, sAD.1⟩ ?_, rfl, rfl, rfl⟩
        refine ⟨hAv.symm, hBv.symm, hCv.symm, hDv.symm, by simp, by simp, ?_, ?_, ?_, ?_⟩
        · intro t' ht'
          simp only [List.mem_singleton] at ht'
          rw [ht']; exact ⟨rfl, ht⟩
        · intro hn; exact absurd hcr hn
        · intro _ _ _
          refine ⟨t, rfl, ?_, ?_⟩
          · simp only [Nat.add_sub_cancel]
            rw [if_pos hat]
          · show (if A = t then D = t else _)
            rw [if_pos hat, ← hcr.1]; exact hat
        · intro j hj
          simp only [List.mem_singleton] at hj
          refine ⟨hcr, t, rfl, Or.inl ⟨?_, hb.1, hat, ?_⟩⟩
          · simp only [Nat.add_sub_cancel]; exact hj
          · show D = t
            rw [← hcr.1]; exact hat
      · rw [if_neg hat]
        have hbc := twoCol hcr.2.1 hcr.2.2 hat
        refine ⟨_, _, rfl, mkInv _ _ hre rfl rfl rfl hx.1 hx.2 ⟨_, sBC.1⟩ ?_, rfl, rfl, rfl⟩
        refine ⟨hAv.symm, hBv.symm, hCv.symm, hDv.symm, by simp, by simp, ?_, ?_, ?_, ?_⟩
        · intro t' ht'
          simp only [List.mem_singleton] at ht'
          rw [ht']; exact ⟨rfl, ht⟩
        · intro hn; exact absurd hcr hn
        · intro _ _ _
          refine ⟨t, rfl, ?_, ?_⟩
          · simp only [Nat.add_sub_cancel]
            rw [if_neg hat]
          · show (if A = t then _ else B = t ∧ C = t)
            rw [if_neg hat]; exact hbc
        · intro j hj
          simp only [List.mem_singleton] at hj
          refine ⟨hcr, t, rfl, Or.inr ⟨?_, hb.2, hbc.1, hbc.2⟩⟩
          simp only [Nat.add_sub_cancel]; exact hj
    · rw [if_neg hb]
      by_cases hb1 : cl.djs (label_of cl1.cols (r' + 1) (c' + 1)) ≠
          cl.djs (label_of cl1.cols r' c')
      · rw [if_pos hb1]
        have hb2 : ¬ cl.djs (label_of cl1.cols (r' + 1) c') ≠
            cl.djs (label_of cl1.cols r' (c' + 1)) := fun hn => hb ⟨hb1, hn⟩
        by_cases hat : A = t
        · rw [if_pos hat]
          refine ⟨_, _, rfl, mkInv _ _ hre rfl rfl rfl hx.1 hx.2 ⟨_, sAD.1⟩ ?_, rfl, rfl, rfl⟩
          refine ⟨hAv.symm, hBv.symm, hCv.symm, hDv.symm, by simp, by simp, ?_, ?_, ?_, ?_⟩
          · intro t' ht'
            simp only [List.mem_singleton] at ht'
            rw [ht']; exact ⟨rfl, ht⟩
          · intro hn; exact absurd hcr hn
          · intro _ _ hn; exact absurd hn hb2
          · intro j hj
            simp only [List.mem_singleton] at hj
            refine ⟨hcr, t, rfl, Or.inl ⟨?_, hb1, hat, ?_⟩⟩
            · simp only [Nat.add_sub_cancel]; exact hj
            · show D = t
              rw [← hcr.1]; exact hat
        · rw [if_neg hat]
          refine ⟨_, _, rfl, mkInv _ _ hre rfl rfl rfl hx.1 hx.2 ⟨_, hF⟩ ?_, rfl, rfl, rfl⟩
          refine ⟨hAv.symm, hBv.symm, hCv.symm, hDv.symm, by simp, by simp, ?_, ?_, ?_, ?_⟩
          · intro t' ht'
            simp only [List.mem_singleton] at ht'
            rw [ht']; exact ⟨rfl, ht⟩
          · intro hn; exact absurd hcr hn
          · intro _ _ hn; exact absurd hn hb2
          · intro j hj; simp at hj
      · rw [if_neg hb1]
        by_cases hb2 : cl.djs (label_of cl1.cols (r' + 1) c') ≠
            cl.djs (label_of cl1.cols r' (c' + 1))
        · rw [if_pos hb2]
          by_cases hbt : B = t
          · rw [if_pos hbt]
            refine ⟨_, _, rfl, mkInv _ _ hre rfl rfl rfl hx.1 hx.2 ⟨_, sBC.1⟩ ?_, rfl, rfl, rfl⟩
            refine ⟨hAv.symm, hBv.symm, hCv.symm, hDv.symm, by simp, by simp, ?_, ?_, ?_, ?_⟩
            · intro t' ht'
              simp only [List.mem_singleton] at ht'
              rw [ht']; exact ⟨rfl, ht⟩
            · intro hn; exact absurd hcr hn
            · intro _ hn _; exact absurd hn hb1
            · intro j hj
              simp only [List.mem_singleton] at hj
              refine ⟨hcr, t, rfl, Or.inr ⟨?_, hb2, hbt, ?_⟩⟩
              · simp only [Nat.add_sub_cancel]; exact hj
              · show C = t
                rw [← hcr.2.2]; exact hbt
          · rw [if_neg hbt]
            refine ⟨_, _, rfl, mkInv _ _ hre rfl rfl rfl hx.1 hx.2 ⟨_, hF⟩ ?_, rfl, rfl, rfl⟩
            refine ⟨hAv.symm, hBv.symm, hCv.symm, hDv.symm, by simp, by simp, ?_, ?_, ?_, ?_⟩
            · intro t' ht'
              simp only [List.mem_singleton] at ht'
              rw [ht']; exact ⟨rfl, ht⟩
            · intro hn; exact absurd hcr hn
            · intro _ hn _; exact absurd hn hb1
            · intro j hj; simp at hj
        · rw [if_neg hb2]
          refine ⟨_, _, rfl, mkInv _ _ hre hce hpe hme hne hlt ⟨_, hF⟩ ?_, rfl, rfl, rfl⟩
          · refine ⟨hAv.symm, hBv.symm, hCv.symm, hDv.symm, by simp, by simp, ?_, ?_, ?_, ?_⟩
            · intro t' ht'; simp at ht'
            · intro _; exact ⟨rfl, rfl⟩
            · intro _ hn _; exact absurd hn hb1
            · intro j hj; simp at hj
  · rw [if_neg hcr]
    refine ⟨_, _, rfl, mkInv _ _ hre hce hpe hme hne hlt ⟨_, hF⟩ ?_, rfl, rfl, rfl⟩
    · refine ⟨hAv.symm, hBv.symm, hCv.symm, hDv.symm, by simp, by simp, ?_, ?_, ?_, ?_⟩
      · intro t' ht'; simp at ht'
      · intro _; exact ⟨rfl, rfl⟩
      · intro hn; exact absurd hn hcr
      · intro j hj; simp at hj

theorem clusters_h_crossed_sample_ready (p_diag : Nat) :
    clusters_h.Ready (clusters_h.crossed_sample p_diag) where
  rows_pos := by show 1 ≤ 2; decide
  cols_pos := by show 1 ≤ 2; decide
  size_ok := by show (2 + 2) * (2 + 1) < 2 ^ 32; norm_num
  rng_ne := by show 1 ≠ 0; decide
  rng_lt := by show 1 < 2 ^ 64; norm_num
  border_row := fun _ _ => rfl
  border_col := fun _ _ => rfl

/-- The record does not change the body of the deferred pass. -/
theorem clusters_h_diag_block_fst (fuel r c : Nat)
    (st : clusters_h.cluster × List clusters_h.block_event) :
    (clusters_h.diag_block fuel r c st).map Prod.fst = clusters_h.iterate_block fuel r c st.1 := by
  unfold clusters_h.diag_block clusters_h.iterate_block
  simp only []
  cases probability fuel st.1.rng st.1.p_diag_black with
  | none => split_ifs <;> rfl
  | some p =>
    simp only [Option.some_bind]
    cases djs_join2 fuel st.1.djs (u32 (u32 (r * st.1.cols) + c))
        (sub32 (u32 (u32 ((r - 1) * st.1.cols) + c)) 1) <;>
      cases djs_join2 fuel st.1.djs (sub32 (u32 (u32 (r * st.1.cols) + c)) 1)
        (u32 (u32 ((r - 1) * st.1.cols) + c)) <;>
      simp only [Option.map_some', Option.map_none'] <;>
      split_ifs <;> rfl

/-- The record does not change the deferred pass. -/
theorem clusters_h_iterate_joins_fst (fuel : Nat) (cl : clusters_h.cluster) :
    (clusters_h.iterate_joins fuel cl).map Prod.fst = clusters_h.iterate_labels fuel cl := by
  unfold clusters_h.iterate_joins clusters_h.iterate_labels
  cases clusters_h.iterate_generate fuel cl with
  | none => rfl
  | some cl1 =>
    simp only [Option.some_bind]
    unfold clusters_h.iterate_diagonals clusters_h.iterate_deferred
    split_ifs
    · cases clusters_h.flatten_all fuel cl1 with
      | none => rfl
      | some cl2 =>
        simp only [Option.some_bind]
        exact foldlM_fst _ _
          (fun st r => foldlM_fst _ _
            (fun st2 c => clusters_h_diag_block_fst fuel (r + 1) (c + 1) st2) _ st) _ (cl2, [])
    · rfl

/-- What one block of the deferred pass does to the state, read off its record: the parent
entries recorded are those of the array at entry, the array at exit is the one at entry
after the recorded calls of `djs_join2`, and the generator either made no draw and is
unchanged, or made the one recorded draw. -/
theorem clusters_h_diag_block_trace {fuel r c : Nat}
    {st st' : clusters_h.cluster × List clusters_h.block_event}
    (h : clusters_h.diag_block fuel r c st = some st') :
    ∃ e, st'.2 = st.2 ++ [e] ∧
      e.djs_a = st.1.djs (u32 (u32 (r * st.1.cols) + c)) ∧
      e.djs_b = st.1.djs (sub32 (u32 (u32 (r * st.1.cols) + c)) 1) ∧
      e.djs_c = st.1.djs (u32 (u32 ((r - 1) * st.1.cols) + c)) ∧
      e.djs_d = st.1.djs (sub32 (u32 (u32 ((r - 1) * st.1.cols) + c)) 1) ∧
      e.joins.foldlM (fun d1 j => djs_join2 fuel d1 j.1 j.2) st.1.djs = some st'.1.djs ∧
      ((e.trials = [] ∧ st'.1.rng = st.1.rng) ∨
        ∃ t, e.trials = [(st.1.p_diag_black, t)] ∧
          probability fuel st.1.rng st.1.p_diag_black = some (st'.1.rng, t)) := by
  unfold clusters_h.diag_block at h
  simp only [] at h
  cases hp : probability fuel st.1.rng st.1.p_diag_black with
  | none =>
    rw [hp] at h
    simp only [Option.none_bind] at h
    split_ifs at h <;> cases h <;> exact ⟨_, rfl, rfl, rfl, rfl, rfl, rfl, Or.inl ⟨rfl, rfl⟩⟩
  | some p =>
    rw [hp] at h
    simp only [Option.some_bind] at h
    cases hj1 : djs_join2 fuel st.1.djs (u32 (u32 (r * st.1.cols) + c))
        (sub32 (u32 (u32 ((r - 1) * st.1.cols) + c)) 1) <;>
      cases hj2 : djs_join2 fuel st.1.djs (sub32 (u32 (u32 (r * st.1.cols) + c)) 1)
        (u32 (u32 ((r - 1) * st.1.cols) + c)) <;>
      rw [hj1, hj2] at h <;>
      simp only [Option.map_some', Option.map_none'] at h <;>
      split_ifs at h <;>
      cases h <;>
      first
        | exact ⟨_, rfl, rfl, rfl, rfl, rfl, rfl, Or.inl ⟨rfl, rfl⟩⟩
        | (refine ⟨_, rfl, rfl, rfl, rfl, rfl, ?_, Or.inr ⟨p.2, rfl, rfl⟩⟩
           first
             | rfl
             | (simp only [List.foldlM_cons, List.foldlM_nil, hj1]; rfl)
             | (simp only [List.foldlM_cons, List.foldlM_nil, hj2]; rfl))

theorem clusters_h_trial_count_append (log : List clusters_h.block_event)
    (e : clusters_h.block_event) :
    clusters_h.trial_count (log ++ [e]) = clusters_h.trial_count log + e.trials.length := by
  simp [clusters_h.trial_count]

theorem clusters_h_replay_joins_append (fuel : Nat) (log : List clusters_h.block_event)
    (e : clusters_h.block_event) (djs : Nat → Nat) :
    clusters_h.replay_joins fuel (log ++ [e]) djs =
      (clusters_h.replay_joins fuel log djs).bind
        (fun d => e.joins.foldlM (fun d1 j => djs_join2 fuel d1 j.1 j.2) d) := by
  unfold clusters_h.replay_joins
  rw [List.foldlM_append]
  cases List.foldlM (fun d e => e.joins.foldlM (fun d1 j => djs_join2 fuel d1 j.1 j.2) d) djs log with
  | none => rfl
  | some d => simp [List.foldlM_cons, List.foldlM_nil]

theorem clusters_h.TraceInv.block_step {cl2 : clusters_h.cluster}
    {st : clusters_h.cluster × List clusters_h.block_event} {r c fuel : Nat}
    (h : clusters_h.DiagInv cl2 st) (ht : clusters_h.TraceInv fuel cl2 st)
    (hsz : (cl2.rows + 2) * (cl2.cols + 1) < 2 ^ 32)
    (hcolor : ∀ r c, r < cl2.rows → c < cl2.cols →
      cl2.map (map_index cl2.cols r c) = CLUSTER_WHITE ∨
      cl2.map (map_index cl2.cols r c) = CLUSTER_BLACK)
    (hr1 : 1 ≤ r) (hr : r < cl2.rows) (hc1 : 1 ≤ c) (hc : c < cl2.cols)
    (hf : cl2.rows * cl2.cols + 2 ≤ fuel) :
    ∃ st' e, clusters_h.diag_block fuel r c st = some st' ∧ clusters_h.DiagInv cl2 st' ∧
      clusters_h.TraceInv fuel cl2 st' ∧ st'.2 = st.2 ++ [e] ∧ e.r = r ∧ e.c = c := by
  obtain ⟨st', e, he, hI, hlog, her, hec⟩ := h.block hsz hcolor hr1 hr hc1 hc hf
  obtain ⟨e2, hlog2, ta, tb, tc, td, tj, tt⟩ := clusters_h_diag_block_trace he
  have hee : e2 = e := by
    have := hlog2.symm.trans hlog
    simpa using this
  subst hee
  have ok := hI.events e2 (by rw [hlog]; simp)
  have hce : st.1.cols = cl2.cols := h.cols_eq
  have hpe : st.1.p_diag_black = cl2.p_diag_black := h.pdb_eq
  obtain ⟨r', rfl⟩ : ∃ r', r = r' + 1 := ⟨r - 1, by omega⟩
  obtain ⟨c', rfl⟩ : ∃ c', c = c' + 1 := ⟨c - 1, by omega⟩
  have hr' : r' < cl2.rows := by omega
  have hc' : c' < cl2.cols := by omega
  obtain ⟨g1, g2, g3⟩ := grid_facts hsz hr hc
  obtain ⟨g1', _, g3'⟩ := grid_facts hsz hr' hc
  have hla := label_eq hsz hr hc
  have hlc := label_eq hsz hr' hc
  have e1 : (r' + 1) * cl2.cols = r' * cl2.cols + cl2.cols := by ring
  have hlb : sub32 (label_of cl2.cols (r' + 1) (c' + 1)) 1 = label_of cl2.cols (r' + 1) c' := by
    unfold label_of
    rw [sub32_of_le (by omega) (by omega)]; omega
  have hld : sub32 (label_of cl2.cols r' (c' + 1)) 1 = label_of cl2.cols r' c' := by
    unfold label_of
    rw [sub32_of_le (by omega) (by omega)]; omega
  have la_lt : label_of cl2.cols (r' + 1) (c' + 1) < cl2.rows * cl2.cols := g3
  have lc_lt : label_of cl2.cols r' (c' + 1) < cl2.rows * cl2.cols := g3'
  have lb_lt : label_of cl2.cols (r' + 1) c' < cl2.rows * cl2.cols := by
    unfold label_of at la_lt ⊢; omega
  have ld_lt : label_of cl2.cols r' c' < cl2.rows * cl2.cols := by
    unfold label_of at lc_lt ⊢; omega
  simp only [Nat.add_sub_cancel] at ta tb tc td
  rw [hce, hla] at ta
  rw [hce, hla, hlb] at tb
  rw [hce, hlc] at tc
  rw [hce, hlc, hld] at td
  rw [hpe] at tt
  have hp := probability_of_ne_zero h.rng_ne h.rng_lt fuel cl2.p_diag_black
    (show 1 ≤ fuel by omega)
  have hjb : ∀ j, j ∈ e2.joins → j.1 < cl2.rows * cl2.cols ∧ j.2 < cl2.rows * cl2.cols := by
    intro j hj
    obtain ⟨_, t, _, hj' | hj'⟩ := ok.joined j hj
    · rw [hj'.1, her, hec]
      simp only [Nat.add_sub_cancel]
      exact ⟨la_lt, ld_lt⟩
    · rw [hj'.1, her, hec]
      simp only [Nat.add_sub_cancel]
      exact ⟨lb_lt, lc_lt⟩
  have hrng : st'.1.rng = xorshift_round^[clusters_h.trial_count st'.2] cl2.rng := by
    rw [hlog, clusters_h_trial_count_append]
    rcases tt with ⟨t0, t1⟩ | ⟨t, t0, t1⟩
    · rw [t0, t1, ht.rng_eq]; rfl
    · rw [hp] at t1
      have := (Prod.mk.inj (Option.some.inj t1)).1
      rw [t0, ← this, ht.rng_eq]
      exact (Function.iterate_succ_apply' _ _ _).symm
  refine ⟨st', e2, he, hI, ⟨hrng, ?_, ?_, ?_⟩, hlog, her, hec⟩
  · rw [hlog, clusters_h_replay_joins_append, ht.djs_eq]
    exact tj
  · intro pre e' post hsplit
    rw [hlog] at hsplit
    rcases List.eq_nil_or_concat post with hp0 | ⟨post', x, hp1⟩
    · subst hp0
      obtain ⟨q1, q2⟩ := List.append_inj' hsplit rfl
      have q3 : e2 = e' := by simpa using q2
      subst q1 q3
      refine ⟨st.1.djs, ht.djs_eq, ?_, ?_, ?_, ?_, ?_⟩
      · rw [her, hec]; exact ta
      · rw [her, hec]; simpa only [Nat.add_sub_cancel] using tb
      · rw [her, hec]; simpa only [Nat.add_sub_cancel] using tc
      · rw [her, hec]; simpa only [Nat.add_sub_cancel] using td
      · intro t htm
        rcases tt with ⟨t0, _⟩ | ⟨t2, t0, t1⟩
        · rw [t0] at htm; simp at htm
        · rw [t0, List.mem_singleton] at htm
          rw [htm, ← ht.rng_eq, Function.iterate_succ_apply', ← ht.rng_eq, hp]
          rw [hp] at t1
          have := (Prod.mk.inj (Option.some.inj t1)).2
          rw [this]
    · subst hp1
      have hs2 : st.2 ++ [e2] = (pre ++ e' :: post') ++ [x] := by
        rw [hsplit]; simp
      obtain ⟨q1, _⟩ := List.append_inj' hs2 rfl
      exact ht.hist pre e' post' q1
  · obtain ⟨rt, hF, hsame⟩ := ht.same
    have hlen := ok.one_join
    rcases hjs : e2.joins with _ | ⟨j, rest⟩
    · rw [hjs] at tj
      have e0 : st.1.djs = st'.1.djs := Option.some.inj tj
      refine ⟨rt, by rw [← e0]; exact hF, ?_⟩
      intro e' he' j' hj'
      rw [hlog] at he'
      rcases List.mem_append.1 he' with p | p
      · exact hsame e' p j' hj'
      · rw [List.mem_singleton] at p
        rw [p, hjs] at hj'
        simp at hj'
    · rw [hjs] at hlen
      have hrest : rest = [] := by
        cases rest with
        | nil => rfl
        | cons _ _ => simp at hlen
      subst hrest
      obtain ⟨b1, b2⟩ := hjb j (by rw [hjs]; simp)
      obtain ⟨djs', ej, sj⟩ := djs_join2_spec hF b1 b2 hf
      rw [hjs] at tj
      simp only [List.foldlM_cons, List.foldlM_nil, ej, Option.bind_eq_bind, Option.some_bind,
        Option.pure_def] at tj
      have e0 : djs' = st'.1.djs := Option.some.inj tj
      refine ⟨_, by rw [← e0]; exact sj.1, ?_⟩
      intro e' he' j' hj'
      rw [hlog] at he'
      rcases List.mem_append.1 he' with p | p
      · obtain ⟨o1, o2, o3⟩ := hsame e' p j' hj'
        refine ⟨o1, o2, ?_⟩
        simp only [o3]
      · rw [List.mem_singleton] at p
        rw [p, hjs, List.mem_singleton] at hj'
        subst hj'
        refine ⟨b1, b2, ?_⟩
        simp

/-- The loops of the deferred pass return, keep the invariants and record the blocks in
order. -/
theorem clusters_h_blocks_spec {cl1 : clusters_h.cluster} {fuel : Nat}
    (hsz : (cl1.rows + 2) * (cl1.cols + 1) < 2 ^ 32)
    (hcolor : ∀ r c, r < cl1.rows → c < cl1.cols →
      cl1.map (map_index cl1.cols r c) = CLUSTER_WHITE ∨
      cl1.map (map_index cl1.cols r c) = CLUSTER_BLACK)
    (hf : cl1.rows * cl1.cols + 2 ≤ fuel)
    (h : clusters_h.DiagInv cl1 (cl1, [])) (ht : clusters_h.TraceInv fuel cl1 (cl1, [])) :
    ∃ st, (List.range (cl1.rows - 1)).foldlM
        (fun st1 r => (List.range (cl1.cols - 1)).foldlM
          (fun st2 c => clusters_h.diag_block fuel (r + 1) (c + 1) st2) st1) (cl1, []) = some st ∧
      clusters_h.DiagInv cl1 st ∧ clusters_h.TraceInv fuel cl1 st ∧
      st.2.map (fun e => (e.r, e.c)) = clusters_h.block_order cl1.rows cl1.cols := by
  have key := foldlM_range_inv
    (fun st1 r => (List.range (cl1.cols - 1)).foldlM
      (fun st2 c => clusters_h.diag_block fuel (r + 1) (c + 1) st2) st1)
    (fun r st => (clusters_h.DiagInv cl1 st ∧ clusters_h.TraceInv fuel cl1 st) ∧
      st.2.map (fun e => (e.r, e.c)) =
      (List.range r).flatMap (fun r => (List.range (cl1.cols - 1)).map (fun c => (r + 1, c + 1))))
    (cl1.rows - 1)
    (by
      intro r st hr hI
      have inner := foldlM_range_inv
        (fun st2 c => clusters_h.diag_block fuel (r + 1) (c + 1) st2)
        (fun c st2 => (clusters_h.DiagInv cl1 st2 ∧ clusters_h.TraceInv fuel cl1 st2) ∧
          st2.2.map (fun e => (e.r, e.c)) =
          (List.range r).flatMap
            (fun r => (List.range (cl1.cols - 1)).map (fun c => (r + 1, c + 1))) ++
          (List.range c).map (fun c => (r + 1, c + 1)))
        (cl1.cols - 1)
        (by
          intro c st2 hc hI2
          obtain ⟨st3, e, he, hI3, hT3, hlog, her, hec⟩ := @clusters_h.TraceInv.block_step cl1 st2
            (r + 1) (c + 1) fuel hI2.1.1 hI2.1.2 hsz hcolor (by omega) (by omega) (by omega)
            (by omega) hf
          refine ⟨st3, he, ⟨hI3, hT3⟩, ?_⟩
          rw [hlog, List.map_append, hI2.2, List.range_succ, List.map_append, List.append_assoc]
          simp only [List.map_cons, List.map_nil, her, hec])
        st ⟨hI.1, by rw [hI.2]; simp⟩
      obtain ⟨st', e, hI'⟩ := inner
      refine ⟨st', e, hI'.1, ?_⟩
      rw [hI'.2, List.range_succ, List.flatMap_append]
      simp)
    (cl1, []) ⟨⟨h, ht⟩, by simp⟩
  obtain ⟨st, e, hI⟩ := key
  exact ⟨st, e, hI.1.1, hI.1.2, hI.2⟩

/-- The part of `iterate` of `clusters.h` up to the end of the deferred pass returns on a
ready cluster with a positive diagonal limit; every block record is as `BlockOk` says,
and the records are tied to the state as `TraceInv` says, from the cluster `cl2` that
the flattening leaves. -/
theorem clusters_h_iterate_joins_spec {cl : clusters_h.cluster} (h : clusters_h.Ready cl)
    (hd : 0 < cl.p_diag) {fuel : Nat} (hf : cl.rows * cl.cols + 2 ≤ fuel) :
    ∃ cl1 cl2 cl' log, clusters_h.iterate_generate fuel cl = some cl1 ∧
      clusters_h.flatten_all fuel cl1 = some cl2 ∧
      clusters_h.iterate_joins fuel cl = some (cl', log) ∧
      cl'.cols = cl.cols ∧ cl'.rows = cl.rows ∧ cl'.map = cl1.map ∧
      cl2.cols = cl.cols ∧ cl2.rows = cl.rows ∧ cl2.p_diag_black = cl.p_diag_black ∧
      cl2.rng = xorshift_round^[cl.rows * cl.cols] cl.rng ∧
      clusters_h.TraceInv fuel cl2 (cl', log) ∧
      log.map (fun e => (e.r, e.c)) = clusters_h.block_order cl.rows cl.cols ∧
      (∀ r c, r < cl.rows → c < cl.cols →
        clusters_h.color_at cl' r c = CLUSTER_WHITE ∨ clusters_h.color_at cl' r c = CLUSTER_BLACK) ∧
      ∀ e, e ∈ log → clusters_h.BlockOk cl.cols cl.p_diag_black cl'.map e := by
  obtain ⟨cl1, e1, hI⟩ := clusters_h_generate_spec h hf
  obtain ⟨rt, hF⟩ := hI.forest
  have hsz1 : (cl1.rows + 2) * (cl1.cols + 1) < 2 ^ 32 := by
    rw [hI.rows_eq, hI.cols_eq]; exact h.size_ok
  have hf1 : cl1.rows * cl1.cols + 2 ≤ fuel := by rw [hI.rows_eq, hI.cols_eq]; exact hf
  have hF1 : Forest (cl1.rows * cl1.cols) cl1.djs rt := by
    rw [hI.rows_eq, hI.cols_eq]; exact hF
  obtain ⟨djs', e2, hF2⟩ := clusters_h_flatten_all_spec hsz1 hf1 hF1
  have hcolor : ∀ r c, r < cl1.rows → c < cl1.cols →
      cl1.map (map_index cl1.cols r c) = CLUSTER_WHITE ∨
      cl1.map (map_index cl1.cols r c) = CLUSTER_BLACK := by
    intro r c hr hc
    apply hI.color_ok r c hc
    have := (grid_facts hsz1 hr hc).2.2
    rw [hI.rows_eq] at this
    rw [hI.cols_eq] at this ⊢
    exact this
  obtain ⟨st, e3, hI3, hT3, hord⟩ := @clusters_h_blocks_spec { cl1 with djs := djs' } fuel hsz1
    hcolor hf1 ⟨rfl, rfl, rfl, rfl, hI.rng_ne, hI.rng_lt, ⟨rt, hF2⟩, fun e he => by simp at he⟩
    ⟨rfl, rfl, fun pre e post hs => by simp at hs, ⟨rt, hF2, fun e he => by simp at he⟩⟩
  refine ⟨cl1, { cl1 with djs := djs' }, st.1, st.2, e1, e2, ?_, ?_, ?_, ?_, hI.cols_eq,
    hI.rows_eq, hI.pdb_eq, hI.rng_eq, hT3, ?_, ?_, ?_⟩
  · unfold clusters_h.iterate_joins
    rw [e1, Option.some_bind]
    unfold clusters_h.iterate_diagonals
    rw [if_pos (by rw [hI.pd_eq]; exact hd), e2, Option.some_bind]
    exact e3
  · exact hI3.cols_eq.trans hI.cols_eq
  · exact hI3.rows_eq.trans hI.rows_eq
  · exact hI3.map_eq
  · rw [hord]
    show clusters_h.block_order cl1.rows cl1.cols = _
    rw [hI.rows_eq, hI.cols_eq]
  · intro r c hr hc
    unfold clusters_h.color_at
    rw [hI3.map_eq, hI3.cols_eq]
    exact hcolor r c (by rw [hI.rows_eq]; exact hr) (by rw [hI.cols_eq]; exact hc)
  · intro e he
    have := hI3.events e he
    rw [hI3.map_eq]
    have e4 : ({ cl1 with djs := djs' } : clusters_h.cluster).cols = cl.cols := hI.cols_eq
    have e5 : ({ cl1 with djs := djs' } : clusters_h.cluster).p_diag_black = cl.p_diag_black :=
      hI.pdb_eq
    rw [e4, e5] at this
    exact this

/-- C31: on a ready `clusters.h` cluster with a positive diagonal limit, `iterate` reaches
the end of its deferred pass, having visited the 2x2 blocks in raster order; every block
gets at most one `djs_join2` call and none unless it is crossed; every trial is a draw
against the `p_diag_black` limit; and a crossed block whose two diagonal pairs both have
unequal parent entries gets exactly one trial and exactly one call, which joins the
diagonal whose two cells have the colour the trial returned: the black diagonal if it
returned `CLUSTER_BLACK`, the white one otherwise, wherever the black cells are.
The records are those of the state: the cluster `cl'` reached is the one the pass
without the record reaches; its colour map is the one the generation left; its
generator has made one round for every cell and one for every recorded trial; its
parent array is the flattened array `cl2.djs` after the recorded calls of `djs_join2`,
made in order; the two labels of every recorded call have the same root in it; and for
every block, the parent entries recorded are those of the array after the calls
recorded before it, and the colour of a recorded trial is the one `probability`
returns from the generator state after the trials recorded before it. -/
theorem deferred_diagonal_resolution (cl : clusters_h.cluster) (h : clusters_h.Ready cl)
    (hd : 0 < cl.p_diag) (fuel : Nat) (hf : cl.rows * cl.cols + 2 ≤ fuel) :
    ∃ cl1 cl2 cl' log,
      clusters_h.iterate_generate fuel cl = some cl1 ∧
      clusters_h.flatten_all fuel cl1 = some cl2 ∧
      clusters_h.iterate_joins fuel cl = some (cl', log) ∧
      clusters_h.iterate_labels fuel cl = some cl' ∧
      log.map (fun e => (e.r, e.c)) = clusters_h.block_order cl.rows cl.cols ∧
      cl'.map = cl1.map ∧
      cl'.rng = xorshift_round^[cl.rows * cl.cols + clusters_h.trial_count log] cl.rng ∧
      clusters_h.replay_joins fuel log cl2.djs = some cl'.djs ∧
      (∀ e, e ∈ log → ∀ j, j ∈ e.joins → ∃ root,
        djs_root fuel cl'.djs j.1 = some root ∧ djs_root fuel cl'.djs j.2 = some root) ∧
      (∀ pre e post, log = pre ++ e :: post →
        ∃ d, clusters_h.replay_joins fuel pre cl2.djs = some d ∧
          e.djs_a = d (label_of cl.cols e.r e.c) ∧
          e.djs_b = d (label_of cl.cols e.r (e.c - 1)) ∧
          e.djs_c = d (label_of cl.cols (e.r - 1) e.c) ∧
          e.djs_d = d (label_of cl.cols (e.r - 1) (e.c - 1)) ∧
          ∀ t, t ∈ e.trials →
            probability fuel
                (xorshift_round^[cl.rows * cl.cols + clusters_h.trial_count pre] cl.rng)
                cl.p_diag_black =
              some (xorshift_round^[cl.rows * cl.cols + clusters_h.trial_count pre + 1] cl.rng,
                t.2)) ∧
      ∀ e, e ∈ log →
        e.color_a = clusters_h.color_at cl' e.r e.c ∧
        e.color_b = clusters_h.color_at cl' e.r (e.c - 1) ∧
        e.color_c = clusters_h.color_at cl' (e.r - 1) e.c ∧
        e.color_d = clusters_h.color_at cl' (e.r - 1) (e.c - 1) ∧
        e.joins.length ≤ 1 ∧
        (¬ clusters_h.block_crossed e → e.joins = [] ∧ e.trials = []) ∧
        (∀ t, t ∈ e.trials → t.1 = cl.p_diag_black) ∧
        (clusters_h.block_crossed e → e.djs_a ≠ e.djs_d → e.djs_b ≠ e.djs_c →
          ∃ t, (t = CLUSTER_WHITE ∨ t = CLUSTER_BLACK) ∧ e.trials = [(cl.p_diag_black, t)] ∧
            ((e.color_a = t ∧ e.color_d = t ∧
                e.joins = [(label_of cl.cols e.r e.c, label_of cl.cols (e.r - 1) (e.c - 1))]) ∨
              (e.color_a ≠ t ∧ e.color_b = t ∧ e.color_c = t ∧
                e.joins = [(label_of cl.cols e.r (e.c - 1), label_of cl.cols (e.r - 1) e.c)]))) := by
  obtain ⟨cl1, cl2, cl', log, e1, e2, e3, hcols, hrows, hmap, c2, r2, p2, g2, hT, hord, _, hev⟩ :=
    clusters_h_iterate_joins_spec h hd hf
  have hplain := clusters_h_iterate_joins_fst fuel cl
  rw [e3] at hplain
  have hrng : ∀ k, xorshift_round^[cl.rows * cl.cols + k] cl.rng = xorshift_round^[k] cl2.rng := by
    intro k
    rw [Nat.add_comm, Function.iterate_add_apply, g2]
  refine ⟨cl1, cl2, cl', log, e1, e2, e3, hplain.symm, hord, hmap, ?_, hT.djs_eq, ?_, ?_, ?_⟩
  · rw [hrng]; exact hT.rng_eq
  · obtain ⟨rt, hF, hsame⟩ := hT.same
    intro e he j hj
    obtain ⟨b1, b2, b3⟩ := hsame e he j hj
    have hfl : cl2.rows * cl2.cols ≤ fuel := by rw [r2, c2]; omega
    exact ⟨rt j.1, hF.root_eq b1 hfl, by rw [b3]; exact hF.root_eq b2 hfl⟩
  · intro pre e post hs
    obtain ⟨d, q0, qa, qb, qc, qd, qt⟩ := hT.hist pre e post hs
    rw [c2] at qa qb qc qd
    refine ⟨d, q0, qa, qb, qc, qd, ?_⟩
    intro t ht
    have := qt t ht
    rw [p2] at this
    rw [hrng, Nat.add_assoc, hrng]
    exact this
  · intro ev hmem
    have ok := hev ev hmem
    unfold clusters_h.color_at
    rw [hcols]
    refine ⟨ok.col_a, ok.col_b, ok.col_c, ok.col_d, ok.one_join, ok.plain,
      fun t ht => (ok.limit t ht).1, ?_⟩
    intro hc h1 h2
    obtain ⟨t, ht, hj, hcol⟩ := ok.both hc h1 h2
    refine ⟨t, (ok.limit (cl.p_diag_black, t) (by rw [ht]; exact List.mem_singleton_self _)).2,
      ht, ?_⟩
    by_cases hat : ev.color_a = t
    · rw [if_pos hat] at hj hcol
      exact Or.inl ⟨hat, hcol, hj⟩
    · rw [if_neg hat] at hj hcol
      exact Or.inr ⟨hat, hcol.1, hcol.2, hj⟩

set_option maxRecDepth 100000 in
/-- C31, instance: the 2x2 sample cluster, whose single block is crossed.  The one draw of
the pass returns black, the black diagonal (labels 3 and 0) is joined, and the parent
array goes from `[0, 1, 2, 3]` to `[3, 1, 2, 3]`. -/
theorem deferred_diagonal_resolution_witness :
    clusters_h.Ready (clusters_h.crossed_sample 1) ∧ 0 < (clusters_h.crossed_sample 1).p_diag ∧
    (clusters_h.crossed_sample 1).rows * (clusters_h.crossed_sample 1).cols + 2 ≤ 6 ∧
    (∃ cl1 cl2 cl' log,
      clusters_h.iterate_generate 6 (clusters_h.crossed_sample 1) = some cl1 ∧
      clusters_h.flatten_all 6 cl1 = some cl2 ∧
      clusters_h.iterate_joins 6 (clusters_h.crossed_sample 1) = some (cl', log) ∧
      clusters_h.iterate_labels 6 (clusters_h.crossed_sample 1) = some cl' ∧
      log.map (fun e => (e.r, e.c)) =
        clusters_h.block_order (clusters_h.crossed_sample 1).rows (clusters_h.crossed_sample 1).cols ∧
      cl'.map = cl1.map ∧
      cl'.rng = xorshift_round^[(clusters_h.crossed_sample 1).rows * (clusters_h.crossed_sample 1).cols +
        clusters_h.trial_count log] (clusters_h.crossed_sample 1).rng ∧
      clusters_h.replay_joins 6 log cl2.djs = some cl'.djs ∧
      (∀ e, e ∈ log → ∀ j, j ∈ e.joins → ∃ root,
        djs_root 6 cl'.djs j.1 = some root ∧ djs_root 6 cl'.djs j.2 = some root) ∧
      (∀ pre e post, log = pre ++ e :: post →
        ∃ d, clusters_h.replay_joins 6 pre cl2.djs = some d ∧
          e.djs_a = d (label_of (clusters_h.crossed_sample 1).cols e.r e.c) ∧
          e.djs_b = d (label_of (clusters_h.crossed_sample 1).cols e.r (e.c - 1)) ∧
          e.djs_c = d (label_of (clusters_h.crossed_sample 1).cols (e.r - 1) e.c) ∧
          e.djs_d = d (label_of (clusters_h.crossed_sample 1).cols (e.r - 1) (e.c - 1)) ∧
          ∀ t, t ∈ e.trials →
            probability 6
                (xorshift_round^[(clusters_h.crossed_sample 1).rows *
                  (clusters_h.crossed_sample 1).cols + clusters_h.trial_count pre]
                  (clusters_h.crossed_sample 1).rng)
                (clusters_h.crossed_sample 1).p_diag_black =
              some (xorshift_round^[(clusters_h.crossed_sample 1).rows *
                  (clusters_h.crossed_sample 1).cols + clusters_h.trial_count pre + 1]
                  (clusters_h.crossed_sample 1).rng, t.2)) ∧
      ∀ e, e ∈ log →
        e.color_a = clusters_h.color_at cl' e.r e.c ∧
        e.color_b = clusters_h.color_at cl' e.r (e.c - 1) ∧
        e.color_c = clusters_h.color_at cl' (e.r - 1) e.c ∧
        e.color_d = clusters_h.color_at cl' (e.r - 1) (e.c - 1) ∧
        e.joins.length ≤ 1 ∧
        (¬ clusters_h.block_crossed e → e.joins = [] ∧ e.trials = []) ∧
        (∀ t, t ∈ e.trials → t.1 = (clusters_h.crossed_sample 1).p_diag_black) ∧
        (clusters_h.block_crossed e → e.djs_a ≠ e.djs_d → e.djs_b ≠ e.djs_c →
          ∃ t, (t = CLUSTER_WHITE ∨ t = CLUSTER_BLACK) ∧ e.trials = [((clusters_h.crossed_sample 1).p_diag_black, t)] ∧
            ((e.color_a = t ∧ e.color_d = t ∧
                e.joins = [(label_of (clusters_h.crossed_sample 1).cols e.r e.c, label_of (clusters_h.crossed_sample 1).cols (e.r - 1) (e.c - 1))]) ∨
              (e.color_a ≠ t ∧ e.color_b = t ∧ e.color_c = t ∧
                e.joins = [(label_of (clusters_h.crossed_sample 1).cols e.r (e.c - 1), label_of (clusters_h.crossed_sample 1).cols (e.r - 1) e.c)])))) ∧
    (clusters_h.iterate_generate 6 (clusters_h.crossed_sample 1)).map
      (fun cl1 => (List.range 4).map cl1.djs) = some [0, 1, 2, 3] ∧
    (clusters_h.iterate_labels 6 (clusters_h.crossed_sample 1)).map
      (fun cl' => (List.range 4).map cl'.djs) = some [3, 1, 2, 3] ∧
    (clusters_h.iterate_labels 6 (clusters_h.crossed_sample 1)).map (fun cl' => cl'.rng) =
      some (xorshift_round^[5] 1) :=
  ⟨clusters_h_crossed_sample_ready 1, by decide, by decide,
    deferred_diagonal_resolution (clusters_h.crossed_sample 1)
      (clusters_h_crossed_sample_ready 1) (by decide) 6 (by decide),
    by decide, by decide, by decide⟩

set_option maxRecDepth 100000 in
/-- C32: on the 2x2 sample cluster the single block is crossed (black, white, white, black)
and both diagonal pairs have unequal parent entries.  With the diagonal limit `p_diag = 1`,
a probability below `10^-19`, the block is joined all the same: the only draw of the pass
is made against the `p_diag_black` limit and chooses which diagonal to join, and a draw
against `p_diag` from the generator state the pass starts in would return
`CLUSTER_WHITE`.  The records are the same with `p_diag` at its maximum; with `p_diag = 0`
the pass is skipped. -/
theorem diag_limit_only_gates :
    clusters_h.log_of (fun e => (e.color_a, e.color_b, e.color_c, e.color_d))
      (clusters_h.iterate_joins 6 (clusters_h.crossed_sample 1)) = some [(1, 0, 0, 1)] ∧
    clusters_h.log_of (fun e => (decide (e.djs_a ≠ e.djs_d), decide (e.djs_b ≠ e.djs_c)))
      (clusters_h.iterate_joins 6 (clusters_h.crossed_sample 1)) = some [(true, true)] ∧
    clusters_h.log_of (fun e => (e.trials, e.joins))
      (clusters_h.iterate_joins 6 (clusters_h.crossed_sample 1)) =
        some [([(9223372036854775808, 1)], [(3, 0)])] ∧
    ((clusters_h.iterate_generate 6 (clusters_h.crossed_sample 1)).bind
      (fun cl1 => (probability 6 cl1.rng cl1.p_diag).map (fun p => p.2))) = some CLUSTER_WHITE ∧
    clusters_h.log_of (fun e => (e.trials, e.joins))
      (clusters_h.iterate_joins 6 (clusters_h.crossed_sample 18446744073709551615)) =
        some [([(9223372036854775808, 1)], [(3, 0)])] ∧
    clusters_h.log_of (fun e => (e.trials, e.joins))
      (clusters_h.iterate_joins 6 (clusters_h.crossed_sample 0)) = some [] :=
  ⟨by decide, by decide, by decide, by decide, by decide, by decide⟩

theorem cell_split {v : Nat} (h : v < 2 ^ 16) : v = 2 * CELL_INDEX v + CELL_COLOR v := by
  rw [cell_index_eq, cell_color_eq]; omega

theorem cell_eq_iff {a b : Nat} (ha : a < 2 ^ 16) (hb : b < 2 ^ 16)
    (hc : CELL_COLOR a = CELL_COLOR b) : a = b ↔ CELL_INDEX a = CELL_INDEX b := by
  have h1 := cell_split ha
  have h2 := cell_split hb
  constructor
  · intro e; rw [e]
  · intro e; omega

theorem cell_color_lt (v : Nat) : CELL_COLOR v < 2 := by
  rw [cell_color_eq]; omega

theorem cell_of_parts {ρ c : Nat} (hρ : ρ < 2 ^ 15) (hc : c < 2) :
    2 * ρ + c < 2 ^ 16 ∧ CELL_INDEX (2 * ρ + c) = ρ ∧ CELL_COLOR (2 * ρ + c) = c := by
  rw [cell_index_eq, cell_color_eq]
  omega

theorem matrix_h.Packed.parent_lt {n : Nat} {map rt : Nat → Nat} (h : matrix_h.Packed n map rt)
    {i : Nat} (hi : i < n) : matrix_h.parent map i < n := (h.forest i hi).1

theorem matrix_h.Packed.value {n : Nat} {map rt : Nat → Nat} (h : matrix_h.Packed n map rt)
    {i : Nat} (hi : i < n) : map i = 2 * matrix_h.parent map i + CELL_COLOR (map i) :=
  cell_split (h.val_lt i hi)

/-- Along the path to its root a cell keeps its colour bit. -/
theorem matrix_h.Packed.path_color {n : Nat} {map rt : Nat → Nat} (h : matrix_h.Packed n map rt)
    {r : Nat} : ∀ (k i : Nat), i < n → IsRootOfN (matrix_h.parent map) i r k →
      CELL_COLOR (map r) = CELL_COLOR (map i) := by
  intro k
  induction k with
  | zero => intro i _ hk; rw [hk.1]
  | succ k ih =>
    intro i hi hk
    rw [ih _ (h.parent_lt hi) hk.2]
    exact h.color i hi

theorem matrix_h.Packed.root_color {n : Nat} {map rt : Nat → Nat} (h : matrix_h.Packed n map rt)
    {i : Nat} (hi : i < n) : CELL_COLOR (map (rt i)) = CELL_COLOR (map i) := by
  obtain ⟨_, _, k, hk⟩ := h.forest i hi
  exact h.path_color k i hi hk

/-- The value stored at a root packs the root's own index. -/
theorem matrix_h.Packed.root_self {n : Nat} {map rt : Nat → Nat} (h : matrix_h.Packed n map rt)
    {i : Nat} (hi : i < n) :
    rt i < n ∧ matrix_h.parent map (rt i) = rt i ∧
      map (rt i) = 2 * rt i + CELL_COLOR (map i) := by
  have hlt := (h.forest i hi).2.1
  have hself := h.forest.root_is_root hi
  refine ⟨hlt, hself, ?_⟩
  have := h.value hlt
  rw [hself, h.root_color hi] at this
  exact this

theorem matrix_h_root_loop_spec {n : Nat} {map rt : Nat → Nat} (h : matrix_h.Packed n map rt)
    {r : Nat} : ∀ (k i fuel : Nat), i < n → IsRootOfN (matrix_h.parent map) i r k →
      k + 1 ≤ fuel → matrix_h.djs_root_loop fuel map (map i) = some (map r) := by
  intro k
  induction k with
  | zero =>
    intro i fuel hi hk hf
    obtain ⟨f, rfl⟩ : ∃ f, fuel = f + 1 := ⟨fuel - 1, by omega⟩
    obtain ⟨rfl, hself⟩ := hk
    have e : map (CELL_INDEX (map i)) = map i := congrArg map hself
    rw [matrix_h.djs_root_loop]
    simp only [e, ne_eq, not_true_eq_false, if_false]
  | succ k ih =>
    intro i fuel hi hk hf
    obtain ⟨f, rfl⟩ : ∃ f, fuel = f + 1 := ⟨fuel - 1, by omega⟩
    obtain ⟨hne, hk'⟩ := hk
    have hp := h.parent_lt hi
    have hiff := cell_eq_iff (h.val_lt i hi) (h.val_lt _ hp) (h.color i hi).symm
    rw [matrix_h.djs_root_loop]
    show (if map i ≠ map (matrix_h.parent map i) then
      matrix_h.djs_root_loop f map (map (matrix_h.parent map i))
      else some (map (matrix_h.parent map i))) = some (map r)
    cases k with
    | zero =>
      obtain ⟨e, hself⟩ := hk'
      have : map i = map (matrix_h.parent map i) := by
        rw [hiff]
        show matrix_h.parent map i = matrix_h.parent map (matrix_h.parent map i)
        rw [e, hself]
      rw [if_neg (by simpa using this), e]
    | succ k =>
      have hne2 : map i ≠ map (matrix_h.parent map i) := by
        rw [Ne, hiff]
        intro e
        exact hk'.1 e.symm
      rw [if_pos hne2]
      exact ih _ f hp hk' (by omega)

/-- The function `djs_root` of `matrix.h` returns the value stored at the root. -/
theorem matrix_h.Packed.root_value {n : Nat} {map rt : Nat → Nat} (h : matrix_h.Packed n map rt)
    {i fuel : Nat} (hi : i < n) (hf : n + 1 ≤ fuel) :
    matrix_h.djs_root fuel map i = some (map (rt i)) := by
  obtain ⟨_, _, k, hk⟩ := h.forest i hi
  have hk' := hk.lt_of_closed (fun x hx => (h.forest x hx).1) hi
  exact matrix_h_root_loop_spec h k i fuel hi hk (by omega)

theorem matrix_h_djs_path_succ (fuel : Nat) (map : Nat → Nat) (x v : Nat) :
    matrix_h.djs_path (fuel + 1) map x v =
      if map x ≠ v then matrix_h.djs_path fuel (Function.update map x v) (matrix_h.parent map x) v
      else some map := by
  unfold matrix_h.djs_path
  rw [matrix_h.djs_path_loop]
  rfl

theorem matrix_h_parent_update {map : Nat → Nat} {x ρ c : Nat} (hρ : ρ < 2 ^ 15) (hc : c < 2) :
    matrix_h.parent (Function.update map x (2 * ρ + c)) =
      Function.update (matrix_h.parent map) x ρ := by
  funext i
  unfold matrix_h.parent
  by_cases e : i = x
  · rw [e, Function.update_same, Function.update_same]; exact (cell_of_parts hρ hc).2.1
  · rw [Function.update_noteq e, Function.update_noteq e]

/-- The path compression of `matrix.h` on the packed map does to the parent indices what the
path compression on plain labels does, and keeps the colour bits. -/
theorem matrix_h_path_sim {n ρ v c : Nat} (hρ : ρ < n) (hv : v = 2 * ρ + c) (hc : c < 2)
    (hn : n ≤ 2 ^ 15) :
    ∀ (fuel : Nat) (map : Nat → Nat) (x : Nat) (par' : Nat → Nat),
      (∀ i, i < n → map i < 2 ^ 16 ∧ matrix_h.parent map i < n) →
      (∀ i, i < n → CELL_COLOR (map (matrix_h.parent map i)) = CELL_COLOR (map i)) →
      map ρ = v → x < n → CELL_COLOR (map x) = c →
      djs_path fuel (matrix_h.parent map) x ρ = some par' →
      ∃ map', matrix_h.djs_path fuel map x v = some map' ∧ matrix_h.parent map' = par' ∧
        (∀ i, map' i = map i ∨ map' i = v) ∧
        (∀ i, i < n → CELL_COLOR (map' i) = CELL_COLOR (map i)) ∧
        (∀ i, i < n → CELL_COLOR (map' (matrix_h.parent map' i)) = CELL_COLOR (map' i)) ∧
        map' ρ = v := by
  have hρ15 : ρ < 2 ^ 15 := by omega
  obtain ⟨hv16, hvi, hvc⟩ := cell_of_parts hρ15 hc
  rw [← hv] at hv16 hvi hvc
  intro fuel
  induction fuel with
  | zero => intro map x par' _ _ _ _ _ e; simp [djs_path] at e
  | succ f ih =>
    intro map x par' ha hb hroot hx hcx e
    rw [djs_path] at e
    rw [matrix_h_djs_path_succ]
    by_cases hxr : x = ρ
    · rw [if_neg (by simpa using hxr)] at e
      rw [if_neg (by rw [hxr, hroot]; simp)]
      exact ⟨map, rfl, Option.some.inj e, fun i => Or.inl rfl, fun i _ => rfl, hb, hroot⟩
    · rw [if_pos hxr] at e
      by_cases hmx : map x = v
      · rw [if_neg (by simpa using hmx)]
        have hpx : matrix_h.parent map x = ρ := by
          unfold matrix_h.parent; rw [hmx]; exact hvi
        have hup : Function.update (matrix_h.parent map) x ρ = matrix_h.parent map := by
          rw [← hpx]; exact Function.update_eq_self x _
        simp only [hup, hpx] at e
        cases f with
        | zero => simp [djs_path] at e
        | succ g =>
          rw [djs_path, if_neg (by simp)] at e
          exact ⟨map, rfl, Option.some.inj e, fun i => Or.inl rfl, fun i _ => rfl, hb, hroot⟩
      · rw [if_pos hmx]
        have hpu : matrix_h.parent (Function.update map x v) =
            Function.update (matrix_h.parent map) x ρ := by
          rw [hv]; exact matrix_h_parent_update hρ15 hc
        have hcol1 : ∀ j, j < n → CELL_COLOR (Function.update map x v j) = CELL_COLOR (map j) := by
          intro j _
          by_cases ej : j = x
          · rw [ej, Function.update_same, hvc, hcx]
          · rw [Function.update_noteq ej]
        have hx' := (ha x hx).2
        obtain ⟨map', e', hp', hchg, hcol', hcons', hroot'⟩ := ih (Function.update map x v)
          (matrix_h.parent map x) par'
          (by
            intro i hi
            by_cases ei : i = x
            · rw [hpu, ei, Function.update_same, Function.update_same]; exact ⟨hv16, hρ⟩
            · rw [hpu, Function.update_noteq ei, Function.update_noteq ei]; exact ha i hi)
          (by
            intro i hi
            rw [hcol1 i hi]
            by_cases ei : i = x
            · rw [hpu, ei, Function.update_same, Function.update_noteq (Ne.symm hxr), hroot, hvc,
                hcx]
            · have hpi := (ha i hi).2
              rw [hpu, Function.update_noteq ei, hcol1 _ hpi]
              exact hb i hi)
          (by rw [Function.update_noteq (Ne.symm hxr)]; exact hroot)
          hx'
          (by rw [hcol1 _ hx', hb x hx]; exact hcx)
          (by rw [hpu]; exact e)
        refine ⟨map', e', hp', ?_, ?_, hcons', hroot'⟩
        · intro i
          rcases hchg i with p | p
          · by_cases ei : i = x
            · rw [ei, Function.update_same] at p; rw [ei]; exact Or.inr p
            · rw [Function.update_noteq ei] at p; exact Or.inl p
          · exact Or.inr p
        · intro i hi
          rw [hcol' i hi, hcol1 i hi]

theorem matrix_h.Packed.conds {n : Nat} {map rt : Nat → Nat} (h : matrix_h.Packed n map rt) :
    ∀ i, i < n → map i < 2 ^ 16 ∧ matrix_h.parent map i < n :=
  fun i hi => ⟨h.val_lt i hi, h.parent_lt hi⟩

/-- The function `djs_flatten` of `matrix.h` returns the value stored at the root, keeps the
forest with its roots and colours, and leaves the cell with the root value. -/
theorem matrix_h.Packed.flatten {n : Nat} {map rt : Nat → Nat} (h : matrix_h.Packed n map rt)
    {i fuel : Nat} (hi : i < n) (hf : n + 2 ≤ fuel) :
    ∃ map', matrix_h.djs_flatten fuel map i = some (map (rt i), map') ∧
      matrix_h.Packed n map' rt ∧ map' i = map (rt i) ∧
      (∀ j, j < n → CELL_COLOR (map' j) = CELL_COLOR (map j)) ∧
      (∀ j, j < n → map' (rt j) = map (rt j)) ∧
      (∀ j, j < n → map j = map (rt j) → map' j = map (rt j)) ∧
      (∀ j, map' j = map j ∨ map' j = map (rt i)) := by
  obtain ⟨hrlt, hrself, hrval⟩ := h.root_self hi
  obtain ⟨par', ef, hF', hpi, hkeep, _⟩ := h.forest.flatten_keeps hi hf
  have ep : Percolation.djs_path fuel (matrix_h.parent map) i (rt i) = some par' := by
    simp only [Percolation.djs_flatten, h.forest.root_eq hi (show n ≤ fuel by omega),
      Option.bind_eq_bind, Option.some_bind] at ef
    cases hq : Percolation.djs_path fuel (matrix_h.parent map) i (rt i) with
    | none => rw [hq] at ef; simp at ef
    | some d =>
      rw [hq] at ef
      simp only [Option.some_bind, Option.pure_def, Option.some.injEq, Prod.mk.injEq,
        true_and] at ef
      rw [ef]
  obtain ⟨map', e', hp', hchg, hcol', hcons', hroot'⟩ := matrix_h_path_sim hrlt hrval
    (cell_color_lt _) h.bound fuel map i par' h.conds h.color rfl hi rfl ep
  have hP' : matrix_h.Packed n map' rt := by
    refine ⟨h.bound, ?_, hcons', by rw [hp']; exact hF'⟩
    intro j hj
    rcases hchg j with p | p
    · rw [p]; exact h.val_lt j hj
    · rw [p]; exact h.val_lt _ hrlt
  have hflat : ∀ j, j < n → matrix_h.parent map' j = rt j → map' j = map (rt j) := by
    intro j hj e
    have h1 := hP'.value hj
    rw [e, hcol' j hj] at h1
    rw [h1, (h.root_self hj).2.2]
  refine ⟨map', ?_, hP', ?_, hcol', ?_, ?_, hchg⟩
  · simp only [matrix_h.djs_flatten, h.root_value hi (show n + 1 ≤ fuel by omega),
      Option.bind_eq_bind, Option.some_bind, e', Option.pure_def]
  · exact hflat i hi (by rw [hp']; exact hpi)
  · intro j hj
    have hjr := (h.forest j hj).2.1
    have := hflat (rt j) hjr (by rw [hp', h.forest.rt_idem hj]; exact hF'.root_is_root hj)
    rw [h.forest.rt_idem hj] at this
    exact this
  · intro j hj e
    apply hflat j hj
    rw [hp']
    apply hkeep j hj
    have h1 := h.value hj
    have h2 := (h.root_self hj).2.2
    omega

/-- The function `djs_join2` of `matrix.h` on two cells of the same colour returns the smaller
of the two root values and leaves a forest in which the two trees are one, with that root. -/
theorem matrix_h.Packed.join2 {n : Nat} {map rt : Nat → Nat} (h : matrix_h.Packed n map rt)
    {i1 i2 fuel : Nat} (h1 : i1 < n) (h2 : i2 < n)
    (hcol : CELL_COLOR (map i1) = CELL_COLOR (map i2)) (hf : n + 2 ≤ fuel) :
    ∃ ρ map', matrix_h.djs_join2 fuel map i1 i2 = some (map ρ, map') ∧
      (ρ = rt i1 ∨ ρ = rt i2) ∧ ρ < n ∧
      matrix_h.Packed n map' (fun y => if rt y = rt i1 ∨ rt y = rt i2 then ρ else rt y) ∧
      map' ρ = map ρ ∧ CELL_COLOR (map ρ) = CELL_COLOR (map i1) ∧
      (∀ j, j < n → CELL_COLOR (map' j) = CELL_COLOR (map j)) ∧
      (∀ j, map' j = map j ∨ map' j = map ρ) := by
  obtain ⟨hr1, hs1, hv1⟩ := h.root_self h1
  obtain ⟨hr2, hs2, hv2⟩ := h.root_self h2
  have key : ∀ ρ, (ρ = rt i1 ∨ ρ = rt i2) →
      ∃ map', (matrix_h.djs_path fuel map i1 (map ρ)).bind
          (fun djs1 => (matrix_h.djs_path fuel djs1 i2 (map ρ)).bind
            (fun djs2 => some (map ρ, djs2))) = some (map ρ, map') ∧
        ρ < n ∧
        matrix_h.Packed n map' (fun y => if rt y = rt i1 ∨ rt y = rt i2 then ρ else rt y) ∧
        map' ρ = map ρ ∧ CELL_COLOR (map ρ) = CELL_COLOR (map i1) ∧
        (∀ j, j < n → CELL_COLOR (map' j) = CELL_COLOR (map j)) ∧
        (∀ j, map' j = map j ∨ map' j = map ρ) := by
    intro ρ hρ
    have hρlt : ρ < n := by rcases hρ with e | e <;> rw [e] <;> assumption
    have hρself : matrix_h.parent map ρ = ρ := by rcases hρ with e | e <;> rw [e] <;> assumption
    have hρval : map ρ = 2 * ρ + CELL_COLOR (map i1) := by
      rcases hρ with e | e
      · rw [e]; exact hv1
      · rw [e, hcol]; exact hv2
    have hρcol : CELL_COLOR (map ρ) = CELL_COLOR (map i1) := by
      rw [hρval]; exact (cell_of_parts (by have := h.bound; omega) (cell_color_lt _)).2.2
    obtain ⟨d1, e1, m1, k1, _⟩ := (JoinMid.start h.forest hρself).advance h1 hρlt hf
    obtain ⟨d2, e2, m2, k2, _⟩ := m1.advance h2 hρlt hf
    obtain ⟨map1, p1, hp1, hchg1, hcol1, hcons1, hroot1⟩ := matrix_h_path_sim hρlt hρval
      (cell_color_lt _) h.bound fuel map i1 d1 h.conds h.color rfl h1 rfl e1
    have hconds1 : ∀ i, i < n → map1 i < 2 ^ 16 ∧ matrix_h.parent map1 i < n := by
      intro i hi
      refine ⟨?_, by rw [hp1]; exact (m1.1 i hi).1⟩
      rcases hchg1 i with p | p
      · rw [p]; exact h.val_lt i hi
      · rw [p]; exact h.val_lt _ hρlt
    obtain ⟨map2, p2, hp2, hchg2, hcol2, hcons2, hroot2⟩ := matrix_h_path_sim hρlt hρval
      (cell_color_lt _) h.bound fuel map1 i2 d2 hconds1 hcons1 hroot1 h2
      (by rw [hcol1 i2 h2, hcol]) (by rw [hp1]; exact e2)
    refine ⟨map2, ?_, hρlt, ?_, hroot2, hρcol, ?_, ?_⟩
    · rw [p1, Option.some_bind, p2, Option.some_bind]
    · refine ⟨h.bound, ?_, hcons2, ?_⟩
      · intro j hj
        rcases hchg2 j with p | p
        · rw [p]; exact (hconds1 j hj).1
        · rw [p]; exact h.val_lt _ hρlt
      · rw [hp2]
        apply m2.1.congr
        intro y _
        simp only [List.mem_cons, List.mem_singleton, List.not_mem_nil, or_false]
        by_cases a : rt y = rt i1 <;> by_cases b : rt y = rt i2 <;> simp [a, b]
    · intro j hj
      rw [hcol2 j hj, hcol1 j hj]
    · intro j
      rcases hchg2 j with p | p
      · rcases hchg1 j with q | q
        · exact Or.inl (p.trans q)
        · exact Or.inr (p.trans q)
      · exact Or.inr p
  have hr1v := h.root_value h1 (show n + 1 ≤ fuel by omega)
  have hr2v := h.root_value h2 (show n + 1 ≤ fuel by omega)
  by_cases hgt : map (rt i1) > map (rt i2)
  · obtain ⟨map', e, rest⟩ := key (rt i2) (Or.inr rfl)
    refine ⟨rt i2, map', ?_, Or.inr rfl, rest⟩
    simp only [matrix_h.djs_join2, hr1v, hr2v, Option.bind_eq_bind, Option.some_bind, if_pos hgt,
      Option.pure_def]
    exact e
  · obtain ⟨map', e, rest⟩ := key (rt i1) (Or.inl rfl)
    refine ⟨rt i1, map', ?_, Or.inl rfl, rest⟩
    simp only [matrix_h.djs_join2, hr1v, hr2v, Option.bind_eq_bind, Option.some_bind, if_neg hgt,
      Option.pure_def]
    exact e

/-- A draw of `prng_probability` from a valid state returns 0 or 1 and a valid state. -/
theorem prng_draw_spec {s : Nat} (hs : s ≠ 0) (hlt : s < 2 ^ 64) (fuel limit : Nat)
    (hf : 1 ≤ fuel) :
    ∃ s' t, prng_probability fuel s limit = some (s', t) ∧ s' ≠ 0 ∧ s' < 2 ^ 64 ∧
      (t = 0 ∨ t = 1) := by
  have hx := xorshift_round_ne_zero hs hlt
  refine ⟨_, _, prng_probability_of_ne_zero hs hlt fuel limit hf, hx.1, hx.2, ?_⟩
  split
  · exact Or.inr rfl
  · exact Or.inl rfl

/-- Attaching a new label to a root of a forest. -/
theorem Forest.attach {n : Nat} {djs rt : Nat → Nat} (h : Forest n djs rt) {r0 : Nat}
    (hr : r0 < n) (hs : djs r0 = r0) :
    Forest (n + 1) (Function.update djs n r0) (Function.update rt n r0) := by
  have hcl : ∀ {k i r : Nat}, i < n → IsRootOfN djs i r k →
      IsRootOfN (Function.update djs n r0) i r k := by
    intro k
    induction k with
    | zero =>
      intro i r hi hk
      obtain ⟨rfl, e⟩ := hk
      exact ⟨rfl, by rw [Function.update_noteq (by omega)]; exact e⟩
    | succ k ih =>
      intro i r hi hk
      have hi' : i ≠ n := by omega
      simp only [IsRootOfN, Function.update_noteq hi']
      exact ⟨hk.1, ih (h i hi).1 hk.2⟩
  intro i hi
  by_cases e : i = n
  · subst e
    have e1 : Function.update djs i r0 i = r0 := Function.update_same _ _ _
    have e2 : Function.update rt i r0 i = r0 := Function.update_same _ _ _
    have e3 : Function.update djs i r0 r0 = r0 := by
      rw [Function.update_noteq (by omega)]; exact hs
    rw [e1, e2]
    refine ⟨by omega, by omega, 1, ?_⟩
    show Function.update djs i r0 i ≠ i ∧ (Function.update djs i r0 i = r0 ∧
      Function.update djs i r0 r0 = r0)
    rw [e1]
    exact ⟨by omega, rfl, e3⟩
  · have hi' : i < n := by omega
    obtain ⟨h1, h2, k, hk⟩ := h i hi'
    simp only [Function.update_noteq e]
    exact ⟨by omega, by omega, k, hcl hi' hk⟩

theorem cell_value_stored {i c : Nat} (hi : i < 2 ^ 15) (hc : c < 2) :
    u16 (CELL_VALUE i c) = 2 * i + c := by
  obtain ⟨e, hlt, _⟩ := cell_round_trip hi hc
  rw [u16_of_lt hlt, e]

/-- A new cell that gets its own value becomes a root. -/
theorem matrix_h.Packed.push_new {m : Nat} {map rt : Nat → Nat} (h : matrix_h.Packed m map rt)
    (hm : m + 1 ≤ 2 ^ 15) {c : Nat} (hc : c < 2) :
    matrix_h.Packed (m + 1) (Function.update map m (2 * m + c)) (Function.update rt m m) := by
  have hp := @matrix_h_parent_update map m m c (by omega) hc
  obtain ⟨v16, vi, vc⟩ := @cell_of_parts m c (by omega) hc
  refine ⟨hm, ?_, ?_, by rw [hp]; exact h.forest.push⟩
  · intro i hi
    by_cases e : i = m
    · rw [e, Function.update_same]; exact v16
    · rw [Function.update_noteq e]; exact h.val_lt i (by omega)
  · intro i hi
    by_cases e : i = m
    · rw [hp, e, Function.update_same, Function.update_same]
    · have hi' : i < m := by omega
      have hpl := h.parent_lt hi'
      rw [hp, Function.update_noteq e, Function.update_noteq e,
        Function.update_noteq (show matrix_h.parent map i ≠ m by omega)]
      exact h.color i hi'

/-- A new cell that gets the root value of an earlier cell joins the tree of that cell. -/
theorem matrix_h.Packed.push_root {m : Nat} {map rt : Nat → Nat} (h : matrix_h.Packed m map rt)
    (hm : m + 1 ≤ 2 ^ 15) {j : Nat} (hj : j < m) :
    matrix_h.Packed (m + 1) (Function.update map m (map (rt j)))
      (Function.update rt m (rt j)) := by
  obtain ⟨hrlt, hrself, hrval⟩ := h.root_self hj
  have hp : matrix_h.parent (Function.update map m (map (rt j))) =
      Function.update (matrix_h.parent map) m (rt j) := by
    rw [hrval]; exact matrix_h_parent_update (by omega) (cell_color_lt _)
  refine ⟨hm, ?_, ?_, by rw [hp]; exact h.forest.attach hrlt hrself⟩
  · intro i hi
    by_cases e : i = m
    · rw [e, Function.update_same]; exact h.val_lt _ hrlt
    · rw [Function.update_noteq e]; exact h.val_lt i (by omega)
  · intro i hi
    by_cases e : i = m
    · rw [hp, e, Function.update_same, Function.update_same,
        Function.update_noteq (show rt j ≠ m by omega)]
    · have hi' : i < m := by omega
      have hpl := h.parent_lt hi'
      rw [hp, Function.update_noteq e, Function.update_noteq e,
        Function.update_noteq (show matrix_h.parent map i ≠ m by omega)]
      exact h.color i hi'

theorem matrix_h_first_row_cell_spec {fuel p_1 c : Nat} {st : Nat × (Nat → Nat) × Nat × Nat}
    (h : matrix_h.FirstOk c st) (hc : c + 1 ≤ 2 ^ 15) (hf : 1 ≤ fuel) :
    ∃ st', matrix_h.first_row_cell fuel p_1 c st = some st' ∧ matrix_h.FirstOk (c + 1) st' := by
  obtain ⟨s, map, currcolor, currvalue⟩ := st
  obtain ⟨rt, hP, hval⟩ := h.packed
  have hcl : currcolor = CELL_COLOR currvalue := h.color
  have hval : currvalue = map (rt (c - 1)) := hval
  have hpos : 1 ≤ c := h.pos
  obtain ⟨s', t, e, hs1, hs2, ht⟩ := prng_draw_spec h.rng_ne h.rng_lt fuel p_1 hf
  have e' : prng_probability fuel s p_1 = some (s', t) := e
  have ht2 : t < 2 := by omega
  unfold matrix_h.first_row_cell
  simp only [e', Option.map_some']
  by_cases hsame : currcolor = t
  · rw [if_pos hsame]
    refine ⟨_, rfl, hs1, hs2, by omega, ⟨Function.update rt c (rt (c - 1)), ?_, ?_⟩, ?_⟩
    · show matrix_h.Packed (c + 1) (Function.update map c currvalue) _
      rw [hval]
      exact hP.push_root hc (by omega)
    · have hlt := (hP.root_self (show c - 1 < c by omega)).1
      show currvalue = Function.update map c currvalue
        (Function.update rt c (rt (c - 1)) (c + 1 - 1))
      rw [Nat.add_sub_cancel, Function.update_same, Function.update_noteq (by omega)]
      exact hval
    · show t = CELL_COLOR currvalue
      rw [← hsame]; exact hcl
  · rw [if_neg hsame, cell_value_stored (by omega) ht2]
    refine ⟨_, rfl, hs1, hs2, by omega, ⟨Function.update rt c c, hP.push_new hc ht2, ?_⟩, ?_⟩
    · show 2 * c + t = Function.update map c (2 * c + t) (Function.update rt c c (c + 1 - 1))
      rw [Nat.add_sub_cancel, Function.update_same, Function.update_same]
    · show t = CELL_COLOR (2 * c + t)
      exact (cell_of_parts (by omega) ht2).2.2.symm

theorem matrix_h_packed_empty (map : Nat → Nat) : matrix_h.Packed 0 map (fun i => i) :=
  ⟨by norm_num, fun _ hi => absurd hi (Nat.not_lt_zero _), fun _ hi => absurd hi (Nat.not_lt_zero _),
    fun _ hi => absurd hi (Nat.not_lt_zero _)⟩

/-- The first row of `matrix_generate` returns and leaves a packed forest on its cells. -/
theorem matrix_h_first_row_spec {fuel size p_1 rng : Nat} (map : Nat → Nat) (hs : rng ≠ 0)
    (hlt : rng < 2 ^ 64) (h1 : 1 ≤ size) (hsz : size ≤ 2 ^ 15) (hf : 1 ≤ fuel) :
    ∃ st, matrix_h.first_row fuel size p_1 rng map = some st ∧ matrix_h.GenOk size st := by
  obtain ⟨s', t, e, hs1, hs2, ht⟩ := prng_draw_spec hs hlt fuel p_1 hf
  have ht2 : t < 2 := by omega
  have h0 : matrix_h.FirstOk 1 (s', Function.update map 0 (u16 (CELL_VALUE 0 t)), t,
      u16 (CELL_VALUE 0 t)) := by
    rw [cell_value_stored (by norm_num) ht2]
    refine ⟨hs1, hs2, le_refl _, ⟨Function.update (fun i => i) 0 0, ?_, ?_⟩, ?_⟩
    · exact (matrix_h_packed_empty map).push_new (by norm_num) ht2
    · show 2 * 0 + t = Function.update map 0 (2 * 0 + t) (Function.update (fun i => i) 0 0 (1 - 1))
      rw [Nat.sub_self, Function.update_same, Function.update_same]
    · exact (cell_of_parts (by norm_num) ht2).2.2.symm
  obtain ⟨st, est, hst⟩ := foldlM_range_inv
    (fun st c => matrix_h.first_row_cell fuel p_1 (c + 1) st)
    (fun c st => matrix_h.FirstOk (c + 1) st) (size - 1)
    (by
      intro c st hc hI
      exact matrix_h_first_row_cell_spec hI (by omega) hf)
    _ h0
  refine ⟨(st.1, st.2.1), ?_, ?_⟩
  · unfold matrix_h.first_row
    rw [e, Option.some_bind]
    simp only [est, Option.map_some']
  · have e2 : size - 1 + 1 = size := by omega
    rw [e2] at hst
    obtain ⟨rt, hP, _⟩ := hst.packed
    exact ⟨hst.rng_ne, hst.rng_lt, ⟨rt, hP⟩⟩

/-- A cell of the other rows: `other_cell` returns and extends the packed forest by the cell. -/
theorem matrix_h_other_cell_spec {fuel size p_1 index : Nat} {st : Nat × (Nat → Nat)}
    (h : matrix_h.GenOk index st) (h1 : 1 ≤ size) (hsz : size < index)
    (hb : index + 1 ≤ 2 ^ 15) (hf : index + 2 ≤ fuel) :
    ∃ st', matrix_h.other_cell fuel size p_1 index st = some st' ∧
      matrix_h.GenOk (index + 1) st' := by
  obtain ⟨s, map⟩ := st
  obtain ⟨rt, hP⟩ := h.packed
  have hP : matrix_h.Packed index map rt := hP
  obtain ⟨s', t, e, hs1, hs2, ht⟩ := prng_draw_spec h.rng_ne h.rng_lt fuel p_1 (by omega)
  have e' : prng_probability fuel s p_1 = some (s', t) := e
  have ht2 : t < 2 := by omega
  have hl : index - 1 < index := by omega
  have hu : index - size < index := by omega
  unfold matrix_h.other_cell
  simp only [e', Option.some_bind]
  obtain ⟨mapL, eL, hPL, _, _, hrootL, _, _⟩ := hP.flatten hl hf
  obtain ⟨mapU, eU, hPU, _, _, hrootU, _, _⟩ := hP.flatten hu hf
  by_cases ha : CELL_COLOR (map (index - 1)) = t <;>
    by_cases hb2 : CELL_COLOR (map (index - size)) = t
  · obtain ⟨ρ, mapJ, eJ, hρ, hρlt, hPJ, hJroot, _⟩ := hP.join2 hl hu (ha.trans hb2.symm) hf
    simp only [if_pos ha, if_pos hb2, eJ, Option.map_some']
    have := hPJ.push_root hb hl
    simp only [true_or, if_true] at this
    rw [hJroot] at this
    exact ⟨(s', Function.update mapJ index (map ρ)), rfl, hs1, hs2, ⟨_, this⟩⟩
  · simp only [if_pos ha, if_neg hb2, eL, Option.map_some']
    have := hPL.push_root hb hl
    rw [hrootL _ hl] at this
    exact ⟨(s', Function.update mapL index (map (rt (index - 1)))), rfl, hs1, hs2, ⟨_, this⟩⟩
  · simp only [if_neg ha, if_pos hb2, eU, Option.map_some']
    have := hPU.push_root hb hu
    rw [hrootU _ hu] at this
    exact ⟨(s', Function.update mapU index (map (rt (index - size)))), rfl, hs1, hs2, ⟨_, this⟩⟩
  · simp only [if_neg ha, if_neg hb2]
    have := hP.push_new hb ht2
    rw [← cell_value_stored (show index < 2 ^ 15 by omega) ht2] at this
    exact ⟨(s', Function.update map index (u16 (CELL_VALUE index t))), rfl, hs1, hs2, ⟨_, this⟩⟩

/-- The loop over the other rows of `matrix_generate` returns and leaves a packed forest on
all cells. -/
theorem matrix_h_other_rows_spec {fuel size p_1 : Nat} {st : Nat × (Nat → Nat)}
    (h : matrix_h.GenOk size st) (h1 : 1 ≤ size) (hsz : size * size ≤ 2 ^ 15)
    (hf : size * size + 2 ≤ fuel) :
    ∃ st', matrix_h.other_rows fuel size p_1 st = some st' ∧
      matrix_h.GenOk (size * size) st' := by
  have hrow : ∀ r, r < size - 1 → (r + 1) * size + size ≤ size * size := by
    intro r hr
    have : (r + 2) * size ≤ size * size := Nat.mul_le_mul_right _ (by omega)
    have e : (r + 2) * size = (r + 1) * size + size := by ring
    omega
  obtain ⟨st', e, hI⟩ := foldlM_range_inv
    (fun st1 r =>
      (prng_probability fuel st1.1 p_1).bind (fun p =>
        (List.range (size - 1)).foldlM
          (fun st2 k => matrix_h.other_cell fuel size p_1 ((r + 1) * size + 1 + k) st2)
          (p.1, Function.update st1.2 ((r + 1) * size)
            (u16 (CELL_VALUE ((r + 1) * size) p.2)))))
    (fun r st => matrix_h.GenOk ((r + 1) * size) st) (size - 1)
    (by
      intro r st1 hr hI
      have hr2 := hrow r hr
      obtain ⟨rt, hP⟩ := hI.packed
      obtain ⟨s', t, e, hs1, hs2, ht⟩ := prng_draw_spec hI.rng_ne hI.rng_lt fuel p_1 (by omega)
      have ht2 : t < 2 := by omega
      have hfirst : matrix_h.GenOk ((r + 1) * size + 1)
          (s', Function.update st1.2 ((r + 1) * size) (u16 (CELL_VALUE ((r + 1) * size) t))) := by
        have := hP.push_new (show (r + 1) * size + 1 ≤ 2 ^ 15 by omega) ht2
        rw [← cell_value_stored (show (r + 1) * size < 2 ^ 15 by omega) ht2] at this
        exact ⟨hs1, hs2, ⟨_, this⟩⟩
      obtain ⟨st2, e2, hI2⟩ := foldlM_range_inv
        (fun st2 k => matrix_h.other_cell fuel size p_1 ((r + 1) * size + 1 + k) st2)
        (fun k st => matrix_h.GenOk ((r + 1) * size + 1 + k) st) (size - 1)
        (by
          intro k st2 hk hI2
          have hge : size ≤ (r + 1) * size := Nat.le_mul_of_pos_left _ (by omega)
          exact matrix_h_other_cell_spec hI2 h1 (by omega) (by omega) (by omega))
        _ hfirst
      refine ⟨st2, ?_, ?_⟩
      · simp only [e, Option.some_bind]
        exact e2
      · have e3 : (r + 1) * size + 1 + (size - 1) = (r + 1 + 1) * size := by
          have : (r + 1 + 1) * size = (r + 1) * size + size := by ring
          omega
        rw [e3] at hI2
        exact hI2)
    st (by simpa using h)
  refine ⟨st', e, ?_⟩
  have e4 : (size - 1 + 1) * size = size * size := by
    have : size - 1 + 1 = size := by omega
    rw [this]
  rw [e4] at hI
  exact hI

theorem same_color_cells (v1 v2 : Nat) :
    SAME_COLOR v1 v2 = true ↔ CELL_COLOR v1 = CELL_COLOR v2 := by
  rw [same_color_iff, cell_color_eq, cell_color_eq]

theorem matrix_h_diag_block_spec {n size p_d p_d_1 index fuel : Nat} {map0 : Nat → Nat}
    {st : (Nat × (Nat → Nat) × (Nat → Nat)) × List matrix_h.diag_event}
    (h : matrix_h.DiagInv n size p_d p_d_1 map0 st) (hidx : index + size + 1 < n)
    (hlen : st.2.length + 1 < 2 ^ 64) (hf : n + 2 ≤ fuel) :
    ∃ st' e, matrix_h.diag_block fuel size p_d p_d_1 index st = some st' ∧
      matrix_h.DiagInv n size p_d p_d_1 map0 st' ∧ st'.2 = st.2 ++ [e] ∧ e.index = index := by
  obtain ⟨⟨s, map, joins⟩, log⟩ := st
  obtain ⟨rt, hP, hjoined⟩ := h.packed
  have hP : matrix_h.Packed n map rt := hP
  have hjoined : ∀ e, e ∈ log → ∀ a b, e.join = some (a, b) → rt a = rt b := hjoined
  have hcols : ∀ j, j < n → CELL_COLOR (map j) = CELL_COLOR (map0 j) := h.colors
  have hcnt : ∀ k, joins k = log.countP (fun e => e.counter == some k) := h.counted
  have hev : ∀ e, e ∈ log → matrix_h.DiagOk size p_d p_d_1 map0 e := h.events
  have hne : s ≠ 0 := h.rng_ne
  have hlt : s < 2 ^ 64 := h.rng_lt
  have hlen : log.length + 1 < 2 ^ 64 := hlen
  have i0 : index < n := by omega
  have i1 : index + 1 < n := by omega
  have i2 : index + size < n := by omega
  obtain ⟨map1, e1, hP1, _, c1, _, _, _⟩ := hP.flatten i0 hf
  obtain ⟨map2, e2, hP2, _, c2, _, _, _⟩ := hP1.flatten i1 hf
  obtain ⟨map3, e3, hP3, _, c3, _, _, _⟩ := hP2.flatten i2 hf
  obtain ⟨map4, e4, hP4, _, c4, _, _, _⟩ := hP3.flatten hidx hf
  have hc4 : ∀ j, j < n → CELL_COLOR (map4 j) = CELL_COLOR (map0 j) := by
    intro j hj
    rw [c4 j hj, c3 j hj, c2 j hj, c1 j hj, hcols j hj]
  have kT : CELL_COLOR (map (rt index)) = CELL_COLOR (map0 index) := by
    rw [hP.root_color i0, hcols _ i0]
  have kR : CELL_COLOR (map1 (rt (index + 1))) = CELL_COLOR (map0 (index + 1)) := by
    rw [hP1.root_color i1, c1 _ i1, hcols _ i1]
  have kD : CELL_COLOR (map2 (rt (index + size))) = CELL_COLOR (map0 (index + size)) := by
    rw [hP2.root_color i2, c2 _ i2, c1 _ i2, hcols _ i2]
  have kDR : CELL_COLOR (map3 (rt (index + size + 1))) = CELL_COLOR (map0 (index + size + 1)) := by
    rw [hP3.root_color hidx, c3 _ hidx, c2 _ hidx, c1 _ hidx, hcols _ hidx]
  unfold matrix_h.diag_block
  simp only [e1, e2, e3, e4, Option.some_bind]
  generalize hT : map (rt index) = target at kT
  generalize hR : map1 (rt (index + 1)) = right at kR
  generalize hD : map2 (rt (index + size)) = down at kD
  generalize hDR : map3 (rt (index + size + 1)) = downright at kDR
  have mk : ∀ (s' : Nat) (map' joins' : Nat → Nat) (e : matrix_h.diag_event),
      s' ≠ 0 → s' < 2 ^ 64 →
      (∃ rt', matrix_h.Packed n map' rt' ∧ (∀ a b, rt a = rt b → rt' a = rt' b) ∧
        ∀ a b, e.join = some (a, b) → rt' a = rt' b) →
      (∀ j, j < n → CELL_COLOR (map' j) = CELL_COLOR (map0 j)) →
      (∀ k, joins' k = joins k + (if e.counter = some k then 1 else 0)) →
      matrix_h.DiagOk size p_d p_d_1 map0 e →
      matrix_h.DiagInv n size p_d p_d_1 map0 ((s', map', joins'), log ++ [e]) := by
    intro s' map' joins' e a1 a2 a3 a4 a5 a6
    obtain ⟨rt', b1, b2, b3⟩ := a3
    refine ⟨a1, a2, ⟨rt', b1, ?_⟩, a4, ?_, ?_⟩
    · intro e' he' a b hj
      rcases List.mem_append.1 he' with p | p
      · exact b2 a b (hjoined e' p a b hj)
      · rw [List.mem_singleton] at p
        rw [p] at hj
        exact b3 a b hj
    · intro k
      show joins' k = (log ++ [e]).countP (fun e => e.counter == some k)
      rw [a5 k, hcnt k, List.countP_append, List.countP_singleton]
      simp only [beq_iff_eq]
    · intro e' he'
      rcases List.mem_append.1 he' with p | p
      · exact hev e' p
      · rw [List.mem_singleton] at p; rw [p]; exact a6
  have hjlt : ∀ k, joins k + 1 < 2 ^ 64 := by
    intro k
    have := List.countP_le_length (fun e : matrix_h.diag_event => e.counter == some k) (l := log)
    rw [hcnt k]; omega
  by_cases hq : target ≠ downright ∧ right ≠ down ∧ SAME_COLOR target downright = true ∧
      SAME_COLOR right down = true ∧ ¬ (SAME_COLOR target right = true)
  · rw [if_pos hq]
    obtain ⟨sa, t1, ea, ha1, ha2, hta⟩ := prng_draw_spec hne hlt fuel p_d (by omega)
    simp only [ea, Option.some_bind]
    rcases hta with rfl | rfl
    · simp only [ne_eq, not_true_eq_false, if_false]
      refine ⟨_, _, rfl, mk _ _ _ _ ha1 ha2 ⟨rt, hP4, fun _ _ q => q, fun _ _ q => by simp at q⟩ hc4 ?_ ?_, rfl, rfl⟩
      · intro k
        show Function.update joins 2 (u64 (joins 2 + 1)) k = joins k + (if some 2 = some k then 1 else 0)
        by_cases ek : k = 2
        · rw [ek, Function.update_same, if_pos rfl]
          exact u64_of_lt (hjlt 2)
        · rw [Function.update_noteq ek, if_neg (by simpa using Ne.symm ek)]
          rfl
      · exact ⟨kT, kR, kD, kDR, fun hn => absurd hq hn, fun _ => Or.inl ⟨rfl, rfl, rfl⟩⟩
    · simp only [ne_eq, one_ne_zero, not_false_eq_true, if_true]
      obtain ⟨sb, t2, eb, hb1, hb2, htb⟩ := prng_draw_spec ha1 ha2 fuel p_d_1 (by omega)
      simp only [eb, Option.some_bind]
      have hcTDR : CELL_COLOR (map4 index) = CELL_COLOR (map4 (index + size + 1)) := by
        rw [hc4 _ i0, hc4 _ hidx, ← kT, ← kDR]
        exact (same_color_cells _ _).1 hq.2.2.1
      have hcRD : CELL_COLOR (map4 (index + 1)) = CELL_COLOR (map4 (index + size)) := by
        rw [hc4 _ i1, hc4 _ i2, ← kR, ← kD]
        exact (same_color_cells _ _).1 hq.2.2.2.1
      have hdiff : CELL_COLOR target ≠ CELL_COLOR right := by
        intro e
        exact hq.2.2.2.2 ((same_color_cells _ _).2 e)
      by_cases hsel : t2 = CELL_COLOR target
      · rw [if_pos hsel]
        obtain ⟨ρ, map5, e5, _, hρlt, hP5, _, hρc, c5, _⟩ := hP4.join2 i0 hidx hcTDR hf
        simp only [e5, Option.map_some']
        have hval : CELL_COLOR (map4 ρ) = t2 := by
          rw [hρc, hc4 _ i0, ← kT, hsel]
        refine ⟨_, _, rfl, mk _ _ _ _ hb1 hb2 ⟨_, hP5, fun a b q => by simp only [q], ?_⟩
          (fun j hj => by rw [c5 j hj, hc4 j hj]) ?_ ?_, rfl, rfl⟩
        · intro a b q
          simp only [Option.some.injEq, Prod.mk.injEq] at q
          rw [← q.1, ← q.2]
          simp
        · intro k
          show Function.update joins (CELL_COLOR (map4 ρ)) (u64 (joins (CELL_COLOR (map4 ρ)) + 1)) k
            = joins k + (if some (CELL_COLOR (map4 ρ)) = some k then 1 else 0)
          by_cases ek : k = CELL_COLOR (map4 ρ)
          · rw [← ek, Function.update_same, if_pos rfl]
            exact u64_of_lt (hjlt k)
          · rw [Function.update_noteq ek, if_neg (by simpa using Ne.symm ek)]
            rfl
        · refine ⟨kT, kR, kD, kDR, fun hn => absurd hq hn, fun _ => Or.inr ⟨t2, htb, rfl, ?_, ?_⟩⟩
          · show some (CELL_COLOR (map4 ρ)) = some t2
            rw [hval]
          · exact Or.inl ⟨hsel.symm, rfl⟩
      · rw [if_neg hsel]
        obtain ⟨ρ, map5, e5, _, hρlt, hP5, _, hρc, c5, _⟩ := hP4.join2 i1 i2 hcRD hf
        simp only [e5, Option.map_some']
        have hright : CELL_COLOR right = t2 := by
          have a := cell_color_lt target
          have b := cell_color_lt right
          omega
        have hval : CELL_COLOR (map4 ρ) = t2 := by
          rw [hρc, hc4 _ i1, ← kR, hright]
        refine ⟨_, _, rfl, mk _ _ _ _ hb1 hb2 ⟨_, hP5, fun a b q => by simp only [q], ?_⟩
          (fun j hj => by rw [c5 j hj, hc4 j hj]) ?_ ?_, rfl, rfl⟩
        · intro a b q
          simp only [Option.some.injEq, Prod.mk.injEq] at q
          rw [← q.1, ← q.2]
          simp
        · intro k
          show Function.update joins (CELL_COLOR (map4 ρ)) (u64 (joins (CELL_COLOR (map4 ρ)) + 1)) k
            = joins k + (if some (CELL_COLOR (map4 ρ)) = some k then 1 else 0)
          by_cases ek : k = CELL_COLOR (map4 ρ)
          · rw [← ek, Function.update_same, if_pos rfl]
            exact u64_of_lt (hjlt k)
          · rw [Function.update_noteq ek, if_neg (by simpa using Ne.symm ek)]
            rfl
        · refine ⟨kT, kR, kD, kDR, fun hn => absurd hq hn, fun _ => Or.inr ⟨t2, htb, rfl, ?_, ?_⟩⟩
          · show some (CELL_COLOR (map4 ρ)) = some t2
            rw [hval]
          · exact Or.inr ⟨fun e => hsel e.symm, hright, rfl⟩
  · rw [if_neg hq]
    refine ⟨_, _, rfl, mk _ _ _ _ hne hlt ⟨rt, hP4, fun _ _ q => q, fun _ _ q => by simp at q⟩ hc4 ?_ ?_, rfl, rfl⟩
    · intro k
      show joins k = joins k + (if (none : Option Nat) = some k then 1 else 0)
      simp
    · exact ⟨kT, kR, kD, kDR, fun _ => ⟨rfl, rfl, rfl⟩, fun hn => absurd hn hq⟩

theorem length_flatMap_range (m : Nat) (f : Nat → Nat → Nat) :
    ∀ n, ((List.range n).flatMap (fun r => (List.range m).map (f r))).length = n * m := by
  intro n
  induction n with
  | zero => simp
  | succ n ih =>
    rw [List.range_succ, List.flatMap_append, List.length_append, ih]
    simp only [List.flatMap_cons, List.flatMap_nil, List.append_nil, List.length_map,
      List.length_range]
    ring

/-- The loops of the diagonal pass return, keep the invariant and record the blocks in order. -/
theorem matrix_h_diag_pass_spec {fuel size p_d p_d_1 rng : Nat} {map : Nat → Nat}
    (h : matrix_h.GenOk (size * size) (rng, map)) (h2 : 2 ≤ size) (hsz : size * size ≤ 2 ^ 15)
    (hf : size * size + 2 ≤ fuel) :
    ∃ st, matrix_h.diag_pass fuel size p_d p_d_1 rng map = some st ∧
      matrix_h.DiagInv (size * size) size p_d p_d_1 map st ∧
      st.2.map (fun e => e.index) = matrix_h.block_order size := by
  obtain ⟨s', rfl⟩ : ∃ s', size = s' + 1 := ⟨size - 1, by omega⟩
  have hidx : ∀ r k, r < s' → k < s' →
      r * (s' + 1) + k + (s' + 1) + 1 < (s' + 1) * (s' + 1) := by
    intro r k hr hk
    have a : (r + 1) * (s' + 1) ≤ s' * (s' + 1) := Nat.mul_le_mul_right _ (by omega)
    have b : (r + 1) * (s' + 1) = r * (s' + 1) + (s' + 1) := by ring
    have c : (s' + 1) * (s' + 1) = s' * (s' + 1) + (s' + 1) := by ring
    omega
  have hlenb : ∀ r k, r < s' → k < s' → r * s' + k + 1 < 2 ^ 64 := by
    intro r k hr hk
    have a : r * s' ≤ (s' + 1) * (s' + 1) := Nat.mul_le_mul (by omega) (by omega)
    have b : s' + 1 ≤ (s' + 1) * (s' + 1) := Nat.le_mul_self _
    omega
  have h0 : matrix_h.DiagInv ((s' + 1) * (s' + 1)) (s' + 1) p_d p_d_1 map
      ((rng, map, fun _ => 0), []) :=
    ⟨h.rng_ne, h.rng_lt, h.packed.imp (fun rt hP => ⟨hP, fun e he => by simp at he⟩),
      fun _ _ => rfl, fun _ => rfl, fun e he => by simp at he⟩
  obtain ⟨st, e, hI⟩ := foldlM_range_inv
    (fun st1 r => (List.range s').foldlM
      (fun st2 k => matrix_h.diag_block fuel (s' + 1) p_d p_d_1 (r * (s' + 1) + k) st2) st1)
    (fun r st => matrix_h.DiagInv ((s' + 1) * (s' + 1)) (s' + 1) p_d p_d_1 map st ∧
      st.2.map (fun e => e.index) =
        (List.range r).flatMap (fun r => (List.range s').map (fun k => r * (s' + 1) + k)) ∧
      st.2.length = r * s')
    s'
    (by
      intro r st hr hI
      obtain ⟨st', e', hI'⟩ := foldlM_range_inv
        (fun st2 k => matrix_h.diag_block fuel (s' + 1) p_d p_d_1 (r * (s' + 1) + k) st2)
        (fun k st2 => matrix_h.DiagInv ((s' + 1) * (s' + 1)) (s' + 1) p_d p_d_1 map st2 ∧
          st2.2.map (fun e => e.index) =
            (List.range r).flatMap (fun r => (List.range s').map (fun k => r * (s' + 1) + k)) ++
            (List.range k).map (fun k => r * (s' + 1) + k) ∧
          st2.2.length = r * s' + k)
        s'
        (by
          intro k st2 hk hI2
          obtain ⟨st3, ev, e3, hI3, hlog, hidx3⟩ := matrix_h_diag_block_spec hI2.1
            (hidx r k hr hk) (by rw [hI2.2.2]; exact hlenb r k hr hk) hf
          refine ⟨st3, e3, hI3, ?_, ?_⟩
          · rw [hlog, List.map_append, hI2.2.1, List.range_succ, List.map_append,
              List.append_assoc]
            simp only [List.map_cons, List.map_nil, hidx3]
          · rw [hlog, List.length_append, hI2.2.2]
            rfl)
        st ⟨hI.1, by rw [hI.2.1]; simp, by rw [hI.2.2]; rfl⟩
      refine ⟨st', e', hI'.1, ?_, ?_⟩
      · rw [hI'.2.1, List.range_succ, List.flatMap_append]
        simp
      · rw [hI'.2.2]; ring)
    _ ⟨h0, by simp, by simp⟩
  exact ⟨st, e, hI.1, hI.2.1⟩

/-- The diagonal stage of `matrix_generate` returns.  With a positive `diagonal` the map is
a packed forest with the colours it had, the blocks are recorded in order, every record
is as `DiagOk` says and each counter saved is the number of records that incremented
it; otherwise nothing is changed and the three counters are cleared. -/
theorem matrix_h_generate_diagonals_spec {fuel rng : Nat} {map : Nat → Nat} (m : matrix)
    (h : matrix_h.GenOk (m.size * m.size) (rng, map)) (h2 : 2 ≤ m.size)
    (hsz : m.size * m.size < 2 ^ 15) (hf : m.size * m.size + 2 ≤ fuel) :
    ∃ s3, matrix_h.generate_diagonals fuel m rng map = some s3 ∧
      s3.1 ≠ 0 ∧ s3.1 < 2 ^ 64 ∧
      (∃ rt, matrix_h.Packed (m.size * m.size) s3.2.1 rt ∧
        ∀ e, e ∈ s3.2.2.2 → ∀ a b, e.join = some (a, b) → rt a = rt b) ∧
      (∀ j, j < m.size * m.size → CELL_COLOR (s3.2.1 j) = CELL_COLOR (map j)) ∧
      (m.diagonal > 0 →
        s3.2.2.2.map (fun e => e.index) = matrix_h.block_order m.size ∧
        (∀ e, e ∈ s3.2.2.2 → matrix_h.DiagOk m.size (prng_set_probability m.diagonal)
          (prng_set_probability m.diagonal_nonzero) map e) ∧
        (∀ k, k < 3 → s3.2.2.1 k = s3.2.2.2.countP (fun e => e.counter == some k))) ∧
      (¬ m.diagonal > 0 → s3.2.2.2 = [] ∧ ∀ k, k < 3 → s3.2.2.1 k = 0) := by
  unfold matrix_h.generate_diagonals
  by_cases hd : m.diagonal > 0
  · rw [if_pos hd]
    obtain ⟨st, e, hI, hord⟩ := @matrix_h_diag_pass_spec fuel m.size
      (prng_set_probability m.diagonal) (prng_set_probability m.diagonal_nonzero) rng map h h2
      (by omega) hf
    rw [e, Option.map_some']
    refine ⟨_, rfl, hI.rng_ne, hI.rng_lt, hI.packed, hI.colors, fun _ => ⟨hord, hI.events, ?_⟩,
      fun hn => absurd hd hn⟩
    intro k hk
    show (if k < 3 then u16 (st.1.2.2 k) else m.djoins k) = _
    rw [if_pos hk, hI.counted k]
    apply u16_of_lt
    have a := List.countP_le_length (fun e : matrix_h.diag_event => e.counter == some k)
      (l := st.2)
    have b : st.2.length = (matrix_h.block_order m.size).length := by
      rw [← hord, List.length_map]
    have c : (matrix_h.block_order m.size).length ≤ m.size * m.size := by
      unfold matrix_h.block_order
      rw [length_flatMap_range]
      exact Nat.mul_le_mul (by omega) (by omega)
    omega
  · rw [if_neg hd]
    refine ⟨_, rfl, h.rng_ne, h.rng_lt,
      h.packed.imp (fun rt hP => ⟨hP, fun e he => by simp at he⟩),
      fun _ _ => rfl, fun hp => absurd hp hd, fun _ => ⟨rfl, ?_⟩⟩
    intro k hk
    show (if k < 3 then 0 else m.djoins k) = 0
    rw [if_pos hk]

theorem matrix_h_count_cell_spec {n fuel i : Nat} {rt rv counts0 : Nat → Nat} {S : Finset Nat}
    {st : (Nat → Nat) × (Nat → Nat) × (Nat → Nat) × (Nat → Nat)}
    (h : matrix_h.CountInv n rt rv counts0 S st) (hS : S ⊆ Finset.range n) (hi : i < n)
    (hiS : i ∉ S) (hf : n + 2 ≤ fuel) :
    ∃ st', matrix_h.count_cell fuel i st = some st' ∧
      matrix_h.CountInv n rt rv counts0 (insert i S) st' := by
  obtain ⟨map, counts, unique, fill⟩ := st
  have hP : matrix_h.Packed n map rt := h.packed
  have hroots : ∀ j, j < n → map (rt j) = rv j := h.roots
  have hflat : ∀ j, j ∈ S → map j = rv j := h.flat
  have hcounts : ∀ v, counts v =
      if v < 2 * n then (S.filter (fun j => rv j = v)).card else counts0 v := h.counts
  have hunique : ∀ k, unique k = ((S.image rv).filter (fun v => CELL_COLOR v = k)).card :=
    h.unique
  have hfill : ∀ k, fill k = (S.filter (fun j => CELL_COLOR (rv j) = k)).card := h.fill
  obtain ⟨map', e, hP', hi', _, hroots', hflat', _⟩ := hP.flatten hi hf
  have hn15 := hP.bound
  have hcard : S.card ≤ n := by
    have := Finset.card_le_card hS
    simpa using this
  have hc : map (rt i) = rv i := hroots i hi
  have hclt : rv i < 2 * n := by
    obtain ⟨a, _, b⟩ := hP.root_self hi
    have := cell_color_lt (map i)
    rw [← hc, b]; omega
  have hfc : ∀ (p : Nat → Prop) [DecidablePred p], (S.filter p).card ≤ n := fun p _ =>
    (Finset.card_filter_le S p).trans hcard
  unfold matrix_h.count_cell
  rw [e, Option.map_some']
  refine ⟨_, rfl, hP', ?_, ?_, ?_, ?_, ?_⟩
  · intro j hj
    show map' (rt j) = rv j
    rw [hroots' j hj]; exact hroots j hj
  · intro j hj
    show map' j = rv j
    rcases Finset.mem_insert.1 hj with rfl | hj'
    · rw [hi']; exact hc
    · have hjn : j < n := Finset.mem_range.1 (hS hj')
      have := hflat' j hjn (by rw [hflat j hj', hroots j hjn])
      rw [this]; exact hroots j hjn
  · intro v
    show Function.update counts (map (rt i)) (u16 (counts (map (rt i)) + 1)) v = _
    rw [hc]
    by_cases ev : v = rv i
    · rw [ev, Function.update_same, hcounts, if_pos hclt, if_pos hclt,
        Finset.filter_insert, if_pos rfl, Finset.card_insert_of_not_mem
          (fun hm => hiS (Finset.mem_filter.1 hm).1)]
      apply u16_of_lt
      have := hfc (fun j => rv j = rv i)
      omega
    · rw [Function.update_noteq ev, hcounts, Finset.filter_insert,
        if_neg (fun e2 : rv i = v => ev e2.symm)]
  · intro k
    show Function.update unique (CELL_COLOR (map (rt i)))
      (u64 (unique (CELL_COLOR (map (rt i))) +
        (if counts (map (rt i)) = 0 then 1 else 0))) k = _
    rw [hc, Finset.image_insert, Finset.filter_insert]
    have hold : counts (rv i) = 0 ↔ rv i ∉ S.image rv := by
      rw [hcounts, if_pos hclt, Finset.card_eq_zero, Finset.filter_eq_empty_iff]
      simp only [Finset.mem_image, not_exists, not_and]
    have hub : ((S.image rv).filter (fun v => CELL_COLOR v = k)).card ≤ n :=
      (Finset.card_filter_le _ _).trans (Finset.card_image_le.trans hcard)
    by_cases ek : k = CELL_COLOR (rv i)
    · rw [← ek, Function.update_same, if_pos rfl, hunique]
      by_cases hmem : rv i ∈ S.image rv
      · have hmf : rv i ∈ (S.image rv).filter (fun v => CELL_COLOR v = k) :=
          Finset.mem_filter.2 ⟨hmem, ek.symm⟩
        rw [if_neg (fun h0 => (hold.1 h0) hmem), Nat.add_zero, Finset.insert_eq_of_mem hmf]
        exact u64_of_lt (by omega)
      · rw [if_pos (hold.2 hmem),
          Finset.card_insert_of_not_mem (fun hm => hmem (Finset.mem_filter.1 hm).1)]
        exact u64_of_lt (by omega)
    · rw [Function.update_noteq ek, if_neg (fun e2 : CELL_COLOR (rv i) = k => ek e2.symm)]
      exact hunique k
  · intro k
    show Function.update fill (CELL_COLOR (map (rt i)))
      (u64 (fill (CELL_COLOR (map (rt i))) + 1)) k = _
    rw [hc, Finset.filter_insert]
    by_cases ek : k = CELL_COLOR (rv i)
    · rw [← ek, Function.update_same, if_pos rfl, hfill,
        Finset.card_insert_of_not_mem (fun hm => hiS (Finset.mem_filter.1 hm).1)]
      have := hfc (fun j => CELL_COLOR (rv j) = k)
      exact u64_of_lt (by omega)
    · rw [Function.update_noteq ek, if_neg (fun e2 : CELL_COLOR (rv i) = k => ek e2.symm)]
      exact hfill k

theorem matrix_h_count_list_spec {n fuel : Nat} {rt rv counts0 : Nat → Nat} (hf : n + 2 ≤ fuel) :
    ∀ (L : List Nat) (S : Finset Nat)
      (st : (Nat → Nat) × (Nat → Nat) × (Nat → Nat) × (Nat → Nat)),
      L.Nodup → (∀ i, i ∈ L → i < n ∧ i ∉ S) → S ⊆ Finset.range n →
      matrix_h.CountInv n rt rv counts0 S st →
      ∃ st', L.foldlM (fun st index => matrix_h.count_cell fuel index st) st = some st' ∧
        matrix_h.CountInv n rt rv counts0 (S ∪ L.toFinset) st' := by
  intro L
  induction L with
  | nil => intro S st _ _ _ h; exact ⟨st, rfl, by simpa using h⟩
  | cons i L ih =>
    intro S st hnd hL hS h
    obtain ⟨hi, hiS⟩ := hL i (List.mem_cons_self _ _)
    obtain ⟨st1, e1, h1⟩ := matrix_h_count_cell_spec h hS hi hiS hf
    have hnd' := List.nodup_cons.1 hnd
    obtain ⟨st2, e2, h2⟩ := ih (insert i S) st1 hnd'.2
      (by
        intro j hj
        refine ⟨(hL j (List.mem_cons_of_mem _ hj)).1, ?_⟩
        intro hm
        rcases Finset.mem_insert.1 hm with rfl | hm'
        · exact hnd'.1 hj
        · exact (hL j (List.mem_cons_of_mem _ hj)).2 hm')
      (by
        intro j hj
        rcases Finset.mem_insert.1 hj with rfl | hj'
        · exact Finset.mem_range.2 hi
        · exact hS hj')
      h1
    refine ⟨st2, ?_, ?_⟩
    · rw [List.foldlM_cons, e1]; exact e2
    · have : S ∪ (i :: L).toFinset = insert i S ∪ L.toFinset := by
        ext x; simp only [Finset.mem_union, List.toFinset_cons, Finset.mem_insert]; tauto
      rw [this]; exact h2

/-- The flattening pass with `counts` allocated returns: the map is the same forest with
every cell holding its root value, `counts[v]` is the number of cells with value `v`,
`unique[k]` the number of distinct values of colour `k` and `fill[k]` the number of
cells of colour `k`. -/
theorem matrix_h_count_pass_spec {fuel size : Nat} {map rt : Nat → Nat} (counts : Nat → Nat)
    (h : matrix_h.Packed (size * size) map rt) (hf : size * size + 2 ≤ fuel) :
    ∃ r, matrix_h.count_pass fuel size map counts = some r ∧
      matrix_h.Packed (size * size) r.1 rt ∧
      (∀ j, j < size * size → r.1 j = map (rt j)) ∧
      (∀ j, j < size * size → CELL_COLOR (r.1 j) = CELL_COLOR (map j)) ∧
      (∀ v, r.2.1 v = if v < 2 * (size * size)
        then ((Finset.range (size * size)).filter (fun j => r.1 j = v)).card else counts v) ∧
      (∀ k, r.2.2.1 k = (((Finset.range (size * size)).image r.1).filter
        (fun v => CELL_COLOR v = k)).card) ∧
      (∀ k, r.2.2.2 k = ((Finset.range (size * size)).filter
        (fun j => CELL_COLOR (r.1 j) = k)).card) := by
  have h0 : matrix_h.CountInv (size * size) rt (fun j => map (rt j)) counts ∅
      (map, (fun i => if i < 2 * size * size then 0 else counts i), (fun _ => 0), (fun _ => 0)) := by
    refine ⟨h, fun j hj => rfl, fun j hj => by simp at hj, fun v => ?_, fun k => by simp,
      fun k => by simp⟩
    · show (if v < 2 * size * size then 0 else counts v) = _
      rw [Nat.mul_assoc]
      simp
  obtain ⟨st, e, hI⟩ := matrix_h_count_list_spec hf (List.range (size * size)).reverse ∅ _
    (List.nodup_reverse.2 (List.nodup_range _))
    (by
      intro i hi
      rw [List.mem_reverse, List.mem_range] at hi
      exact ⟨hi, by simp⟩)
    (Finset.empty_subset _) h0
  have hS : (∅ : Finset Nat) ∪ (List.range (size * size)).reverse.toFinset =
      Finset.range (size * size) := by
    ext x; simp
  rw [hS] at hI
  have hflat : ∀ j, j ∈ Finset.range (size * size) → st.1 j = map (rt j) := hI.flat
  refine ⟨st, e, hI.packed, fun j hj => hflat j (Finset.mem_range.2 hj), ?_, ?_, ?_, ?_⟩
  · intro j hj
    rw [hflat j (Finset.mem_range.2 hj)]
    exact h.root_color hj
  · intro v
    rw [hI.counts v]
    congr 2
    apply Finset.filter_congr
    intro j hj
    rw [hflat j hj]
  · intro k
    rw [hI.unique k]
    congr 2
    apply Finset.image_congr
    intro j hj
    exact (hflat j hj).symm
  · intro k
    rw [hI.fill k]
    congr 1
    apply Finset.filter_congr
    intro j hj
    rw [hflat j hj]

theorem matrix_h_fill_cell_eq (fuel i : Nat)
    (st : (Nat → Nat) × (Nat → Nat) × (Nat → Nat) × (Nat → Nat)) :
    matrix_h.fill_cell fuel i (st.1, st.2.2.2) =
      (matrix_h.count_cell fuel i st).map (fun r => (r.1, r.2.2.2)) := by
  unfold matrix_h.fill_cell matrix_h.count_cell
  cases matrix_h.djs_flatten fuel st.1 i <;> rfl

/-- The flattening loop without `counts` does to the map and to `fill` what the loop with
`counts` does. -/
theorem matrix_h_fill_list_eq (fuel : Nat) :
    ∀ (L : List Nat) (st : (Nat → Nat) × (Nat → Nat) × (Nat → Nat) × (Nat → Nat)),
      L.foldlM (fun st index => matrix_h.fill_cell fuel index st) (st.1, st.2.2.2) =
        (L.foldlM (fun st index => matrix_h.count_cell fuel index st) st).map
          (fun r => (r.1, r.2.2.2)) := by
  intro L
  induction L with
  | nil => intro st; rfl
  | cons i L ih =>
    intro st
    rw [List.foldlM_cons, List.foldlM_cons, matrix_h_fill_cell_eq]
    cases matrix_h.count_cell fuel i st with
    | none => rfl
    | some st1 => exact ih st1

/-- The flattening pass without `counts` returns: every cell holds its root value and
`fill[k]` is the number of cells of colour `k`. -/
theorem matrix_h_fill_pass_spec {fuel size : Nat} {map rt : Nat → Nat}
    (h : matrix_h.Packed (size * size) map rt) (hf : size * size + 2 ≤ fuel) :
    ∃ r, matrix_h.fill_pass fuel size map = some r ∧
      matrix_h.Packed (size * size) r.1 rt ∧
      (∀ j, j < size * size → r.1 j = map (rt j)) ∧
      (∀ j, j < size * size → CELL_COLOR (r.1 j) = CELL_COLOR (map j)) ∧
      (∀ k, r.2 k = ((Finset.range (size * size)).filter
        (fun j => CELL_COLOR (r.1 j) = k)).card) := by
  obtain ⟨r, e, hP, hflat, hcol, _, _, hfill⟩ := matrix_h_count_pass_spec (fun _ => 0) h hf
  refine ⟨(r.1, r.2.2.2), ?_, hP, hflat, hcol, hfill⟩
  unfold matrix_h.fill_pass
  unfold matrix_h.count_pass at e
  have := matrix_h_fill_list_eq fuel (List.range (size * size)).reverse
    (map, (fun i => if i < 2 * size * size then 0 else (fun _ => 0) i), (fun _ => 0), (fun _ => 0))
  rw [e] at this
  exact this

/-- The spanning test of `matrix_generate` returns. -/
theorem matrix_h_span_pass_spec {fuel size : Nat} (map span : Nat → Nat) (h1 : 1 ≤ size)
    (hf : 2 * size + 1 ≤ fuel) :
    ∃ r, matrix_h.span_pass fuel size map span = some r := by
  have hlen : (cell_qsort ((List.range size).map (fun i => map ((size - 1) * size + i)))).length =
      size := by
    rw [(cell_qsort_perm _).length_eq, List.length_map, List.length_range]
  cases hq : cell_qsort ((List.range size).map (fun i => map ((size - 1) * size + i))) with
  | nil => rw [hq] at hlen; simp at hlen; omega
  | cons v t =>
    obtain ⟨dest, e, _⟩ := cell_common_spec v ((List.range size).map (fun i => map i))
      ((List.range size).map (fun i => map ((size - 1) * size + i))) fuel
      (by simp only [List.length_map, List.length_range]; omega)
    unfold matrix_h.span_pass
    simp only [hq, List.head?_cons, e, Option.map_some']
    exact ⟨_, rfl⟩

theorem matrix_h_block_order_lt {size x : Nat} (h : x ∈ matrix_h.block_order size) :
    x + size + 1 < size * size := by
  unfold matrix_h.block_order at h
  rw [List.mem_flatMap] at h
  obtain ⟨r, hr, hx⟩ := h
  rw [List.mem_map] at hx
  obtain ⟨k, hk, rfl⟩ := hx
  rw [List.mem_range] at hr hk
  obtain ⟨s', rfl⟩ : ∃ s', size = s' + 1 := ⟨size - 1, by omega⟩
  have a : (r + 1) * (s' + 1) ≤ s' * (s' + 1) := Nat.mul_le_mul_right _ (by omega)
  have b : (r + 1) * (s' + 1) = r * (s' + 1) + (s' + 1) := by ring
  have c : (s' + 1) * (s' + 1) = s' * (s' + 1) + (s' + 1) := by ring
  simp only [Nat.add_sub_cancel] at hr hk
  omega

theorem matrix_h.DiagOk.recolor {size p_d p_d_1 : Nat} {mapA mapB : Nat → Nat}
    {e : matrix_h.diag_event} (h : matrix_h.DiagOk size p_d p_d_1 mapA e)
    (hidx : e.index + size + 1 < size * size)
    (hcol : ∀ j, j < size * size → CELL_COLOR (mapB j) = CELL_COLOR (mapA j)) :
    matrix_h.DiagOk size p_d p_d_1 mapB e :=
  ⟨by rw [hcol _ (by omega)]; exact h.col_target,
    by rw [hcol _ (by omega)]; exact h.col_right,
    by rw [hcol _ (by omega)]; exact h.col_down,
    by rw [hcol _ hidx]; exact h.col_downright, h.plain, h.taken⟩

/-- The flattening stage of `matrix_generate` returns; the map is left with every cell
holding its root value, and the counters are the numbers of cells and of values. -/
theorem matrix_h_generate_counts_spec {fuel : Nat} {map rt : Nat → Nat} (m : matrix)
    (h : matrix_h.Packed (m.size * m.size) map rt) (hsz : m.size * m.size < 2 ^ 15)
    (hf : m.size * m.size + 2 ≤ fuel) :
    ∃ s4, matrix_h.generate_counts fuel m map = some s4 ∧
      matrix_h.Packed (m.size * m.size) s4.1 rt ∧
      (∀ j, j < m.size * m.size → s4.1 j = map (rt j)) ∧
      (∀ j, j < m.size * m.size → CELL_COLOR (s4.1 j) = CELL_COLOR (map j)) ∧
      (∀ k, k < 2 → s4.2.2.2 k = ((Finset.range (m.size * m.size)).filter
        (fun j => CELL_COLOR (s4.1 j) = k)).card) ∧
      (∀ counts0, m.counts = some counts0 → ∃ cnt, s4.2.1 = some cnt ∧
        (∀ v, v < 2 * (m.size * m.size) →
          cnt v = ((Finset.range (m.size * m.size)).filter (fun j => s4.1 j = v)).card) ∧
        (∀ k, k < 2 → s4.2.2.1 k = (((Finset.range (m.size * m.size)).image s4.1).filter
          (fun v => CELL_COLOR v = k)).card)) ∧
      (m.counts = none → s4.2.1 = none ∧ ∀ k, k < 2 → s4.2.2.1 k = 0) := by
  have hb1 : ∀ (p : Nat → Prop) [DecidablePred p],
      ((Finset.range (m.size * m.size)).filter p).card < 2 ^ 16 := by
    intro p _
    have := Finset.card_filter_le (Finset.range (m.size * m.size)) p
    simp only [Finset.card_range] at this
    omega
  have hb2 : ∀ (f : Nat → Nat) (p : Nat → Prop) [DecidablePred p],
      (((Finset.range (m.size * m.size)).image f).filter p).card < 2 ^ 16 := by
    intro f p _
    have a := Finset.card_filter_le ((Finset.range (m.size * m.size)).image f) p
    have b := Finset.card_image_le (s := Finset.range (m.size * m.size)) (f := f)
    simp only [Finset.card_range] at b
    omega
  unfold matrix_h.generate_counts
  cases hc : m.counts with
  | some counts =>
    obtain ⟨r, e, hP, hflat, hcol, hcnt, huniq, hfill⟩ := matrix_h_count_pass_spec counts h hf
    simp only [e, Option.map_some']
    refine ⟨_, rfl, hP, hflat, hcol, ?_, ?_, fun hn => by simp at hn⟩
    · intro k hk
      show (if k < 2 then u16 (r.2.2.2 k) else m.fill k) = _
      rw [if_pos hk, hfill k]
      exact u16_of_lt (hb1 _)
    · intro counts0 _
      refine ⟨r.2.1, rfl, ?_, ?_⟩
      · intro v hv
        rw [hcnt v, if_pos hv]
      · intro k hk
        show (if k < 2 then u16 (r.2.2.1 k) else m.unique k) = _
        rw [if_pos hk, huniq k]
        exact u16_of_lt (hb2 _ _)
  | none =>
    obtain ⟨r, e, hP, hflat, hcol, hfill⟩ := matrix_h_fill_pass_spec h hf
    simp only [e, Option.map_some']
    refine ⟨_, rfl, hP, hflat, hcol, ?_, fun c hn => by simp at hn, fun _ => ⟨rfl, ?_⟩⟩
    · intro k hk
      show (if k < 2 then u16 (r.2 k) else m.fill k) = _
      rw [if_pos hk, hfill k]
      exact u16_of_lt (hb1 _)
    · intro k hk
      show (if k < 2 then 0 else m.unique k) = 0
      rw [if_pos hk]

theorem matrix_h_generate_spans_spec {fuel : Nat} (m : matrix) (map : Nat → Nat)
    (h1 : 1 ≤ m.size) (hf : 2 * m.size + 1 ≤ fuel) :
    ∃ s5, matrix_h.generate_spans fuel m map = some s5 := by
  unfold matrix_h.generate_spans
  cases m.span with
  | none => exact ⟨_, rfl⟩
  | some span =>
    obtain ⟨r, e⟩ := matrix_h_span_pass_spec map span h1 hf
    simp only [e, Option.map_some']
    exact ⟨_, rfl⟩

/-- The function `matrix_generate` returns on a matrix as `matrix_init` leaves it (side 2 to
181, map allocated, valid generator state); the map is left as a packed forest with
every cell holding its root value, and the counters are as the stages leave them. -/
theorem matrix_generate_spec (m : matrix) (map0 : Nat → Nat) (hmap : m.map = some map0)
    (h2 : 2 ≤ m.size) (hsz : m.size * m.size < 2 ^ 15) (hs : m.rng ≠ 0) (hlt : m.rng < 2 ^ 64)
    (fuel : Nat) (hf : m.size * m.size + 2 ≤ fuel) :
    ∃ m' log mapF rt, matrix_generate fuel m = some (m', log) ∧ m'.map = some mapF ∧
      matrix_h.Packed (m.size * m.size) mapF rt ∧
      (∀ j, j < m.size * m.size → matrix_h.parent mapF j = rt j) ∧
      (∀ e, e ∈ log → ∀ a b, e.join = some (a, b) → rt a = rt b) ∧
      (m.diagonal > 0 →
        log.map (fun e => e.index) = matrix_h.block_order m.size ∧
        (∀ e, e ∈ log → matrix_h.DiagOk m.size (prng_set_probability m.diagonal)
          (prng_set_probability m.diagonal_nonzero) mapF e) ∧
        (∀ k, k < 3 → m'.djoins k = log.countP (fun e => e.counter == some k))) ∧
      (¬ m.diagonal > 0 → log = [] ∧ ∀ k, k < 3 → m'.djoins k = 0) ∧
      (∀ k, k < 2 → m'.fill k = ((Finset.range (m.size * m.size)).filter
        (fun j => CELL_COLOR (mapF j) = k)).card) ∧
      (∀ counts0, m.counts = some counts0 → ∃ cnt, m'.counts = some cnt ∧
        (∀ v, v < 2 * (m.size * m.size) →
          cnt v = ((Finset.range (m.size * m.size)).filter (fun j => mapF j = v)).card) ∧
        (∀ k, k < 2 → m'.unique k = (((Finset.range (m.size * m.size)).image mapF).filter
          (fun v => CELL_COLOR v = k)).card)) ∧
      (m.counts = none → m'.counts = none ∧ ∀ k, k < 2 → m'.unique k = 0) := by
  have hle : m.size ≤ m.size * m.size := Nat.le_mul_self _
  obtain ⟨s1, e1, g1⟩ := @matrix_h_first_row_spec fuel m.size (prng_set_probability m.nonzero)
    m.rng map0 hs hlt (by omega) (by omega) (by omega)
  obtain ⟨s2, e2, g2⟩ := @matrix_h_other_rows_spec fuel m.size (prng_set_probability m.nonzero)
    s1 g1 (by omega) (by omega) hf
  obtain ⟨s3, e3, _, _, ⟨rt, hP3, hjoined⟩, hcol3, hdiag, hnodiag⟩ :=
    @matrix_h_generate_diagonals_spec fuel s2.1 s2.2 m g2 h2 hsz hf
  obtain ⟨s4, e4, hP4, hflat4, hcol4, hfill, hcounts, hnocounts⟩ :=
    matrix_h_generate_counts_spec m hP3 hsz hf
  have hfs : 2 * m.size + 1 ≤ fuel := by
    have : 2 * m.size ≤ m.size * m.size := Nat.mul_le_mul_right _ h2
    omega
  obtain ⟨s5, e5⟩ := matrix_h_generate_spans_spec m s4.1 (show 1 ≤ m.size by omega) hfs
  have hgen : ∃ m', matrix_generate fuel m = some (m', s3.2.2.2) ∧ m'.map = some s4.1 ∧
      m'.djoins = s3.2.2.1 ∧ m'.fill = s4.2.2.2 ∧ m'.counts = s4.2.1 ∧
      m'.unique = s4.2.2.1 := by
    unfold matrix_generate
    rw [hmap]
    simp only [e1, e2, e3, e4, e5, Option.some_bind, Option.map_some']
    exact ⟨_, rfl, rfl, rfl, rfl, rfl, rfl⟩
  obtain ⟨m', eg, em, ed, ef, ec, eu⟩ := hgen
  rw [← ed] at hdiag hnodiag
  rw [← ef] at hfill
  rw [← ec, ← eu] at hcounts hnocounts
  refine ⟨m', s3.2.2.2, s4.1, rt, eg, em, hP4, ?_, hjoined, ?_, hnodiag, hfill, hcounts,
    hnocounts⟩
  · intro j hj
    unfold matrix_h.parent
    rw [hflat4 j hj, (hP3.root_self hj).2.2]
    exact (cell_of_parts (by have := (hP3.root_self hj).1; omega) (cell_color_lt _)).2.1
  · intro hd
    obtain ⟨hord, hev, hcnt⟩ := hdiag hd
    refine ⟨hord, ?_, hcnt⟩
    intro e he
    have hidx : e.index + m.size + 1 < m.size * m.size := by
      apply matrix_h_block_order_lt
      rw [← hord]
      exact List.mem_map_of_mem _ he
    apply (hev e he).recolor hidx
    intro j hj
    rw [hcol4 j hj, hcol3 j hj]

theorem matrix_h_flat_facts {n : Nat} {mapF rt : Nat → Nat} (hP : matrix_h.Packed n mapF rt)
    (hflat : ∀ j, j < n → matrix_h.parent mapF j = rt j) :
    ∀ j, j < n → mapF j < 2 ^ 16 ∧ CELL_INDEX (mapF j) < n ∧
      mapF (CELL_INDEX (mapF j)) = mapF j ∧ mapF j = mapF (rt j) := by
  intro j hj
  have h1 := hP.value hj
  obtain ⟨hr, _, hv⟩ := hP.root_self hj
  have e : mapF j = mapF (rt j) := by
    rw [hflat j hj] at h1
    exact h1.trans hv.symm
  have hp : CELL_INDEX (mapF j) = rt j := hflat j hj
  exact ⟨hP.val_lt j hj, by rw [hp]; exact hr, by rw [hp]; exact e.symm, e⟩

/-- C35: on a matrix as `matrix_init` leaves it, `matrix_generate` returns and leaves every
cell with the value of its root (a cell whose entry packs its own index).  `fill[k]` is
the number of cells of colour `k`, and the two add up to `size * size`.  When `counts`
is allocated, `counts[v]` is the number of cells whose value is `v`, and `unique[k]` is
the number of distinct values of colour `k`, which is the number of roots of colour
`k`.  When `counts` is not allocated, `unique[0]` and `unique[1]` are 0. -/
theorem fill_unique_counts (m : matrix) (map0 : Nat → Nat) (hmap : m.map = some map0)
    (h2 : 2 ≤ m.size) (hsz : m.size * m.size < 2 ^ 15) (hs : m.rng ≠ 0) (hlt : m.rng < 2 ^ 64)
    (fuel : Nat) (hf : m.size * m.size + 2 ≤ fuel) :
    ∃ m' log mapF, matrix_generate fuel m = some (m', log) ∧ m'.map = some mapF ∧
      (∀ j, j < m.size * m.size → mapF j < 2 ^ 16 ∧ CELL_INDEX (mapF j) < m.size * m.size ∧
        mapF (CELL_INDEX (mapF j)) = mapF j) ∧
      (∀ k, k < 2 → m'.fill k = ((Finset.range (m.size * m.size)).filter
        (fun j => CELL_COLOR (mapF j) = k)).card) ∧
      m'.fill 0 + m'.fill 1 = m.size * m.size ∧
      (∀ counts0, m.counts = some counts0 → ∃ cnt, m'.counts = some cnt ∧
        (∀ v, v < 2 * (m.size * m.size) →
          cnt v = ((Finset.range (m.size * m.size)).filter (fun j => mapF j = v)).card) ∧
        (∀ k, k < 2 →
          m'.unique k = (((Finset.range (m.size * m.size)).image mapF).filter
            (fun v => CELL_COLOR v = k)).card ∧
          m'.unique k = ((Finset.range (m.size * m.size)).filter
            (fun i => CELL_INDEX (mapF i) = i ∧ CELL_COLOR (mapF i) = k)).card)) ∧
      (m.counts = none → m'.counts = none ∧ m'.unique 0 = 0 ∧ m'.unique 1 = 0) := by
  obtain ⟨m', log, mapF, rt, eg, em, hP, hflat, _, _, _, hfill, hcounts, hnocounts⟩ :=
    matrix_generate_spec m map0 hmap h2 hsz hs hlt fuel hf
  have hfacts := matrix_h_flat_facts hP hflat
  refine ⟨m', log, mapF, eg, em, fun j hj => ⟨(hfacts j hj).1, (hfacts j hj).2.1,
    (hfacts j hj).2.2.1⟩, hfill, ?_, ?_, fun hn => ⟨(hnocounts hn).1,
      (hnocounts hn).2 0 (by norm_num), (hnocounts hn).2 1 (by norm_num)⟩⟩
  · rw [hfill 0 (by norm_num), hfill 1 (by norm_num)]
    have key := Finset.filter_card_add_filter_neg_card_eq_card
      (s := Finset.range (m.size * m.size)) (fun j => CELL_COLOR (mapF j) = 0)
    rw [Finset.card_range] at key
    have e1 : (Finset.range (m.size * m.size)).filter (fun j => CELL_COLOR (mapF j) = 1) =
        (Finset.range (m.size * m.size)).filter (fun j => ¬ CELL_COLOR (mapF j) = 0) := by
      apply Finset.filter_congr
      intro j _
      have := cell_color_lt (mapF j)
      omega
    rw [e1]
    exact key
  · intro counts0 hc
    obtain ⟨cnt, e, hcnt, huniq⟩ := hcounts counts0 hc
    refine ⟨cnt, e, hcnt, fun k hk => ⟨huniq k hk, ?_⟩⟩
    rw [huniq k hk]
    have himg : ((Finset.range (m.size * m.size)).image mapF).filter
        (fun v => CELL_COLOR v = k) =
        ((Finset.range (m.size * m.size)).filter
          (fun i => CELL_INDEX (mapF i) = i ∧ CELL_COLOR (mapF i) = k)).image mapF := by
      ext v
      simp only [Finset.mem_filter, Finset.mem_image, Finset.mem_range]
      constructor
      · rintro ⟨⟨j, hj, rfl⟩, hcol⟩
        obtain ⟨_, a, b, _⟩ := hfacts j hj
        exact ⟨CELL_INDEX (mapF j), ⟨a, by rw [b], by rw [b]; exact hcol⟩, b⟩
      · rintro ⟨i, ⟨hi, _, hcol⟩, rfl⟩
        exact ⟨⟨i, hi, rfl⟩, hcol⟩
    rw [himg]
    apply Finset.card_image_of_injOn
    intro a ha b hb hab
    simp only [Finset.coe_filter, Finset.mem_range, Set.mem_setOf_eq] at ha hb
    rw [← ha.2.1, ← hb.2.1, hab]

/-- C35, instance: the sample matrix of side 2. -/
theorem fill_unique_counts_witness :
    (matrix_h.sample 1).map = some (fun _ => 0) ∧ 2 ≤ (matrix_h.sample 1).size ∧
    (matrix_h.sample 1).size * (matrix_h.sample 1).size < 2 ^ 15 ∧
    (matrix_h.sample 1).rng ≠ 0 ∧ (matrix_h.sample 1).rng < 2 ^ 64 ∧
    (matrix_h.sample 1).size * (matrix_h.sample 1).size + 2 ≤ 6 ∧
    ∃ m' log mapF, matrix_generate 6 (matrix_h.sample 1) = some (m', log) ∧
      m'.map = some mapF ∧
      (∀ j, j < (matrix_h.sample 1).size * (matrix_h.sample 1).size → mapF j < 2 ^ 16 ∧
        CELL_INDEX (mapF j) < (matrix_h.sample 1).size * (matrix_h.sample 1).size ∧
        mapF (CELL_INDEX (mapF j)) = mapF j) ∧
      (∀ k, k < 2 → m'.fill k =
        ((Finset.range ((matrix_h.sample 1).size * (matrix_h.sample 1).size)).filter
          (fun j => CELL_COLOR (mapF j) = k)).card) ∧
      m'.fill 0 + m'.fill 1 = (matrix_h.sample 1).size * (matrix_h.sample 1).size ∧
      (∀ counts0, (matrix_h.sample 1).counts = some counts0 → ∃ cnt, m'.counts = some cnt ∧
        (∀ v, v < 2 * ((matrix_h.sample 1).size * (matrix_h.sample 1).size) →
          cnt v = ((Finset.range ((matrix_h.sample 1).size * (matrix_h.sample 1).size)).filter
            (fun j => mapF j = v)).card) ∧
        (∀ k, k < 2 →
          m'.unique k =
            (((Finset.range ((matrix_h.sample 1).size * (matrix_h.sample 1).size)).image
              mapF).filter (fun v => CELL_COLOR v = k)).card ∧
          m'.unique k =
            ((Finset.range ((matrix_h.sample 1).size * (matrix_h.sample 1).size)).filter
              (fun i => CELL_INDEX (mapF i) = i ∧ CELL_COLOR (mapF i) = k)).card)) ∧
      ((matrix_h.sample 1).counts = none →
        m'.counts = none ∧ m'.unique 0 = 0 ∧ m'.unique 1 = 0) :=
  ⟨rfl, by decide, by decide, by decide, by decide, by decide,
    fill_unique_counts (matrix_h.sample 1) (fun _ => 0) rfl (by decide) (by decide)
      (by decide) (by decide) 6 (by decide)⟩

end Percolation
